import Mathlib

/-!
# The option tree of ELinks (`src/config/options.c`)

A shallow embedding of the option tree of `src/config/options.c` and the
properties of its lookup, insertion, shadowing, change-notification, save-flag,
deletion, configuration-writing, toggling and commit code.

The C code works on heap-allocated `struct option` records linked by pointers
(children lists, the `root` back link).  The embedding keeps that shape:

* a pointer is an index into the list `State.mem` of records, `mem_calloc`
  appends a record, and `NULL` is `none`;
* an intrusive list `LIST_OF(struct option)` is the list of the pointers of its
  members, in list order;
* a string value points into `State.strs`, the buffers of `OPT_STRING` options;
* a listbox item (the UI mirror of a record) is part of its record, and the
  list `child` of the item is kept in `State.box_child` under the address of
  that record, as the list of the records whose items are on it;
* recursion that the C code does not bound (a parent chain, a subtree, the
  lookup of `"_template_"` under an autocreating tree) takes a fuel argument;
* a dereference of `NULL` or of something that is no record is `Result.fault`,
  and so is a failed `assert` that the code does not recover from;
* a release leaves the records as they are (a released listbox item goes off
  the list it is on), the deletion functions return the list of the
  `done_option` calls and diagnostics they made;
* allocation never fails.
-/

namespace Elinks

/-! ## Data model -/

/-- A NUL-terminated C string, as the list of its bytes before the NUL (one
`Char` per byte). -/
abbrev cstring := List Char

/-- An address of a `struct option` (index into `State.mem`), or of a string
buffer (index into `State.strs`). -/
abbrev Ptr := Nat

/-- Modelled from the spec: `enum option_type` of `config/options.h` (absent
from the sources), the closed set of kinds of section 3. -/
inductive option_type where
  | OPT_BOOL | OPT_INT | OPT_LONG | OPT_STRING | OPT_CODEPAGE
  | OPT_LANGUAGE | OPT_COLOR | OPT_COMMAND | OPT_ALIAS | OPT_TREE
deriving DecidableEq, Repr

/-- Modelled from the spec: `enum option_flags` of `config/options.h` (absent
from the sources), a bitset; `flags & OPT_X` is the field `OPT_X`, and
`flags |= OPT_X` sets it. -/
structure option_flags where
  OPT_HIDDEN : Bool
  OPT_AUTOCREATE : Bool
  OPT_TOUCHED : Bool
  OPT_SORT : Bool
  OPT_LISTBOX : Bool
  OPT_ALLOC : Bool
  OPT_DELETED : Bool
  OPT_MUST_SAVE : Bool
  OPT_ALIAS_NEGATE : Bool
deriving DecidableEq, Repr

/-- Modelled from the spec: `enum copy_option_flags` of `config/options.h`
(absent from the sources). -/
structure copy_option_flags where
  CO_SHALLOW : Bool
  CO_NO_LISTBOX_ITEM : Bool
deriving DecidableEq, Repr

/-- Modelled from the spec: `union option_value` of `config/options.h` (absent
from the sources), with the member that is live made explicit.  `tree` is the
children collection (`none` is a `NULL` list pointer), `string` the address of
a buffer in `State.strs`. -/
inductive option_value where
  | tree (t : Option (List Ptr))
  | string (s : Option Ptr)
  | number (n : Int)
  | big_number (n : Int)
  | color (c : Nat)
  | command (f : Option Nat)
deriving DecidableEq, Repr

/-- Kinds of a listbox item, as used by `init_option_listbox_item`. -/
inductive listbox_item_type where
  | BI_LEAF | BI_FOLDER
deriving DecidableEq, Repr

/-- Modelled from the spec: the fields of `struct listbox_item` of
`bfu/listbox.h` (absent from the sources), the UI mirror, that `options.c`
reads or writes.  `linked` tells whether the item has been put on a list (its
`next` link is not `NULL`); the list `child` of the item is kept in
`State.box_child`. -/
structure listbox_item where
  visible : Int
  depth : Int
  type : listbox_item_type
  linked : Bool
deriving DecidableEq, Repr

/-- The record `struct option`.  `root` is the parent link, `change_hook` the
identifier of a hook function (`none` is `NULL`).  The member `value` is a
union of eight bytes (64-bit `long` and pointers): `value` is its live member,
and `value_rest` holds the four bytes that lie behind a member of four bytes
(`number`, `color`), read as a number; behind a member of eight bytes there are
none, and the field is not read. -/
structure option where
  name : Option cstring
  flags : option_flags
  type : option_type
  min : Int
  max : Int
  value : option_value
  desc : Option cstring
  capt : Option cstring
  root : Option Ptr
  box_item : Option listbox_item
  change_hook : Option Nat
  value_rest : Nat := 0
deriving DecidableEq, Repr

/-- The memory the option code works on: the records, the string buffers, the
static `no_autocreate`, the global `config_options`, and the lists `child` of
the listbox items.  An item is known by the address of the record that owns it
(`item->udata`); `box_child` holds the list of an item under the address of its
owner, as the owners of the items on the list, in list order; the entry written
last counts, and an item without entry has an empty list. -/
structure State where
  mem : List option
  strs : List cstring
  no_autocreate : Int
  config_options : Option Ptr
  box_child : List (Ptr × List Ptr) := []
deriving DecidableEq, Repr

/-- The outcome of running a function of the model. -/
inductive Result (α : Type) where
  | ok (st : State) (val : α)
  | fault
  | out_of_fuel
deriving DecidableEq, Repr

/-- The record at address `p`. -/
def State.deref (st : State) (p : Ptr) : Option option := st.mem[p]?

/-- Overwrite the record at address `p`. -/
def State.store (st : State) (p : Ptr) (o : option) : State :=
  { st with mem := st.mem.set p o }

/-- The list `child` of the listbox item of the record at `p`. -/
def State.child (st : State) (p : Ptr) : List Ptr :=
  match st.box_child.lookup p with
  | some l => l
  | none => []

/-- Overwrite the list `child` of the listbox item of the record at `p`. -/
def State.set_child (st : State) (p : Ptr) (l : List Ptr) : State :=
  { st with box_child := (p, l) :: st.box_child }

/-- The flag set with no flag raised. -/
def no_flags : option_flags :=
  { OPT_HIDDEN := false, OPT_AUTOCREATE := false, OPT_TOUCHED := false,
    OPT_SORT := false, OPT_LISTBOX := false, OPT_ALLOC := false,
    OPT_DELETED := false, OPT_MUST_SAVE := false, OPT_ALIAS_NEGATE := false }

/-- The name of the template child. -/
def template_name : cstring := "_template_".toList

/-! ## C string helpers -/

/-- The sign of `strcmp(a, b)`: bytes are compared as unsigned values. -/
def strcmp : cstring → cstring → Int
  | [], [] => 0
  | [], _ :: _ => -1
  | _ :: _, [] => 1
  | a :: as, b :: bs =>
    if a = b then strcmp as bs else if a.toNat < b.toNat then -1 else 1

/-- The split that `strrchr(name, '.')` produces in `get_opt_rec`: the text
before the last dot and the text after it, `none` when there is no dot. -/
def split_last_dot : cstring → Option (cstring × cstring)
  | [] => none
  | c :: cs =>
    match split_last_dot cs with
    | some (front, last) => some (c :: front, last)
    | none => if c = '.' then some ([], cs) else none

/-! ## Lookup: `get_opt_rec` -/

/-- The scan `foreach (option, *tree->value.tree)` of `get_opt_rec`: the first
member whose name is not `NULL` and compares equal to `name`.  The outer `none`
is a member that is no record. -/
def find_option (st : State) : List Ptr → cstring → Option (Option Ptr)
  | [], _ => some none
  | p :: ps, name =>
    match st.deref p with
    | none => none
    | some o =>
      match o.name with
      | some n => if strcmp n name = 0 then some (some p) else find_option st ps name
      | none => find_option st ps name

/-- Sequencing of two steps of the model. -/
def Result.bind {α β : Type} (r : Result α) (f : State → α → Result β) : Result β :=
  match r with
  | .ok st a => f st a
  | .fault => .fault
  | .out_of_fuel => .out_of_fuel

/-! ## Copying: `copy_option` -/

/-- The listbox item `init_option_listbox_item` allocates for a record of kind
`ty`: visible, depth 0, on no list. -/
def init_option_listbox_item (ty : option_type) : listbox_item :=
  { visible := 1, depth := 0,
    type := if ty = .OPT_TREE then .BI_FOLDER else .BI_LEAF, linked := false }

/-- The listbox item of a copy of `t` (lines 688-695 of `copy_option`): a new
item that takes type and depth from the item of the template, if it has one. -/
def copy_box_item (t : option) : listbox_item :=
  match t.box_item with
  | some b => { init_option_listbox_item t.type with type := b.type, depth := b.depth }
  | none => init_option_listbox_item t.type

/-- Replace the children collection of the record at `tree`. -/
def State.set_tree (st : State) (tree : Ptr) (cat : List Ptr) : State :=
  match st.deref tree with
  | some t => st.store tree { t with value := .tree (some cat) }
  | none => st

/-- Modelled from the spec: the loop of the `dup` entry of `OPT_TREE` in
`option_types` (`config/opttypes.c`, absent from the sources): every child of
the template is cloned in turn, appended to the children of the copy `opt`,
and gets `opt` as its parent link. -/
def tree_dup_loop (copy : State → Ptr → copy_option_flags → Result Ptr) :
    List Ptr → State → Ptr → copy_option_flags → Result Unit
  | [], st, _, _ => .ok st ()
  | c :: cs, st, opt, flags =>
    match copy st c flags with
    | .ok st1 new_opt =>
      match st1.deref opt, st1.deref new_opt with
      | some o, some n =>
        match o.value with
        | .tree (some cat) =>
          tree_dup_loop copy cs
            ((st1.store new_opt { n with root := some opt }).set_tree opt (cat ++ [new_opt]))
            opt flags
        | _ => .fault
      | _, _ => .fault
    | .fault => .fault
    | .out_of_fuel => .out_of_fuel

/-- Modelled from the spec: the `dup` entry of `OPT_TREE` in `option_types`
(`config/opttypes.c`, absent from the sources).  The copy gets a children
collection of its own; it stays empty for a shallow copy ("no deep child
copy"), otherwise the children are cloned. -/
def tree_dup (copy : State → Ptr → copy_option_flags → Result Ptr)
    (st : State) (opt template_ : Ptr) (flags : copy_option_flags) : Result Unit :=
  match st.deref template_ with
  | none => .fault
  | some t =>
    if flags.CO_SHALLOW then .ok (st.set_tree opt []) ()
    else
      match t.value with
      | .tree (some cat) => tree_dup_loop copy cat (st.set_tree opt []) opt flags
      | _ => .fault

/-- Modelled from the spec: the `dup` entry of `OPT_STRING` in `option_types`
(`config/opttypes.c`, absent from the sources).  The copy gets a buffer of its
own holding the text of the template ("shadow copies never alias canonical
value storage"). -/
def str_dup (st : State) (opt template_ : Ptr) : Result Unit :=
  match st.deref opt, st.deref template_ with
  | some o, some t =>
    match t.value with
    | .string (some s) =>
      match st.strs[s]? with
      | some buf =>
        .ok ({ st with strs := st.strs ++ [buf] }.store opt
              { o with value := .string (some st.strs.length) }) ()
      | none => .fault
    | _ => .fault
  | _, _ => .fault

/-- Lines 679-695 of `copy_option`: the new record before its value is
duplicated.  It takes the fields of the template `t` and the allocation
marker, has no parent link, and gets a listbox item unless
`CO_NO_LISTBOX_ITEM` is given.  The bytes behind the value come with the value
when line 700 assigns the union; they are set here already, since a `dup`
entry stores a pointer, behind which there are none. -/
def copy_record (t : option) (flags : copy_option_flags) : option :=
  { name := t.name
    flags := { t.flags with OPT_ALLOC := true }
    type := t.type
    min := t.min
    max := t.max
    value := .number 0
    desc := t.desc
    capt := t.capt
    root := none
    box_item := if flags.CO_NO_LISTBOX_ITEM then none else some (copy_box_item t)
    change_hook := t.change_hook
    value_rest := t.value_rest }

/-- The memory after the allocation of the copy of `t` (lines 675-695 of
`copy_option`): the new record sits at the end of `mem`, and the list `child`
of its listbox item, if it gets one, is empty (`init_list(item->child)`). -/
def copy_alloc (st : State) (t : option) (flags : copy_option_flags) : State :=
  { st with
    mem := st.mem ++ [copy_record t flags]
    box_child :=
      if flags.CO_NO_LISTBOX_ITEM then st.box_child else (st.mem.length, []) :: st.box_child }

/-- The function `copy_option`.  The new record is allocated at the end of
`mem`; the value is produced by the `dup` entry of the kind, which exists for
`OPT_TREE` and `OPT_STRING`, and is otherwise copied as it is. -/
def copy_option : Nat → State → Ptr → copy_option_flags → Result Ptr
  | 0, _, _, _ => .out_of_fuel
  | fuel + 1, st, template_, flags =>
    match st.deref template_ with
    | none => .fault
    | some t =>
      let opt : Ptr := st.mem.length
      let st1 : State := copy_alloc st t flags
      match t.type with
      | .OPT_TREE =>
        (tree_dup (copy_option fuel) st1 opt template_ flags).bind fun st2 _ => .ok st2 opt
      | .OPT_STRING =>
        (str_dup st1 opt template_).bind fun st2 _ => .ok st2 opt
      | _ => .ok (st1.store opt { copy_record t flags with value := t.value }) opt

/-! ## Insertion: `add_opt_sort`, `add_opt_rec` -/

/-- Modelled from the spec: `add_to_list` of `util/lists.h` (absent from the
sources) puts the new member first. -/
def add_to_list (cat : List Ptr) (x : Ptr) : List Ptr := x :: cat

/-- Modelled from the spec: `add_to_list_end` of `util/lists.h` (absent from
the sources) puts the new member last. -/
def add_to_list_end (cat : List Ptr) (x : Ptr) : List Ptr := cat ++ [x]

/-- The test `strcmp(pos->name, option->name) <= 0`; `none` when one of the two
names is `NULL`. -/
def name_le (pos o : option) : Option Bool :=
  match pos.name, o.name with
  | some a, some b => some (decide (strcmp a b ≤ 0))
  | _, _ => none

/-- The test of lines 371-374 and 400-402 of `add_opt_sort`:
`(option->type != OPT_TREE || pos->type == OPT_TREE)
 && strcmp(pos->name, option->name) <= 0`. -/
def sorts_after (o pos : option) : Option Bool :=
  if o.type ≠ .OPT_TREE ∨ pos.type = .OPT_TREE then name_le pos o else some false

/-- The test of lines 419-421 of `add_opt_sort`:
`option->type == pos->type && *option->name <= '_'
 && !strcmp(pos->name, "_template_")`. -/
def at_template (o pos : option) : Option Bool :=
  if o.type = pos.type then
    match o.name, pos.name with
    | some n, some pn =>
      some (decide ((n.headD (Char.ofNat 0)).toNat ≤ ('_').toNat ∧ strcmp pn template_name = 0))
    | _, _ => none
  else some false

/-- The list behind `bcat = &tree->box_item->child` (line 361 of
`add_opt_sort`): the list `child` of the listbox item of the tree `t` at
`tree`; `none` for a tree without listbox item, where `bcat` is the address of
a member of the `NULL` item and points to no list. -/
def bcat_of (st : State) (tree : Ptr) (t : option) : Option (List Ptr) :=
  match t.box_item with
  | some _ => some (st.child tree)
  | none => none

/-- A statement `if (abi) add_...(..., option->box_item)` of `add_opt_sort`:
with `abi` the item of the option `o` goes on the list `bcat` by `f`, and the
result is the new list; without `abi` nothing is written (the inner `none`).
The outer `none` is the fault of writing through a `bcat` that points to no
list, or of linking the item of an option that has none. -/
def box_put (abi : Bool) (bcat : Option (List Ptr)) (o : option)
    (f : List Ptr → List Ptr) : Option (Option (List Ptr)) :=
  if abi then
    match bcat, o.box_item with
    | some items, some _ => some (some (f items))
    | _, _ => none
  else some none

/-- Lines 395-398 of `add_opt_sort`: the cursor `bpos`, counted in items from
the head `bcat` (0 is the head itself), steps to the next item when the member
`po` is not marked deleted and has a listbox item.  `none` is a fault: the read
of `bpos->next` through a `bcat` that points to no list, or the failed
assertion `bpos != bcat` when the step leads back to the head. -/
def bpos_next (bcat : Option (List Ptr)) (bpos : Nat) (po : option) : Option Nat :=
  if po.flags.OPT_DELETED = false ∧ po.box_item.isSome = true then
    match bcat with
    | none => none
    | some items => if bpos < items.length then some (bpos + 1) else none
  else some bpos

/-- Modelled from the spec: `add_at_pos(bpos, x)` of `util/lists.h` (absent from
the sources) on a list of items: `x` goes right behind the item the cursor
`bpos` is at, and first when the cursor is at the head. -/
def add_behind (items : List Ptr) (bpos : Nat) (x : Ptr) : List Ptr :=
  items.take bpos ++ x :: items.drop bpos

/-- Modelled from the spec: `add_at_pos(bpos->prev, x)` of `util/lists.h`
(absent from the sources) on a list of items: `x` goes right before the item
the cursor `bpos` is at; the item before the head is the last one, so with the
cursor at the head `x` goes last. -/
def add_before (items : List Ptr) (bpos : Nat) (x : Ptr) : List Ptr :=
  if bpos = 0 then items ++ [x] else items.take (bpos - 1) ++ x :: items.drop (bpos - 1)

/-- What the scan of `add_opt_sort` leaves when it has put the option in: the
children list, the list of items when it was written, and the cursor `bpos`. -/
structure scan_result where
  cat : List Ptr
  items : Option (List Ptr)
  bpos : Nat
deriving DecidableEq, Repr

/-- The linear scan of lines 390-430 of `add_opt_sort` over the members from
`pos` on, with the cursor at `bpos`.  The outer `none` is a fault; the inner
`none` means the loop ran off the end of the list without inserting.
`add_at_pos(pos->prev, option)` puts the option right before `pos`,
`add_at_pos(pos, option)` right after it. -/
def add_opt_sort_scan (st : State) (o : option) (optr : Ptr) (abi : Bool)
    (bcat : Option (List Ptr)) : Nat → List Ptr → Option (Option scan_result)
  | _, [] => some none
  | bpos, pos :: rest =>
    match st.deref pos with
    | none => none
    | some po =>
      match bpos_next bcat bpos po with
      | none => none
      | some bpos1 =>
        match sorts_after o po with
        | none => none
        | some true =>
          (add_opt_sort_scan st o optr abi bcat bpos1 rest).map
            (Option.map fun r => { r with cat := pos :: r.cat })
        | some false =>
          if o.type ≠ .OPT_TREE ∧ po.type = .OPT_TREE then
            (add_opt_sort_scan st o optr abi bcat bpos1 rest).map
              (Option.map fun r => { r with cat := pos :: r.cat })
          else
            match at_template o po with
            | none => none
            | some true =>
              (box_put abi bcat o (fun l => add_behind l bpos1 optr)).map
                fun items => some { cat := pos :: optr :: rest, items := items, bpos := bpos1 }
            | some false =>
              (box_put abi bcat o (fun l => add_before l bpos1 optr)).map
                fun items => some { cat := optr :: pos :: rest, items := items, bpos := bpos1 }

/-- The effect of putting the option at `optr` on the children list of `tree`:
the new list `cat` is stored and, when the item of the option went on the list
of items of the tree, that list `items` is stored and the item is linked. -/
def link_option (st : State) (tree optr : Ptr) (cat : List Ptr)
    (items : Option (List Ptr)) : State :=
  let st1 := st.set_tree tree cat
  match items with
  | none => st1
  | some l =>
    let st2 := st1.set_child tree l
    match st2.deref optr with
    | some o =>
      match o.box_item with
      | some b => st2.store optr { o with box_item := some { b with linked := true } }
      | none => st2
    | none => st2

/-- The function `add_opt_sort`.  After the scan the assertions of lines 432
and 433 are checked: the loop has stopped at a member (`pos != cat`), and the
cursor has left the head (`bpos != bcat`); a failed assertion is a fault. -/
def add_opt_sort (st : State) (tree optr : Ptr) (abi : Bool) : Result Unit :=
  match st.deref tree, st.deref optr with
  | some t, some o =>
    match t.value with
    | .tree (some cat) =>
      let bcat := bcat_of st tree t
      match cat.getLast? with
      | none =>
        match box_put abi bcat o (fun l => add_to_list l optr) with
        | none => .fault
        | some items => .ok (link_option st tree optr (add_to_list cat optr) items) ()
      | some last =>
        match st.deref last with
        | none => .fault
        | some lo =>
          match sorts_after o lo with
          | none => .fault
          | some true =>
            match box_put abi bcat o (fun l => add_to_list_end l optr) with
            | none => .fault
            | some items => .ok (link_option st tree optr (add_to_list_end cat optr) items) ()
          | some false =>
            if o.type ≠ .OPT_TREE ∧ lo.type = .OPT_TREE then
              match box_put abi bcat o (fun l => add_to_list_end l optr) with
              | none => .fault
              | some items =>
                .ok (link_option st tree optr (add_to_list_end cat optr) items) ()
            else
              match add_opt_sort_scan st o optr abi bcat 0 cat with
              | none => .fault
              | some none => .fault
              | some (some r) =>
                if r.bpos = 0 then .fault
                else .ok (link_option st tree optr r.cat r.items) ()
    | _ => .fault
  | _, _ => .fault

/-- Modelled from the spec: the macro `get_opt_bool(name, NULL)` of
`config/options.h` (absent from the sources), which is
`get_opt_(config_options, name, NULL)->number`; without a session `get_opt_`
is the lookup `get_opt_rec(tree, name)` followed by `&opt->value`. -/
def get_opt_bool (lookup : State → Ptr → cstring → Result (Option Ptr))
    (st : State) (name : cstring) : Result Int :=
  match st.config_options with
  | none => .fault
  | some cfg =>
    match lookup st cfg name with
    | .ok st1 (some opt) =>
      match st1.deref opt with
      | some o =>
        match o.value with
        | .number n => .ok st1 n
        | _ => .fault
      | none => .fault
    | .ok _ none => .fault
    | .fault => .fault
    | .out_of_fuel => .out_of_fuel

/-- Lines 452-453 of `add_opt_rec`: a template that has a listbox item takes
its visibility from `config.show_template`. -/
def add_opt_rec_visible (lookup : State → Ptr → cstring → Result (Option Ptr))
    (st : State) (optr : Ptr) : Result Unit :=
  match st.deref optr with
  | none => .fault
  | some o =>
    match o.box_item, o.name with
    | some _, some n =>
      if strcmp n template_name = 0 then
        (get_opt_bool lookup st "config.show_template".toList).bind fun st1 v =>
          match st1.deref optr with
          | some o1 =>
            match o1.box_item with
            | some b => .ok (st1.store optr { o1 with box_item := some { b with visible := v } }) ()
            | none => .fault
          | none => .fault
      else .ok st ()
    | _, _ => .ok st ()

/-- Lines 455-460 of `add_opt_rec`: under an autocreating tree an option
without description takes the description of the template. -/
def add_opt_rec_desc (lookup : State → Ptr → cstring → Result (Option Ptr))
    (st : State) (tree optr : Ptr) : Result Unit :=
  match st.deref tree, st.deref optr with
  | some t, some o =>
    if t.flags.OPT_AUTOCREATE ∧ o.desc = none then
      (lookup st tree template_name).bind fun st1 r =>
        match r with
        | none => .fault
        | some template_ =>
          match st1.deref template_, st1.deref optr with
          | some tm, some o1 => .ok (st1.store optr { o1 with desc := tm.desc }) ()
          | _, _ => .fault
    else .ok st ()
  | _, _ => .fault

/-- Lines 462-484 of `add_opt_rec`: the parent link is set, the depth of the
listbox item follows the one of the tree, and the option goes on the children
list, sorted or at the end. -/
def add_opt_rec_insert (st : State) (tree optr : Ptr) : Result Unit :=
  match st.deref tree, st.deref optr with
  | some t, some o =>
    let abi : Bool := t.box_item.isSome && o.box_item.isSome
    let box : Option listbox_item :=
      match t.box_item, o.box_item with
      | some tb, some ob => if tb.linked then some { ob with depth := tb.depth + 1 } else some ob
      | _, ob => ob
    let st1 := st.store optr { o with root := some tree, box_item := box }
    if t.flags.OPT_SORT then add_opt_sort st1 tree optr abi
    else
      match st1.deref tree with
      | some t1 =>
        match t1.value with
        | .tree (some cat) =>
          .ok (link_option st1 tree optr (add_to_list_end cat optr)
            (if abi then some (add_to_list_end (st1.child tree) optr) else none)) ()
        | _ => .fault
      | none => .fault
  | _, _ => .fault

/-- The function `add_opt_rec`; `lookup` is `get_opt_rec`. -/
def add_opt_rec (lookup : State → Ptr → cstring → Result (Option Ptr))
    (st : State) (tree : Ptr) (path : cstring) (optr : Ptr) : Result Unit :=
  (if path = [] then Result.ok st (some tree) else lookup st tree path).bind fun st1 r =>
    match r with
    | none => .fault
    | some tree1 =>
      match st1.deref tree1 with
      | none => .fault
      | some t =>
        match t.value with
        | .tree none => .ok st1 ()
        | .tree (some _) =>
          (add_opt_rec_visible lookup st1 optr).bind fun st2 _ =>
          (add_opt_rec_desc lookup st2 tree1 optr).bind fun st3 _ =>
          add_opt_rec_insert st3 tree1 optr
        | _ => .fault

/-- Lines 201-238 of `get_opt_rec`: the scan of the children of `tree` for the
last segment `name`, and the autocreation from the template when the scan
finds nothing.  `lookup` is `get_opt_rec` itself, `copy` is `copy_option`. -/
def get_opt_rec_last (lookup : State → Ptr → cstring → Result (Option Ptr))
    (copy : State → Ptr → copy_option_flags → Result Ptr)
    (st : State) (tree : Ptr) (name : cstring) : Result (Option Ptr) :=
  match st.deref tree with
  | none => .fault
  | some t =>
    match t.value with
    | .tree (some cat) =>
      match find_option st cat name with
      | none => .fault
      | some (some opt) => .ok st (some opt)
      | some none =>
        if t.flags.OPT_AUTOCREATE ∧ st.no_autocreate = 0 then
          (lookup st tree template_name).bind fun st1 r =>
            match r with
            | none => .ok st1 none
            | some template_ =>
              (copy st1 template_ { CO_SHALLOW := false, CO_NO_LISTBOX_ITEM := false }).bind
                fun st2 opt =>
                  match st2.deref opt with
                  | none => .fault
                  | some o =>
                    (add_opt_rec lookup (st2.store opt { o with name := some name })
                        tree [] opt).bind fun st3 _ => .ok st3 (some opt)
        else .ok st none
    | _ => .fault

/-- The function `get_opt_rec`. -/
def get_opt_rec : Nat → State → Ptr → cstring → Result (Option Ptr)
  | 0, _, _, _ => .out_of_fuel
  | fuel + 1, st, tree, name_ =>
    match split_last_dot name_ with
    | some (front, last) =>
      (get_opt_rec fuel st tree front).bind fun st1 r =>
        match r with
        | none => .ok st1 none
        | some tree1 =>
          match st1.deref tree1 with
          | none => .fault
          | some t =>
            if t.type ≠ .OPT_TREE ∨ t.flags.OPT_HIDDEN then .ok st1 none
            else get_opt_rec_last (get_opt_rec fuel) (copy_option fuel) st1 tree1 last
    | none => get_opt_rec_last (get_opt_rec fuel) (copy_option fuel) st tree name_

/-- The function `get_opt_rec_real`: the lookup with `no_autocreate` raised
around it. -/
def get_opt_rec_real (fuel : Nat) (st : State) (tree : Ptr) (name : cstring) :
    Result (Option Ptr) :=
  (get_opt_rec fuel { st with no_autocreate := 1 } tree name).bind fun st1 opt =>
    .ok { st1 with no_autocreate := 0 } opt

/-! ## Shadow trees: `get_option_shadow` -/

/-- Lines 732-744 of `get_option_shadow`: the option at `optr` has no shadow
under `shadow_root` yet.  It is copied with `CO_SHALLOW | CO_NO_LISTBOX_ITEM`,
the copy gets `shadow_root` as parent link, goes to the end of the children
list of `shadow_root`, and is marked `OPT_TOUCHED`. -/
def shadow_create (fuel : Nat) (st : State) (shadow_root optr : Ptr) : Result (Option Ptr) :=
  (copy_option fuel st optr { CO_SHALLOW := true, CO_NO_LISTBOX_ITEM := true }).bind
    fun st3 shadow_option =>
      match st3.deref shadow_option, st3.deref shadow_root with
      | some so, some sr =>
        match sr.value with
        | .tree (some cat) =>
          let st4 := (st3.store shadow_option { so with root := some shadow_root }).set_tree
            shadow_root (add_to_list_end cat shadow_option)
          match st4.deref shadow_option with
          | some so1 =>
            .ok (st4.store shadow_option
              { so1 with flags := { so1.flags with OPT_TOUCHED := true } })
              (some shadow_option)
          | none => .fault
        | _ => .fault
      | _, _ => .fault

/-- The function `get_option_shadow`.  The recursion climbs the parent links
of `option`; the name of the option is read again after the recursive call. -/
def get_option_shadow : Nat → State → Ptr → Ptr → Ptr → Result (Option Ptr)
  | 0, _, _, _, _ => .out_of_fuel
  | fuel + 1, st, optr, tree, shadow_tree =>
    if optr = tree then .ok st (some shadow_tree)
    else
      match st.deref optr with
      | none => .fault
      | some o =>
        match o.root, o.name with
        | some root, some _ =>
          (get_option_shadow fuel st root tree shadow_tree).bind fun st1 r =>
            match r with
            | none => .ok st1 none
            | some shadow_root =>
              match (st1.deref optr).bind (fun o1 => o1.name) with
              | none => .fault
              | some name =>
                (get_opt_rec_real (fuel + 1) st1 shadow_root name).bind fun st2 found =>
                  match found with
                  | some shadow_option => .ok st2 (some shadow_option)
                  | none => shadow_create (fuel + 1) st2 shadow_root optr
        | _, _ => .ok st none

/-! ## Change notification: `call_change_hooks`, `option_changed` -/

/-- A `struct session *`; the option code only passes it on. -/
abbrev session := Option Nat

/-- A change hook `int (*)(struct session *, struct option *current,
struct option *changed)`: it may rewrite the memory and returns an `int`. -/
abbrev change_hook_t := session → Ptr → Option Ptr → State → State × Int

/-- One invocation of a change hook, with its three arguments. -/
structure hook_call where
  hook : Nat
  ses : session
  current : Ptr
  changed : Option Ptr
deriving DecidableEq, Repr

/-- The step `if (!current->root) break; current = current->root;` of the loop
of `call_change_hooks`, followed by the rest of the loop `continue_`. -/
def call_change_hooks_next (continue_ : State → Ptr → Result (List hook_call))
    (st : State) (current : Ptr) : Result (List hook_call) :=
  match st.deref current with
  | none => .fault
  | some c =>
    match c.root with
    | none => .ok st []
    | some r => continue_ st r

/-- The function `call_change_hooks`, one loop iteration per unit of fuel.
`hooks` maps the identifier stored in `change_hook` to the hook itself; the
value returned is the list of the hook invocations made, in order. -/
def call_change_hooks (hooks : Nat → change_hook_t) :
    Nat → State → session → Option Ptr → Option Ptr → Result (List hook_call)
  | 0, _, _, _, _ => .out_of_fuel
  | fuel + 1, st, ses, current, changed =>
    match current with
    | none => .ok st []
    | some cur =>
      match st.deref cur with
      | none => .fault
      | some c =>
        match c.change_hook with
        | none =>
          call_change_hooks_next
            (fun st1 r => call_change_hooks hooks fuel st1 ses (some r) changed) st cur
        | some h =>
          let call : hook_call := { hook := h, ses := ses, current := cur, changed := changed }
          let res := hooks h ses cur changed st
          if res.2 ≠ 0 then .ok res.1 [call]
          else
            (call_change_hooks_next
              (fun st1 r => call_change_hooks hooks fuel st1 ses (some r) changed) res.1 cur).bind
              fun st2 calls => .ok st2 (call :: calls)

/-- The function `option_changed`. -/
def option_changed (hooks : Nat → change_hook_t) (fuel : Nat) (st : State)
    (ses : session) (optr : Ptr) : Result (List hook_call) :=
  match st.deref optr with
  | none => .fault
  | some o =>
    call_change_hooks hooks fuel
      (st.store optr { o with flags := { o.flags with OPT_TOUCHED := true } })
      ses (some optr) (some optr)

/-! ## Flags for saving: `prepare_mustsave_flags`, `untouch_options`,
`check_nonempty_tree`

A `LIST_OF(struct option) *` is modelled by the address of the record that owns
the list.  The body of these loops stores to flags only, so `foreach` runs over
the members the list has when the loop starts. -/

/-- The loop `foreach (option, *tree)` of `prepare_mustsave_flags`; `recurse` is
the function itself, called on `option->value.tree`. -/
def prepare_mustsave_loop (recurse : State → Ptr → Result Unit) (set_all : Int) :
    List Ptr → State → Result Unit
  | [], st => .ok st ()
  | p :: ps, st =>
    match st.deref p with
    | none => .fault
    | some o =>
      let st1 := st.store p
        { o with flags := { o.flags with OPT_MUST_SAVE :=
            (decide (set_all ≠ 0) || (o.flags.OPT_TOUCHED || o.flags.OPT_DELETED) ||
              decide (o.type = .OPT_LANGUAGE)) } }
      if o.type = .OPT_TREE then
        (recurse st1 p).bind fun st2 _ => prepare_mustsave_loop recurse set_all ps st2
      else prepare_mustsave_loop recurse set_all ps st1

/-- The function `prepare_mustsave_flags`, on the list owned by `tree`. -/
def prepare_mustsave_flags : Nat → State → Ptr → Int → Result Unit
  | 0, _, _, _ => .out_of_fuel
  | fuel + 1, st, tree, set_all =>
    match st.deref tree with
    | none => .fault
    | some t =>
      match t.value with
      | .tree (some cat) =>
        prepare_mustsave_loop (fun st1 p => prepare_mustsave_flags fuel st1 p set_all)
          set_all cat st
      | _ => .fault

/-- The loop `foreach (option, *tree)` of `untouch_options`. -/
def untouch_loop (recurse : State → Ptr → Result Unit) : List Ptr → State → Result Unit
  | [], st => .ok st ()
  | p :: ps, st =>
    match st.deref p with
    | none => .fault
    | some o =>
      let st1 := st.store p { o with flags := { o.flags with OPT_TOUCHED := false } }
      if o.type = .OPT_TREE then
        (recurse st1 p).bind fun st2 _ => untouch_loop recurse ps st2
      else untouch_loop recurse ps st1

/-- The function `untouch_options`, on the list owned by `tree`. -/
def untouch_options : Nat → State → Ptr → Result Unit
  | 0, _, _ => .out_of_fuel
  | fuel + 1, st, tree =>
    match st.deref tree with
    | none => .fault
    | some t =>
      match t.value with
      | .tree (some cat) => untouch_loop (fun st1 p => untouch_options fuel st1 p) cat st
      | _ => .fault

/-- The loop `foreach (opt, *options)` of `check_nonempty_tree`, with its two
early returns. -/
def check_nonempty_loop (recurse : State → Ptr → Result Int) : List Ptr → State → Result Int
  | [], st => .ok st 0
  | p :: ps, st =>
    match st.deref p with
    | none => .fault
    | some o =>
      if o.type = .OPT_TREE then
        (recurse st p).bind fun st1 r =>
          if r ≠ 0 then .ok st1 1 else check_nonempty_loop recurse ps st1
      else if o.flags.OPT_MUST_SAVE then .ok st 1
      else check_nonempty_loop recurse ps st

/-- The function `check_nonempty_tree`, on the list owned by `options`. -/
def check_nonempty_tree : Nat → State → Ptr → Result Int
  | 0, _, _ => .out_of_fuel
  | fuel + 1, st, options =>
    match st.deref options with
    | none => .fault
    | some t =>
      match t.value with
      | .tree (some cat) =>
        check_nonempty_loop (fun st1 p => check_nonempty_tree fuel st1 p) cat st
      | _ => .fault

/-! ## Soft deletion: `mark_option_as_deleted` -/

/-- The loop `foreach (unmarked, *option->value.tree)` of
`mark_option_as_deleted`. -/
def mark_deleted_loop (recurse : State → Ptr → Result Unit) : List Ptr → State → Result Unit
  | [], st => .ok st ()
  | p :: ps, st => (recurse st p).bind fun st1 _ => mark_deleted_loop recurse ps st1

/-- The function `mark_option_as_deleted`.  A Tree whose list pointer is `NULL`
fails the assertion and then the loop; `option->box_item->visible = 0` faults
on a record without listbox item. -/
def mark_option_as_deleted : Nat → State → Ptr → Result Unit
  | 0, _, _ => .out_of_fuel
  | fuel + 1, st, optr =>
    match st.deref optr with
    | none => .fault
    | some o =>
      (if o.type = .OPT_TREE then
        match o.value with
        | .tree (some cat) =>
          mark_deleted_loop (fun st1 p => mark_option_as_deleted fuel st1 p) cat st
        | _ => Result.fault
      else Result.ok st ()).bind fun st1 _ =>
        match st1.deref optr with
        | none => .fault
        | some o1 =>
          match o1.box_item with
          | none => .fault
          | some bi =>
            .ok (st1.store optr
              { o1 with
                box_item := some { bi with visible := 0 }
                flags := { o1.flags with OPT_TOUCHED := true, OPT_DELETED := true } }) ()

/-! ## Hard deletion: `done_option`, `delete_option_do`, `free_options_tree`,
`delete_option`

The sibling links `next` and `prev` of a record are not stored; the list a
record is linked into is the children list that holds its address. -/

/-- What a deletion does that the memory does not show: the call of
`done_option` on a record, and the two `ERROR` diagnostics of
`delete_option_do`. -/
inductive delete_event where
  | released (p : Ptr)
  | orphaned (p : Ptr)
  | orphaned_subtree (p : Ptr)
deriving DecidableEq, Repr

/-- The record after `memset(option, 0, sizeof(*option))`. -/
def zero_option : option :=
  { name := none, flags := no_flags, type := .OPT_BOOL, min := 0, max := 0,
    value := .number 0, desc := none, capt := none, root := none, box_item := none,
    change_hook := none }

/-- Modelled from the spec: `done_listbox_item` of `bfu/hierbox.c` (absent from
the sources) on the item of the record at `p`: the item is taken off the list
of items it is on ("unlink from parent's children (and UI mirror
collection)"). -/
def done_listbox_item (st : State) (p : Ptr) : State :=
  { st with box_child := st.box_child.map fun e => (e.1, e.2.erase p) }

/-- The function `done_option`.  The listbox item of the record, if it has one,
goes off its list.  The releases of the string buffer, of the list head, of the
listbox item and of an `OPT_ALLOC` record itself leave no trace in the memory
(the caller reports the call as `delete_event.released`); a record without
`OPT_ALLOC` and without caption is cleared. -/
def done_option (st : State) (p : Ptr) : Option State :=
  match st.deref p with
  | none => none
  | some o =>
    let st1 := if o.box_item.isSome then done_listbox_item st p else st
    if o.flags.OPT_ALLOC then some st1
    else if o.capt = none then some (st1.store p zero_option)
    else some st1

/-- The children list of the record holds the address `p`. -/
def holds (o : option) (p : Ptr) : Bool :=
  match o.value with
  | .tree (some l) => decide (p ∈ l)
  | _ => false

/-- The record into whose children list `p` is linked, `none` when
`option->next` is `NULL`. -/
def owner_of (st : State) (p : Ptr) : Option Ptr :=
  (List.range st.mem.length).find? fun r =>
    match st.deref r with
    | some o => holds o p
    | none => false

/-- Lines 619-622 of `delete_option_do`: a linked record is taken off its
list. -/
def del_from_list (st : State) (p : Ptr) : State :=
  match owner_of st p with
  | none => st
  | some r =>
    match st.deref r with
    | some o =>
      match o.value with
      | .tree (some l) => st.set_tree r (l.erase p)
      | _ => st
    | none => st

/-- The function `free_options_tree`, on the list owned by `tree`, one loop
iteration per unit of fuel; `del` is `delete_option_do`.  The value returned is
the list of the events of the deletions, in order. -/
def free_options_tree (del : State → Ptr → Int → Result (List delete_event)) :
    Nat → State → Ptr → Int → Result (List delete_event)
  | 0, _, _, _ => .out_of_fuel
  | n + 1, st, tree, recursive =>
    match st.deref tree with
    | none => .fault
    | some t =>
      match t.value with
      | .tree (some []) => .ok st []
      | .tree (some (c :: _)) =>
        (del st c recursive).bind fun st1 ev1 =>
          (free_options_tree del n st1 tree recursive).bind fun st2 ev2 =>
            .ok st2 (ev1 ++ ev2)
      | _ => .fault

/-- The function `delete_option_do`. -/
def delete_option_do : Nat → State → Ptr → Int → Result (List delete_event)
  | 0, _, _, _ => .out_of_fuel
  | fuel + 1, st, optr, recursive =>
    let st1 := del_from_list st optr
    let ev0 := if recursive = -1 then [delete_event.orphaned optr] else []
    match st1.deref optr with
    | none => .fault
    | some o =>
      (if o.type = .OPT_TREE then
        match o.value with
        | .tree (some (_ :: _)) =>
          let rec1 : Int :=
            if recursive = 0 then (if o.flags.OPT_AUTOCREATE then 1 else -1) else recursive
          let ev1 :=
            if recursive = 0 ∧ o.flags.OPT_AUTOCREATE = false then
              [delete_event.orphaned_subtree optr]
            else []
          (free_options_tree (delete_option_do fuel) fuel st1 optr rec1).bind
            fun st2 ev2 => Result.ok st2 (ev1 ++ ev2)
        | _ => Result.ok st1 []
      else Result.ok st1 []).bind fun st2 ev =>
        match done_option st2 optr with
        | none => .fault
        | some st3 => .ok st3 (ev0 ++ ev ++ [delete_event.released optr])

/-- The function `delete_option`. -/
def delete_option (fuel : Nat) (st : State) (optr : Ptr) : Result (List delete_event) :=
  delete_option_do fuel st optr 1

/-! ## The traversal for saving: `smart_config_string` -/

/-- One call of the callback `fn` of `smart_config_string`: the option, the path
and the depth it is called with, the comment argument and the action. -/
structure config_call where
  opt : Ptr
  path : Option cstring
  depth : Nat
  comment : Int
  action : Nat
deriving DecidableEq, Repr

/-- The path handed to the recursive call of `smart_config_string`: the path so
far and a dot, if there is a path, and the name of the option. -/
def newpath (path : Option cstring) (name : cstring) : cstring :=
  match path with
  | some p => p ++ '.' :: name
  | none => name

/-- The loop `foreach (option, *options)` of `smart_config_string`.  The
callback writes to the string only, so the model keeps the list of its calls.
`wr ty` says whether the member `write` of `option_types[ty]` is set (the table
is in `config/opttypes.c`, absent from the sources); `check` is
`check_nonempty_tree` and `recurse` the function itself, called with the
comment mode, the tree, the new path and the depth. -/
def smart_config_loop (wr : option_type → Bool) (check : State → Ptr → Result Int)
    (recurse : State → Int → Ptr → Option cstring → Nat → Result (List config_call))
    (print_comment : Int) (path : Option cstring) (depth : Nat) :
    List Ptr → State → Result (List config_call)
  | [], st => .ok st []
  | p :: ps, st =>
    let continue_ := smart_config_loop wr check recurse print_comment path depth ps
    match st.deref p with
    | none => .fault
    | some o =>
      if o.flags.OPT_HIDDEN ∨ o.type = .OPT_ALIAS then continue_ st
      else
        match o.name with
        | none => .fault
        | some name =>
          if strcmp name template_name = 0 then continue_ st
          else
            (if o.type = .OPT_TREE then check st p
             else Result.ok st (if o.flags.OPT_MUST_SAVE then 1 else 0)).bind fun st1 some_ =>
              if some_ = 0 then continue_ st1
              else
                let do_print_comment : Int :=
                  if print_comment = 0 ∨ (print_comment = 1 ∧
                      (strcmp name template_name ≠ 0 ∧
                        (o.flags.OPT_AUTOCREATE = true ∧ o.type = .OPT_TREE))) then 0
                  else 1
                let call0 : config_call :=
                  ⟨p, path, depth,
                    if o.type = .OPT_TREE then print_comment else do_print_comment, 0⟩
                let call1 : config_call := ⟨p, path, depth, do_print_comment, 1⟩
                if wr o.type then
                  (continue_ st1).bind fun st2 calls =>
                    .ok st2 (call0 :: call1 :: ⟨p, path, depth, do_print_comment, 2⟩ :: calls)
                else if o.type = .OPT_TREE then
                  let pc : Int :=
                    if print_comment = 2 ∧ o.flags.OPT_AUTOCREATE = true then 1
                    else if print_comment = 1 ∧ strcmp name template_name ≠ 0 then 0
                    else print_comment
                  let call3 : config_call := ⟨p, path, depth, 1, 3⟩
                  (recurse st1 pc p (some (newpath path name)) (depth + 1)).bind
                    fun st2 inner =>
                      (continue_ st2).bind fun st3 calls =>
                        .ok st3 (call0 :: call1 :: call3 :: inner ++ call3 :: calls)
                else
                  (continue_ st1).bind fun st2 calls => .ok st2 (call0 :: call1 :: calls)

/-- The function `smart_config_string`, on the list owned by `options`; the
value returned is the list of the calls of the callback, in order. -/
def smart_config_string (wr : option_type → Bool) :
    Nat → State → Int → Ptr → Option cstring → Nat → Result (List config_call)
  | 0, _, _, _, _, _ => .out_of_fuel
  | fuel + 1, st, print_comment, options, path, depth =>
    match st.deref options with
    | none => .fault
    | some t =>
      match t.value with
      | .tree (some cat) =>
        smart_config_loop wr (fun st1 p => check_nonempty_tree fuel st1 p)
          (fun st1 pc p np d => smart_config_string wr fuel st1 pc p np d)
          print_comment path depth cat st
      | _ => .fault

/-! ## Stepping a number: `toggle_option` -/

/-- The largest value of an `int`, 32 bits wide. -/
def INT_MAX : Int := 2147483647

/-- The smallest value of an `int`, 32 bits wide. -/
def INT_MIN : Int := -2147483648

/-- The value an `int` takes when a result is stored into it: the number
modulo `2^32`, in the range from `INT_MIN` to `INT_MAX`.  This is the
conversion of a `long` (64 bits wide) to `int` as the compilers of the
supported platforms do it, and the two-complement wrap of `int` arithmetic,
which stands for the overflow that C leaves undefined. -/
def wrap_int (n : Int) : Int := (n + 2147483648) % 4294967296 - 2147483648

/-- The function `toggle_option`.  `option->value.number` is an `int`, so the
sum `option->value.number + 1` is an `int` too, converted to `long` afterwards;
`min` and `max` are `long`, and the result of the conditional expression is
stored back into the `int`.  A failed assertion is a fault. -/
def toggle_option (hooks : Nat → change_hook_t) (fuel : Nat) (st : State) (ses : session)
    (optr : Ptr) : Result (List hook_call) :=
  match st.deref optr with
  | none => .fault
  | some o =>
    match o.value with
    | .number v =>
      let number : Int := wrap_int (v + 1)
      if ¬ (o.type = .OPT_BOOL ∨ o.type = .OPT_INT) then .fault
      else if o.max = 0 then .fault
      else
        option_changed hooks fuel
          (st.store optr
            { o with value := .number (wrap_int (if number ≤ o.max then number else o.min)) })
          ses optr
    | _ => .fault

/-! ## Value arrays: `checkout_option_values`, `commit_option_values` -/

/-- The segments of a dotted path: the texts between the dots. -/
def segments : cstring → List cstring
  | [] => [[]]
  | c :: cs =>
    if c = '.' then [] :: segments cs
    else
      match segments cs with
      | s :: ss => (c :: s) :: ss
      | [] => [[c]]

/-- The members of the children collection of a record (none for a record
without one). -/
def option.kids (o : option) : List Ptr :=
  match o.value with
  | .tree (some l) => l
  | _ => []

/-- No children collection holds a dangling pointer. -/
def closed (st : State) : Prop :=
  ∀ o ∈ st.mem, ∀ c ∈ o.kids, c < st.mem.length

instance (st : State) : Decidable (closed st) := by
  unfold closed; infer_instance

/-- The children collection of the record at `p`. -/
def children (st : State) (p : Ptr) : Option (List Ptr) :=
  match st.deref p with
  | some o =>
    match o.value with
    | .tree t => t
    | _ => none
  | none => none

/-- The record at `c` has a name, and it is `seg` byte for byte. -/
def has_name (st : State) (seg : cstring) (c : Ptr) : Bool :=
  match st.deref c with
  | some o => decide (o.name = some seg)
  | none => false

/-- The first direct child of `p` whose name is `seg`. -/
def child_named (st : State) (p : Ptr) (seg : cstring) : Option Ptr :=
  match children st p with
  | some l => l.find? (has_name st seg)
  | none => none

/-- The record at `p` is of kind Tree and not Hidden. -/
def passable (st : State) (p : Ptr) : Bool :=
  match st.deref p with
  | some o => decide (o.type = .OPT_TREE) && !o.flags.OPT_HIDDEN
  | none => false

/-- Descent from `p` one segment at a time: each segment selects the first
child of that name, and every node passed through on the way to the last
segment is a Tree that is not Hidden. -/
def descend (st : State) : Ptr → List cstring → Option Ptr
  | p, [] => some p
  | p, seg :: rest =>
    match child_named st p seg with
    | none => none
    | some c =>
      if rest = [] then some c
      else if passable st c then descend st c rest else none

/-- One step of a lookup as the scan of `get_opt_rec` finds it: the child of
`p` that `find_option` returns for `seg`. -/
def scan_child (st : State) (p : Ptr) (seg : cstring) : Option Ptr :=
  match children st p with
  | some l => (find_option st l seg).join
  | none => none

/-- The lookup of a list of segments by successive scans, without any
autocreation. -/
def walk (st : State) : Ptr → List cstring → Option Ptr
  | p, [] => some p
  | p, seg :: rest =>
    match scan_child st p seg with
    | none => none
    | some c =>
      if rest = [] then some c
      else if passable st c then walk st c rest else none

/-- The memory `st'` extends `st`: the records below address `n` are the same,
nothing was released, the buffers of `st` are still there, and the two globals
have their old values. -/
def frame_below (n : Nat) (st st' : State) : Prop :=
  st.mem.length ≤ st'.mem.length ∧ (∀ p, p < n → st'.deref p = st.deref p) ∧
    st'.no_autocreate = st.no_autocreate ∧ st'.config_options = st.config_options ∧
    st.strs <+: st'.strs

/-- The two records agree on the fields that no insertion or lookup writes:
name, flags, kind, bounds, caption and change hook. -/
def same_meta (o o' : option) : Prop :=
  o'.name = o.name ∧ o'.flags = o.flags ∧ o'.type = o.type ∧ o'.min = o.min ∧
    o'.max = o.max ∧ o'.capt = o.capt ∧ o'.change_hook = o.change_hook

/-- The list `cat'` is `cat` with `x` put in at some place. -/
def inserted (x : Ptr) (cat cat' : List Ptr) : Prop :=
  ∃ l1 l2, cat = l1 ++ l2 ∧ cat' = l1 ++ x :: l2

/-- The memories agree on everything but the records. -/
def same_globals (st st' : State) : Prop :=
  st'.mem.length = st.mem.length ∧ st'.strs = st.strs ∧
    st'.no_autocreate = st.no_autocreate ∧ st'.config_options = st.config_options

/-- The memory `st'` is `st` after the option at `optr` was put on the children
list of `tree`: the list of `tree` has `optr` inserted, the record at `optr`
is `o'` up to its listbox item, and no other record changed. -/
def linked_into (st st' : State) (tree optr : Ptr) (o' : option) : Prop :=
  ∃ t cat cat' b,
    st.deref tree = some t ∧ t.value = .tree (some cat) ∧ inserted optr cat cat' ∧
    st'.deref tree = some { t with value := .tree (some cat') } ∧
    st'.deref optr = some { o' with box_item := b } ∧
    (∀ q, q ≠ tree → q ≠ optr → st'.deref q = st.deref q) ∧ same_globals st st'

/-- The memory `st'` is `st` after the child `name` of the autocreating `tree`
was created from the template: the new record sits at the fresh address
`optr`, carries the fields of the template record under the new name, has
`tree` as parent link and is on the children list of `tree`; the records that
existed before are as they were, the children list of `tree` apart. -/
def autocreated (st st' : State) (tree optr : Ptr) (name : cstring) : Prop :=
  ∃ t cat cat' T tm o',
    st.deref tree = some t ∧ t.value = .tree (some cat) ∧ t.flags.OPT_AUTOCREATE = true ∧
    find_option st cat name = some none ∧
    scan_child st tree template_name = some T ∧ st.deref T = some tm ∧
    optr = st.mem.length ∧ inserted optr cat cat' ∧
    st'.deref tree = some { t with value := .tree (some cat') } ∧
    st'.deref optr = some o' ∧
    o'.name = some name ∧ o'.type = tm.type ∧ o'.min = tm.min ∧ o'.max = tm.max ∧
    o'.capt = tm.capt ∧ o'.desc = tm.desc ∧ o'.change_hook = tm.change_hook ∧
    o'.flags = { tm.flags with OPT_ALLOC := true } ∧ o'.root = some tree ∧
    (∀ q, q < st.mem.length → q ≠ tree → st'.deref q = st.deref q) ∧
    frame_below 0 st st'

/-- Every record of `st` is still there in `st'` under the same name. -/
def names_kept (st st' : State) : Prop :=
  ∀ q o, st.deref q = some o → ∃ o', st'.deref q = some o' ∧ o'.name = o.name

/-- Every path that resolves in `st` resolves to the same node in `st'`. -/
def walks_kept (st st' : State) : Prop :=
  ∀ p segs m, walk st p segs = some m → walk st' p segs = some m

/-- The subtree at `p` can be cloned within depth `d`: every record in it
exists, a Tree has a children collection, a String has a buffer. -/
def copyable : Nat → State → Ptr → Bool
  | 0, _, _ => false
  | d + 1, st, p =>
    match st.deref p with
    | none => false
    | some o =>
      match o.type with
      | .OPT_TREE =>
        match o.value with
        | .tree (some cat) => cat.all (copyable d st)
        | _ => false
      | .OPT_STRING =>
        match o.value with
        | .string (some s) => (st.strs[s]?).isSome
        | _ => false
      | _ => true

/-- Every member of the list is a record that has a name. -/
def all_named (st : State) (l : List Ptr) : Prop :=
  ∀ c ∈ l, ∃ o nm, st.deref c = some o ∧ o.name = some nm

instance (st : State) (l : List Ptr) : Decidable (all_named st l) :=
  decidable_of_iff (∀ c ∈ l, ((st.deref c).bind (fun o => o.name)).isSome = true) (by
    unfold all_named
    constructor
    · intro h c hc
      have := h c hc
      cases ho : st.deref c with
      | none => simp [ho] at this
      | some o =>
        cases hn : o.name with
        | none => simp [ho, hn] at this
        | some nm => exact ⟨o, nm, rfl, hn⟩
    · intro h c hc
      obtain ⟨o, nm, ho, hn⟩ := h c hc
      simp [ho, hn])

/-- The value of the record is a children collection. -/
def option.has_tree (o : option) : Bool :=
  match o.value with
  | .tree (some _) => true
  | _ => false

/-- Every record of kind Tree owns a children collection. -/
def typed (st : State) : Prop :=
  ∀ o ∈ st.mem, o.type = .OPT_TREE → o.has_tree = true

instance (st : State) : Decidable (typed st) := by
  unfold typed; infer_instance

/-- The name of the record at `p`, if it is a record and has one. -/
def name_of (st : State) (p : Ptr) : Option cstring :=
  (st.deref p).bind (fun o => o.name)

/-- Inserting the options of a list one at a time under `tree`, each by
`add_opt_rec` with the empty path; `lookup` is `get_opt_rec`. -/
def insert_all (lookup : State → Ptr → cstring → Result (Option Ptr)) :
    List Ptr → State → Ptr → Result Unit
  | [], st, _ => .ok st ()
  | n :: ns, st, tree =>
    (add_opt_rec lookup st tree [] n).bind fun st1 _ => insert_all lookup ns st1 tree

/-- The two memories hold records at the same addresses, with the same names
and kinds. -/
def meta_eq (st st' : State) : Prop :=
  ∀ q, (st'.deref q).map (fun o => (o.name, o.type)) =
    (st.deref q).map (fun o => (o.name, o.type))

/-- The ancestor chain of `p`: `p`, its parent, and so on up to the node
without parent link; `none` when the chain does not end within `k` nodes or
runs into something that is no record. -/
def chain_of : Nat → State → Ptr → Option (List Ptr)
  | 0, _, _ => none
  | k + 1, st, p =>
    match st.deref p with
    | none => none
    | some o =>
      match o.root with
      | none => some [p]
      | some r => (chain_of k st r).map (p :: ·)

/-- The change hook of the record at `p`. -/
def hook_of (st : State) (p : Ptr) : Option Nat :=
  (st.deref p).bind (fun o => o.change_hook)

/-- The hook invocations that bubbling over a chain is to make, and the memory
they leave: the nodes are visited in chain order, a node without hook is
skipped, a hook is called with the session, its node and the changed option,
and the first hook that answers non-zero ends the walk.  The hook of a node is
the one it has in `st0`. -/
def expected_calls (hooks : Nat → change_hook_t) (ses : session) (changed : Option Ptr)
    (st0 : State) : List Ptr → State → State × List hook_call
  | [], st => (st, [])
  | a :: rest, st =>
    match hook_of st0 a with
    | none => expected_calls hooks ses changed st0 rest st
    | some h =>
      if (hooks h ses a changed st).2 ≠ 0 then
        ((hooks h ses a changed st).1, [{ hook := h, ses := ses, current := a, changed := changed }])
      else
        ((expected_calls hooks ses changed st0 rest (hooks h ses a changed st).1).1,
          { hook := h, ses := ses, current := a, changed := changed } ::
            (expected_calls hooks ses changed st0 rest (hooks h ses a changed st).1).2)

/-- The two memories hold records at the same addresses, with the same parent
links and change hooks. -/
def links_eq (st st' : State) : Prop :=
  ∀ q, (st'.deref q).map (fun o => (o.root, o.change_hook)) =
    (st.deref q).map (fun o => (o.root, o.change_hook))

/-- No hook changes a parent link or a change hook, or releases a record. -/
def hooks_keep_links (hooks : Nat → change_hook_t) : Prop :=
  ∀ h ses cur changed st, links_eq st (hooks h ses cur changed st).1

/-- The flags `CO_SHALLOW | CO_NO_LISTBOX_ITEM` of a shadow copy. -/
def shallow : copy_option_flags := { CO_SHALLOW := true, CO_NO_LISTBOX_ITEM := true }

/-- The value a shallow copy of the record `s` gets, and the buffers after the
copy: a Tree gets an empty children collection, a String a new buffer with the
same text, any other kind the value itself. -/
def shallow_value (st : State) (s : option) : Option (option_value × List cstring) :=
  match s.type with
  | .OPT_TREE => some (.tree (some []), st.strs)
  | .OPT_STRING =>
    match s.value with
    | .string (some sp) =>
      (st.strs[sp]?).map (fun buf => (.string (some st.strs.length), st.strs ++ [buf]))
    | _ => none
  | _ => some (s.value, st.strs)

/-- The shadow of the record `s` under `parent`, with value `v`: the name,
kind, bounds, caption, description and hook of `s`, its flags with the
allocation marker and Touched added, `parent` as parent link, no listbox
item; the bytes behind the value are those of `s`. -/
def shadow_record (s : option) (parent : Ptr) (v : option_value) : option :=
  { name := s.name
    flags := { s.flags with OPT_ALLOC := true, OPT_TOUCHED := true }
    type := s.type
    min := s.min
    max := s.max
    value := v
    desc := s.desc
    capt := s.capt
    root := some parent
    box_item := none
    change_hook := s.change_hook
    value_rest := s.value_rest }

/-- The memory after the record at `src` was shadowed under `parent`: one new
record, at the first free address, which is the last child of `parent`; all
other records are as before. -/
def shadow_created (st : State) (parent src : Ptr) : Option State :=
  match st.deref parent, st.deref src with
  | some p, some s =>
    match p.value, shallow_value st s with
    | .tree (some cat), some (v, strs') =>
      some { st with
        mem := st.mem.set parent { p with value := .tree (some (cat ++ [st.mem.length])) } ++
          [shadow_record s parent v]
        strs := strs' }
    | _, _ => none
  | _, _ => none

/-- One level of shadowing, seen from the shadow tree: under the shadow node
`s`, the child carrying the name of the record at `src` is looked up, and
created by `shadow_created` when there is none.  Lookups leave
`no_autocreate` at 0. -/
def shadow_step (st : State) (s src : Ptr) : Option (State × Ptr) :=
  match name_of st src with
  | none => none
  | some nm =>
    match children st s with
    | none => none
    | some cat =>
      match find_option st cat nm with
      | none => none
      | some (some c) => some ({ st with no_autocreate := 0 }, c)
      | some none =>
        (shadow_created { st with no_autocreate := 0 } s src).map
          (fun st' => (st', st.mem.length))

/-- Shadowing a path top-down: `srcs` are the canonical nodes from the child of
the canonical root down to the node asked for, `s` is the shadow reached so
far. -/
def shadow_run : State → Ptr → List Ptr → Option (State × Ptr)
  | st, s, [] => some (st, s)
  | st, s, src :: rest =>
    match shadow_step st s src with
    | none => none
    | some (st1, c) => shadow_run st1 c rest

/-- The nodes from `p` up to, and without, `stop` along the parent links, all
of them with a name; `none` when `stop` is not reached within `k` nodes. -/
def chain_to : Nat → State → Ptr → Ptr → Option (List Ptr)
  | 0, _, _, _ => none
  | k + 1, st, p, stop =>
    if p = stop then some []
    else
      match st.deref p with
      | none => none
      | some o =>
        match o.root, o.name with
        | some r, some _ => (chain_to k st r stop).map (p :: ·)
        | _, _ => none

/-- Every record of `st` is still there in `st'`, changed at most in its
value. -/
def kept (st st' : State) : Prop :=
  ∀ q o, st.deref q = some o → ∃ v, st'.deref q = some { o with value := v }

/-- The parent link of the record at `p`. -/
def root_of (st : State) (p : Ptr) : Option Ptr :=
  (st.deref p).bind (fun o => o.root)

/-- The kind of the record at `p`. -/
def type_of (st : State) (p : Ptr) : Option option_type :=
  (st.deref p).map (fun o => o.type)

/-- Every member of a children collection is a record whose parent link is
the owner of the collection. -/
def parented (st : State) : Prop :=
  ∀ x ∈ st.mem.enum, ∀ c ∈ x.2.kids, root_of st c = some x.1

instance (st : State) : Decidable (parented st) := by
  unfold parented; infer_instance

/-- A record that is no Tree has no children. -/
def leaves_childless (st : State) : Prop :=
  ∀ o ∈ st.mem, o.type ≠ .OPT_TREE → o.kids = []

instance (st : State) : Decidable (leaves_childless st) := by
  unfold leaves_childless; infer_instance

/-- The value of a String record points to one of the buffers `strs`. -/
def option.string_ok (strs : List cstring) (o : option) : Bool :=
  match o.type with
  | .OPT_STRING =>
    match o.value with
    | .string (some s) => (strs[s]?).isSome
    | _ => false
  | _ => true

/-- Every String record has its buffer. -/
def strings_ok (st : State) : Prop :=
  ∀ o ∈ st.mem, o.string_ok st.strs = true

instance (st : State) : Decidable (strings_ok st) := by
  unfold strings_ok; infer_instance

/-- The invariants of section 3 on a memory: children point back to their
parent, exactly the Tree records own children, and String records own a
buffer. -/
def well_formed (st : State) : Prop :=
  parented st ∧ typed st ∧ leaves_childless st ∧ strings_ok st

instance (st : State) : Decidable (well_formed st) := by
  unfold well_formed; infer_instance

/-- The shadows that already exist along a path conform in kind: wherever the
shadow tree under `s` already has a node for a source that is not the last of
the path, that node is a Tree. -/
def conforms (st : State) : Ptr → List Ptr → Bool
  | _, [] => true
  | _, [_] => true
  | s, src :: r :: rest =>
    match name_of st src with
    | none => true
    | some nm =>
      match child_named st s nm with
      | none => true
      | some c => decide (type_of st c = some .OPT_TREE) && conforms st c (r :: rest)

/-- There is a chain of parent links from `S` up to `s` whose nodes carry, from
`s` downward, the given names. -/
def descends (st : State) : Ptr → Ptr → List (Option cstring) → Prop
  | s, S, [] => S = s
  | s, S, nm :: rest => ∃ c, root_of st c = some s ∧ name_of st c = nm ∧ descends st c S rest

/-- The memory `st'` and the shadow `S` come from `st` by shadowing the sources
`srcs` top-down under `s`: at a level whose shadow exists (the first child of
that name) nothing changes, and at a level without shadow exactly one record
is added, by `shadow_created`. -/
def grown_from (st' : State) (S : Ptr) : State → Ptr → List Ptr → Prop
  | st, s, [] => st' = st ∧ S = s
  | st, s, src :: rest =>
    ∃ nm, name_of st src = some nm ∧
      ((∃ c, child_named st s nm = some c ∧ grown_from st' S st c rest) ∨
        (child_named st s nm = none ∧
          ∃ st1, shadow_created st s src = some st1 ∧
            grown_from st' S st1 st.mem.length rest))

/-- The deepest node of the shadow tree under `s` that lies on the path named
by the records `srcs`: the walk follows, from `s`, the child carrying the name
of each record in turn and stops where there is none. -/
def attach (st : State) : Ptr → List Ptr → Ptr
  | s, [] => s
  | s, src :: rest =>
    match name_of st src with
    | none => s
    | some nm =>
      match child_named st s nm with
      | none => s
      | some c => attach st c rest

/-- Modelled from the spec: the value read from the record at `p` ("read/write
its value through the Data Model"): the value field, and for a String the text
of the buffer it points to. -/
def read_value (st : State) (p : Ptr) : Option (option_value × Option cstring) :=
  match st.deref p with
  | none => none
  | some o =>
    match o.type, o.value with
    | .OPT_STRING, .string (some b) => some (o.value, st.strs[b]?)
    | _, _ => some (o.value, none)

/-- Modelled from the spec: a value write that assigns the value field of the
record at `p` (a number, a colour, a command, a children collection). -/
def write_value (st : State) (p : Ptr) (v : option_value) : State :=
  match st.deref p with
  | none => st
  | some o => st.store p { o with value := v }

/-- Modelled from the spec: a value write to the String record at `p`; the text
is written into the buffer the record owns. -/
def write_text (st : State) (p : Ptr) (text : cstring) : State :=
  match st.deref p with
  | none => st
  | some o =>
    match o.type, o.value with
    | .OPT_STRING, .string (some b) => { st with strs := st.strs.set b text }
    | _, _ => st

/-- The path `pre` followed by further segments, each after a dot. -/
def extend : cstring → List cstring → cstring
  | pre, [] => pre
  | pre, s :: ss => extend (pre ++ '.' :: s) ss

/-- The dotted path made of the given segments. -/
def dotted : List cstring → cstring
  | [] => []
  | s :: ss => extend s ss

/-- The lists that `rec` gives for the members of a list, one after the other. -/
def postorder_list (rec : Ptr → Option (List Ptr)) : List Ptr → Option (List Ptr)
  | [] => some []
  | c :: cs =>
    match rec c, postorder_list rec cs with
    | some a, some b => some (a ++ b)
    | _, _ => none

/-- The subtree of the record at `p` in post-order: for a Tree the subtrees of
its children in list order, then `p` itself; for any other kind `p` alone.
`none` when the subtree is deeper than `k`, runs into something that is no
record, or holds a Tree without children collection. -/
def postorder : Nat → State → Ptr → Option (List Ptr)
  | 0, _, _ => none
  | k + 1, st, p =>
    match st.deref p with
    | none => none
    | some o =>
      if o.type = .OPT_TREE then
        match o.value with
        | .tree (some cat) => (postorder_list (postorder k st) cat).map (· ++ [p])
        | _ => none
      else some [p]

/-- The descendants of the list owned by `tree`: the subtrees of its members,
in list order. -/
def descendants : Nat → State → Ptr → Option (List Ptr)
  | 0, _, _ => none
  | k + 1, st, tree =>
    match children st tree with
    | some cat => postorder_list (postorder k st) cat
    | none => none

/-- The memory `st'` is `st` with `f` applied to the records at the addresses
of `ds`, and nothing else changed. -/
def changed_by (f : option → option) (ds : List Ptr) (st st' : State) : Prop :=
  st'.mem.length = st.mem.length ∧ st'.strs = st.strs ∧
    st'.no_autocreate = st.no_autocreate ∧ st'.config_options = st.config_options ∧
    ∀ q o, st.deref q = some o → st'.deref q = some (if q ∈ ds then f o else o)

/-- The record with `OPT_MUST_SAVE` set when `set_all` is not 0, or the record
carries `OPT_TOUCHED` or `OPT_DELETED`, or is of kind Language, and cleared
otherwise. -/
def set_mustsave (set_all : Int) (o : option) : option :=
  { o with flags := { o.flags with OPT_MUST_SAVE :=
      (decide (set_all ≠ 0) || (o.flags.OPT_TOUCHED || o.flags.OPT_DELETED) ||
        decide (o.type = .OPT_LANGUAGE)) } }

/-- The record with `OPT_TOUCHED` cleared. -/
def clear_touched (o : option) : option :=
  { o with flags := { o.flags with OPT_TOUCHED := false } }

/-- The record with `OPT_TOUCHED` and `OPT_DELETED` set and its listbox item,
if it has one, made invisible. -/
def set_deleted (o : option) : option :=
  { o with
    box_item := o.box_item.map (fun bi => { bi with visible := 0 })
    flags := { o.flags with OPT_TOUCHED := true, OPT_DELETED := true } }

/-- The record at `d` is no Tree and carries `OPT_MUST_SAVE`. -/
def saveable_leaf (st : State) (d : Ptr) : Bool :=
  match st.deref d with
  | some o => decide (o.type ≠ .OPT_TREE) && o.flags.OPT_MUST_SAVE
  | none => false

/-- The two memories hold records at the same addresses, with the same kinds
and values. -/
def shape_eq (st st' : State) : Prop :=
  ∀ q, (st'.deref q).map (fun o => (o.type, o.value)) =
    (st.deref q).map (fun o => (o.type, o.value))

/-- The loop that `prepare_mustsave_flags` and `untouch_options` share: the
record of every member is replaced by its image under `f`, and a member of
kind Tree is descended into by `recurse`. -/
def flag_walk_loop (f : option → option) (recurse : State → Ptr → Result Unit) :
    List Ptr → State → Result Unit
  | [], st => .ok st ()
  | p :: ps, st =>
    match st.deref p with
    | none => .fault
    | some o =>
      if o.type = .OPT_TREE then
        (recurse (st.store p (f o)) p).bind fun st2 _ => flag_walk_loop f recurse ps st2
      else flag_walk_loop f recurse ps (st.store p (f o))

/-- The traversal that `prepare_mustsave_flags` and `untouch_options` share, on
the list owned by `tree`. -/
def flag_walk (f : option → option) : Nat → State → Ptr → Result Unit
  | 0, _, _ => .out_of_fuel
  | fuel + 1, st, tree =>
    match st.deref tree with
    | none => .fault
    | some t =>
      match t.value with
      | .tree (some cat) => flag_walk_loop f (fun st1 p => flag_walk f fuel st1 p) cat st
      | _ => .fault

/-- The two memories hold records at the same addresses, with the same names,
kinds, values and Hidden flags: all that a lookup reads. -/
def look_eq (st st' : State) : Prop :=
  ∀ q, (st'.deref q).map (fun o => (o.name, o.type, o.value, o.flags.OPT_HIDDEN)) =
    (st.deref q).map (fun o => (o.name, o.type, o.value, o.flags.OPT_HIDDEN))

/-- No children list holds an address twice. -/
def lists_nodup (st : State) : Prop :=
  ∀ o ∈ st.mem, o.kids.Nodup

instance (st : State) : Decidable (lists_nodup st) := by
  unfold lists_nodup; infer_instance

/-- The shape deletion relies on: children point back to their parent, only
Trees have children, and no list holds an address twice. -/
def tree_shaped (st : State) : Prop :=
  parented st ∧ leaves_childless st ∧ lists_nodup st

instance (st : State) : Decidable (tree_shaped st) := by
  unfold tree_shaped; infer_instance

/-- The address `p` is in no children list. -/
def unlinked (st : State) (p : Ptr) : Prop :=
  ∀ o ∈ st.mem, p ∉ o.kids

instance (st : State) (p : Ptr) : Decidable (unlinked st p) := by
  unfold unlinked; infer_instance

/-- What the deletion of the record at `p`, whose subtree is `po`, leaves of the
memory `st`: the shape is kept and the globals are as before; outside the
subtree nothing changed but the list `p` was taken off; the records of the
subtree have no children any more. -/
def deleted (st st' : State) (p : Ptr) (po : List Ptr) : Prop :=
  tree_shaped st' ∧ same_globals st st' ∧
    (∀ q, q ∉ po → st'.deref q = (del_from_list st p).deref q) ∧
    (∀ q ∈ po, ∃ o', st'.deref q = some o' ∧ o'.kids = [])

/-- The nodes a descent passes: the start, and the child found for each segment
in turn, the last one included. -/
def trail (st : State) : Ptr → List cstring → List Ptr
  | p, [] => [p]
  | p, seg :: rest =>
    p :: match child_named st p seg with
      | none => []
      | some c => trail st c rest

/-- The records released among the events of a deletion, in order. -/
def releases : List delete_event → List Ptr
  | [] => []
  | .released q :: ev => q :: releases ev
  | _ :: ev => releases ev

/-- The diagnostics among the events of a deletion, in order. -/
def diagnostics (ev : List delete_event) : List delete_event :=
  ev.filter fun e =>
    match e with
    | .released _ => false
    | _ => true

/-- A run of a deletion with the diagnostics left out: the memory it ends in
and the records it released. -/
def strip : Result (List delete_event) → Result (List Ptr)
  | .ok st ev => .ok st (releases ev)
  | .fault => .fault
  | .out_of_fuel => .out_of_fuel

/-- The fields of a record that a change hook is to leave alone for the
arithmetic of `toggle_option` to be seen: value, kind, bounds, parent link and
change hook. -/
def option.core (o : option) :
    option_value × option_type × Int × Int × Option Ptr × Option Nat :=
  (o.value, o.type, o.min, o.max, o.root, o.change_hook)

/-- The two memories hold records at the same addresses, with the same values,
kinds, bounds, parent links and change hooks. -/
def values_eq (st st' : State) : Prop :=
  ∀ q, (st'.deref q).map option.core = (st.deref q).map option.core

/-- No hook changes a value, a kind, a bound, a parent link or a change hook,
or releases a record. -/
def hooks_keep_values (hooks : Nat → change_hook_t) : Prop :=
  ∀ h ses cur changed st, values_eq st (hooks h ses cur changed st).1

/-- The number stored in the record at `p`. -/
def number_at (st : State) (p : Ptr) : Option Int :=
  match st.deref p with
  | some o =>
    match o.value with
    | .number v => some v
    | _ => none
  | none => none

/-- The value after one toggle, in the words of the claim: the value plus one
when that does not exceed `max`, and `min` otherwise. -/
def next_value (lo hi v : Int) : Int := if v + 1 ≤ hi then v + 1 else lo

/-- The function `toggle_option` applied `n` times in a row to the same
option. -/
def toggle_times (hooks : Nat → change_hook_t) (fuel : Nat) (ses : session) (optr : Ptr) :
    Nat → State → Result Unit
  | 0, st => .ok st ()
  | n + 1, st =>
    (toggle_option hooks fuel st ses optr).bind fun st1 _ =>
      toggle_times hooks fuel ses optr n st1

/-- The class rank of the sort key: a Tree ranks before every other kind. -/
def class_rank (o : option) : Nat := if o.type = .OPT_TREE then 0 else 1

/-- The key (classRank, name) of the record `a` is strictly greater than the
key of the record `o`: the rank is greater, or the ranks are equal and the name
of `a` compares greater, byte by byte. -/
def key_gt (a o : option) : Bool :=
  decide (class_rank o < class_rank a) ||
    (decide (class_rank a = class_rank o) &&
      match a.name, o.name with
      | some an, some n => decide (0 < strcmp an n)
      | _, _ => false)

/-- The key of the record at `a` is not greater than the key of the record at
`b`. -/
def key_le_at (st : State) (a b : Ptr) : Bool :=
  match st.deref a, st.deref b with
  | some ra, some rb => !key_gt ra rb
  | _, _ => false

/-- The list is ordered by the key (classRank, name), equal keys allowed. -/
def key_sorted (st : State) (cat : List Ptr) : Prop :=
  cat.Pairwise (fun a b => key_le_at st a b = true)

instance (st : State) (cat : List Ptr) : Decidable (key_sorted st cat) := by
  unfold key_sorted; infer_instance

/-- The reference insertion without fast paths, in the words of the claim: the
option goes right before the first member whose key is strictly greater, and
to the end when there is none. -/
def reference_insert (st : State) (o : option) (optr : Ptr) : List Ptr → List Ptr
  | [] => [optr]
  | pos :: rest =>
    match st.deref pos with
    | some po =>
      if key_gt po o then optr :: pos :: rest
      else pos :: reference_insert st o optr rest
    | none => pos :: reference_insert st o optr rest

/-- The shadows of the records `srcs` exist under `s`, one below the other,
down to `S`: at each level the scan of the children of the shadow reached so
far finds a child with the name of the record. -/
def shadowed (st : State) : Ptr → List Ptr → Ptr → Prop
  | s, [], S => S = s
  | s, src :: rest, S =>
    ∃ nm cat c, name_of st src = some nm ∧ children st s = some cat ∧
      find_option st cat nm = some (some c) ∧ shadowed st c rest S

/-- The ancestor that lies `j` parent links above `p`. -/
def up (st : State) : Nat → Ptr → Option Ptr
  | 0, p => some p
  | j + 1, p => (up st j p).bind (root_of st)

/-- The names of the children of a record, in list order. -/
def knames (st : State) (o : option) : List (Option cstring) :=
  o.kids.map (name_of st)

/-- Sibling-name uniqueness: no two children of a record carry the same
name. -/
def unique_names (st : State) : Prop :=
  ∀ o ∈ st.mem, (knames st o).Nodup

instance (st : State) : Decidable (unique_names st) := by
  unfold unique_names; infer_instance

/-- The lookup of the parent in `add_opt_rec`: the tree itself for the empty
path, and `get_opt_rec` otherwise. -/
def parent_lookup (fuel : Nat) (st : State) (tree : Ptr) (path : cstring) :
    Result (Option Ptr) :=
  if path = [] then .ok st (some tree) else get_opt_rec fuel st tree path

/-- The record at `x`, if there is one, is a copy of a record of the memory
`st0` below the address `B`: each of its children lies below `B` or above `x`,
and the names of its children are the names of the first children of that
record, in the same order. -/
def sourced (B : Nat) (st0 st : State) (x : Ptr) : Prop :=
  ∀ o', st.deref x = some o' →
    (∀ c ∈ o'.kids, (c < B ∨ x < c) ∧ c < st.mem.length) ∧
    ∃ y oy, y < B ∧ st0.deref y = some oy ∧ knames st o' <+: knames st0 oy

/-! ## Concrete memories used as witnesses -/

/-- A record with the given name, kind, flags, value and parent link, and
nothing else set. -/
def mk_option (name : String) (ty : option_type) (fl : option_flags) (v : option_value)
    (root : Option Ptr) : option :=
  { name := some name.toList, flags := fl, type := ty, min := 0, max := 0, value := v,
    desc := none, capt := none, root := root, box_item := none, change_hook := none }

/-- A small tree: the root (0) holds a leaf `Terminal` (4) and the autocreating,
sorted tree `terminal` (1), whose template (2) is a tree holding the leaf
`type` (3). -/
def st_terminal : State :=
  { mem := [ mk_option "" .OPT_TREE no_flags (.tree (some [4, 1])) none,
             mk_option "terminal" .OPT_TREE
               { no_flags with OPT_AUTOCREATE := true, OPT_SORT := true }
               (.tree (some [2])) (some 0),
             mk_option "_template_" .OPT_TREE no_flags (.tree (some [3])) (some 1),
             mk_option "type" .OPT_INT no_flags (.number 7) (some 2),
             mk_option "Terminal" .OPT_INT no_flags (.number 0) (some 0) ],
    strs := [], no_autocreate := 0, config_options := some 0 }

/-- The listbox item of a fresh copy of a record without item, of the given
item kind. -/
def fresh_item (ty : listbox_item_type) : listbox_item :=
  { visible := 1, depth := 0, type := ty, linked := false }

/-- The memory `st_terminal` after the lookup of `terminal.linux.type`: the
tree `linux` (5) was cloned from the template, with its own leaf `type` (6),
and put on the children list of `terminal`; the two copies have listbox items
with empty lists, which are on no list since `terminal` has no item. -/
def st_linux : State :=
  { mem := [ mk_option "" .OPT_TREE no_flags (.tree (some [4, 1])) none,
             mk_option "terminal" .OPT_TREE
               { no_flags with OPT_AUTOCREATE := true, OPT_SORT := true }
               (.tree (some [2, 5])) (some 0),
             mk_option "_template_" .OPT_TREE no_flags (.tree (some [3])) (some 1),
             mk_option "type" .OPT_INT no_flags (.number 7) (some 2),
             mk_option "Terminal" .OPT_INT no_flags (.number 0) (some 0),
             { mk_option "linux" .OPT_TREE { no_flags with OPT_ALLOC := true }
                 (.tree (some [6])) (some 1) with
               box_item := some (fresh_item .BI_FOLDER) },
             { mk_option "type" .OPT_INT { no_flags with OPT_ALLOC := true }
                 (.number 7) (some 5) with
               box_item := some (fresh_item .BI_LEAF) } ],
    strs := [], no_autocreate := 0, config_options := some 0,
    box_child := [(6, []), (5, [])] }

/-- The children list of `P` after a run, `none` when the run did not return. -/
def children_after (r : Result Unit) (P : Ptr) : Option (List Ptr) :=
  match r with
  | .ok st _ => children st P
  | _ => none

/-- An empty sorted parent (0) and three options not yet inserted: the leaves
`banana` (1) and `apple` (2) and the tree `config` (3). -/
def st_fruit : State :=
  { mem := [ mk_option "" .OPT_TREE { no_flags with OPT_SORT := true } (.tree (some [])) none,
             mk_option "banana" .OPT_INT no_flags (.number 0) none,
             mk_option "apple" .OPT_INT no_flags (.number 0) none,
             mk_option "config" .OPT_TREE no_flags (.tree (some [])) none ],
    strs := [], no_autocreate := 0, config_options := none }

/-- An empty sorted parent (0) and two leaves of the same kind not yet
inserted, `Apple` (1) and `_template_` (2), all three with a listbox item; the
tree of the global options (3) holds the tree `config` (4) with the option
`show_template` (5). -/
def st_apple : State :=
  { mem := [ { mk_option "" .OPT_TREE { no_flags with OPT_SORT := true } (.tree (some []))
                 none with box_item := some (fresh_item .BI_FOLDER) },
             { mk_option "Apple" .OPT_INT no_flags (.number 0) none with
               box_item := some (fresh_item .BI_LEAF) },
             { mk_option "_template_" .OPT_INT no_flags (.number 0) none with
               box_item := some (fresh_item .BI_LEAF) },
             mk_option "" .OPT_TREE no_flags (.tree (some [4])) none,
             mk_option "config" .OPT_TREE no_flags (.tree (some [5])) (some 3),
             mk_option "show_template" .OPT_BOOL no_flags (.number 0) (some 4) ],
    strs := [], no_autocreate := 0, config_options := some 3 }

/-- Three hooks that leave the memory alone: hook 1 answers 1 (handled), the
others answer 0 (continue). -/
def demo_hooks : Nat → change_hook_t :=
  fun h _ _ _ st => (st, if h = 1 then 1 else 0)

/-- A canonical tree and an empty shadow tree: the root (0) holds the tree `ui`
(1), which holds the string `language` (2) with the text `en`; the record 3 is
the root of the shadow tree. -/
def st_shadow : State :=
  { mem := [ mk_option "" .OPT_TREE no_flags (.tree (some [1])) none,
             mk_option "ui" .OPT_TREE no_flags (.tree (some [2])) (some 0),
             mk_option "language" .OPT_STRING no_flags (.string (some 0)) (some 1),
             mk_option "" .OPT_TREE no_flags (.tree (some [])) none ],
    strs := ["en".toList], no_autocreate := 0, config_options := some 0 }

/-- The memory `st_shadow` with the tree `ui` shadowed already (4). -/
def st_shadow_ui : State :=
  { mem := [ mk_option "" .OPT_TREE no_flags (.tree (some [1])) none,
             mk_option "ui" .OPT_TREE no_flags (.tree (some [2])) (some 0),
             mk_option "language" .OPT_STRING no_flags (.string (some 0)) (some 1),
             mk_option "" .OPT_TREE no_flags (.tree (some [4])) none,
             mk_option "ui" .OPT_TREE { no_flags with OPT_ALLOC := true, OPT_TOUCHED := true }
               (.tree (some [])) (some 3) ],
    strs := ["en".toList], no_autocreate := 0, config_options := some 0 }

/-- The memory `st_shadow` after `language` was shadowed: the shadow tree holds
the copies of `ui` (4) and of `language` (5), the latter with a buffer of its
own. -/
def st_shadowed : State :=
  { mem := [ mk_option "" .OPT_TREE no_flags (.tree (some [1])) none,
             mk_option "ui" .OPT_TREE no_flags (.tree (some [2])) (some 0),
             mk_option "language" .OPT_STRING no_flags (.string (some 0)) (some 1),
             mk_option "" .OPT_TREE no_flags (.tree (some [4])) none,
             mk_option "ui" .OPT_TREE { no_flags with OPT_ALLOC := true, OPT_TOUCHED := true }
               (.tree (some [5])) (some 3),
             mk_option "language" .OPT_STRING
               { no_flags with OPT_ALLOC := true, OPT_TOUCHED := true }
               (.string (some 1)) (some 4) ],
    strs := ["en".toList, "en".toList], no_autocreate := 0, config_options := some 0 }

/-- An autocreating tree (0) that has the leaf `a` (1) and no template. -/
def st_notemplate : State :=
  { mem := [ mk_option "" .OPT_TREE { no_flags with OPT_AUTOCREATE := true }
               (.tree (some [1])) none,
             mk_option "a" .OPT_INT no_flags (.number 0) (some 0) ],
    strs := [], no_autocreate := 0, config_options := none }

/-- A tree to be saved: the root (0) holds the tree `ui` (1) and the leaf
`home` (4); `ui` holds the Language option `language` (2) and the touched leaf
`depth` (3).  `home` is untouched and carries `OPT_MUST_SAVE` from an earlier
save; the leaf `stray` (5) is in no list. -/
def st_save : State :=
  { mem := [ mk_option "" .OPT_TREE no_flags (.tree (some [1, 4])) none,
             mk_option "ui" .OPT_TREE no_flags (.tree (some [2, 3])) (some 0),
             mk_option "language" .OPT_LANGUAGE no_flags (.number 0) (some 1),
             mk_option "depth" .OPT_INT { no_flags with OPT_TOUCHED := true } (.number 3)
               (some 1),
             mk_option "home" .OPT_INT { no_flags with OPT_MUST_SAVE := true } (.number 1)
               (some 0),
             mk_option "stray" .OPT_INT { no_flags with OPT_TOUCHED := true } (.number 0)
               none ],
    strs := [], no_autocreate := 0, config_options := some 0 }

/-- A record like `mk_option` makes it, with a visible listbox item. -/
def mk_boxed (name : String) (ty : option_type) (fl : option_flags) (v : option_value)
    (root : Option Ptr) : option :=
  { mk_option name ty fl v root with
    box_item := some { visible := 1, depth := 0, type := .BI_LEAF, linked := true } }

/-- A tree shown in the option manager: the root (0) holds the tree `ui` (1)
and the leaf `home` (4); `ui` holds the leaves `language` (2) and `depth` (3),
the latter with `OPT_MUST_SAVE`.  Every record has a listbox item. -/
def st_boxed : State :=
  { mem := [ mk_boxed "" .OPT_TREE no_flags (.tree (some [1, 4])) none,
             mk_boxed "ui" .OPT_TREE no_flags (.tree (some [2, 3])) (some 0),
             mk_boxed "language" .OPT_LANGUAGE no_flags (.number 0) (some 1),
             mk_boxed "depth" .OPT_INT { no_flags with OPT_MUST_SAVE := true } (.number 3)
               (some 1),
             mk_boxed "home" .OPT_INT no_flags (.number 1) (some 0) ],
    strs := [], no_autocreate := 0, config_options := some 0 }

/-- A tree of allocated, built-in and cleared-on-release records: the root (0)
holds the leaf `a` (1), the tree `t` (2) and the leaf `z` (6); `t` holds the
leaf `x` (3) and the tree `u` (4), which holds the leaf `y` (5).  `t` and `x`
carry `OPT_ALLOC`, `u` has a caption. -/
def st_del : State :=
  { mem := [ mk_option "" .OPT_TREE no_flags (.tree (some [1, 2, 6])) none,
             mk_option "a" .OPT_INT no_flags (.number 1) (some 0),
             mk_option "t" .OPT_TREE { no_flags with OPT_ALLOC := true }
               (.tree (some [3, 4])) (some 0),
             mk_option "x" .OPT_INT { no_flags with OPT_ALLOC := true } (.number 2) (some 2),
             { mk_option "u" .OPT_TREE no_flags (.tree (some [5])) (some 2) with
               capt := some "U".toList },
             mk_option "y" .OPT_INT no_flags (.number 3) (some 4),
             mk_option "z" .OPT_INT no_flags (.number 4) (some 0) ],
    strs := [], no_autocreate := 0, config_options := some 0 }

/-- The tree of `st_boxed` with one more child of `ui`: the alias `lang` (5),
which has no listbox item, as `add_opt` leaves an option of kind Alias. -/
def st_alias : State :=
  { mem := [ mk_boxed "" .OPT_TREE no_flags (.tree (some [1, 4])) none,
             mk_boxed "ui" .OPT_TREE no_flags (.tree (some [2, 3, 5])) (some 0),
             mk_boxed "language" .OPT_LANGUAGE no_flags (.number 0) (some 1),
             mk_boxed "depth" .OPT_INT no_flags (.number 3) (some 1),
             mk_boxed "home" .OPT_INT no_flags (.number 1) (some 0),
             mk_option "lang" .OPT_ALIAS no_flags (.string none) (some 1) ],
    strs := [], no_autocreate := 0, config_options := some 0 }

/-- The events of a run that returned. -/
def events_after (r : Result (List delete_event)) : Option (List delete_event) :=
  match r with
  | .ok _ ev => some ev
  | _ => none

/-- A tree whose only leaf is hidden: the root (0) holds the tree `ui` (1),
which holds the hidden leaf `secret` (2), touched and not yet flagged for
saving. -/
def st_hidden0 : State :=
  { mem := [ mk_option "" .OPT_TREE no_flags (.tree (some [1])) none,
             mk_option "ui" .OPT_TREE no_flags (.tree (some [2])) (some 0),
             mk_option "secret" .OPT_INT { no_flags with OPT_HIDDEN := true, OPT_TOUCHED := true }
               (.number 7) (some 1) ],
    strs := [], no_autocreate := 0, config_options := some 0 }

/-- The tree of `st_hidden0` after `prepare_mustsave_flags`: the hidden leaf
carries `OPT_MUST_SAVE`. -/
def st_hidden : State :=
  { mem := [ mk_option "" .OPT_TREE no_flags (.tree (some [1])) none,
             mk_option "ui" .OPT_TREE no_flags (.tree (some [2])) (some 0),
             mk_option "secret" .OPT_INT
               { no_flags with OPT_HIDDEN := true, OPT_TOUCHED := true, OPT_MUST_SAVE := true }
               (.number 7) (some 1) ],
    strs := [], no_autocreate := 0, config_options := some 0 }

/-- The table `option_types` as far as `smart_config_string` reads it, for the
witnesses: every kind but Tree has a `write` member. -/
def wr_leaves (ty : option_type) : Bool := decide (ty ≠ .OPT_TREE)

/-- A record of kind Int with the given bounds and value under a root. -/
def mk_int (name : String) (lo hi v : Int) : option :=
  { mk_option name .OPT_INT no_flags (.number v) (some 0) with min := lo, max := hi }

/-- The root (0) and three Int options: `low` (1) with `min` one below
`INT_MIN`, at its `max` 5; `high` (2) with the bounds `INT_MAX - 1` and
`INT_MAX`, at its `min`; and `zoom` (3) with the bounds 1 and 3, at 2. -/
def st_toggle : State :=
  { mem := [ mk_option "" .OPT_TREE no_flags (.tree (some [1, 2, 3])) none,
             mk_int "low" (-2147483649) 5 5,
             mk_int "high" 2147483646 2147483647 2147483646,
             mk_int "zoom" 1 3 2 ],
    strs := [], no_autocreate := 0, config_options := some 0 }

/-- The number at `p` after a run that returned. -/
def number_after {α : Type} (r : Result α) (p : Ptr) : Option Int :=
  match r with
  | .ok st _ => number_at st p
  | _ => none

/-- An autocreating parent that is not sorted (0) with the children
`_template_` (1), which has a description, and `zeta` (2), and the leaf `alpha`
(3) not yet inserted, without description. -/
def st_append : State :=
  { mem := [ mk_option "" .OPT_TREE { no_flags with OPT_AUTOCREATE := true }
               (.tree (some [1, 2])) none,
             { mk_option "_template_" .OPT_INT no_flags (.number 0) (some 0) with
               desc := some "a number".toList },
             mk_option "zeta" .OPT_INT no_flags (.number 1) (some 0),
             mk_option "alpha" .OPT_INT no_flags (.number 2) none ],
    strs := [], no_autocreate := 0, config_options := none }

/-- A sorted parent (0) whose children are in key order, the tree `net` (1),
the leaves `apple` (2) and `pear` (3), and two leaves not yet inserted: `mango`
(4), which belongs before `pear`, and `zebra` (5), which belongs at the end. -/
def st_sorted : State :=
  { mem := [ mk_option "" .OPT_TREE { no_flags with OPT_SORT := true }
               (.tree (some [1, 2, 3])) none,
             mk_option "net" .OPT_TREE no_flags (.tree (some [])) (some 0),
             mk_option "apple" .OPT_INT no_flags (.number 0) (some 0),
             mk_option "pear" .OPT_INT no_flags (.number 0) (some 0),
             mk_option "mango" .OPT_INT no_flags (.number 0) none,
             mk_option "zebra" .OPT_INT no_flags (.number 0) none ],
    strs := [], no_autocreate := 0, config_options := none }

/-- A parent (0) with the child `a` (1), and a second record named `a` (2) not
yet inserted. -/
def st_twins : State :=
  { mem := [ mk_option "" .OPT_TREE no_flags (.tree (some [1])) none,
             mk_option "a" .OPT_INT no_flags (.number 1) (some 0),
             mk_option "a" .OPT_INT no_flags (.number 2) none ],
    strs := [], no_autocreate := 0, config_options := none }

/-- The memory after a run that returned. -/
def state_after {α : Type} (r : Result α) : Option State :=
  match r with
  | .ok st _ => some st
  | _ => none

/-- The memory `st_fruit` with a listbox item on each of the three options and
none on the parent. -/
def st_fruit_items : State :=
  { mem := [ mk_option "" .OPT_TREE { no_flags with OPT_SORT := true } (.tree (some [])) none,
             mk_boxed "banana" .OPT_INT no_flags (.number 0) none,
             mk_boxed "apple" .OPT_INT no_flags (.number 0) none,
             mk_boxed "config" .OPT_TREE no_flags (.tree (some [])) none ],
    strs := [], no_autocreate := 0, config_options := none }

/-- The memory `st_fruit` with a listbox item on the parent and on each of the
three options. -/
def st_fruit_listbox : State :=
  { mem := [ mk_boxed "" .OPT_TREE { no_flags with OPT_SORT := true } (.tree (some [])) none,
             mk_boxed "banana" .OPT_INT no_flags (.number 0) none,
             mk_boxed "apple" .OPT_INT no_flags (.number 0) none,
             mk_boxed "config" .OPT_TREE no_flags (.tree (some [])) none ],
    strs := [], no_autocreate := 0, config_options := none }

/-- The memory `st_sorted` with a listbox item on each child of the parent and
none on the parent. -/
def st_sorted_items : State :=
  { mem := [ mk_option "" .OPT_TREE { no_flags with OPT_SORT := true }
               (.tree (some [1, 2, 3])) none,
             mk_boxed "net" .OPT_TREE no_flags (.tree (some [])) (some 0),
             mk_boxed "apple" .OPT_INT no_flags (.number 0) (some 0),
             mk_boxed "pear" .OPT_INT no_flags (.number 0) (some 0),
             mk_option "mango" .OPT_INT no_flags (.number 0) none,
             mk_option "zebra" .OPT_INT no_flags (.number 0) none ],
    strs := [], no_autocreate := 0, config_options := none }

/-- A parent (0) with `OPT_SORT` and without listbox item whose children `zebra`
(1), `apple` (2) and `pear` (3) are not in order, the first of them with a
listbox item, and the leaf `mango` (4), not yet inserted. -/
def st_scan_items : State :=
  { mem := [ mk_option "" .OPT_TREE { no_flags with OPT_SORT := true }
               (.tree (some [1, 2, 3])) none,
             mk_boxed "zebra" .OPT_INT no_flags (.number 0) (some 0),
             mk_option "apple" .OPT_INT no_flags (.number 0) (some 0),
             mk_option "pear" .OPT_INT no_flags (.number 0) (some 0),
             mk_option "mango" .OPT_INT no_flags (.number 0) none ],
    strs := [], no_autocreate := 0, config_options := none }

/-- The flags, kind and listbox item of the record at `p` that the insertion
looks at: `OPT_SORT`, `OPT_AUTOCREATE`, whether it is a Tree, and whether it
has a listbox item. -/
def insertion_view (st : State) (p : Ptr) : Option (Bool × Bool × Bool × Bool) :=
  (st.deref p).map fun o =>
    (o.flags.OPT_SORT, o.flags.OPT_AUTOCREATE, decide (o.type = .OPT_TREE), o.box_item.isSome)

/-- The scan of `add_opt_sort` for the option at `optr` over the children of
`tree`, started as line 388 starts it; the outer `none` when one of the two is
no record or `tree` has no children list. -/
def scan_of (st : State) (tree optr : Ptr) (abi : Bool) :
    Option (Option (Option scan_result)) :=
  match st.deref tree, st.deref optr with
  | some t, some o =>
    match t.value with
    | .tree (some cat) => some (add_opt_sort_scan st o optr abi (bcat_of st tree t) 0 cat)
    | _ => none
  | _, _ => none

/-! ## Basic facts -/

theorem strcmp_eq_zero_iff (a b : cstring) : strcmp a b = 0 ↔ a = b := by
  induction a generalizing b with
  | nil => cases b <;> simp [strcmp]
  | cons x xs ih =>
    cases b with
    | nil => simp [strcmp]
    | cons y ys =>
      by_cases h : x = y
      · simp [strcmp, h, ih]
      · simp only [strcmp, h, if_false]
        constructor
        · intro h2; split at h2 <;> simp at h2
        · intro h2; simp at h2; exact absurd h2.1 h

theorem segments_ne_nil (s : cstring) : segments s ≠ [] := by
  cases s with
  | nil => simp [segments]
  | cons c cs =>
    simp only [segments]
    split
    · simp
    · split <;> simp

theorem segments_of_split_none (s : cstring) (h : split_last_dot s = none) :
    segments s = [s] := by
  induction s with
  | nil => rfl
  | cons c cs ih =>
    simp only [split_last_dot] at h
    cases hc : split_last_dot cs with
    | some fl => simp [hc] at h
    | none =>
      rw [hc] at h
      simp only at h
      by_cases hd : c = '.'
      · simp [hd] at h
      · simp [segments, hd, ih hc]

theorem segments_of_split_some (s front last : cstring)
    (h : split_last_dot s = some (front, last)) :
    segments s = segments front ++ [last] := by
  induction s generalizing front with
  | nil => simp [split_last_dot] at h
  | cons c cs ih =>
    simp only [split_last_dot] at h
    cases hc : split_last_dot cs with
    | some fl =>
      obtain ⟨f, l⟩ := fl
      rw [hc] at h
      simp only [Option.some.injEq, Prod.mk.injEq] at h
      obtain ⟨rfl, rfl⟩ := h
      have ih1 := ih f hc
      by_cases hd : c = '.'
      · simp [segments, hd, ih1]
      · simp only [segments, hd, if_false, ih1]
        cases hs : segments f with
        | nil => exact absurd hs (segments_ne_nil f)
        | cons a as => simp
    | none =>
      rw [hc] at h
      simp only at h
      by_cases hd : c = '.'
      · simp only [hd, if_true, Option.some.injEq, Prod.mk.injEq] at h
        obtain ⟨rfl, rfl⟩ := h
        simp [segments, hd, segments_of_split_none _ hc]
      · simp [hd] at h

/-! ## Lookup without autocreation -/

theorem walk_snoc (st : State) (p : Ptr) (segs : List cstring) (last : cstring)
    (h : segs ≠ []) :
    walk st p (segs ++ [last]) =
      match walk st p segs with
      | some t => if passable st t then scan_child st t last else none
      | none => none := by
  induction segs generalizing p with
  | nil => exact absurd rfl h
  | cons s rest ih =>
    have hne : rest ++ [last] ≠ [] := by simp
    rw [List.cons_append]
    simp only [walk, hne, if_false]
    cases hs : scan_child st p s with
    | none => simp
    | some c =>
      simp only
      by_cases hr : rest = []
      · subst hr
        simp only [List.nil_append, if_true, walk]
        cases hl : scan_child st c last <;> simp
      · simp only [hr, if_false]
        by_cases hp : passable st c = true
        · simp only [hp, if_true]
          exact ih c hr
        · simp [hp]

theorem find_option_some_name (st : State) (l : List Ptr) (seg : cstring) (n : Ptr)
    (h : find_option st l seg = some (some n)) : has_name st seg n = true := by
  induction l with
  | nil => simp [find_option] at h
  | cons p ps ih =>
    simp only [find_option] at h
    cases hp : st.deref p with
    | none => simp [hp] at h
    | some o =>
      rw [hp] at h
      simp only at h
      cases hn : o.name with
      | none => rw [hn] at h; exact ih h
      | some nm =>
        rw [hn] at h
        simp only at h
        by_cases hc : strcmp nm seg = 0
        · simp only [hc, if_true, Option.some.injEq] at h
          subst h
          simp [has_name, hp, hn, (strcmp_eq_zero_iff _ _).1 hc]
        · simp only [hc, if_false] at h
          exact ih h

theorem get_opt_rec_last_found (lookup : State → Ptr → cstring → Result (Option Ptr))
    (copy : State → Ptr → copy_option_flags → Result Ptr)
    (st : State) (t : Ptr) (name : cstring) (n : Ptr)
    (h : scan_child st t name = some n) :
    get_opt_rec_last lookup copy st t name = .ok st (some n) := by
  unfold scan_child children at h
  unfold get_opt_rec_last
  cases ht : st.deref t with
  | none => simp [ht] at h
  | some o =>
    rw [ht] at h
    simp only at h ⊢
    cases hv : o.value with
    | tree tl =>
      rw [hv] at h
      simp only at h ⊢
      cases tl with
      | none => simp at h
      | some cat =>
        simp only at h ⊢
        cases hf : find_option st cat name with
        | none => simp [hf] at h
        | some r =>
          rw [hf] at h
          simp only [Option.join] at h
          subst h
          rfl
    | string s => simp [hv] at h
    | number s => simp [hv] at h
    | big_number s => simp [hv] at h
    | color s => simp [hv] at h
    | command s => simp [hv] at h

theorem passable_deref (st : State) (p : Ptr) (h : passable st p = true) :
    ∃ o, st.deref p = some o ∧ o.type = .OPT_TREE ∧ o.flags.OPT_HIDDEN = false := by
  unfold passable at h
  cases hp : st.deref p with
  | none => simp [hp] at h
  | some o =>
    rw [hp] at h
    simp at h
    exact ⟨o, rfl, h.1, h.2⟩

theorem get_opt_rec_of_walk (st : State) (tree : Ptr) (n : Ptr) :
    ∀ (fuel : Nat) (name_ : cstring), (segments name_).length ≤ fuel →
      walk st tree (segments name_) = some n →
      get_opt_rec fuel st tree name_ = .ok st (some n) := by
  intro fuel
  induction fuel generalizing n with
  | zero =>
    intro name_ hlen _
    have := segments_ne_nil name_
    cases hs : segments name_ with
    | nil => exact absurd hs this
    | cons a as => rw [hs] at hlen; simp at hlen
  | succ fuel ih =>
    intro name_ hlen hw
    unfold get_opt_rec
    cases hsp : split_last_dot name_ with
    | none =>
      simp only
      rw [segments_of_split_none _ hsp] at hw
      apply get_opt_rec_last_found
      simp only [walk] at hw
      cases hs : scan_child st tree name_ with
      | none => simp [hs] at hw
      | some c => simpa [hs] using hw
    | some fl =>
      obtain ⟨front, last⟩ := fl
      simp only
      have hseg := segments_of_split_some _ _ _ hsp
      rw [hseg] at hw hlen
      rw [walk_snoc _ _ _ _ (segments_ne_nil front)] at hw
      cases hwf : walk st tree (segments front) with
      | none => simp [hwf] at hw
      | some t =>
        rw [hwf] at hw
        simp only at hw
        by_cases hp : passable st t = true
        · simp only [hp, if_true] at hw
          have hlen2 : (segments front).length ≤ fuel := by
            simp at hlen; omega
          rw [ih t front hlen2 hwf]
          obtain ⟨o, ho, hty, hhid⟩ := passable_deref _ _ hp
          simp only [Result.bind, ho, hty, hhid]
          simp
          exact get_opt_rec_last_found _ _ _ _ _ _ hw
        · simp [hp] at hw

theorem deref_of_lt (st : State) (p : Ptr) (h : p < st.mem.length) :
    ∃ o, st.deref p = some o := by
  unfold State.deref
  exact ⟨st.mem[p], List.getElem?_eq_getElem h⟩

theorem deref_mem (st : State) (p : Ptr) (o : option) (h : st.deref p = some o) :
    o ∈ st.mem := by
  unfold State.deref at h
  exact List.mem_iff_getElem?.2 ⟨p, h⟩

theorem deref_lt (st : State) (p : Ptr) (o : option) (h : st.deref p = some o) :
    p < st.mem.length := by
  unfold State.deref at h
  exact (List.getElem?_eq_some_iff.1 h).1

theorem children_valid (st : State) (hc : closed st) (p : Ptr) (l : List Ptr)
    (h : children st p = some l) : ∀ c ∈ l, c < st.mem.length := by
  unfold children at h
  cases hp : st.deref p with
  | none => simp [hp] at h
  | some o =>
    rw [hp] at h
    intro c hcl
    apply hc o (deref_mem _ _ _ hp) c
    unfold option.kids
    simp only at h
    cases hv : o.value <;> rw [hv] at h <;> simp at h
    subst h
    simpa using hcl

theorem find_option_eq_find (st : State) (l : List Ptr) (seg : cstring)
    (hv : ∀ c ∈ l, c < st.mem.length) :
    find_option st l seg = some (l.find? (has_name st seg)) := by
  induction l with
  | nil => rfl
  | cons p ps ih =>
    obtain ⟨o, ho⟩ := deref_of_lt st p (hv p (by simp))
    have ih1 := ih (fun c hc => hv c (by simp [hc]))
    simp only [find_option, ho, List.find?, has_name]
    cases hn : o.name with
    | none => simpa using ih1
    | some nm =>
      by_cases hc : nm = seg
      · subst hc
        simp [(strcmp_eq_zero_iff nm nm).2 rfl]
      · have : strcmp nm seg ≠ 0 := fun h => hc ((strcmp_eq_zero_iff _ _).1 h)
        simpa [this, hc] using ih1

theorem scan_child_eq_child_named (st : State) (hc : closed st) (p : Ptr) (seg : cstring) :
    scan_child st p seg = child_named st p seg := by
  unfold scan_child child_named
  cases h : children st p with
  | none => rfl
  | some l =>
    simp only
    rw [find_option_eq_find st l seg (children_valid st hc p l h)]
    rfl

theorem walk_eq_descend (st : State) (hc : closed st) (p : Ptr) (segs : List cstring) :
    walk st p segs = descend st p segs := by
  induction segs generalizing p with
  | nil => rfl
  | cons s rest ih =>
    simp only [walk, descend, scan_child_eq_child_named st hc]
    cases child_named st p s with
    | none => rfl
    | some c => simp only [ih c]

theorem descend_name (st : State) (p n : Ptr) (segs : List cstring) (hne : segs ≠ [])
    (h : descend st p segs = some n) :
    ∃ o, st.deref n = some o ∧ o.name = segs.getLast? := by
  induction segs generalizing p with
  | nil => exact absurd rfl hne
  | cons s rest ih =>
    simp only [descend] at h
    cases hcn : child_named st p s with
    | none => simp [hcn] at h
    | some c =>
      rw [hcn] at h
      simp only at h
      by_cases hr : rest = []
      · subst hr
        simp only [if_true, Option.some.injEq] at h
        subst h
        unfold child_named at hcn
        cases hch : children st p with
        | none => simp [hch] at hcn
        | some l =>
          rw [hch] at hcn
          have := List.find?_some hcn
          unfold has_name at this
          cases hd : st.deref c with
          | none => simp [hd] at this
          | some o =>
            rw [hd] at this
            exact ⟨o, rfl, by simpa using this⟩
      · simp only [hr, if_false] at h
        by_cases hp : passable st c = true
        · simp only [hp, if_true] at h
          obtain ⟨o, ho, hn⟩ := ih c hr h
          refine ⟨o, ho, ?_⟩
          rw [hn]
          cases rest with
          | nil => exact absurd rfl hr
          | cons a as => simp [List.getLast?_cons_cons]
        · simp [hp] at h

/-- C1: for a path all of whose segments name existing nodes, every node passed
on the way being a Tree that is not Hidden, `get_opt_rec` returns, in either
lookup mode and with the memory unchanged, the node reached by descending from
the tree one segment at a time through the first child whose name equals the
segment byte for byte; the name of the node returned is the last segment. -/
theorem C1_get_opt_rec_descends (st : State) (tree n : Ptr) (name_ : cstring) (fuel : Nat)
    (hc : closed st) (hd : descend st tree (segments name_) = some n)
    (hf : (segments name_).length ≤ fuel) :
    get_opt_rec fuel st tree name_ = .ok st (some n) ∧
      ∃ o, st.deref n = some o ∧ o.name = (segments name_).getLast? :=
  ⟨get_opt_rec_of_walk st tree n fuel name_ hf (by rw [walk_eq_descend st hc]; exact hd),
   descend_name st tree n (segments name_) (segments_ne_nil name_) hd⟩

theorem C1_get_opt_rec_descends_witness :
    closed st_terminal ∧
    descend st_terminal 0 (segments "terminal._template_.type".toList) = some 3 ∧
    (segments "terminal._template_.type".toList).length ≤ 3 ∧
    (get_opt_rec 3 st_terminal 0 "terminal._template_.type".toList = .ok st_terminal (some 3) ∧
      ∃ o, st_terminal.deref 3 = some o ∧
        o.name = (segments "terminal._template_.type".toList).getLast?) :=
  ⟨by decide, by decide, by decide,
   C1_get_opt_rec_descends st_terminal 0 3 "terminal._template_.type".toList 3
     (by decide) (by decide) (by decide)⟩

/-! ## Memory updates -/

theorem bind_eq_ok {α β : Type} (r : Result α) (f : State → α → Result β) (st : State) (b : β) :
    r.bind f = .ok st b ↔ ∃ st1 a, r = .ok st1 a ∧ f st1 a = .ok st b := by
  cases r with
  | ok s a =>
    simp only [Result.bind]
    constructor
    · intro h; exact ⟨s, a, rfl, h⟩
    · rintro ⟨s1, a1, h1, h2⟩
      cases h1
      exact h2
  | fault => simp [Result.bind]
  | out_of_fuel => simp [Result.bind]

theorem store_length (st : State) (p : Ptr) (o : option) :
    (st.store p o).mem.length = st.mem.length := by
  simp [State.store]

theorem deref_store (st : State) (p q : Ptr) (o : option) :
    (st.store p o).deref q = if q = p ∧ p < st.mem.length then some o else st.deref q := by
  unfold State.store State.deref
  simp only [List.getElem?_set]
  by_cases h : p = q
  · subst h
    by_cases h2 : p < st.mem.length
    · simp [h2]
    · have h4 : st.mem.length ≤ p := Nat.le_of_not_lt h2
      simp [h2, h4]
  · have h3 : ¬ q = p := fun e => h e.symm
    simp [h, h3]

theorem deref_store_self (st : State) (p : Ptr) (o o0 : option) (h : st.deref p = some o0) :
    (st.store p o).deref p = some o := by
  rw [deref_store]; simp [deref_lt st p o0 h]

theorem deref_store_ne (st : State) (p q : Ptr) (o : option) (h : q ≠ p) :
    (st.store p o).deref q = st.deref q := by
  rw [deref_store]; simp [h]

theorem set_tree_length (st : State) (t : Ptr) (cat : List Ptr) :
    (st.set_tree t cat).mem.length = st.mem.length := by
  unfold State.set_tree
  cases st.deref t <;> simp [store_length]

theorem deref_set_tree_ne (st : State) (t q : Ptr) (cat : List Ptr) (h : q ≠ t) :
    (st.set_tree t cat).deref q = st.deref q := by
  unfold State.set_tree
  cases st.deref t with
  | none => rfl
  | some o => simp only; exact deref_store_ne _ _ _ _ h

theorem deref_set_tree_self (st : State) (t : Ptr) (cat : List Ptr) (o : option)
    (h : st.deref t = some o) :
    (st.set_tree t cat).deref t = some { o with value := .tree (some cat) } := by
  unfold State.set_tree
  rw [h]
  exact deref_store_self _ _ _ _ h

theorem deref_alloc_old (st : State) (o : option) (p : Ptr) (h : p < st.mem.length) :
    ({ st with mem := st.mem ++ [o] } : State).deref p = st.deref p := by
  unfold State.deref
  simp [List.getElem?_append_left h]

theorem deref_alloc_new (st : State) (o : option) :
    ({ st with mem := st.mem ++ [o] } : State).deref st.mem.length = some o := by
  unfold State.deref
  simp

/-! ## The frame of `copy_option` -/

theorem frame_below_refl (n : Nat) (st : State) : frame_below n st st :=
  ⟨le_refl _, fun _ _ => rfl, rfl, rfl, List.prefix_refl _⟩

theorem frame_below_trans (n : Nat) (st st1 st2 : State)
    (h1 : frame_below n st st1) (h2 : frame_below n st1 st2) : frame_below n st st2 :=
  ⟨le_trans h1.1 h2.1, fun p hp => by rw [h2.2.1 p hp, h1.2.1 p hp],
   by rw [h2.2.2.1, h1.2.2.1], by rw [h2.2.2.2.1, h1.2.2.2.1],
   List.IsPrefix.trans h1.2.2.2.2 h2.2.2.2.2⟩

theorem frame_below_mono (m n : Nat) (st st' : State) (hmn : m ≤ n)
    (h : frame_below n st st') : frame_below m st st' :=
  ⟨h.1, fun p hp => h.2.1 p (lt_of_lt_of_le hp hmn), h.2.2.1, h.2.2.2.1, h.2.2.2.2⟩

theorem frame_below_store (n : Nat) (st : State) (p : Ptr) (o : option) (h : n ≤ p) :
    frame_below n st (st.store p o) :=
  ⟨by rw [store_length], fun q hq => deref_store_ne _ _ _ _ (Nat.ne_of_lt (lt_of_lt_of_le hq h)), rfl, rfl,
   List.prefix_refl _⟩

theorem frame_below_set_tree (n : Nat) (st : State) (t : Ptr) (cat : List Ptr) (h : n ≤ t) :
    frame_below n st (st.set_tree t cat) := by
  unfold State.set_tree
  cases st.deref t with
  | none => exact frame_below_refl _ _
  | some o => exact frame_below_store _ _ _ _ h

theorem deref_copy_alloc_old (st : State) (t : option) (flags : copy_option_flags) (p : Ptr)
    (h : p < st.mem.length) : (copy_alloc st t flags).deref p = st.deref p :=
  deref_alloc_old st (copy_record t flags) p h

theorem deref_copy_alloc_new (st : State) (t : option) (flags : copy_option_flags) :
    (copy_alloc st t flags).deref st.mem.length = some (copy_record t flags) :=
  deref_alloc_new st (copy_record t flags)

theorem frame_below_copy_alloc (st : State) (t : option) (flags : copy_option_flags) :
    frame_below st.mem.length st (copy_alloc st t flags) :=
  ⟨by simp [copy_alloc], fun p hp => deref_copy_alloc_old st t flags p hp, rfl, rfl,
    List.prefix_refl _⟩

theorem copy_alloc_length (st : State) (t : option) (flags : copy_option_flags) :
    (copy_alloc st t flags).mem.length = st.mem.length + 1 := by
  simp [copy_alloc]

theorem tree_dup_loop_inv (copy : State → Ptr → copy_option_flags → Result Ptr)
    (hcopy : ∀ (st : State) (c : Nat) flags (st' : State) (n : Nat), copy st c flags = .ok st' n →
      n = st.mem.length ∧ frame_below st.mem.length st st')
    (base opt : Nat) (flags : copy_option_flags) (hb : base ≤ opt) :
    ∀ (cs : List Ptr) (st st' : State), opt < st.mem.length →
      tree_dup_loop copy cs st opt flags = .ok st' () →
      frame_below base st st' ∧
        (∀ o, st.deref opt = some o → ∃ v, st'.deref opt = some { o with value := v }) := by
  intro cs
  induction cs with
  | nil =>
    intro st st' _ h
    simp only [tree_dup_loop, Result.ok.injEq, and_true] at h
    subst h
    exact ⟨frame_below_refl _ _, fun o ho => ⟨o.value, ho⟩⟩
  | cons c cs ih =>
    intro st st' hlt h
    simp only [tree_dup_loop] at h
    cases hc : copy st c flags with
    | fault => simp [hc] at h
    | out_of_fuel => simp [hc] at h
    | ok st1 new_opt =>
      rw [hc] at h
      simp only at h
      obtain ⟨hn, hf1⟩ := hcopy _ _ _ _ _ hc
      cases ho : st1.deref opt with
      | none => simp [ho] at h
      | some o1 =>
        cases hno : st1.deref new_opt with
        | none => simp [ho, hno] at h
        | some nrec =>
          rw [ho, hno] at h
          simp only at h
          cases hv : o1.value with
          | tree tl =>
            rw [hv] at h
            cases tl with
            | none => simp at h
            | some cat =>
              simp only at h
              have hne : opt ≠ new_opt := by rw [hn]; exact Nat.ne_of_lt hlt
              have hlt2 : opt < ((st1.store new_opt { nrec with root := some opt }).set_tree opt
                  (cat ++ [new_opt])).mem.length := by
                rw [set_tree_length, store_length]
                exact lt_of_lt_of_le hlt hf1.1
              obtain ⟨hf2, hopt2⟩ := ih _ _ hlt2 h
              have hfa : frame_below base st1
                  ((st1.store new_opt { nrec with root := some opt }).set_tree opt
                    (cat ++ [new_opt])) :=
                frame_below_trans _ _ _ _
                  (frame_below_store base st1 new_opt _ (by rw [hn]; omega))
                  (frame_below_set_tree base _ opt _ hb)
              refine ⟨frame_below_trans _ _ _ _
                (frame_below_mono base _ _ _ (by omega) hf1)
                (frame_below_trans _ _ _ _ hfa hf2), ?_⟩
              intro o hoo
              have ho1 : st1.deref opt = some o := by rw [hf1.2.1 opt hlt]; exact hoo
              rw [ho] at ho1
              cases ho1
              have hd : ((st1.store new_opt { nrec with root := some opt }).set_tree opt
                  (cat ++ [new_opt])).deref opt =
                  some { o1 with value := .tree (some (cat ++ [new_opt])) } := by
                apply deref_set_tree_self
                rw [deref_store_ne _ _ _ _ hne]
                exact ho
              obtain ⟨v, hv2⟩ := hopt2 _ hd
              exact ⟨v, hv2⟩
          | string s => simp [hv] at h
          | number s => simp [hv] at h
          | big_number s => simp [hv] at h
          | color s => simp [hv] at h
          | command s => simp [hv] at h

theorem tree_dup_inv (copy : State → Ptr → copy_option_flags → Result Ptr)
    (hcopy : ∀ (st : State) (c : Nat) flags (st' : State) (n : Nat),
      copy st c flags = .ok st' n → n = st.mem.length ∧ frame_below st.mem.length st st')
    (base opt : Nat) (template_ : Nat) (flags : copy_option_flags) (hb : base ≤ opt)
    (st st' : State) (hlt : opt < st.mem.length)
    (h : tree_dup copy st opt template_ flags = .ok st' ()) :
    frame_below base st st' ∧
      (∀ o, st.deref opt = some o → ∃ v, st'.deref opt = some { o with value := v }) := by
  unfold tree_dup at h
  cases ht : st.deref template_ with
  | none => simp [ht] at h
  | some t =>
    rw [ht] at h
    simp only at h
    by_cases hs : flags.CO_SHALLOW = true
    · simp only [hs, if_true, Result.ok.injEq, and_true] at h
      subst h
      exact ⟨frame_below_set_tree _ _ _ _ hb,
        fun o ho => ⟨_, deref_set_tree_self _ _ _ _ ho⟩⟩
    · simp only [hs, if_false] at h
      cases hv : t.value with
      | tree tl =>
        rw [hv] at h
        cases tl with
        | none => simp at h
        | some cat =>
          simp only at h
          have hlt2 : opt < (st.set_tree opt []).mem.length := by
            rw [set_tree_length]; exact hlt
          obtain ⟨hf, hopt⟩ := tree_dup_loop_inv copy hcopy base opt flags hb cat _ _ hlt2 h
          refine ⟨frame_below_trans _ _ _ _ (frame_below_set_tree _ _ _ _ hb) hf, ?_⟩
          intro o ho
          obtain ⟨v, hv2⟩ := hopt _ (deref_set_tree_self _ _ [] _ ho)
          exact ⟨v, hv2⟩
      | string s => simp [hv] at h
      | number s => simp [hv] at h
      | big_number s => simp [hv] at h
      | color s => simp [hv] at h
      | command s => simp [hv] at h

theorem str_dup_inv (base opt template_ : Nat) (hb : base ≤ opt) (st st' : State)
    (h : str_dup st opt template_ = .ok st' ()) :
    frame_below base st st' ∧
      (∀ o, st.deref opt = some o → ∃ v, st'.deref opt = some { o with value := v }) := by
  unfold str_dup at h
  cases ho : st.deref opt with
  | none => simp [ho] at h
  | some o =>
    cases ht : st.deref template_ with
    | none => simp [ho, ht] at h
    | some t =>
      rw [ho, ht] at h
      simp only at h
      cases hv : t.value with
      | string sp =>
        rw [hv] at h
        cases sp with
        | none => simp at h
        | some s =>
          simp only at h
          cases hb2 : st.strs[s]? with
          | none => simp [hb2] at h
          | some buf =>
            rw [hb2] at h
            simp only [Result.ok.injEq, and_true] at h
            subst h
            constructor
            · refine ⟨by simp [State.store], ?_, rfl, rfl, by simp [State.store]⟩
              intro p hp
              have := deref_store_ne { st with strs := st.strs ++ [buf] } opt p
                { o with value := .string (some st.strs.length) }
                (Nat.ne_of_lt (lt_of_lt_of_le hp hb))
              rw [this]
              rfl
            · intro o2 ho2
              cases ho2
              exact ⟨_, deref_store_self { st with strs := st.strs ++ [buf] } opt _ o ho⟩
      | tree s => simp [hv] at h
      | number s => simp [hv] at h
      | big_number s => simp [hv] at h
      | color s => simp [hv] at h
      | command s => simp [hv] at h

theorem copy_option_inv : ∀ (fuel : Nat) (st : State) (template_ : Nat)
    (flags : copy_option_flags) (st' : State) (optr : Nat),
    copy_option fuel st template_ flags = .ok st' optr →
    optr = st.mem.length ∧ frame_below st.mem.length st st' ∧
      st.mem.length < st'.mem.length ∧
      ∃ tm v, st.deref template_ = some tm ∧
        st'.deref optr = some { copy_record tm flags with value := v } := by
  intro fuel
  induction fuel with
  | zero => intro st t flags st' optr h; simp [copy_option] at h
  | succ fuel ih =>
    intro st template_ flags st' optr h
    unfold copy_option at h
    cases ht : st.deref template_ with
    | none => simp [ht] at h
    | some tm =>
      rw [ht] at h
      simp only at h
      have hcopy : ∀ (st : State) (c : Nat) flags (st' : State) (n : Nat),
          copy_option fuel st c flags = .ok st' n →
          n = st.mem.length ∧ frame_below st.mem.length st st' :=
        fun st c flags st' n hc => ⟨(ih st c flags st' n hc).1, (ih st c flags st' n hc).2.1⟩
      have hnew := deref_copy_alloc_new st tm flags
      have hfa := frame_below_copy_alloc st tm flags
      have hlen : st.mem.length < (copy_alloc st tm flags).mem.length := by
        rw [copy_alloc_length]; exact Nat.lt_succ_self _
      have key : ∀ st2 : State,
          (frame_below st.mem.length (copy_alloc st tm flags) st2 ∧
            (∀ o, (copy_alloc st tm flags).deref st.mem.length = some o →
              ∃ v, st2.deref st.mem.length = some { o with value := v })) →
          frame_below st.mem.length st st2 ∧ st.mem.length < st2.mem.length ∧
            ∃ tm2 v, some tm = some tm2 ∧
              st2.deref st.mem.length = some { copy_record tm2 flags with value := v } := by
        intro st2 ⟨hf, hv⟩
        obtain ⟨v, hv2⟩ := hv _ hnew
        exact ⟨frame_below_trans _ _ _ _ hfa hf, lt_of_lt_of_le hlen hf.1, tm, v, rfl, hv2⟩
      cases hty : tm.type <;> rw [hty] at h <;> simp only [bind_eq_ok] at h
      case OPT_TREE =>
        obtain ⟨st2, _, h1, h2⟩ := h
        simp only [Result.ok.injEq] at h2
        obtain ⟨rfl, rfl⟩ := h2
        exact ⟨rfl, key _ (tree_dup_inv _ hcopy _ _ _ _ (le_refl _) _ _ hlen h1)⟩
      case OPT_STRING =>
        obtain ⟨st2, _, h1, h2⟩ := h
        simp only [Result.ok.injEq] at h2
        obtain ⟨rfl, rfl⟩ := h2
        exact ⟨rfl, key _ (str_dup_inv _ _ _ (le_refl _) _ _ h1)⟩
      all_goals
        simp only [Result.ok.injEq] at h
        obtain ⟨rfl, rfl⟩ := h
        refine ⟨rfl, key _ ⟨frame_below_store _ _ _ _ (le_refl _), ?_⟩⟩
        intro o ho
        rw [hnew] at ho
        cases ho
        exact ⟨_, deref_store_self _ _ _ _ hnew⟩

/-! ## The effect of `add_opt_sort` -/

theorem same_meta_refl (o : option) : same_meta o o := ⟨rfl, rfl, rfl, rfl, rfl, rfl, rfl⟩

theorem same_meta_trans (a b c : option) (h1 : same_meta a b) (h2 : same_meta b c) :
    same_meta a c := by
  obtain ⟨a1, a2, a3, a4, a5, a6, a7⟩ := h1
  obtain ⟨b1, b2, b3, b4, b5, b6, b7⟩ := h2
  exact ⟨b1.trans a1, b2.trans a2, b3.trans a3, b4.trans a4, b5.trans a5, b6.trans a6,
    b7.trans a7⟩

theorem scan_map_some (x : Option (Option scan_result)) (pos : Ptr) (r : scan_result)
    (h : x.map (Option.map fun r => { r with cat := pos :: r.cat }) = some (some r)) :
    ∃ r0, x = some (some r0) ∧ r = { r0 with cat := pos :: r0.cat } := by
  cases x with
  | none => simp at h
  | some y =>
    cases y with
    | none => simp at h
    | some r0 =>
      simp only [Option.map_some', Option.some.injEq] at h
      exact ⟨r0, rfl, h.symm⟩

theorem box_put_map (abi : Bool) (bcat : Option (List Ptr)) (o : option)
    (f : List Ptr → List Ptr) (g : Option (List Ptr) → Option scan_result)
    (r : Option scan_result) (h : (box_put abi bcat o f).map g = some r) :
    ∃ items, box_put abi bcat o f = some items ∧ r = g items := by
  cases hb : box_put abi bcat o f with
  | none => simp [hb] at h
  | some items =>
    rw [hb] at h
    simp only [Option.map_some', Option.some.injEq] at h
    exact ⟨items, rfl, h.symm⟩

theorem scan_inserted (st : State) (o : option) (optr : Nat) (abi : Bool)
    (bcat : Option (List Ptr)) :
    ∀ (l : List Ptr) (bpos : Nat) (r : scan_result),
      add_opt_sort_scan st o optr abi bcat bpos l = some (some r) →
      inserted optr l r.cat := by
  intro l
  induction l with
  | nil => intro bpos r h; simp [add_opt_sort_scan] at h
  | cons pos rest ih =>
    intro bpos r h
    simp only [add_opt_sort_scan] at h
    cases hp : st.deref pos with
    | none => simp [hp] at h
    | some po =>
      rw [hp] at h
      simp only at h
      cases hb : bpos_next bcat bpos po with
      | none => simp [hb] at h
      | some bpos1 =>
        rw [hb] at h
        simp only at h
        have hcont : (add_opt_sort_scan st o optr abi bcat bpos1 rest).map
            (Option.map fun r => { r with cat := pos :: r.cat }) = some (some r) →
            inserted optr (pos :: rest) r.cat := by
          intro h2
          obtain ⟨r0, hr0, rfl⟩ := scan_map_some _ _ _ h2
          obtain ⟨a, b, h3, h4⟩ := ih bpos1 r0 hr0
          exact ⟨pos :: a, b, by simp [h3], by simp [h4]⟩
        cases hs : sorts_after o po with
        | none => simp [hs] at h
        | some b =>
          rw [hs] at h
          cases b with
          | true => exact hcont h
          | false =>
            simp only at h
            split at h
            · exact hcont h
            · cases ha : at_template o po with
              | none => simp [ha] at h
              | some b2 =>
                rw [ha] at h
                cases b2 with
                | true =>
                  simp only at h
                  obtain ⟨items, _, hr⟩ := box_put_map _ _ _ _ _ _ h
                  simp only [Option.some.injEq] at hr
                  subst hr
                  exact ⟨[pos], rest, rfl, rfl⟩
                | false =>
                  simp only at h
                  obtain ⟨items, _, hr⟩ := box_put_map _ _ _ _ _ _ h
                  simp only [Option.some.injEq] at hr
                  subst hr
                  exact ⟨[], pos :: rest, rfl, rfl⟩

theorem link_option_spec (st : State) (tree optr : Nat) (cat cat' : List Ptr)
    (items : Option (List Ptr))
    (t o : option) (hne : tree ≠ optr) (ht : st.deref tree = some t)
    (ho : st.deref optr = some o) (hv : t.value = .tree (some cat))
    (hi : inserted optr cat cat') :
    linked_into st (link_option st tree optr cat' items) tree optr o := by
  have h1 : (st.set_tree tree cat').deref optr = some o := by
    rw [deref_set_tree_ne _ _ _ _ (Ne.symm hne)]; exact ho
  have h2 := deref_set_tree_self st tree cat' t ht
  have hg : same_globals st (st.set_tree tree cat') := by
    refine ⟨set_tree_length _ _ _, ?_, ?_, ?_⟩ <;>
      (unfold State.set_tree; cases st.deref tree <;> rfl)
  have hbase : linked_into st (st.set_tree tree cat') tree optr o :=
    ⟨t, cat, cat', o.box_item, ht, hv, hi, h2, h1,
      fun q hq _ => deref_set_tree_ne _ _ _ _ hq, hg⟩
  unfold link_option
  cases items with
  | none => exact hbase
  | some l =>
    have hbase2 : linked_into st ((st.set_tree tree cat').set_child tree l) tree optr o :=
      ⟨t, cat, cat', o.box_item, ht, hv, hi, h2, h1,
        fun q hq _ => deref_set_tree_ne _ _ _ _ hq, hg⟩
    have h1c : ((st.set_tree tree cat').set_child tree l).deref optr = some o := h1
    simp only [h1c]
    cases hb : o.box_item with
    | none => simpa [hb] using hbase2
    | some b =>
      simp only
      refine ⟨t, cat, cat', some { b with linked := true }, ht, hv, hi, ?_, ?_, ?_, ?_⟩
      · rw [deref_store_ne _ _ _ _ hne]; exact h2
      · exact deref_store_self _ _ _ _ h1c
      · intro q hq1 hq2
        rw [deref_store_ne _ _ _ _ hq2]
        exact deref_set_tree_ne _ _ _ _ hq1
      · exact ⟨by rw [store_length]; exact hg.1, hg.2.1, hg.2.2.1, hg.2.2.2⟩

theorem add_opt_sort_inv (st st' : State) (tree optr : Nat) (abi : Bool) (hne : tree ≠ optr)
    (h : add_opt_sort st tree optr abi = .ok st' ()) :
    ∃ o, st.deref optr = some o ∧ linked_into st st' tree optr o := by
  unfold add_opt_sort at h
  cases ht : st.deref tree with
  | none => simp [ht] at h
  | some t =>
    cases ho : st.deref optr with
    | none => simp [ht, ho] at h
    | some o =>
      rw [ht, ho] at h
      simp only at h
      refine ⟨o, rfl, ?_⟩
      cases hv : t.value with
      | tree tl =>
        rw [hv] at h
        cases tl with
        | none => simp at h
        | some cat =>
          simp only at h
          have happ : inserted optr cat (add_to_list_end cat optr) :=
            ⟨cat, [], by simp, by simp [add_to_list_end]⟩
          have hput : ∀ (f : List Ptr → List Ptr) (cat' : List Ptr), inserted optr cat cat' →
              (match box_put abi (bcat_of st tree t) o f with
                | none => Result.fault
                | some items => Result.ok (link_option st tree optr cat' items) ()) =
                  .ok st' () → linked_into st st' tree optr o := by
            intro f cat' hins h2
            cases hb : box_put abi (bcat_of st tree t) o f with
            | none => simp [hb] at h2
            | some items =>
              rw [hb] at h2
              simp only [Result.ok.injEq, and_true] at h2
              subst h2
              exact link_option_spec st tree optr cat _ items t o hne ht ho hv hins
          cases hl : cat.getLast? with
          | none =>
            rw [hl] at h
            exact hput _ _ ⟨[], cat, rfl, rfl⟩ h
          | some last =>
            rw [hl] at h
            simp only at h
            cases hlo : st.deref last with
            | none => simp [hlo] at h
            | some lo =>
              rw [hlo] at h
              simp only at h
              cases hs : sorts_after o lo with
              | none => simp [hs] at h
              | some b =>
                rw [hs] at h
                cases b with
                | true => exact hput _ _ happ h
                | false =>
                  simp only at h
                  split at h
                  · exact hput _ _ happ h
                  · cases hsc : add_opt_sort_scan st o optr abi (bcat_of st tree t) 0 cat with
                    | none => simp [hsc] at h
                    | some r =>
                      rw [hsc] at h
                      cases r with
                      | none => simp at h
                      | some r1 =>
                        simp only at h
                        split at h
                        · simp at h
                        · simp only [Result.ok.injEq, and_true] at h
                          subst h
                          exact link_option_spec st tree optr cat _ _ t o hne ht ho hv
                            (scan_inserted st o optr abi _ cat 0 r1 hsc)
      | string s => simp [hv] at h
      | number s => simp [hv] at h
      | big_number s => simp [hv] at h
      | color s => simp [hv] at h
      | command s => simp [hv] at h

theorem add_opt_rec_insert_inv (st st' : State) (tree optr : Nat) (hne : tree ≠ optr)
    (h : add_opt_rec_insert st tree optr = .ok st' ()) :
    ∃ o, st.deref optr = some o ∧
      linked_into st st' tree optr { o with root := some tree } := by
  unfold add_opt_rec_insert at h
  cases ht : st.deref tree with
  | none => simp [ht] at h
  | some t =>
    cases ho : st.deref optr with
    | none => simp [ht, ho] at h
    | some o =>
      rw [ht, ho] at h
      simp only at h
      refine ⟨o, rfl, ?_⟩
      generalize hbox : (match t.box_item, o.box_item with
        | some tb, some ob =>
          if tb.linked = true then some { ob with depth := tb.depth + 1 } else some ob
        | _, ob => ob) = box at h
      have hd1 : (st.store optr { o with root := some tree, box_item := box }).deref tree =
          some t := by rw [deref_store_ne _ _ _ _ hne]; exact ht
      have hd2 : (st.store optr { o with root := some tree, box_item := box }).deref optr =
          some { o with root := some tree, box_item := box } := deref_store_self _ _ _ _ ho
      have conv : ∀ o1, o1 = { o with root := some tree, box_item := box } →
          linked_into (st.store optr { o with root := some tree, box_item := box }) st'
            tree optr o1 →
          linked_into st st' tree optr { o with root := some tree } := by
        intro o1 ho1 ⟨t1, cat, cat', b, a1, a2, a3, a4, a5, a6, a7⟩
        rw [hd1] at a1
        cases a1
        subst ho1
        refine ⟨t, cat, cat', b, ht, a2, a3, a4, a5, ?_, ?_⟩
        · intro q hq1 hq2
          rw [a6 q hq1 hq2, deref_store_ne _ _ _ _ hq2]
        · exact ⟨by rw [a7.1, store_length], a7.2.1, a7.2.2.1, a7.2.2.2⟩
      by_cases hsort : t.flags.OPT_SORT = true
      · simp only [hsort, if_true] at h
        obtain ⟨o1, ho1, hl⟩ := add_opt_sort_inv _ _ _ _ _ hne h
        rw [hd2] at ho1
        cases ho1
        exact conv _ rfl hl
      · simp only [hsort, Bool.false_eq_true, if_false, hd1] at h
        cases hv : t.value with
        | tree tl =>
          rw [hv] at h
          cases tl with
          | none => simp at h
          | some cat =>
            simp only [Result.ok.injEq, and_true] at h
            subst h
            exact conv _ rfl (link_option_spec _ tree optr cat _ _ t _ hne hd1 hd2 hv
              ⟨cat, [], by simp, by simp [add_to_list_end]⟩)
        | string s => simp [hv] at h
        | number s => simp [hv] at h
        | big_number s => simp [hv] at h
        | color s => simp [hv] at h
        | command s => simp [hv] at h

/-! ## The lookup of the template -/

theorem split_template_name : split_last_dot template_name = none := by decide

theorem scan_child_of_find (st : State) (tree : Nat) (t : option) (cat : List Ptr)
    (name : cstring) (r : Option Ptr) (ht : st.deref tree = some t)
    (hv : t.value = .tree (some cat)) (hf : find_option st cat name = some r) :
    scan_child st tree name = r := by
  unfold scan_child children
  rw [ht]
  simp only [hv, hf, Option.join]
  rfl

theorem get_opt_rec_template : ∀ (fuel : Nat) (st : State) (tree : Nat) (st1 : State)
    (r : Option Ptr), get_opt_rec fuel st tree template_name = .ok st1 r →
    st1 = st ∧ r = scan_child st tree template_name := by
  intro fuel
  induction fuel with
  | zero => intro st tree st1 r h; simp [get_opt_rec] at h
  | succ fuel ih =>
    intro st tree st1 r h
    unfold get_opt_rec at h
    rw [split_template_name] at h
    simp only at h
    unfold get_opt_rec_last at h
    cases ht : st.deref tree with
    | none => simp [ht] at h
    | some t =>
      rw [ht] at h
      simp only at h
      cases hv : t.value with
      | tree tl =>
        rw [hv] at h
        cases tl with
        | none => simp at h
        | some cat =>
          simp only at h
          cases hf : find_option st cat template_name with
          | none => simp [hf] at h
          | some found =>
            rw [hf] at h
            have hsc := scan_child_of_find st tree t cat template_name found ht hv hf
            cases found with
            | some opt =>
              simp only [Result.ok.injEq] at h
              obtain ⟨rfl, rfl⟩ := h
              exact ⟨rfl, hsc.symm⟩
            | none =>
              simp only at h
              split at h
              · rw [bind_eq_ok] at h
                obtain ⟨st2, r2, h1, h2⟩ := h
                obtain ⟨rfl, hr2⟩ := ih _ _ _ _ h1
                rw [hsc] at hr2
                subst hr2
                simp only [Result.ok.injEq] at h2
                obtain ⟨rfl, rfl⟩ := h2
                exact ⟨rfl, hsc.symm⟩
              · simp only [Result.ok.injEq] at h
                obtain ⟨rfl, rfl⟩ := h
                exact ⟨rfl, hsc.symm⟩
      | string s => simp [hv] at h
      | number s => simp [hv] at h
      | big_number s => simp [hv] at h
      | color s => simp [hv] at h
      | command s => simp [hv] at h

theorem find_option_congr (st st' : State) (l : List Ptr) (name : cstring)
    (h : ∀ c ∈ l, st'.deref c = st.deref c) :
    find_option st' l name = find_option st l name := by
  induction l with
  | nil => rfl
  | cons p ps ih =>
    simp only [find_option, h p (by simp), ih (fun c hc => h c (by simp [hc]))]

theorem find_option_valid (st : State) (l : List Ptr) (name : cstring)
    (h : find_option st l name = some none) : ∀ c ∈ l, c < st.mem.length := by
  induction l with
  | nil => intro c hc; simp at hc
  | cons p ps ih =>
    simp only [find_option] at h
    cases hp : st.deref p with
    | none => simp [hp] at h
    | some o =>
      rw [hp] at h
      simp only at h
      have hrest : find_option st ps name = some none := by
        cases hn : o.name with
        | none => rw [hn] at h; exact h
        | some nm =>
          rw [hn] at h
          simp only at h
          split at h
          · simp at h
          · exact h
      intro c hc
      rcases List.mem_cons.1 hc with rfl | hin
      · exact deref_lt _ _ _ hp
      · exact ih hrest c hin

theorem find_option_mem (st : State) (l : List Ptr) (name : cstring) (n : Nat)
    (h : find_option st l name = some (some n)) : n ∈ l := by
  induction l with
  | nil => simp [find_option] at h
  | cons p ps ih =>
    simp only [find_option] at h
    cases hp : st.deref p with
    | none => simp [hp] at h
    | some o =>
      rw [hp] at h
      simp only at h
      cases hn : o.name with
      | none => rw [hn] at h; exact List.mem_cons_of_mem _ (ih h)
      | some nm =>
        rw [hn] at h
        simp only at h
        split at h
        · simp only [Option.some.injEq] at h
          subst h
          simp
        · exact List.mem_cons_of_mem _ (ih h)

theorem add_opt_rec_visible_skip (lookup : State → Ptr → cstring → Result (Option Ptr))
    (st : State) (optr : Nat) (o : option) (ho : st.deref optr = some o)
    (hn : o.name ≠ some template_name) :
    add_opt_rec_visible lookup st optr = .ok st () := by
  unfold add_opt_rec_visible
  rw [ho]
  simp only
  cases hb : o.box_item with
  | none => rfl
  | some b =>
    cases hnm : o.name with
    | none => rfl
    | some n =>
      simp only
      have : strcmp n template_name ≠ 0 := by
        intro h0
        apply hn
        rw [hnm, (strcmp_eq_zero_iff _ _).1 h0]
      simp [this]

theorem add_opt_rec_desc_inv (fuel : Nat) (st st' : State) (tree optr : Nat)
    (h : add_opt_rec_desc (get_opt_rec fuel) st tree optr = .ok st' ()) :
    ∃ o, st.deref optr = some o ∧
      (st' = st ∨
        ∃ T tm, scan_child st tree template_name = some T ∧ st.deref T = some tm ∧
          o.desc = none ∧ st' = st.store optr { o with desc := tm.desc }) := by
  unfold add_opt_rec_desc at h
  cases ht : st.deref tree with
  | none => simp [ht] at h
  | some t =>
    cases ho : st.deref optr with
    | none => simp [ht, ho] at h
    | some o =>
      rw [ht, ho] at h
      simp only at h
      refine ⟨o, rfl, ?_⟩
      split at h
      · rename_i hcond
        rw [bind_eq_ok] at h
        obtain ⟨st1, r, h1, h2⟩ := h
        obtain ⟨rfl, hr⟩ := get_opt_rec_template _ _ _ _ _ h1
        cases r with
        | none => simp at h2
        | some T =>
          simp only at h2
          cases hT : st1.deref T with
          | none => simp [hT] at h2
          | some tm =>
            rw [hT, ho] at h2
            simp only [Result.ok.injEq, and_true] at h2
            exact Or.inr ⟨T, tm, hr.symm, hT, hcond.2, h2.symm⟩
      · simp only [Result.ok.injEq, and_true] at h
        exact Or.inl h.symm

/-! ## The last step of a lookup -/

theorem get_opt_rec_last_inv (f1 f2 : Nat) (st st' : State) (tree : Nat) (name : cstring)
    (r : Option Ptr)
    (h : get_opt_rec_last (get_opt_rec f1) (copy_option f2) st tree name = .ok st' r) :
    (st' = st ∧ r = scan_child st tree name) ∨
      ∃ optr, r = some optr ∧ st.no_autocreate = 0 ∧ autocreated st st' tree optr name := by
  unfold get_opt_rec_last at h
  cases ht : st.deref tree with
  | none => simp [ht] at h
  | some t =>
    rw [ht] at h
    simp only at h
    cases hv : t.value with
    | string s => simp [hv] at h
    | number s => simp [hv] at h
    | big_number s => simp [hv] at h
    | color s => simp [hv] at h
    | command s => simp [hv] at h
    | tree tl =>
      rw [hv] at h
      cases tl with
      | none => simp at h
      | some cat =>
        simp only at h
        cases hf : find_option st cat name with
        | none => simp [hf] at h
        | some found =>
          rw [hf] at h
          have hsc := scan_child_of_find st tree t cat name found ht hv hf
          cases found with
          | some opt =>
            simp only [Result.ok.injEq] at h
            obtain ⟨rfl, rfl⟩ := h
            exact Or.inl ⟨rfl, hsc.symm⟩
          | none =>
            simp only at h
            split at h
            swap
            · simp only [Result.ok.injEq] at h
              obtain ⟨rfl, rfl⟩ := h
              exact Or.inl ⟨rfl, hsc.symm⟩
            rename_i hcond
            rw [bind_eq_ok] at h
            obtain ⟨st1, r1, h1, h2⟩ := h
            obtain ⟨rfl, hr1⟩ := get_opt_rec_template _ _ _ _ _ h1
            cases r1 with
            | none =>
              simp only [Result.ok.injEq] at h2
              obtain ⟨rfl, rfl⟩ := h2
              exact Or.inl ⟨rfl, hsc.symm⟩
            | some T =>
              simp only at h2
              rw [bind_eq_ok] at h2
              obtain ⟨st2, optr, hcp, h3⟩ := h2
              obtain ⟨hoptr, hfr, hlen, tm, v, hT, hnew⟩ := copy_option_inv _ _ _ _ _ _ hcp
              rw [hnew] at h3
              simp only at h3
              rw [bind_eq_ok] at h3
              obtain ⟨st3, _, hadd, h4⟩ := h3
              simp only [Result.ok.injEq] at h4
              obtain ⟨rfl, rfl⟩ := h4
              refine Or.inr ⟨optr, rfl, hcond.2, ?_⟩
              -- the memory the option is added to
              have hvalid := find_option_valid st1 cat name hf
              have htlt : tree < st1.mem.length := deref_lt _ _ _ ht
              have hne : tree ≠ optr := by rw [hoptr]; exact Nat.ne_of_lt htlt
              have hTcat : find_option st1 cat template_name = some (some T) := by
                have := scan_child_of_find st1 tree t cat template_name
                unfold scan_child children at hr1
                rw [ht] at hr1
                simp only [hv] at hr1
                cases hft : find_option st1 cat template_name with
                | none => rw [hft] at hr1; simp [Option.join] at hr1
                | some x =>
                  rw [hft] at hr1
                  simp only [Option.join] at hr1
                  have : x = some T := hr1.symm
                  rw [this]
              have hname : name ≠ template_name := by
                intro e
                rw [e, hTcat] at hf
                simp at hf
              generalize hst2' : st2.store optr
                { ({ copy_record tm
                      { CO_SHALLOW := false, CO_NO_LISTBOX_ITEM := false } with value := v } :
                      option) with name := some name } = st2' at hadd
              have hold : ∀ q, q < st1.mem.length → st2'.deref q = st1.deref q := by
                intro q hq
                rw [← hst2', deref_store_ne _ _ _ _ (by rw [hoptr]; exact Nat.ne_of_lt hq)]
                exact hfr.2.1 q hq
              have hnew2 : st2'.deref optr = some
                  { ({ copy_record tm
                      { CO_SHALLOW := false, CO_NO_LISTBOX_ITEM := false } with value := v } :
                      option) with name := some name } := by
                rw [← hst2']
                exact deref_store_self _ _ _ _ hnew
              have hg2 : frame_below 0 st1 st2' := by
                rw [← hst2']
                exact frame_below_trans _ _ _ _ (frame_below_mono 0 _ _ _ (Nat.zero_le _) hfr)
                  (frame_below_store 0 _ _ _ (Nat.zero_le _))
              unfold add_opt_rec at hadd
              simp only [if_true, Result.bind, hold tree htlt, ht, hv] at hadd
              rw [add_opt_rec_visible_skip _ st2' optr _ hnew2
                (by simp only [ne_eq, Option.some.injEq]; exact hname)] at hadd
              simp only at hadd
              cases hdesc : add_opt_rec_desc (get_opt_rec f1) st2' tree optr with
              | fault => simp [hdesc] at hadd
              | out_of_fuel => simp [hdesc] at hadd
              | ok st3a u =>
                rw [hdesc] at hadd
                simp only at hadd
                obtain ⟨o2, ho2, hcase⟩ := add_opt_rec_desc_inv _ _ _ _ _ hdesc
                rw [hnew2] at ho2
                cases ho2
                -- the record after the description step
                have hscan2 : scan_child st2' tree template_name = some T := by
                  rw [scan_child_of_find st2' tree t cat template_name (some (some T)).join
                    (by rw [hold tree htlt]; exact ht) hv
                    (by rw [find_option_congr st1 st2' cat template_name
                          (fun c hc => hold c (hvalid c hc)), hTcat]; rfl)]
                  rfl
                have hTlt : T < st1.mem.length := deref_lt _ _ _ hT
                have h3a : st3a.deref optr = some
                    { ({ copy_record tm
                      { CO_SHALLOW := false, CO_NO_LISTBOX_ITEM := false } with value := v } :
                      option) with name := some name } ∧
                    (∀ q, q ≠ optr → st3a.deref q = st2'.deref q) ∧ same_globals st2' st3a := by
                  rcases hcase with rfl | ⟨T2, tm2, hs2, hT2, hd0, rfl⟩
                  · exact ⟨hnew2, fun _ _ => rfl, rfl, rfl, rfl, rfl⟩
                  · rw [hscan2] at hs2
                    cases hs2
                    rw [hold T hTlt, hT] at hT2
                    cases hT2
                    refine ⟨?_, fun q hq => deref_store_ne _ _ _ _ hq,
                      store_length _ _ _, rfl, rfl, rfl⟩
                    rw [deref_store_self _ _ _ _ hnew2]
                    simp only [copy_record] at hd0 ⊢
                obtain ⟨h3o, h3q, h3g⟩ := h3a
                obtain ⟨o4, ho4, t4, cat4, cat', b, a1, a2, a3, a4, a5, a6, a7⟩ :=
                  add_opt_rec_insert_inv _ _ _ _ hne hadd
                rw [h3o] at ho4
                cases ho4
                rw [h3q tree hne, hold tree htlt, ht] at a1
                cases a1
                rw [hv] at a2
                cases a2
                refine ⟨t, cat, cat', T, tm, _, ht, hv, hcond.1, hf, hr1.symm, hT, hoptr, a3,
                  a4, a5, rfl, rfl, rfl, rfl, rfl, rfl, rfl, rfl, rfl, ?_, ?_⟩
                · intro q hq hqt
                  have hqo : q ≠ optr := by rw [hoptr]; exact Nat.ne_of_lt hq
                  rw [a6 q hqt hqo, h3q q hqo, hold q hq]
                · refine ⟨?_, fun p hp => absurd hp (Nat.not_lt_zero _), ?_, ?_, ?_⟩
                  · rw [a7.1, h3g.1]; exact hg2.1
                  · rw [a7.2.2.1, h3g.2.2.1]; exact hg2.2.2.1
                  · rw [a7.2.2.2, h3g.2.2.2]; exact hg2.2.2.2.1
                  · rw [a7.2.1, h3g.2.1]; exact hg2.2.2.2.2

/-! ## Lookups after an autocreation -/

theorem find_option_kept (st st' : State) (hN : names_kept st st') (l : List Ptr)
    (seg : cstring) (r : Option Ptr) (h : find_option st l seg = some r) :
    find_option st' l seg = some r := by
  induction l with
  | nil => exact h
  | cons p ps ih =>
    simp only [find_option] at h ⊢
    cases hp : st.deref p with
    | none => simp [hp] at h
    | some o =>
      rw [hp] at h
      obtain ⟨o', ho', hn⟩ := hN p o hp
      rw [ho']
      simp only at h ⊢
      rw [hn]
      cases hnm : o.name with
      | none => rw [hnm] at h; exact ih h
      | some nm =>
        rw [hnm] at h
        simp only at h ⊢
        split
        · rename_i h0; simpa [h0] using h
        · rename_i h0; simp only [h0, if_false] at h; exact ih h

theorem find_option_append (st : State) (l1 l2 : List Ptr) (seg : cstring) :
    find_option st (l1 ++ l2) seg =
      match find_option st l1 seg with
      | some none => find_option st l2 seg
      | r => r := by
  induction l1 with
  | nil => rfl
  | cons p ps ih =>
    simp only [List.cons_append, find_option]
    cases hp : st.deref p with
    | none => rfl
    | some o =>
      simp only
      cases hn : o.name with
      | none => exact ih
      | some nm =>
        simp only
        split
        · rfl
        · exact ih

theorem find_option_inserted (st st' : State) (hN : names_kept st st') (x : Nat)
    (cat cat' : List Ptr) (hi : inserted x cat cat') (name seg : cstring) (ox : option)
    (hx : st'.deref x = some ox) (hxn : ox.name = some name)
    (hnone : find_option st cat name = some none) (r : Option Ptr)
    (h : find_option st cat seg = some r) :
    find_option st' cat' seg = some (if seg = name then some x else r) := by
  obtain ⟨l1, l2, rfl, rfl⟩ := hi
  rw [find_option_append] at h hnone ⊢
  have hx1 : find_option st' (x :: l2) seg =
      if seg = name then some (some x) else find_option st' l2 seg := by
    simp only [find_option, hx, hxn]
    by_cases e : seg = name
    · subst e; simp [(strcmp_eq_zero_iff seg seg).2 rfl]
    · have : strcmp name seg ≠ 0 := fun h0 => e ((strcmp_eq_zero_iff _ _).1 h0).symm
      simp [this, e]
  cases h1 : find_option st l1 name with
  | none => simp [h1] at hnone
  | some r1 =>
    rw [h1] at hnone
    cases r1 with
    | some y => simp at hnone
    | none =>
      simp only at hnone
      cases h2 : find_option st l1 seg with
      | none => simp [h2] at h
      | some r2 =>
        rw [h2] at h
        rw [find_option_kept st st' hN l1 seg r2 h2]
        cases r2 with
        | some y =>
          simp only [Option.some.injEq] at h ⊢
          subst h
          have : seg ≠ name := by
            intro e
            rw [e, h1] at h2
            simp at h2
          simp [this]
        | none =>
          simp only at h ⊢
          rw [hx1]
          by_cases e : seg = name
          · simp [e]
          · simp only [e, if_false]
            exact find_option_kept st st' hN l2 seg r h

theorem autocreated_names_kept (st st' : State) (tree optr : Nat) (name : cstring)
    (h : autocreated st st' tree optr name) : names_kept st st' := by
  obtain ⟨t, cat, cat', T, tm, o', ht, hv, _, _, _, _, _, _, ht', _, _, _, _, _, _, _, _, _, _,
    hq, _⟩ := h
  intro q o ho
  by_cases e : q = tree
  · subst e
    rw [ht] at ho
    cases ho
    exact ⟨_, ht', rfl⟩
  · exact ⟨o, by rw [hq q (deref_lt _ _ _ ho) e]; exact ho, rfl⟩

theorem autocreated_passable (st st' : State) (tree optr : Nat) (name : cstring)
    (h : autocreated st st' tree optr name) (p : Nat) (hp : passable st p = true) :
    passable st' p = true := by
  obtain ⟨t, cat, cat', T, tm, o', ht, hv, _, _, _, _, _, _, ht', _, _, _, _, _, _, _, _, _, _,
    hq, _⟩ := h
  unfold passable at hp ⊢
  cases ho : st.deref p with
  | none => simp [ho] at hp
  | some o =>
    rw [ho] at hp
    by_cases e : p = tree
    · subst e
      rw [ht] at ho
      cases ho
      rw [ht']
      exact hp
    · rw [hq p (deref_lt _ _ _ ho) e, ho]
      exact hp

theorem autocreated_scan_child (st st' : State) (tree optr : Nat) (name : cstring)
    (h : autocreated st st' tree optr name) (p : Nat) (seg : cstring) (m : Nat)
    (hs : scan_child st p seg = some m) : scan_child st' p seg = some m := by
  have hN := autocreated_names_kept _ _ _ _ _ h
  obtain ⟨t, cat, cat', T, tm, o', ht, hv, _, hf, _, _, _, hi, ht', ho', hn', _, _, _, _, _, _,
    _, _, hq, _⟩ := h
  unfold scan_child children at hs ⊢
  cases ho : st.deref p with
  | none => simp [ho] at hs
  | some o =>
    rw [ho] at hs
    simp only at hs
    by_cases e : p = tree
    · subst e
      rw [ht] at ho
      cases ho
      rw [ht']
      rw [hv] at hs
      simp only at hs ⊢
      cases hfs : find_option st cat seg with
      | none => simp [hfs, Option.join] at hs
      | some r =>
        rw [hfs] at hs
        have hr : r = some m := hs
        subst hr
        rw [find_option_inserted st st' hN optr cat cat' hi name seg o' ho' hn' hf _ hfs]
        have : seg ≠ name := by
          intro e2
          rw [e2, hf] at hfs
          simp at hfs
        simp [this, Option.join]
    · rw [hq p (deref_lt _ _ _ ho) e, ho]
      simp only
      cases hvv : o.value with
      | tree tl =>
        rw [hvv] at hs
        cases tl with
        | none => simp at hs
        | some l =>
          simp only at hs ⊢
          cases hfs : find_option st l seg with
          | none => simp [hfs, Option.join] at hs
          | some r =>
            rw [hfs] at hs
            rw [find_option_kept st st' hN l seg r hfs]
            exact hs
      | string s => simp [hvv] at hs
      | number s => simp [hvv] at hs
      | big_number s => simp [hvv] at hs
      | color s => simp [hvv] at hs
      | command s => simp [hvv] at hs

theorem autocreated_walks_kept (st st' : State) (tree optr : Nat) (name : cstring)
    (h : autocreated st st' tree optr name) : walks_kept st st' := by
  intro p segs
  induction segs generalizing p with
  | nil => intro m hm; exact hm
  | cons s rest ih =>
    intro m hm
    simp only [walk] at hm ⊢
    cases hs : scan_child st p s with
    | none => simp [hs] at hm
    | some c =>
      rw [hs] at hm
      rw [autocreated_scan_child _ _ _ _ _ h p s c hs]
      simp only at hm ⊢
      by_cases hr : rest = []
      · simpa [hr] using hm
      · simp only [hr, if_false] at hm ⊢
        by_cases hp : passable st c = true
        · simp only [hp, if_true] at hm
          simp only [autocreated_passable _ _ _ _ _ h c hp, if_true]
          exact ih c m hm
        · simp [hp] at hm

theorem autocreated_scan_new (st st' : State) (tree optr : Nat) (name : cstring)
    (h : autocreated st st' tree optr name) : scan_child st' tree name = some optr := by
  have hN := autocreated_names_kept _ _ _ _ _ h
  obtain ⟨t, cat, cat', T, tm, o', ht, hv, _, hf, _, _, _, hi, ht', ho', hn', _, _, _, _, _, _,
    _, _, hq, _⟩ := h
  unfold scan_child children
  rw [ht']
  simp only
  rw [find_option_inserted st st' hN optr cat cat' hi name name o' ho' hn' hf _ hf]
  simp [Option.join]

theorem last_step_post (f1 f2 : Nat) (st st' : State) (t : Nat) (last : cstring)
    (r : Option Ptr)
    (h : get_opt_rec_last (get_opt_rec f1) (copy_option f2) st t last = .ok st' r) :
    walks_kept st st' ∧ (∀ p, passable st p = true → passable st' p = true) ∧
      st'.no_autocreate = st.no_autocreate ∧
      (∀ n, r = some n → scan_child st' t last = some n) := by
  rcases get_opt_rec_last_inv _ _ _ _ _ _ _ h with ⟨rfl, hr⟩ | ⟨optr, hr, _, hauto⟩
  · exact ⟨fun _ _ _ hm => hm, fun _ hp => hp, rfl, fun n hn => by rw [← hr, hn]⟩
  · refine ⟨autocreated_walks_kept _ _ _ _ _ hauto,
      fun p hp => autocreated_passable _ _ _ _ _ hauto p hp, ?_, ?_⟩
    · obtain ⟨_, _, _, _, _, _, _, _, _, _, _, _, _, _, _, _, _, _, _, _, _, _, _, _, _, _,
        hfr⟩ := hauto
      exact hfr.2.2.1
    · intro n hn
      rw [hr] at hn
      cases hn
      exact autocreated_scan_new _ _ _ _ _ hauto

theorem walk_single (st : State) (p : Nat) (s : cstring) :
    walk st p [s] = scan_child st p s := by
  simp only [walk]
  cases scan_child st p s <;> simp

theorem get_opt_rec_post : ∀ (fuel : Nat) (st : State) (tree : Nat) (name_ : cstring)
    (st' : State) (r : Option Ptr), get_opt_rec fuel st tree name_ = .ok st' r →
    walks_kept st st' ∧ (∀ p, passable st p = true → passable st' p = true) ∧
      st'.no_autocreate = st.no_autocreate ∧
      (∀ n, r = some n → walk st' tree (segments name_) = some n) := by
  intro fuel
  induction fuel with
  | zero => intro st tree name_ st' r h; simp [get_opt_rec] at h
  | succ fuel ih =>
    intro st tree name_ st' r h
    unfold get_opt_rec at h
    cases hsp : split_last_dot name_ with
    | none =>
      rw [hsp] at h
      simp only at h
      obtain ⟨h1, h2, h3, h4⟩ := last_step_post _ _ _ _ _ _ _ h
      refine ⟨h1, h2, h3, fun n hn => ?_⟩
      rw [segments_of_split_none _ hsp, walk_single]
      exact h4 n hn
    | some fl =>
      obtain ⟨front, last⟩ := fl
      rw [hsp] at h
      simp only at h
      rw [bind_eq_ok] at h
      obtain ⟨st1, r1, hfront, h2⟩ := h
      obtain ⟨k1, k2, k3, k4⟩ := ih _ _ _ _ _ hfront
      cases r1 with
      | none =>
        simp only [Result.ok.injEq] at h2
        obtain ⟨rfl, rfl⟩ := h2
        exact ⟨k1, k2, k3, fun n hn => by cases hn⟩
      | some t =>
        simp only at h2
        cases ht : st1.deref t with
        | none => simp [ht] at h2
        | some o =>
          rw [ht] at h2
          simp only at h2
          split at h2
          · simp only [Result.ok.injEq] at h2
            obtain ⟨rfl, rfl⟩ := h2
            exact ⟨k1, k2, k3, fun n hn => by cases hn⟩
          · rename_i hcond
            obtain ⟨h1, hp, h3, h4⟩ := last_step_post _ _ _ _ _ _ _ h2
            refine ⟨fun p segs m hm => h1 _ _ _ (k1 _ _ _ hm), fun p hpp => hp _ (k2 _ hpp),
              by rw [h3, k3], fun n hn => ?_⟩
            rw [segments_of_split_some _ _ _ hsp, walk_snoc _ _ _ _ (segments_ne_nil front),
              h1 _ _ _ (k4 t rfl)]
            have hpass : passable st1 t = true := by
              unfold passable
              rw [ht]
              simp only [not_or, ne_eq, not_not, Bool.not_eq_true] at hcond
              simp [hcond.1, hcond.2]
            simp only [hp t hpass, if_true]
            exact h4 n hn

theorem walk_mem_congr (st st2 : State) (hm : st2.mem = st.mem) (p : Nat)
    (segs : List cstring) : walk st2 p segs = walk st p segs := by
  have hd : ∀ q, st2.deref q = st.deref q := fun q => by unfold State.deref; rw [hm]
  have hs : ∀ q s, scan_child st2 q s = scan_child st q s := by
    intro q s
    unfold scan_child children
    rw [hd q]
    cases st.deref q with
    | none => rfl
    | some o =>
      simp only
      cases o.value with
      | tree tl =>
        cases tl with
        | none => rfl
        | some l => simp only; rw [find_option_congr st st2 l s (fun c _ => hd c)]
      | string s => rfl
      | number s => rfl
      | big_number s => rfl
      | color s => rfl
      | command s => rfl
  have hp : ∀ q, passable st2 q = passable st q := fun q => by unfold passable; rw [hd q]
  induction segs generalizing p with
  | nil => rfl
  | cons s rest ih =>
    simp only [walk, hs, hp]
    cases scan_child st p s with
    | none => rfl
    | some c => simp only [ih c]

/-- C3: resolution is idempotent.  When a Normal-mode `get_opt_rec` returns a
node `n`, found or just autocreated, and leaves the memory `st'`, every further
lookup of the same path on `st'`, by `get_opt_rec` or by the Strict
`get_opt_rec_real`, returns `n` again and leaves `st'` as it is. -/
theorem C3_lookup_idempotent (fuel fuel' : Nat) (st st' : State) (tree n : Nat)
    (name_ : cstring) (h0 : st.no_autocreate = 0)
    (h : get_opt_rec fuel st tree name_ = .ok st' (some n))
    (hf : (segments name_).length ≤ fuel') :
    get_opt_rec fuel' st' tree name_ = .ok st' (some n) ∧
      get_opt_rec_real fuel' st' tree name_ = .ok st' (some n) := by
  obtain ⟨_, _, hna, hw⟩ := get_opt_rec_post _ _ _ _ _ _ h
  have hw1 := hw n rfl
  refine ⟨get_opt_rec_of_walk st' tree n fuel' name_ hf hw1, ?_⟩
  unfold get_opt_rec_real
  have hw2 : walk { st' with no_autocreate := 1 } tree (segments name_) = some n := by
    rw [walk_mem_congr st' { st' with no_autocreate := 1 } rfl]; exact hw1
  rw [get_opt_rec_of_walk _ tree n fuel' name_ hf hw2]
  simp only [Result.bind]
  have : ({ st' with no_autocreate := 0 } : State) = st' := by
    cases st'
    simp only [State.mk.injEq, true_and]
    simp only at hna
    rw [hna, h0]
    simp
  rw [this]

theorem C3_lookup_idempotent_witness :
    st_terminal.no_autocreate = 0 ∧
    get_opt_rec 5 st_terminal 0 "terminal.linux.type".toList = .ok st_linux (some 6) ∧
    (segments "terminal.linux.type".toList).length ≤ 3 ∧
    (get_opt_rec 3 st_linux 0 "terminal.linux.type".toList = .ok st_linux (some 6) ∧
      get_opt_rec_real 3 st_linux 0 "terminal.linux.type".toList = .ok st_linux (some 6)) :=
  ⟨by decide, by decide, by decide,
   C3_lookup_idempotent 5 3 st_terminal st_linux 0 6 "terminal.linux.type".toList
     (by decide) (by decide) (by decide)⟩

/-! ## The template under its tree -/

theorem get_opt_rec_template_found (fuel : Nat) (st : State) (tree T : Nat) (hf : 1 ≤ fuel)
    (h : scan_child st tree template_name = some T) :
    get_opt_rec fuel st tree template_name = .ok st (some T) := by
  apply get_opt_rec_of_walk
  · rw [segments_of_split_none _ split_template_name]; exact hf
  · rw [segments_of_split_none _ split_template_name, walk_single]; exact h

theorem split_last_dot_no_dot (x : cstring) (h : '.' ∉ x) : split_last_dot x = none := by
  induction x with
  | nil => rfl
  | cons c cs ih =>
    simp only [List.mem_cons, not_or] at h
    simp only [split_last_dot, ih h.2]
    have : c ≠ '.' := fun e => h.1 e.symm
    simp [this]

/-! ## Strict lookups -/

theorem children_of_has_tree (st : State) (p : Nat) (o : option) (ho : st.deref p = some o)
    (h : o.has_tree = true) : ∃ cat, o.value = .tree (some cat) ∧ children st p = some cat := by
  unfold option.has_tree at h
  unfold children
  rw [ho]
  cases hv : o.value with
  | tree tl =>
    cases tl with
    | none => simp [hv] at h
    | some cat => exact ⟨cat, rfl, by simp only [hv]⟩
  | string s => simp [hv] at h
  | number s => simp [hv] at h
  | big_number s => simp [hv] at h
  | color s => simp [hv] at h
  | command s => simp [hv] at h

theorem children_some_inv (st : State) (p : Nat) (cat : List Ptr)
    (h : children st p = some cat) :
    ∃ o, st.deref p = some o ∧ o.value = .tree (some cat) := by
  unfold children at h
  cases ho : st.deref p with
  | none => simp [ho] at h
  | some o =>
    rw [ho] at h
    simp only at h
    cases hv : o.value with
    | tree tl =>
      rw [hv] at h
      simp only at h
      subst h
      exact ⟨o, rfl, hv⟩
    | string s => simp [hv] at h
    | number s => simp [hv] at h
    | big_number s => simp [hv] at h
    | color s => simp [hv] at h
    | command s => simp [hv] at h

theorem get_opt_rec_last_strict (lookup : State → Ptr → cstring → Result (Option Ptr))
    (copy : State → Ptr → copy_option_flags → Result Ptr) (st : State) (hc : closed st)
    (hna : st.no_autocreate ≠ 0) (t : Nat) (cat : List Ptr) (name : cstring)
    (h : children st t = some cat) :
    get_opt_rec_last lookup copy st t name = .ok st (scan_child st t name) := by
  obtain ⟨o, ho, hv⟩ := children_some_inv st t cat h
  have hfind := find_option_eq_find st cat name (children_valid st hc t cat h)
  have hsc := scan_child_of_find st t o cat name _ ho hv hfind
  unfold get_opt_rec_last
  rw [ho]
  simp only [hv, hfind]
  rw [hsc]
  cases List.find? (has_name st name) cat with
  | some n => rfl
  | none => simp [hna]

theorem scan_child_valid (st : State) (p n : Nat) (seg : cstring)
    (h : scan_child st p seg = some n) : ∃ o, st.deref n = some o := by
  unfold scan_child at h
  cases hc : children st p with
  | none => simp [hc] at h
  | some l =>
    rw [hc] at h
    simp only at h
    cases hf : find_option st l seg with
    | none => simp [hf, Option.join] at h
    | some r =>
      rw [hf] at h
      have hr : r = some n := h
      subst hr
      have := find_option_some_name st l seg n hf
      unfold has_name at this
      cases ho : st.deref n with
      | none => simp [ho] at this
      | some o => exact ⟨o, rfl⟩

theorem walk_valid (st : State) (p n : Nat) (segs : List cstring) (hne : segs ≠ [])
    (h : walk st p segs = some n) : ∃ o, st.deref n = some o := by
  induction segs generalizing p with
  | nil => exact absurd rfl hne
  | cons s rest ih =>
    simp only [walk] at h
    cases hs : scan_child st p s with
    | none => simp [hs] at h
    | some c =>
      rw [hs] at h
      simp only at h
      by_cases hr : rest = []
      · simp only [hr, if_true, Option.some.injEq] at h
        subst h
        exact scan_child_valid st p c s hs
      · simp only [hr, if_false] at h
        by_cases hp : passable st c = true
        · simp only [hp, if_true] at h
          exact ih c hr h
        · simp [hp] at h

theorem get_opt_rec_strict (st : State) (hc : closed st) (hty : typed st)
    (hna : st.no_autocreate ≠ 0) (tree : Nat) (htree : (children st tree).isSome = true) :
    ∀ (fuel : Nat) (name_ : cstring), (segments name_).length ≤ fuel →
      get_opt_rec fuel st tree name_ = .ok st (walk st tree (segments name_)) := by
  obtain ⟨cat0, hcat0⟩ := Option.isSome_iff_exists.1 htree
  intro fuel
  induction fuel with
  | zero =>
    intro name_ hlen
    have := segments_ne_nil name_
    cases hs : segments name_ with
    | nil => exact absurd hs this
    | cons a as => rw [hs] at hlen; simp at hlen
  | succ fuel ih =>
    intro name_ hlen
    unfold get_opt_rec
    cases hsp : split_last_dot name_ with
    | none =>
      simp only
      rw [segments_of_split_none _ hsp, walk_single]
      exact get_opt_rec_last_strict _ _ st hc hna tree cat0 name_ hcat0
    | some fl =>
      obtain ⟨front, last⟩ := fl
      simp only
      have hseg := segments_of_split_some _ _ _ hsp
      rw [hseg] at hlen ⊢
      rw [ih front (by simp at hlen; omega), walk_snoc _ _ _ _ (segments_ne_nil front)]
      simp only [Result.bind]
      cases hw : walk st tree (segments front) with
      | none => rfl
      | some t =>
        simp only
        obtain ⟨o, ho⟩ := walk_valid st tree t _ (segments_ne_nil front) hw
        rw [ho]
        simp only
        by_cases hp : passable st t = true
        · obtain ⟨o2, ho2, hot, hoh⟩ := passable_deref st t hp
          rw [ho] at ho2
          cases ho2
          simp only [hot, hoh, hp, ne_eq, not_true_eq_false, Bool.false_eq_true, or_self,
            if_false, if_true]
          obtain ⟨cat, _, hcat⟩ := children_of_has_tree st t o ho
            (hty o (deref_mem st t o ho) hot)
          exact get_opt_rec_last_strict _ _ st hc hna t cat last hcat
        · have hcond : o.type ≠ .OPT_TREE ∨ o.flags.OPT_HIDDEN = true := by
            unfold passable at hp
            rw [ho] at hp
            simp only [Bool.and_eq_true, decide_eq_true_eq, Bool.not_eq_true', not_and,
              Bool.not_eq_false] at hp
            by_cases e : o.type = .OPT_TREE
            · exact Or.inr (hp e)
            · exact Or.inl e
          simp only [hcond, if_true, hp, Bool.false_eq_true, if_false]

/-- C4: a Strict lookup creates nothing.  On a memory without dangling child
pointers in which every Tree owns a children collection, `get_opt_rec_real`
leaves records, buffers and `config_options` exactly as they were, leaves
`no_autocreate` at 0, and returns what the segment-wise descent finds among the
nodes that already exist: absent as soon as a segment names no existing child,
whatever the flags of the parent. -/
theorem C4_strict_lookup_creates_nothing (st : State) (tree : Nat) (name : cstring)
    (fuel : Nat) (hc : closed st) (hty : typed st)
    (htree : (children st tree).isSome = true) (hf : (segments name).length ≤ fuel) :
    get_opt_rec_real fuel st tree name =
      .ok { st with no_autocreate := 0 } (descend st tree (segments name)) := by
  unfold get_opt_rec_real
  have h1 : closed { st with no_autocreate := 1 } := hc
  have h2 : typed { st with no_autocreate := 1 } := hty
  have h3 : (children { st with no_autocreate := 1 } tree).isSome = true := htree
  rw [get_opt_rec_strict { st with no_autocreate := 1 } h1 h2 (by simp) tree h3 fuel name hf]
  simp only [Result.bind]
  rw [walk_mem_congr st { st with no_autocreate := 1 } rfl, walk_eq_descend st hc]

theorem C4_strict_lookup_creates_nothing_witness :
    closed st_terminal ∧ typed st_terminal ∧ (children st_terminal 0).isSome = true ∧
    (segments "terminal.linux.type".toList).length ≤ 3 ∧
    descend st_terminal 0 (segments "terminal.linux.type".toList) = none ∧
    get_opt_rec_real 3 st_terminal 0 "terminal.linux.type".toList =
      .ok { st_terminal with no_autocreate := 0 }
        (descend st_terminal 0 (segments "terminal.linux.type".toList)) :=
  ⟨by decide, by decide, by decide, by decide, by decide,
   C4_strict_lookup_creates_nothing st_terminal 0 "terminal.linux.type".toList 3
     (by decide) (by decide) (by decide) (by decide)⟩

/-! ## Sorted insertion -/

theorem meta_eq_refl (st : State) : meta_eq st st := fun _ => rfl

theorem meta_eq_trans (a b c : State) (h1 : meta_eq a b) (h2 : meta_eq b c) : meta_eq a c :=
  fun q => (h2 q).trans (h1 q)

theorem meta_eq_store (st : State) (p : Nat) (o o' : option) (ho : st.deref p = some o)
    (hn : o'.name = o.name) (ht : o'.type = o.type) : meta_eq st (st.store p o') := by
  intro q
  by_cases e : q = p
  · subst e
    rw [deref_store_self _ _ _ _ ho, ho]
    simp [hn, ht]
  · rw [deref_store_ne _ _ _ _ e]

theorem meta_eq_set_tree (st : State) (t : Nat) (cat : List Ptr) :
    meta_eq st (st.set_tree t cat) := by
  unfold State.set_tree
  cases ho : st.deref t with
  | none => exact meta_eq_refl _
  | some o => exact meta_eq_store st t o _ ho rfl rfl

theorem meta_eq_deref (st st' : State) (h : meta_eq st st') (q : Nat) (o : option)
    (ho : st.deref q = some o) :
    ∃ o', st'.deref q = some o' ∧ o'.name = o.name ∧ o'.type = o.type := by
  have := h q
  rw [ho] at this
  cases ho' : st'.deref q with
  | none => simp [ho'] at this
  | some o' =>
    rw [ho'] at this
    simp only [Option.map_some', Option.some.injEq, Prod.mk.injEq] at this
    exact ⟨o', rfl, this.1, this.2⟩

theorem meta_eq_name_of (st st' : State) (h : meta_eq st st') (q : Nat) :
    name_of st' q = name_of st q := by
  unfold name_of
  cases ho : st.deref q with
  | none =>
    have := h q
    rw [ho] at this
    cases ho' : st'.deref q with
    | none => rfl
    | some o' => simp [ho'] at this
  | some o =>
    obtain ⟨o', ho', hn, _⟩ := meta_eq_deref st st' h q o ho
    simp [ho', hn]

/-- C6, at the failing input: the leaf `Apple` and then the leaf `_template_`,
of the same kind, are inserted into an empty sorted parent; the three records
have listbox items.  The template ends up behind `Apple`; inserted in the other
order it comes first. -/
theorem C6_template_behind_sibling :
    name_of st_apple 1 = some "Apple".toList ∧ name_of st_apple 2 = some template_name ∧
    children_after (insert_all (get_opt_rec 3) [1, 2] st_apple 0) 0 = some [1, 2] ∧
    children_after (insert_all (get_opt_rec 3) [2, 1] st_apple 0) 0 = some [2, 1] := by
  decide

/-! ## Change hooks -/

theorem links_eq_trans (a b c : State) (h1 : links_eq a b) (h2 : links_eq b c) :
    links_eq a c := fun q => (h2 q).trans (h1 q)

theorem links_eq_deref (st st' : State) (h : links_eq st st') (q : Nat) (o : option)
    (ho : st.deref q = some o) :
    ∃ o', st'.deref q = some o' ∧ o'.root = o.root ∧ o'.change_hook = o.change_hook := by
  have := h q
  rw [ho] at this
  cases ho' : st'.deref q with
  | none => simp [ho'] at this
  | some o' =>
    rw [ho'] at this
    simp only [Option.map_some', Option.some.injEq, Prod.mk.injEq] at this
    exact ⟨o', rfl, this.1, this.2⟩

theorem call_change_hooks_chain (hooks : Nat → change_hook_t) (hk : hooks_keep_links hooks)
    (ses : session) (changed : Option Ptr) (st0 : State) :
    ∀ (k : Nat) (p : Nat) (chain : List Ptr) (st : State) (fuel : Nat),
      links_eq st0 st → chain_of k st0 p = some chain → chain.length ≤ fuel →
      call_change_hooks hooks fuel st ses (some p) changed =
        .ok (expected_calls hooks ses changed st0 chain st).1
          (expected_calls hooks ses changed st0 chain st).2 := by
  intro k
  induction k with
  | zero => intro p chain st fuel _ h; simp [chain_of] at h
  | succ k ih =>
    intro p chain st fuel hl hc hf
    simp only [chain_of] at hc
    cases ho : st0.deref p with
    | none => simp [ho] at hc
    | some o =>
      rw [ho] at hc
      simp only at hc
      obtain ⟨o1, ho1, hr1, hh1⟩ := links_eq_deref st0 st hl p o ho
      have hhook : hook_of st0 p = o.change_hook := by simp [hook_of, ho]
      -- the step to the parent, from any memory with the links of `st0`
      have hnext : ∀ (st2 : State) (fuel2 : Nat) (rest : List Ptr), links_eq st0 st2 →
          chain = p :: rest → rest.length ≤ fuel2 →
          call_change_hooks_next
            (fun st1 r => call_change_hooks hooks fuel2 st1 ses (some r) changed) st2 p =
          .ok (expected_calls hooks ses changed st0 rest st2).1
            (expected_calls hooks ses changed st0 rest st2).2 := by
        intro st2 fuel2 rest hl2 hch hf2
        obtain ⟨o2, ho2, hr2, _⟩ := links_eq_deref st0 st2 hl2 p o ho
        unfold call_change_hooks_next
        rw [ho2]
        simp only [hr2]
        cases hroot : o.root with
        | none =>
          rw [hroot] at hc
          simp only [Option.some.injEq] at hc
          rw [← hc] at hch
          simp only [List.cons.injEq, true_and] at hch
          subst hch
          rfl
        | some r =>
          rw [hroot] at hc
          simp only at hc ⊢
          cases hcr : chain_of k st0 r with
          | none => simp [hcr] at hc
          | some rest2 =>
            rw [hcr] at hc
            simp only [Option.map_some', Option.some.injEq] at hc
            rw [← hc] at hch
            simp only [List.cons.injEq, true_and] at hch
            subst hch
            exact ih r rest2 st2 fuel2 hl2 hcr hf2
      obtain ⟨rest, hrest⟩ : ∃ rest, chain = p :: rest := by
        cases hroot : o.root with
        | none => rw [hroot] at hc; exact ⟨[], by simpa using hc.symm⟩
        | some r =>
          rw [hroot] at hc
          simp only at hc
          cases hcr : chain_of k st0 r with
          | none => simp [hcr] at hc
          | some rest2 => rw [hcr] at hc; exact ⟨rest2, by simpa using hc.symm⟩
      subst hrest
      obtain ⟨fuel, rfl⟩ : ∃ f, fuel = f + 1 := ⟨fuel - 1, by simp at hf; omega⟩
      have hf2 : rest.length ≤ fuel := by simp at hf; omega
      simp only [call_change_hooks, ho1, hh1, expected_calls, hhook]
      cases hh : o.change_hook with
      | none =>
        simp only
        exact hnext st fuel rest hl rfl hf2
      | some h =>
        simp only
        split
        · rfl
        · rw [hnext _ fuel rest (links_eq_trans _ _ _ hl (hk h ses p changed st)) rfl hf2]
          rfl

theorem store_alloc (st : State) (r r' : option) :
    ({ st with mem := st.mem ++ [r] } : State).store st.mem.length r' =
      { st with mem := st.mem ++ [r'] } := by
  simp [State.store, List.set_append]

theorem store_alloc_old (st : State) (r p' : option) (parent : Nat)
    (hlt : parent < st.mem.length) :
    ({ st with mem := st.mem ++ [r] } : State).store parent p' =
      { st with mem := st.mem.set parent p' ++ [r] } := by
  simp [State.store, List.set_append, hlt]

theorem shallow_flags : shallow.CO_SHALLOW = true ∧ shallow.CO_NO_LISTBOX_ITEM = true :=
  ⟨rfl, rfl⟩

theorem copy_option_shallow (f : Nat) (st : State) (src : Nat) (s : option)
    (hs : st.deref src = some s) :
    copy_option (f + 1) st src shallow =
      match shallow_value st s with
      | some (v, strs') =>
        .ok { st with mem := st.mem ++ [{ copy_record s shallow with value := v }],
                      strs := strs' } st.mem.length
      | none => .fault := by
  unfold copy_option
  rw [hs]
  have hca : copy_alloc st s shallow =
      { st with mem := st.mem ++ [copy_record s shallow] } := rfl
  simp only [hca]
  have hold := deref_alloc_old st (copy_record s shallow) src (deref_lt _ _ _ hs)
  have hnew := deref_alloc_new st (copy_record s shallow)
  unfold shallow_value
  cases hty : s.type <;> simp only
  case OPT_TREE =>
    unfold tree_dup
    rw [hold, hs]
    simp only [shallow_flags.1, if_true, Result.bind, State.set_tree, hnew]
    rw [store_alloc]
  case OPT_STRING =>
    unfold str_dup
    rw [hold, hs, hnew]
    simp only
    cases hv : s.value with
    | string sp =>
      cases sp with
      | none => rfl
      | some p =>
        simp only
        cases hb : st.strs[p]? with
        | none => rfl
        | some buf =>
          simp only [Result.bind, Option.map_some']
          have := store_alloc { st with strs := st.strs ++ [buf] } (copy_record s shallow)
            { copy_record s shallow with value := .string (some st.strs.length) }
          simp only at this
          rw [this]
    | tree t => rfl
    | number n => rfl
    | big_number n => rfl
    | color c => rfl
    | command c => rfl
  all_goals rw [store_alloc]

theorem copy_option_shallow_fault (f : Nat) (st : State) (src : Nat)
    (hs : st.deref src = none) : copy_option (f + 1) st src shallow = .fault := by
  unfold copy_option
  rw [hs]

theorem shadow_create_eq (f : Nat) (st : State) (parent src : Nat)
    (hpar : parent < st.mem.length) :
    shadow_create (f + 1) st parent src =
      match shadow_created st parent src with
      | some st' => .ok st' (some st.mem.length)
      | none => .fault := by
  have hsh : ({ CO_SHALLOW := true, CO_NO_LISTBOX_ITEM := true } : copy_option_flags) =
      shallow := rfl
  obtain ⟨p, hp⟩ := deref_of_lt st parent hpar
  unfold shadow_create shadow_created
  rw [hsh, hp]
  cases hs : st.deref src with
  | none =>
    rw [copy_option_shallow_fault f st src hs]
    rfl
  | some s =>
    rw [copy_option_shallow f st src s hs]
    cases hsv : shallow_value st s with
    | none =>
      simp only [Result.bind, hsv]
      cases p.value with
      | tree t => cases t <;> rfl
      | string t => rfl
      | number n => rfl
      | big_number n => rfl
      | color c => rfl
      | command c => rfl
    | some vs =>
      obtain ⟨v, strs'⟩ := vs
      simp only [Result.bind, hsv]
      generalize hrec : ({ copy_record s shallow with value := v } : option) = rec0
      have hnew := deref_alloc_new { st with strs := strs' } rec0
      simp only at hnew
      rw [hnew]
      have hold := deref_alloc_old { st with strs := strs' } rec0 parent hpar
      simp only at hold
      have hp' : ({ st with strs := strs' } : State).deref parent = some p := hp
      rw [hold, hp']
      simp only
      cases hv : p.value with
      | tree t =>
        cases t with
        | none => rfl
        | some cat =>
          simp only
          generalize hrec1 : ({ rec0 with root := some parent } : option) = rec1
          have h1 := store_alloc { st with strs := strs' } rec0 rec1
          simp only at h1
          rw [h1]
          have hold2 := deref_alloc_old { st with strs := strs' } rec1 parent hpar
          simp only at hold2
          simp only [State.set_tree, hold2, hp', add_to_list_end]
          have h2 := store_alloc_old { st with strs := strs' } rec1
            { p with value := .tree (some (cat ++ [st.mem.length])) } parent hpar
          simp only at h2
          rw [h2]
          have hnew3 := deref_alloc_new
            { st with mem := (st.mem.set parent
                { p with value := .tree (some (cat ++ [st.mem.length])) }), strs := strs' }
            rec1
          simp only [List.length_set] at hnew3
          rw [hnew3]
          simp only
          have h3 := store_alloc
            { st with mem := (st.mem.set parent
                { p with value := .tree (some (cat ++ [st.mem.length])) }), strs := strs' }
            rec1 { rec1 with flags := { rec1.flags with OPT_TOUCHED := true } }
          simp only [List.length_set] at h3
          rw [h3]
          subst hrec1
          subst hrec
          rfl
      | string t => rfl
      | number n => rfl
      | big_number n => rfl
      | color c => rfl
      | command c => rfl

theorem kept_refl (st : State) : kept st st := fun _ o ho => ⟨o.value, ho⟩

theorem kept_trans (a b c : State) (h1 : kept a b) (h2 : kept b c) : kept a c := by
  intro q o ho
  obtain ⟨v, hv⟩ := h1 q o ho
  obtain ⟨v2, hv2⟩ := h2 q _ hv
  exact ⟨v2, hv2⟩

theorem kept_name_of (st st' : State) (h : kept st st') (q : Nat) (nm : cstring)
    (hn : name_of st q = some nm) : name_of st' q = some nm := by
  unfold name_of at hn ⊢
  cases ho : st.deref q with
  | none => simp [ho] at hn
  | some o =>
    obtain ⟨v, hv⟩ := h q o ho
    rw [ho] at hn
    rw [hv]
    exact hn

theorem deref_na (st : State) (n : Int) (q : Nat) :
    ({ st with no_autocreate := n } : State).deref q = st.deref q := rfl

theorem shadow_created_deref (st st' : State) (parent src : Nat)
    (h : shadow_created st parent src = some st') :
    ∃ p cat s v, st.deref parent = some p ∧ p.value = .tree (some cat) ∧
      st.deref src = some s ∧ shallow_value st s = some (v, st'.strs) ∧
      st'.mem.length = st.mem.length + 1 ∧
      st'.deref parent = some { p with value := .tree (some (cat ++ [st.mem.length])) } ∧
      st'.deref st.mem.length = some (shadow_record s parent v) ∧
      (∀ q, q ≠ parent → q < st.mem.length → st'.deref q = st.deref q) ∧
      st'.no_autocreate = st.no_autocreate ∧ st'.config_options = st.config_options := by
  unfold shadow_created at h
  cases hp : st.deref parent with
  | none => simp [hp] at h
  | some p =>
    cases hs : st.deref src with
    | none => simp [hp, hs] at h
    | some s =>
      rw [hp, hs] at h
      simp only at h
      cases hv : p.value with
      | tree t =>
        cases t with
        | none => simp [hv] at h
        | some cat =>
          cases hsv : shallow_value st s with
          | none => simp [hv, hsv] at h
          | some vs =>
            obtain ⟨v, strs'⟩ := vs
            rw [hv, hsv] at h
            simp only [Option.some.injEq] at h
            subst h
            have hlt := deref_lt _ _ _ hp
            refine ⟨p, cat, s, v, rfl, hv, rfl, hsv, by simp, ?_, ?_, ?_, rfl, rfl⟩
            · unfold State.deref
              simp only
              rw [List.getElem?_append_left (by simp [hlt])]
              simp [List.getElem?_set, hlt]
            · unfold State.deref
              simp only
              have : st.mem.length = (st.mem.set parent
                { p with value := .tree (some (cat ++ [st.mem.length])) }).length := by simp
              rw [List.getElem?_append_right (by simp)]
              simp
            · intro q hq hql
              unfold State.deref
              simp only
              rw [List.getElem?_append_left (by simp [hql])]
              simp [List.getElem?_set, Ne.symm hq]
      | string t => simp [hv] at h
      | number n => simp [hv] at h
      | big_number n => simp [hv] at h
      | color c => simp [hv] at h
      | command c => simp [hv] at h

theorem shadow_step_kept (st st1 : State) (s src c : Nat)
    (h : shadow_step st s src = some (st1, c)) : kept st st1 := by
  unfold shadow_step at h
  cases hn : name_of st src with
  | none => simp [hn] at h
  | some nm =>
    rw [hn] at h
    simp only at h
    cases hc : children st s with
    | none => simp [hc] at h
    | some cat =>
      rw [hc] at h
      simp only at h
      cases hf : find_option st cat nm with
      | none => simp [hf] at h
      | some r =>
        rw [hf] at h
        cases r with
        | some c2 =>
          simp only [Option.some.injEq, Prod.mk.injEq] at h
          rw [← h.1]
          exact kept_refl st
        | none =>
          simp only [Option.map_eq_some'] at h
          obtain ⟨st2, hsc, heq⟩ := h
          simp only [Prod.mk.injEq] at heq
          obtain ⟨rfl, _⟩ := heq
          obtain ⟨p, cat2, s2, v, hp, _, _, _, _, hp2, _, hq, _, _⟩ :=
            shadow_created_deref _ _ _ _ hsc
          intro q o ho
          by_cases e : q = s
          · subst e
            rw [deref_na] at hp
            rw [hp] at ho
            cases ho
            exact ⟨_, hp2⟩
          · exact ⟨o.value, by rw [hq q e (deref_lt _ _ _ ho)]; exact ho⟩

theorem shadow_run_kept : ∀ (srcs : List Ptr) (st st' : State) (s S : Nat),
    shadow_run st s srcs = some (st', S) → kept st st' := by
  intro srcs
  induction srcs with
  | nil =>
    intro st st' s S h
    simp only [shadow_run, Option.some.injEq, Prod.mk.injEq] at h
    rw [← h.1]
    exact kept_refl st
  | cons src rest ih =>
    intro st st' s S h
    simp only [shadow_run] at h
    cases hs : shadow_step st s src with
    | none => simp [hs] at h
    | some r =>
      obtain ⟨st1, c⟩ := r
      rw [hs] at h
      exact kept_trans _ _ _ (shadow_step_kept _ _ _ _ _ hs) (ih _ _ _ _ h)

theorem shadow_run_snoc : ∀ (srcs : List Ptr) (st : State) (s x : Nat),
    shadow_run st s (srcs ++ [x]) =
      match shadow_run st s srcs with
      | none => none
      | some (st1, c) => shadow_step st1 c x := by
  intro srcs
  induction srcs with
  | nil =>
    intro st s x
    simp only [List.nil_append, shadow_run]
    cases hs : shadow_step st s x with
    | none => rfl
    | some r => obtain ⟨st1, c⟩ := r; rfl
  | cons src rest ih =>
    intro st s x
    simp only [List.cons_append, shadow_run]
    cases hs : shadow_step st s src with
    | none => rfl
    | some r =>
      obtain ⟨st1, c⟩ := r
      exact ih st1 c x

theorem get_opt_rec_real_scan (f : Nat) (st : State) (s : Nat) (nm : cstring)
    (hdot : '.' ∉ nm) :
    get_opt_rec_real (f + 1) st s nm =
      match children st s with
      | none => .fault
      | some cat =>
        match find_option st cat nm with
        | none => .fault
        | some r => .ok { st with no_autocreate := 0 } r := by
  unfold get_opt_rec_real get_opt_rec
  rw [split_last_dot_no_dot nm hdot]
  simp only
  unfold get_opt_rec_last children
  rw [deref_na]
  cases hp : st.deref s with
  | none => rfl
  | some p =>
    simp only
    cases hv : p.value with
    | tree t =>
      cases t with
      | none => rfl
      | some cat =>
        simp only
        rw [find_option_congr st { st with no_autocreate := 1 } cat nm (fun _ _ => rfl)]
        cases hf : find_option st cat nm with
        | none => rfl
        | some r =>
          cases r with
          | some c => rfl
          | none => simp [Result.bind]
    | string t => rfl
    | number n => rfl
    | big_number n => rfl
    | color c => rfl
    | command c => rfl

theorem chain_to_cons (k : Nat) (st : State) (N tree : Nat) (chain : List Ptr)
    (hne : N ≠ tree) (h : chain_to (k + 1) st N tree = some chain) :
    ∃ o r nm rest, st.deref N = some o ∧ o.root = some r ∧ o.name = some nm ∧
      chain_to k st r tree = some rest ∧ chain = N :: rest := by
  simp only [chain_to, hne, if_false] at h
  cases ho : st.deref N with
  | none => simp [ho] at h
  | some o =>
    rw [ho] at h
    simp only at h
    cases hr : o.root with
    | none => simp [hr] at h
    | some r =>
      cases hn : o.name with
      | none => simp [hr, hn] at h
      | some nm =>
        rw [hr, hn] at h
        simp only at h
        cases hc : chain_to k st r tree with
        | none => simp [hc] at h
        | some rest =>
          rw [hc] at h
          simp only [Option.map_some', Option.some.injEq] at h
          exact ⟨o, r, nm, rest, rfl, hr, hn, hc, h.symm⟩

theorem chain_to_length (st : State) (tree : Nat) :
    ∀ (k : Nat) (N : Nat) (chain : List Ptr), chain_to k st N tree = some chain →
      chain.length < k := by
  intro k
  induction k with
  | zero => intro N chain h; simp [chain_to] at h
  | succ k ih =>
    intro N chain h
    by_cases e : N = tree
    · simp only [chain_to, e, if_true, Option.some.injEq] at h
      subst h
      simp
    · obtain ⟨o, r, nm, rest, _, _, _, hc, rfl⟩ := chain_to_cons k st N tree chain e h
      have := ih r rest hc
      simp
      omega

theorem get_option_shadow_eq_run (tree sroot : Nat) :
    ∀ (k : Nat) (N : Nat) (chain : List Ptr) (st : State) (fuel : Nat),
      chain_to k st N tree = some chain →
      (∀ a ∈ chain, ∀ nm, name_of st a = some nm → '.' ∉ nm) → chain.length < fuel →
      get_option_shadow fuel st N tree sroot =
        match shadow_run st sroot chain.reverse with
        | some (st', S) => .ok st' (some S)
        | none => .fault := by
  intro k
  induction k with
  | zero => intro N chain st fuel h; simp [chain_to] at h
  | succ k ih =>
    intro N chain st fuel hc hdot hfuel
    obtain ⟨fuel, rfl⟩ : ∃ f, fuel = f + 1 := ⟨fuel - 1, by omega⟩
    by_cases e : N = tree
    · simp only [chain_to, e, if_true, Option.some.injEq] at hc
      subst hc
      simp [get_option_shadow, e, shadow_run]
    · obtain ⟨o, r, nm, rest, ho, hr, hn, hcr, rfl⟩ := chain_to_cons k st N tree chain e hc
      simp only [List.reverse_cons]
      rw [shadow_run_snoc]
      have hih := ih r rest st fuel hcr
        (fun a ha nm hnm => hdot a (by simp [ha]) nm hnm) (by simp at hfuel; omega)
      simp only [get_option_shadow, e, if_false, ho, hr, hn, hih]
      cases hrun1 : shadow_run st sroot rest.reverse with
      | none => rfl
      | some r1 =>
        obtain ⟨st1, Sp⟩ := r1
        simp only [Result.bind]
        have hk := shadow_run_kept _ _ _ _ _ hrun1
        have hname : name_of st N = some nm := by simp [name_of, ho, hn]
        have hname1 := kept_name_of st st1 hk N nm hname
        have hd := hdot N (by simp) nm hname
        have hn1 : (st1.deref N).bind (fun o1 => o1.name) = some nm := hname1
        rw [hn1]
        simp only
        unfold shadow_step
        rw [hname1, get_opt_rec_real_scan fuel st1 Sp nm hd]
        simp only
        cases hch : children st1 Sp with
        | none => rfl
        | some cat =>
          simp only
          cases hf : find_option st1 cat nm with
          | none => rfl
          | some found =>
            simp only [Result.bind]
            cases found with
            | some c => rfl
            | none =>
              simp only
              obtain ⟨p, hp, _⟩ := children_some_inv st1 Sp cat hch
              rw [shadow_create_eq fuel { st1 with no_autocreate := 0 } Sp N
                (deref_lt _ _ _ hp)]
              cases shadow_created { st1 with no_autocreate := 0 } Sp N with
              | none => rfl
              | some st2 => rfl

/-! ## Well-formed memories and shadow copies -/

theorem mem_iff_deref (st : State) (o : option) : o ∈ st.mem ↔ ∃ q, st.deref q = some o := by
  unfold State.deref
  exact List.mem_iff_getElem?

theorem parented_iff (st : State) :
    parented st ↔ ∀ p o, st.deref p = some o → ∀ c ∈ o.kids, root_of st c = some p := by
  unfold parented
  constructor
  · intro h p o ho c hc
    exact h (p, o) (List.mk_mem_enum_iff_getElem?.2 ho) c hc
  · intro h x hx c hc
    exact h x.1 x.2 (List.mem_enum_iff_getElem?.1 hx) c hc

theorem parented_closed (st : State) (h : parented st) : closed st := by
  intro o ho c hc
  obtain ⟨q, hq⟩ := (mem_iff_deref st o).1 ho
  have := (parented_iff st).1 h q o hq c hc
  unfold root_of at this
  cases hd : st.deref c with
  | none => simp [hd] at this
  | some oc => exact deref_lt _ _ _ hd

theorem well_formed_mem (st st' : State) (hm : st'.mem = st.mem) (hs : st'.strs = st.strs)
    (h : well_formed st) : well_formed st' := by
  obtain ⟨h1, h2, h3, h4⟩ := h
  refine ⟨?_, ?_, ?_, ?_⟩
  · unfold parented root_of State.deref at h1 ⊢
    rw [hm]
    exact h1
  · unfold typed at h2 ⊢
    rw [hm]
    exact h2
  · unfold leaves_childless at h3 ⊢
    rw [hm]
    exact h3
  · unfold strings_ok at h4 ⊢
    rw [hm, hs]
    exact h4

theorem kids_of_value (o : option) (l : List Ptr) (h : o.value = .tree (some l)) :
    o.kids = l := by
  unfold option.kids
  rw [h]

theorem shallow_value_kids (st : State) (s : option) (v : option_value)
    (strs' : List cstring) (hl : s.type ≠ .OPT_TREE → s.kids = [])
    (h : shallow_value st s = some (v, strs')) :
    ({ s with value := v } : option).kids = [] := by
  unfold shallow_value at h
  unfold option.kids
  cases hty : s.type <;> rw [hty] at h <;> simp only at h
  case OPT_TREE =>
    simp only [Option.some.injEq, Prod.mk.injEq] at h
    rw [← h.1]
  case OPT_STRING =>
    cases hv : s.value with
    | string sp =>
      rw [hv] at h
      cases sp with
      | none => simp at h
      | some p =>
        simp only [Option.map_eq_some', Prod.mk.injEq] at h
        obtain ⟨_, _, h2, _⟩ := h
        rw [← h2]
    | tree t => simp [hv] at h
    | number n => simp [hv] at h
    | big_number n => simp [hv] at h
    | color c => simp [hv] at h
    | command c => simp [hv] at h
  all_goals
    simp only [Option.some.injEq, Prod.mk.injEq] at h
    have := hl (by rw [hty]; simp)
    unfold option.kids at this
    rw [← h.1]
    exact this

theorem string_ok_mono (strs strs' : List cstring) (o : option) (hp : strs <+: strs')
    (h : o.string_ok strs = true) : o.string_ok strs' = true := by
  unfold option.string_ok at h ⊢
  cases hty : o.type <;> rw [hty] at h
  all_goals simp only at h ⊢
  cases hv : o.value with
  | string sp =>
    rw [hv] at h
    cases sp with
    | none => simp at h
    | some s =>
      simp only [Option.isSome_iff_exists] at h ⊢
      obtain ⟨buf, hbuf⟩ := h
      obtain ⟨tl, rfl⟩ := hp
      have hs : s < strs.length := (List.getElem?_eq_some_iff.1 hbuf).1
      exact ⟨buf, by rw [List.getElem?_append_left hs]; exact hbuf⟩
  | tree t => simp [hv] at h
  | number n => simp [hv] at h
  | big_number n => simp [hv] at h
  | color c => simp [hv] at h
  | command c => simp [hv] at h

theorem shallow_value_strs (st : State) (s : option) (v : option_value)
    (strs' : List cstring) (h : shallow_value st s = some (v, strs')) :
    st.strs <+: strs' ∧ ({ s with value := v } : option).string_ok strs' = true ∧
      (s.type = .OPT_TREE → v = .tree (some [])) := by
  unfold shallow_value at h
  unfold option.string_ok
  cases hty : s.type <;> rw [hty] at h <;> simp only at h ⊢
  case OPT_STRING =>
    cases hv : s.value with
    | string sp =>
      rw [hv] at h
      cases sp with
      | none => simp at h
      | some p =>
        simp only [Option.map_eq_some', Prod.mk.injEq] at h
        obtain ⟨buf, _, h2, h3⟩ := h
        rw [← h2, ← h3]
        simp
    | tree t => simp [hv] at h
    | number n => simp [hv] at h
    | big_number n => simp [hv] at h
    | color c => simp [hv] at h
    | command c => simp [hv] at h
  all_goals
    simp only [Option.some.injEq, Prod.mk.injEq] at h
    rw [← h.2]
    simp [← h.1]

theorem shadow_created_wf (st st1 : State) (s src : Nat) (hwf : well_formed st)
    (hty : type_of st s = some .OPT_TREE) (h : shadow_created st s src = some st1) :
    well_formed st1 := by
  obtain ⟨hpar, htyp, hleaf, hstr⟩ := hwf
  obtain ⟨p, cat, so, v, hp, hv, hso, hsv, hlen, hp1, hnew, hq, _, _⟩ :=
    shadow_created_deref _ _ _ _ h
  have hpt : p.type = .OPT_TREE := by
    unfold type_of at hty
    rw [hp] at hty
    simpa using hty
  obtain ⟨hpre, hnewstr, hnewtree⟩ := shallow_value_strs st so v st1.strs hsv
  have hnewkids : ({ so with value := v } : option).kids = [] :=
    shallow_value_kids st so v st1.strs (hleaf so ((mem_iff_deref st so).2 ⟨src, hso⟩)) hsv
  have hslt : s < st.mem.length := deref_lt _ _ _ hp
  -- the records of the new memory
  have hcases : ∀ q o, st1.deref q = some o →
      (q = s ∧ o = { p with value := .tree (some (cat ++ [st.mem.length])) }) ∨
      (q = st.mem.length ∧ o = shadow_record so s v) ∨
      (q ≠ s ∧ q < st.mem.length ∧ st.deref q = some o) := by
    intro q o ho
    by_cases e1 : q = s
    · subst e1
      rw [hp1] at ho
      cases ho
      exact Or.inl ⟨rfl, rfl⟩
    · by_cases e2 : q = st.mem.length
      · subst e2
        rw [hnew] at ho
        cases ho
        exact Or.inr (Or.inl ⟨rfl, rfl⟩)
      · have hlt := deref_lt _ _ _ ho
        have hlt2 : q < st.mem.length := by
          rw [hlen] at hlt
          exact Nat.lt_of_le_of_ne (Nat.lt_succ_iff.1 hlt) e2
        refine Or.inr (Or.inr ⟨e1, hlt2, ?_⟩)
        rw [← hq q e1 hlt2]
        exact ho
  have hroot : ∀ c, c < st.mem.length → root_of st1 c = root_of st c := by
    intro c hc
    unfold root_of
    by_cases e : c = s
    · subst e
      rw [hp1, hp]
      rfl
    · rw [hq c e hc]
  refine ⟨?_, ?_, ?_, ?_⟩
  · rw [parented_iff] at hpar ⊢
    intro q o ho c hc
    rcases hcases q o ho with ⟨rfl, rfl⟩ | ⟨rfl, rfl⟩ | ⟨_, hlt, hold⟩
    · simp only [option.kids, List.mem_append, List.mem_singleton] at hc
      rcases hc with hc | rfl
      · have h1 := hpar q p hp c (by rw [kids_of_value p cat hv]; exact hc)
        have hclt : c < st.mem.length := by
          unfold root_of at h1
          cases hd : st.deref c with
          | none => simp [hd] at h1
          | some oc => exact deref_lt _ _ _ hd
        rw [hroot c hclt]
        exact h1
      · unfold root_of
        rw [hnew]
        rfl
    · have : (shadow_record so s v).kids = ({ so with value := v } : option).kids := rfl
      rw [this, hnewkids] at hc
      simp at hc
    · have h1 := hpar q o hold c hc
      have hclt : c < st.mem.length := by
        unfold root_of at h1
        cases hd : st.deref c with
        | none => simp [hd] at h1
        | some oc => exact deref_lt _ _ _ hd
      rw [hroot c hclt]
      exact h1
  · intro o ho ht
    obtain ⟨q, hqo⟩ := (mem_iff_deref st1 o).1 ho
    rcases hcases q o hqo with ⟨rfl, rfl⟩ | ⟨rfl, rfl⟩ | ⟨_, _, hold⟩
    · rfl
    · have : v = .tree (some []) := hnewtree ht
      subst this
      rfl
    · exact htyp o ((mem_iff_deref st o).2 ⟨q, hold⟩) ht
  · intro o ho ht
    obtain ⟨q, hqo⟩ := (mem_iff_deref st1 o).1 ho
    rcases hcases q o hqo with ⟨rfl, rfl⟩ | ⟨rfl, rfl⟩ | ⟨_, _, hold⟩
    · exact absurd hpt ht
    · exact hnewkids
    · exact hleaf o ((mem_iff_deref st o).2 ⟨q, hold⟩) ht
  · intro o ho
    obtain ⟨q, hqo⟩ := (mem_iff_deref st1 o).1 ho
    rcases hcases q o hqo with ⟨rfl, rfl⟩ | ⟨rfl, rfl⟩ | ⟨_, _, hold⟩
    · unfold option.string_ok
      simp only [hpt]
    · exact hnewstr
    · exact string_ok_mono _ _ _ hpre (hstr o ((mem_iff_deref st o).2 ⟨q, hold⟩))

theorem state_na_zero (st : State) (h : st.no_autocreate = 0) :
    ({ st with no_autocreate := 0 } : State) = st := by
  cases st
  simp only at h
  subst h
  rfl

theorem kept_type_of (st st' : State) (h : kept st st') (q : Nat) (ty : option_type)
    (hn : type_of st q = some ty) : type_of st' q = some ty := by
  unfold type_of at hn ⊢
  cases ho : st.deref q with
  | none => simp [ho] at hn
  | some o =>
    obtain ⟨v, hv⟩ := h q o ho
    rw [ho] at hn
    rw [hv]
    exact hn

theorem kept_root_of (st st' : State) (h : kept st st') (q : Nat) (o : option)
    (ho : st.deref q = some o) : root_of st' q = o.root := by
  obtain ⟨v, hv⟩ := h q o ho
  unfold root_of
  rw [hv]
  rfl

theorem children_of_tree (st : State) (hwf : well_formed st) (s : Nat)
    (hty : type_of st s = some .OPT_TREE) :
    ∃ p cat, st.deref s = some p ∧ p.value = .tree (some cat) ∧ children st s = some cat := by
  unfold type_of at hty
  cases hp : st.deref s with
  | none => simp [hp] at hty
  | some p =>
    rw [hp] at hty
    simp only [Option.map_some', Option.some.injEq] at hty
    obtain ⟨cat, hv, hc⟩ := children_of_has_tree st s p hp
      (hwf.2.1 p ((mem_iff_deref st p).2 ⟨s, hp⟩) hty)
    exact ⟨p, cat, rfl, hv, hc⟩

theorem shallow_value_some (st : State) (hwf : well_formed st) (src : Nat) (so : option)
    (hso : st.deref src = some so) : ∃ v strs', shallow_value st so = some (v, strs') := by
  have hs := hwf.2.2.2 so ((mem_iff_deref st so).2 ⟨src, hso⟩)
  unfold option.string_ok at hs
  unfold shallow_value
  cases hty : so.type <;> rw [hty] at hs <;> simp only at hs ⊢
  case OPT_STRING =>
    cases hv : so.value with
    | string sp =>
      rw [hv] at hs
      cases sp with
      | none => simp at hs
      | some p =>
        simp only [Option.isSome_iff_exists] at hs
        obtain ⟨buf, hbuf⟩ := hs
        simp [hbuf]
    | tree t => simp [hv] at hs
    | number n => simp [hv] at hs
    | big_number n => simp [hv] at hs
    | color c => simp [hv] at hs
    | command c => simp [hv] at hs
  all_goals exact ⟨_, _, rfl⟩

theorem find_of_child_named_closed (st : State) (P : Nat) (t : option) (cat : List Ptr)
    (seg : cstring) (hP : st.deref P = some t) (hv : t.value = .tree (some cat))
    (hl : ∀ c ∈ cat, c < st.mem.length) :
    find_option st cat seg = some (child_named st P seg) := by
  rw [find_option_eq_find st cat seg hl]
  unfold child_named children
  rw [hP]
  simp only [hv]

theorem shadow_step_cases (st : State) (hwf : well_formed st) (hna : st.no_autocreate = 0)
    (s src : Nat) (nm : cstring) (hty : type_of st s = some .OPT_TREE)
    (hn : name_of st src = some nm) :
    (∃ c, child_named st s nm = some c ∧ shadow_step st s src = some (st, c)) ∨
      (∃ st1, child_named st s nm = none ∧ shadow_created st s src = some st1 ∧
        shadow_step st s src = some (st1, st.mem.length)) := by
  obtain ⟨p, cat, hp, hv, hc⟩ := children_of_tree st hwf s hty
  have hfind := find_of_child_named_closed st s p cat nm hp hv
    (children_valid st (parented_closed st hwf.1) s cat hc)
  unfold shadow_step
  rw [hn, hc, state_na_zero st hna]
  simp only [hfind]
  cases hcn : child_named st s nm with
  | some c => exact Or.inl ⟨c, rfl, rfl⟩
  | none =>
    right
    unfold name_of at hn
    cases hso : st.deref src with
    | none => simp [hso] at hn
    | some so =>
      obtain ⟨v, strs', hsv⟩ := shallow_value_some st hwf src so hso
      have : shadow_created st s src = some { st with
          mem := st.mem.set s { p with value := .tree (some (cat ++ [st.mem.length])) } ++
            [shadow_record so s v]
          strs := strs' } := by
        unfold shadow_created
        rw [hp, hso]
        simp only [hv, hsv]
      exact ⟨_, rfl, this, by simp [this]⟩

theorem child_named_facts (st : State) (hwf : well_formed st) (s c : Nat) (nm : cstring)
    (h : child_named st s nm = some c) :
    root_of st c = some s ∧ name_of st c = some nm ∧ c < st.mem.length := by
  unfold child_named at h
  cases hc : children st s with
  | none => simp [hc] at h
  | some cat =>
    rw [hc] at h
    simp only at h
    obtain ⟨p, hp, hv⟩ := children_some_inv st s cat hc
    have hmem : c ∈ cat := List.mem_of_find?_eq_some h
    have hname := List.find?_some h
    have hroot := (parented_iff st).1 hwf.1 s p hp c (by rw [kids_of_value p cat hv]; exact hmem)
    unfold has_name at hname
    cases hd : st.deref c with
    | none => simp [hd] at hname
    | some oc =>
      rw [hd] at hname
      refine ⟨hroot, ?_, deref_lt _ _ _ hd⟩
      unfold name_of
      rw [hd]
      simpa using hname

theorem descends_kept (st st' : State) (h : kept st st') :
    ∀ (names : List (Option cstring)) (s S : Nat), (∀ nm ∈ names, nm ≠ none) →
      descends st s S names → descends st' s S names := by
  intro names
  induction names with
  | nil => intro s S _ hd; exact hd
  | cons nm rest ih =>
    intro s S hne hd
    obtain ⟨c, hr, hn, hrest⟩ := hd
    refine ⟨c, ?_, ?_, ih c S (fun x hx => hne x (by simp [hx])) hrest⟩
    · unfold root_of at hr
      cases ho : st.deref c with
      | none => simp [ho] at hr
      | some o =>
        rw [kept_root_of st st' h c o ho]
        rw [ho] at hr
        exact hr
    · cases hnm : nm with
      | none => exact absurd hnm (hne nm (by simp))
      | some x =>
        rw [hnm] at hn
        exact kept_name_of st st' h c x hn

theorem dropLast_subset_cons (a : Ptr) (l : List Ptr) : ∀ x ∈ l.dropLast, x ∈ (a :: l).dropLast := by
  intro x hx
  cases l with
  | nil => simp at hx
  | cons b l => simp [List.dropLast, hx]

theorem head_mem_dropLast (a : Ptr) (l : List Ptr) (h : l ≠ []) : a ∈ (a :: l).dropLast := by
  cases l with
  | nil => exact absurd rfl h
  | cons b l => simp [List.dropLast]

theorem conforms_found (st : State) (s src c : Nat) (nm : cstring) (rest : List Ptr)
    (hn : name_of st src = some nm) (hcn : child_named st s nm = some c)
    (h : conforms st s (src :: rest) = true) :
    (rest ≠ [] → type_of st c = some .OPT_TREE) ∧ conforms st c rest = true := by
  cases rest with
  | nil => exact ⟨fun h => absurd rfl h, rfl⟩
  | cons r rest =>
    simp only [conforms, hn, hcn, Bool.and_eq_true, decide_eq_true_eq] at h
    exact ⟨fun _ => h.1, h.2⟩

theorem conforms_fresh (st : State) (c : Nat) (rest : List Ptr)
    (h : rest ≠ [] → children st c = some []) : conforms st c rest = true := by
  cases rest with
  | nil => rfl
  | cons r rest =>
    cases rest with
    | nil => rfl
    | cons r2 rest =>
      simp only [conforms]
      cases name_of st r with
      | none => rfl
      | some nm =>
        simp only
        have : child_named st c nm = none := by
          unfold child_named
          rw [h (by simp)]
          rfl
        rw [this]

theorem shallow_value_string (st : State) (s : option) (v : option_value)
    (strs' : List cstring) (h : shallow_value st s = some (v, strs'))
    (hty : s.type = .OPT_STRING) : v = .string (some st.strs.length) := by
  unfold shallow_value at h
  rw [hty] at h
  simp only at h
  cases hv : s.value with
  | string sp =>
    rw [hv] at h
    cases sp with
    | none => simp at h
    | some b =>
      simp only [Option.map_eq_some', Prod.mk.injEq] at h
      obtain ⟨_, _, h1, _⟩ := h
      exact h1.symm
  | tree t => rw [hv] at h; simp at h
  | number n => rw [hv] at h; simp at h
  | big_number n => rw [hv] at h; simp at h
  | color c => rw [hv] at h; simp at h
  | command c => rw [hv] at h; simp at h

theorem attach_fresh (st : State) (c : Nat) (rest : List Ptr)
    (h : rest ≠ [] → children st c = some []) : attach st c rest = c := by
  cases rest with
  | nil => rfl
  | cons r rest =>
    simp only [attach]
    cases name_of st r with
    | none => rfl
    | some nm =>
      simp only
      have : child_named st c nm = none := by
        unfold child_named
        rw [h (by simp)]
        rfl
      rw [this]

theorem shadow_created_new (st st1 : State) (s src : Nat) (nm : cstring)
    (hn : name_of st src = some nm) (h : shadow_created st s src = some st1) :
    root_of st1 st.mem.length = some s ∧ name_of st1 st.mem.length = some nm ∧
      type_of st1 st.mem.length = type_of st src ∧
      (type_of st src = some .OPT_TREE → children st1 st.mem.length = some []) ∧
      st1.mem.length = st.mem.length + 1 ∧ st1.no_autocreate = st.no_autocreate := by
  obtain ⟨p, cat, so, v, hp, hv, hso, hsv, hlen, hp1, hnew, hq, hna, _⟩ :=
    shadow_created_deref _ _ _ _ h
  unfold root_of name_of type_of children
  rw [hnew]
  unfold name_of at hn
  rw [hso] at hn ⊢
  refine ⟨rfl, hn, rfl, ?_, hlen, hna⟩
  intro ht
  simp only [Option.map_some', Option.some.injEq] at ht
  have := (shallow_value_strs st so v st1.strs hsv).2.2 ht
  subst this
  rfl

theorem shadow_run_spec : ∀ (srcs : List Ptr) (st : State) (s : Nat),
    well_formed st → st.no_autocreate = 0 → (srcs ≠ [] → type_of st s = some .OPT_TREE) →
    (∀ a ∈ srcs, ∃ nm, name_of st a = some nm) →
    (∀ a ∈ srcs.dropLast, type_of st a = some .OPT_TREE) →
    conforms st s srcs = true →
    ∃ (st' : State) (S : Nat), shadow_run st s srcs = some (st', S) ∧ well_formed st' ∧
      st'.no_autocreate = 0 ∧ kept st st' ∧ descends st' s S (srcs.map (name_of st)) ∧
      grown_from st' S st s srcs ∧ st'.mem.length ≤ st.mem.length + srcs.length ∧
      (srcs ≠ [] → ∃ st1 Sp, shadow_run st s srcs.dropLast = some (st1, Sp) ∧
        root_of st' S = some Sp) ∧
      (∀ q o, st.deref q = some o → q ≠ attach st s srcs → st'.deref q = some o) ∧
      (∀ o, st.deref (attach st s srcs) = some o →
        st'.deref (attach st s srcs) = some o ∨
          ∃ cat, o.value = .tree (some cat) ∧ st'.deref (attach st s srcs) =
            some { o with value := .tree (some (cat ++ [st.mem.length])) }) ∧
      (∀ q, st.mem.length ≤ q → q < st'.mem.length →
        ∃ src ∈ srcs, ∃ so par v, st.deref src = some so ∧
          st'.deref q = some (shadow_record so par v)) ∧
      (srcs ≠ [] → children st s = some [] →
        S + 1 = st.mem.length + srcs.length ∧ st'.mem.length = st.mem.length + srcs.length) ∧
      (∀ N, srcs.getLast? = some N → st.mem.length ≤ S →
        ∃ so par v, st.deref N = some so ∧ st'.deref S = some (shadow_record so par v) ∧
          (so.type = .OPT_STRING → ∃ b, v = .string (some b) ∧ st.strs.length ≤ b)) := by
  intro srcs
  induction srcs with
  | nil =>
    intro st s hwf hna _ _ _ _
    exact ⟨st, s, rfl, hwf, hna, kept_refl st, rfl, ⟨rfl, rfl⟩, by simp,
      fun h => absurd rfl h, fun q o ho _ => ho, fun o ho => Or.inl ho,
      fun q h1 h2 => absurd h2 (Nat.not_lt.2 h1), fun h => absurd rfl h,
      fun N h => by simp at h⟩
  | cons src rest ih =>
    intro st s hwf hna hty hnames htypes hconf
    obtain ⟨nm, hn⟩ := hnames src (by simp)
    have hsty := hty (by simp)
    have hnsome : ∀ x ∈ (src :: rest).map (name_of st), x ≠ none := by
      intro x hx
      simp only [List.mem_map] at hx
      obtain ⟨a, ha, rfl⟩ := hx
      obtain ⟨n2, hn2⟩ := hnames a ha
      rw [hn2]
      simp
    rcases shadow_step_cases st hwf hna s src nm hsty hn with
      ⟨c, hcn, hstep⟩ | ⟨st1, hcn, hsc, hstep⟩
    · obtain ⟨hcr, hcname, hclt⟩ := child_named_facts st hwf s c nm hcn
      obtain ⟨hct, hcc⟩ := conforms_found st s src c nm rest hn hcn hconf
      obtain ⟨st', S, hrun, hwf', hna', hk, hd, hg, hlen, hpar, hfr, hat, hnw, _, hG⟩ :=
        ih st c hwf hna hct
        (fun a ha => hnames a (by simp [ha]))
        (fun a ha => htypes a (dropLast_subset_cons src rest a ha)) hcc
      obtain ⟨oc, hoc⟩ := deref_of_lt st c hclt
      have hroot : root_of st' c = some s := by
        rw [kept_root_of st st' hk c oc hoc]
        unfold root_of at hcr
        rw [hoc] at hcr
        exact hcr
      have hatt : attach st s (src :: rest) = attach st c rest := by
        simp only [attach, hn, hcn]
      rw [hatt]
      refine ⟨st', S, by simp only [shadow_run, hstep]; exact hrun, hwf', hna', hk,
        ⟨c, hroot, ?_, hd⟩, ⟨nm, hn, Or.inl ⟨c, hcn, hg⟩⟩, by simp; omega, fun _ => ?_,
        hfr, hat, ?_, ?_, ?_⟩
      · rw [hn]
        exact kept_name_of st st' hk c nm hcname
      · by_cases hr : rest = []
        · subst hr
          simp only [shadow_run, Option.some.injEq, Prod.mk.injEq] at hrun
          obtain ⟨rfl, rfl⟩ := hrun
          exact ⟨st, s, rfl, hroot⟩
        · obtain ⟨st2, Sp, h1, h2⟩ := hpar hr
          refine ⟨st2, Sp, ?_, h2⟩
          rw [List.dropLast_cons_of_ne_nil hr]
          simp only [shadow_run, hstep]
          exact h1
      · intro q h1 h2
        obtain ⟨a, ha, so, par, v, h3, h4⟩ := hnw q h1 h2
        exact ⟨a, List.mem_cons_of_mem _ ha, so, par, v, h3, h4⟩
      · intro _ hch
        unfold child_named at hcn
        rw [hch] at hcn
        simp at hcn
      · intro N hN hle
        cases rest with
        | nil =>
          simp only [shadow_run, Option.some.injEq, Prod.mk.injEq] at hrun
          obtain ⟨rfl, rfl⟩ := hrun
          exact absurd hclt (Nat.not_lt.2 hle)
        | cons r rest =>
          rw [List.getLast?_cons_cons] at hN
          exact hG N hN hle
    · obtain ⟨hnr, hnn, hnt, hnc, hnl, hnna⟩ := shadow_created_new st st1 s src nm hn hsc
      have hk1 : kept st st1 := shadow_step_kept _ _ _ _ _ hstep
      have hwf1 := shadow_created_wf st st1 s src hwf hsty hsc
      have hsrct : rest ≠ [] → type_of st src = some .OPT_TREE :=
        fun h => htypes src (head_mem_dropLast src rest h)
      have hnames1 : rest.map (name_of st1) = rest.map (name_of st) := by
        apply List.map_congr_left
        intro a ha
        obtain ⟨n2, hn2⟩ := hnames a (by simp [ha])
        rw [hn2, kept_name_of st st1 hk1 a n2 hn2]
      obtain ⟨st', S, hrun, hwf', hna', hk, hd, hg, hlen, hpar, hfr, _, hnw, hF, hG⟩ :=
        ih st1 st.mem.length hwf1
        (by rw [hnna]; exact hna)
        (fun h => by rw [hnt]; exact hsrct h)
        (fun a ha => by
          obtain ⟨n2, hn2⟩ := hnames a (by simp [ha])
          exact ⟨n2, kept_name_of st st1 hk1 a n2 hn2⟩)
        (fun a ha => kept_type_of st st1 hk1 a _
          (htypes a (dropLast_subset_cons src rest a ha)))
        (conforms_fresh st1 st.mem.length rest (fun h => hnc (hsrct h)))
      have hnew1 : ∃ rec1, st1.deref st.mem.length = some rec1 := by
        apply deref_of_lt
        rw [hnl]
        exact Nat.lt_succ_self _
      obtain ⟨rec1, hon⟩ := hnew1
      have hroot : root_of st' st.mem.length = some s := by
        rw [kept_root_of st1 st' hk st.mem.length rec1 hon]
        unfold root_of at hnr
        rw [hon] at hnr
        exact hnr
      have hatt : attach st s (src :: rest) = s := by
        simp only [attach, hn, hcn]
      have hatt1 : attach st1 st.mem.length rest = st.mem.length :=
        attach_fresh st1 st.mem.length rest (fun h => hnc (hsrct h))
      rw [hatt1] at hfr
      rw [hatt]
      obtain ⟨p, cat, so, v, hp, hv, hso, hsv, _, hp1, hnewrec, hq, _, _⟩ :=
        shadow_created_deref _ _ _ _ hsc
      have hslt : s < st.mem.length := deref_lt st s p hp
      refine ⟨st', S, by simp only [shadow_run, hstep]; exact hrun, hwf', hna',
        kept_trans _ _ _ hk1 hk, ⟨st.mem.length, hroot, ?_, by rw [← hnames1]; exact hd⟩,
        ⟨nm, hn, Or.inr ⟨hcn, st1, hsc, hg⟩⟩, by simp; omega, fun _ => ?_, ?_, ?_, ?_,
        fun _ _ => ?_, ?_⟩
      · rw [hn]
        exact kept_name_of st1 st' hk st.mem.length nm hnn
      · by_cases hr : rest = []
        · subst hr
          simp only [shadow_run, Option.some.injEq, Prod.mk.injEq] at hrun
          obtain ⟨rfl, rfl⟩ := hrun
          exact ⟨st, s, rfl, hroot⟩
        · obtain ⟨st2, Sp, h1, h2⟩ := hpar hr
          refine ⟨st2, Sp, ?_, h2⟩
          rw [List.dropLast_cons_of_ne_nil hr]
          simp only [shadow_run, hstep]
          exact h1
      · intro q o ho hqs
        have hqlt : q < st.mem.length := deref_lt st q o ho
        exact hfr q o (by rw [hq q hqs hqlt]; exact ho) (Nat.ne_of_lt hqlt)
      · intro o ho
        rw [hp] at ho
        obtain rfl := Option.some.inj ho
        exact Or.inr ⟨cat, hv, hfr s _ hp1 (Nat.ne_of_lt hslt)⟩
      · intro q h1 h2
        by_cases hqn : q = st.mem.length
        · subst hqn
          obtain ⟨v2, hv2⟩ := hk _ _ hnewrec
          exact ⟨src, List.mem_cons_self _ _, so, s, v2, hso, hv2⟩
        · have h1b : st1.mem.length ≤ q := by
            rw [hnl]
            exact Nat.succ_le_of_lt (Nat.lt_of_le_of_ne h1 (Ne.symm hqn))
          obtain ⟨a, ha, so1, par, v2, h3, h4⟩ := hnw q h1b h2
          obtain ⟨n2, hn2⟩ := hnames a (List.mem_cons_of_mem _ ha)
          cases hso0 : st.deref a with
          | none =>
            unfold name_of at hn2
            rw [hso0] at hn2
            simp at hn2
          | some so0 =>
            obtain ⟨v0, hv0⟩ := hk1 a so0 hso0
            rw [hv0] at h3
            obtain rfl := Option.some.inj h3
            exact ⟨a, List.mem_cons_of_mem _ ha, so0, par, v2, hso0, h4⟩
      · cases rest with
        | nil =>
          simp only [shadow_run, Option.some.injEq, Prod.mk.injEq] at hrun
          obtain ⟨rfl, rfl⟩ := hrun
          exact ⟨rfl, hnl⟩
        | cons r rest =>
          obtain ⟨h1, h2⟩ := hF (by simp) (hnc (hsrct (by simp)))
          rw [hnl] at h1 h2
          simp only [List.length_cons] at h1 h2 ⊢
          exact ⟨by omega, by omega⟩
      · intro N hN hle
        have hpre : st.strs.length ≤ st1.strs.length :=
          (shallow_value_strs st so v st1.strs hsv).1.length_le
        cases rest with
        | nil =>
          simp only [shadow_run, Option.some.injEq, Prod.mk.injEq] at hrun
          obtain ⟨rfl, rfl⟩ := hrun
          simp only [List.getLast?_singleton, Option.some.injEq] at hN
          subst hN
          exact ⟨so, s, v, hso, hnewrec, fun hty => ⟨st.strs.length,
            shallow_value_string st so v st1.strs hsv hty, Nat.le_refl _⟩⟩
        | cons r rest =>
          rw [List.getLast?_cons_cons] at hN
          obtain ⟨h1, _⟩ := hF (by simp) (hnc (hsrct (by simp)))
          have hle1 : st1.mem.length ≤ S := by
            simp only [List.length_cons] at h1
            omega
          obtain ⟨so1, par, v2, h3, h4, h5⟩ := hG N hN hle1
          obtain ⟨n2, hn2⟩ := hnames N (List.mem_cons_of_mem _ (List.mem_of_getLast?_eq_some hN))
          cases hso0 : st.deref N with
          | none =>
            unfold name_of at hn2
            rw [hso0] at hn2
            simp at hn2
          | some so0 =>
            obtain ⟨v0, hv0⟩ := hk1 N so0 hso0
            rw [hv0] at h3
            obtain rfl := Option.some.inj h3
            refine ⟨so0, par, v2, rfl, h4, fun hty => ?_⟩
            obtain ⟨b, hb1, hb2⟩ := h5 hty
            exact ⟨b, hb1, Nat.le_trans hpre hb2⟩

theorem chain_to_names (st : State) (tree : Nat) :
    ∀ (k : Nat) (N : Nat) (chain : List Ptr), chain_to k st N tree = some chain →
      ∀ a ∈ chain, ∃ nm, name_of st a = some nm := by
  intro k
  induction k with
  | zero => intro N chain h; simp [chain_to] at h
  | succ k ih =>
    intro N chain h
    by_cases e : N = tree
    · simp only [chain_to, e, if_true, Option.some.injEq] at h
      subst h
      intro a ha
      simp at ha
    · obtain ⟨o, r, nm, rest, ho, _, hnm, hrest, rfl⟩ := chain_to_cons k st N tree chain e h
      intro a ha
      rcases List.mem_cons.1 ha with rfl | ha
      · exact ⟨nm, by unfold name_of; rw [ho]; exact hnm⟩
      · exact ih r rest hrest a ha

theorem descends_snoc (st : State) (N M : Nat) (nm : Option cstring)
    (hr : root_of st N = some M) (hn : name_of st N = nm) :
    ∀ (names : List (Option cstring)) (s : Nat), descends st s M names →
      descends st s N (names ++ [nm]) := by
  intro names
  induction names with
  | nil =>
    intro s h
    simp only [descends] at h
    subst h
    exact ⟨N, hr, hn, rfl⟩
  | cons x rest ih =>
    intro s h
    obtain ⟨c, hc, hcn, hd⟩ := h
    exact ⟨c, hc, hcn, ih c hd⟩

theorem chain_to_descends (st : State) (tree : Nat) :
    ∀ (k : Nat) (N : Nat) (chain : List Ptr), chain_to k st N tree = some chain →
      descends st tree N (chain.reverse.map (name_of st)) := by
  intro k
  induction k with
  | zero => intro N chain h; simp [chain_to] at h
  | succ k ih =>
    intro N chain h
    by_cases e : N = tree
    · simp only [chain_to, e, if_true, Option.some.injEq] at h
      subst h
      exact e
    · obtain ⟨o, r, nm, rest, ho, hr, _, hrest, rfl⟩ := chain_to_cons k st N tree chain e h
      rw [List.reverse_cons, List.map_append]
      exact descends_snoc st N r _ (by unfold root_of; rw [ho]; exact hr) rfl _ _
        (ih r rest hrest)

/-- Claim C7.  In a well-formed memory, let `N` be reachable from the canonical
root `tree` by parent links, `chain` being the nodes from `N` up to the child
of `tree`, all named and their names free of dots, the proper ancestors of `N`
and the shadow root being trees, and the shadows already present on the path
being trees where the path goes on.  Then `get_option_shadow` returns a node
`S`; the names from `sroot` down to `S` are the names from `tree` down to `N`;
for `N = tree` the result is `sroot` and nothing changes; otherwise the parent
link of `S` is the node `get_option_shadow` returns for the parent of `N`. -/
theorem C7_shadow_mirrors_path (k fuel : Nat) (st : State) (N tree sroot : Nat)
    (chain : List Ptr) (hwf : well_formed st) (hna : st.no_autocreate = 0)
    (hchain : chain_to k st N tree = some chain)
    (hdot : ∀ a ∈ chain, ∀ nm ∈ name_of st a, '.' ∉ nm)
    (hanc : ∀ a ∈ chain.tail, type_of st a = some .OPT_TREE)
    (hsroot : type_of st sroot = some .OPT_TREE)
    (hconf : conforms st sroot chain.reverse = true)
    (hfuel : chain.length < fuel) :
    ∃ st' S, get_option_shadow fuel st N tree sroot = .ok st' (some S) ∧
      descends st tree N (chain.reverse.map (name_of st)) ∧
      descends st' sroot S (chain.reverse.map (name_of st)) ∧
      (N = tree → st' = st ∧ S = sroot) ∧
      (∀ r, N ≠ tree → root_of st N = some r →
        ∃ st1 Sp, get_option_shadow fuel st r tree sroot = .ok st1 (some Sp) ∧
          root_of st' S = some Sp) := by
  have hdl : ∀ a ∈ chain.reverse.dropLast, type_of st a = some .OPT_TREE := by
    intro a ha
    apply hanc
    rw [← List.reverse_reverse chain.tail, ← List.dropLast_reverse]
    exact List.mem_reverse.2 ha
  obtain ⟨st', S, hrun, _, _, _, hd, _, _, hpar, _, _, _, _, _⟩ := shadow_run_spec chain.reverse st sroot
    hwf hna (fun _ => hsroot)
    (fun a ha => chain_to_names st tree k N chain hchain a (List.mem_reverse.1 ha)) hdl hconf
  have hcore := get_option_shadow_eq_run tree sroot k N chain st fuel hchain
    (fun a ha nm hnm => hdot a ha nm hnm) hfuel
  rw [hrun] at hcore
  refine ⟨st', S, hcore, chain_to_descends st tree k N chain hchain, hd, ?_, ?_⟩
  · intro e
    obtain ⟨k, rfl⟩ : ∃ j, k = j + 1 := by
      cases k with
      | zero => simp [chain_to] at hchain
      | succ j => exact ⟨j, rfl⟩
    simp only [chain_to, e, if_true, Option.some.injEq] at hchain
    subst hchain
    simp only [List.reverse_nil, shadow_run, Option.some.injEq, Prod.mk.injEq] at hrun
    exact ⟨hrun.1.symm, hrun.2.symm⟩
  · intro r e hr
    obtain ⟨k, rfl⟩ : ∃ j, k = j + 1 := by
      cases k with
      | zero => simp [chain_to] at hchain
      | succ j => exact ⟨j, rfl⟩
    obtain ⟨o, r2, nm, rest, ho, hr2, _, hrest, rfl⟩ := chain_to_cons k st N tree chain e hchain
    have hrr : r2 = r := by
      unfold root_of at hr
      rw [ho] at hr
      exact Option.some.inj (hr2.symm.trans hr)
    subst hrr
    obtain ⟨st1, Sp, h1, h2⟩ := hpar (by simp)
    rw [List.reverse_cons, List.dropLast_concat] at h1
    have hcore2 := get_option_shadow_eq_run tree sroot k r2 rest st fuel hrest
      (fun a ha nm hnm => hdot a (List.mem_cons_of_mem _ ha) nm hnm)
      (by simp at hfuel; omega)
    rw [h1] at hcore2
    exact ⟨st1, Sp, hcore2, h2⟩

theorem kept_length (st st' : State) (h : kept st st') : st.mem.length ≤ st'.mem.length := by
  by_contra hlt
  have hlt2 : st'.mem.length < st.mem.length := Nat.lt_of_not_le hlt
  obtain ⟨o, ho⟩ := deref_of_lt st st'.mem.length hlt2
  obtain ⟨v, hv⟩ := h _ _ ho
  exact Nat.lt_irrefl _ (deref_lt st' _ _ hv)

theorem C7_shadow_mirrors_path_witness :
    well_formed st_shadow ∧ st_shadow.no_autocreate = 0 ∧
    chain_to 3 st_shadow 2 0 = some [2, 1] ∧
    (∀ a ∈ [2, 1], ∀ nm ∈ name_of st_shadow a, '.' ∉ nm) ∧
    (∀ a ∈ [1], type_of st_shadow a = some .OPT_TREE) ∧
    type_of st_shadow 3 = some .OPT_TREE ∧
    conforms st_shadow 3 [1, 2] = true ∧ 2 < 3 ∧
    ∃ st' S, get_option_shadow 3 st_shadow 2 0 3 = .ok st' (some S) ∧
      descends st_shadow 0 2 ([2, 1].reverse.map (name_of st_shadow)) ∧
      descends st' 3 S ([2, 1].reverse.map (name_of st_shadow)) ∧
      (2 = 0 → st' = st_shadow ∧ S = 3) ∧
      (∀ r, 2 ≠ 0 → root_of st_shadow 2 = some r →
        ∃ st1 Sp, get_option_shadow 3 st_shadow r 0 3 = .ok st1 (some Sp) ∧
          root_of st' S = some Sp) :=
  ⟨by decide, by decide, by decide, by decide, by decide, by decide, by decide, by decide,
   C7_shadow_mirrors_path 3 3 st_shadow 2 0 3 [2, 1] (by decide) (by decide) (by decide)
     (by decide) (by decide) (by decide) (by decide) (by decide)⟩

/-- Claim C8.  Under the conditions of C7, `get_option_shadow` returns, and the
memory afterwards grew from the memory before along the path of `N` only: at
each level from the shadow root downward, a shadow that exists is taken as it
is, and where there is none exactly one record is created by `shadow_created`,
the shallow copy of the canonical record at that level, put last among the
children of its shadow parent.  At most one record is created per node of the
path; every created record is `shadow_record` of a canonical record of the path
(its name, kind, bounds, caption and description, Touched set, no listbox
item); every old record is as it was, but for the deepest shadow already on
the path, which is either as it was or has the first created record appended
to its children. -/
theorem C8_shadow_grows_along_path (k fuel : Nat) (st : State) (N tree sroot : Nat)
    (chain : List Ptr) (hwf : well_formed st) (hna : st.no_autocreate = 0)
    (hchain : chain_to k st N tree = some chain)
    (hdot : ∀ a ∈ chain, ∀ nm ∈ name_of st a, '.' ∉ nm)
    (hanc : ∀ a ∈ chain.tail, type_of st a = some .OPT_TREE)
    (hsroot : type_of st sroot = some .OPT_TREE)
    (hconf : conforms st sroot chain.reverse = true)
    (hfuel : chain.length < fuel) :
    ∃ st' S, get_option_shadow fuel st N tree sroot = .ok st' (some S) ∧
      grown_from st' S st sroot chain.reverse ∧
      st.mem.length ≤ st'.mem.length ∧ st'.mem.length ≤ st.mem.length + chain.length ∧
      (∀ q, st.mem.length ≤ q → q < st'.mem.length →
        ∃ src ∈ chain, ∃ so par v, st.deref src = some so ∧
          st'.deref q = some (shadow_record so par v)) ∧
      (∀ q o, st.deref q = some o → q ≠ attach st sroot chain.reverse →
        st'.deref q = some o) ∧
      (∀ o, st.deref (attach st sroot chain.reverse) = some o →
        st'.deref (attach st sroot chain.reverse) = some o ∨
          ∃ cat, o.value = .tree (some cat) ∧ st'.deref (attach st sroot chain.reverse) =
            some { o with value := .tree (some (cat ++ [st.mem.length])) }) := by
  have hdl : ∀ a ∈ chain.reverse.dropLast, type_of st a = some .OPT_TREE := by
    intro a ha
    apply hanc
    rw [← List.reverse_reverse chain.tail, ← List.dropLast_reverse]
    exact List.mem_reverse.2 ha
  obtain ⟨st', S, hrun, _, _, hk, _, hg, hlen, _, hfr, hat, hnw, _, _⟩ :=
    shadow_run_spec chain.reverse st sroot hwf hna (fun _ => hsroot)
      (fun a ha => chain_to_names st tree k N chain hchain a (List.mem_reverse.1 ha)) hdl hconf
  have hcore := get_option_shadow_eq_run tree sroot k N chain st fuel hchain
    (fun a ha nm hnm => hdot a ha nm hnm) hfuel
  rw [hrun] at hcore
  refine ⟨st', S, hcore, hg, kept_length st st' hk, by simpa using hlen, ?_, hfr, hat⟩
  intro q h1 h2
  obtain ⟨a, ha, h3⟩ := hnw q h1 h2
  exact ⟨a, List.mem_reverse.1 ha, h3⟩

theorem C8_shadow_grows_along_path_witness :
    well_formed st_shadow_ui ∧ st_shadow_ui.no_autocreate = 0 ∧
    chain_to 3 st_shadow_ui 2 0 = some [2, 1] ∧
    (∀ a ∈ [2, 1], ∀ nm ∈ name_of st_shadow_ui a, '.' ∉ nm) ∧
    (∀ a ∈ [1], type_of st_shadow_ui a = some .OPT_TREE) ∧
    type_of st_shadow_ui 3 = some .OPT_TREE ∧
    conforms st_shadow_ui 3 [1, 2] = true ∧ 2 < 3 ∧
    ∃ st' S, get_option_shadow 3 st_shadow_ui 2 0 3 = .ok st' (some S) ∧
      grown_from st' S st_shadow_ui 3 [2, 1].reverse ∧
      st_shadow_ui.mem.length ≤ st'.mem.length ∧
      st'.mem.length ≤ st_shadow_ui.mem.length + [2, 1].length ∧
      (∀ q, st_shadow_ui.mem.length ≤ q → q < st'.mem.length →
        ∃ src ∈ [2, 1], ∃ so par v, st_shadow_ui.deref src = some so ∧
          st'.deref q = some (shadow_record so par v)) ∧
      (∀ q o, st_shadow_ui.deref q = some o → q ≠ attach st_shadow_ui 3 [2, 1].reverse →
        st'.deref q = some o) ∧
      (∀ o, st_shadow_ui.deref (attach st_shadow_ui 3 [2, 1].reverse) = some o →
        st'.deref (attach st_shadow_ui 3 [2, 1].reverse) = some o ∨
          ∃ cat, o.value = .tree (some cat) ∧
            st'.deref (attach st_shadow_ui 3 [2, 1].reverse) =
              some { o with value := .tree (some (cat ++ [st_shadow_ui.mem.length])) }) :=
  ⟨by decide, by decide, by decide, by decide, by decide, by decide, by decide, by decide,
   C8_shadow_grows_along_path 3 3 st_shadow_ui 2 0 3 [2, 1] (by decide) (by decide)
     (by decide) (by decide) (by decide) (by decide) (by decide) (by decide)⟩

/-! ## Value writes next to a shadow -/

theorem read_write_value_ne (st : State) (p q : Nat) (v : option_value) (h : q ≠ p) :
    read_value (write_value st p v) q = read_value st q := by
  unfold write_value
  cases hp : st.deref p with
  | none => rfl
  | some o =>
    simp only
    unfold read_value
    rw [deref_store_ne st p q _ h]
    rfl

theorem read_write_value_self (st : State) (p : Nat) (o : option) (v : option_value)
    (hp : st.deref p = some o) (hty : o.type ≠ .OPT_STRING) :
    read_value (write_value st p v) p = some (v, none) := by
  unfold write_value
  rw [hp]
  simp only
  unfold read_value
  rw [deref_store_self st p _ o hp]
  simp only
  cases ht : o.type <;> first | exact absurd ht hty | rfl

theorem string_ok_value (strs : List cstring) (o : option) (h : o.string_ok strs = true)
    (hty : o.type = .OPT_STRING) : ∃ b, o.value = .string (some b) ∧ b < strs.length := by
  unfold option.string_ok at h
  rw [hty] at h
  simp only at h
  cases hv : o.value with
  | string sp =>
    rw [hv] at h
    cases sp with
    | none => simp at h
    | some b =>
      simp only [Option.isSome_iff_exists] at h
      obtain ⟨x, hx⟩ := h
      exact ⟨b, rfl, (List.getElem?_eq_some_iff.1 hx).1⟩
  | tree t => rw [hv] at h; simp at h
  | number n => rw [hv] at h; simp at h
  | big_number n => rw [hv] at h; simp at h
  | color c => rw [hv] at h; simp at h
  | command c => rw [hv] at h; simp at h

theorem write_text_eq (st : State) (p : Nat) (o : option) (text : cstring)
    (hp : st.deref p = some o) :
    (o.type = .OPT_STRING ∧ ∃ b, o.value = .string (some b) ∧
        write_text st p text = { st with strs := st.strs.set b text }) ∨
      write_text st p text = st := by
  unfold write_text
  rw [hp]
  simp only
  cases ht : o.type <;> try exact Or.inr rfl
  cases hv : o.value with
  | string sp =>
    cases sp with
    | none => exact Or.inr rfl
    | some b => exact Or.inl ⟨rfl, b, rfl, rfl⟩
  | tree t => exact Or.inr rfl
  | number n => exact Or.inr rfl
  | big_number n => exact Or.inr rfl
  | color c => exact Or.inr rfl
  | command c => exact Or.inr rfl

theorem read_value_strs (st : State) (strs' : List cstring) (q : Nat)
    (h : ∀ o b, st.deref q = some o → o.type = .OPT_STRING → o.value = .string (some b) →
      strs'[b]? = st.strs[b]?) :
    read_value { st with strs := strs' } q = read_value st q := by
  unfold read_value
  have hd : ({ st with strs := strs' } : State).deref q = st.deref q := rfl
  rw [hd]
  cases hq : st.deref q with
  | none => rfl
  | some o =>
    simp only
    cases ht : o.type <;> try rfl
    cases hv : o.value with
    | string sp =>
      cases sp with
      | none => rfl
      | some b =>
        simp only
        rw [h o b hq ht hv]
    | tree t => rfl
    | number n => rfl
    | big_number n => rfl
    | color c => rfl
    | command c => rfl

theorem read_write_text_ne (st : State) (p q : Nat) (text : cstring)
    (hbuf : ∀ op oq bp bq, st.deref p = some op → st.deref q = some oq →
      op.value = .string (some bp) → oq.type = .OPT_STRING → oq.value = .string (some bq) →
      bp ≠ bq) :
    read_value (write_text st p text) q = read_value st q := by
  cases hp : st.deref p with
  | none =>
    unfold write_text
    rw [hp]
  | some op =>
    rcases write_text_eq st p op text hp with ⟨_, b, hv, hw⟩ | hw
    · rw [hw]
      apply read_value_strs
      intro oq bq hq hty hvq
      exact List.getElem?_set_ne (hbuf op oq b bq hp hq hv hty hvq)
    · rw [hw]

theorem read_write_text_self (st : State) (p b : Nat) (o : option) (text : cstring)
    (hp : st.deref p = some o) (hty : o.type = .OPT_STRING) (hv : o.value = .string (some b))
    (hb : b < st.strs.length) :
    read_value (write_text st p text) p = some (o.value, some text) := by
  unfold write_text
  rw [hp]
  simp only [hty, hv]
  unfold read_value
  have hd : ({ st with strs := st.strs.set b text } : State).deref p = st.deref p := rfl
  rw [hd, hp]
  simp only [hty, hv]
  rw [List.getElem?_set_self (by simpa using hb)]

/-- Claim C9.  Let `get_option_shadow` have returned, under the conditions of
C7, a node `S` that did not exist before the call, so that the call
materialized the shadow of `N`.  Then `S` and `N` are different records, and in
the memory after the call a write to the value of one of them leaves the value
read from the other as it was, for a write that assigns the value field and
for a write of a text into the buffer of a String; the writes themselves take
effect on the record written. -/
theorem C9_shadow_isolation (k fuel : Nat) (st st' : State) (N tree sroot S : Nat)
    (chain : List Ptr) (hwf : well_formed st) (hna : st.no_autocreate = 0)
    (hchain : chain_to k st N tree = some chain)
    (hdot : ∀ a ∈ chain, ∀ nm ∈ name_of st a, '.' ∉ nm)
    (hanc : ∀ a ∈ chain.tail, type_of st a = some .OPT_TREE)
    (hsroot : type_of st sroot = some .OPT_TREE)
    (hconf : conforms st sroot chain.reverse = true)
    (hfuel : chain.length < fuel)
    (hres : get_option_shadow fuel st N tree sroot = .ok st' (some S))
    (hnew : st.mem.length ≤ S) :
    S ≠ N ∧
      (∀ v, read_value (write_value st' N v) S = read_value st' S ∧
        read_value (write_value st' S v) N = read_value st' N) ∧
      (∀ text, read_value (write_text st' N text) S = read_value st' S ∧
        read_value (write_text st' S text) N = read_value st' N) ∧
      (∀ text, type_of st N = some .OPT_STRING →
        (∃ v, read_value (write_text st' N text) N = some (v, some text)) ∧
          ∃ v, read_value (write_text st' S text) S = some (v, some text)) ∧
      (∀ v, type_of st N ≠ some .OPT_STRING →
        read_value (write_value st' N v) N = some (v, none) ∧
          read_value (write_value st' S v) S = some (v, none)) := by
  have hdl : ∀ a ∈ chain.reverse.dropLast, type_of st a = some .OPT_TREE := by
    intro a ha
    apply hanc
    rw [← List.reverse_reverse chain.tail, ← List.dropLast_reverse]
    exact List.mem_reverse.2 ha
  obtain ⟨st2, S2, hrun, hwf', _, _, _, _, _, _, hfr, hat, _, _, hG⟩ :=
    shadow_run_spec chain.reverse st sroot hwf hna (fun _ => hsroot)
      (fun a ha => chain_to_names st tree k N chain hchain a (List.mem_reverse.1 ha)) hdl hconf
  have hcore := get_option_shadow_eq_run tree sroot k N chain st fuel hchain
    (fun a ha nm hnm => hdot a ha nm hnm) hfuel
  rw [hrun, hres] at hcore
  simp only [Result.ok.injEq, Option.some.injEq] at hcore
  obtain ⟨rfl, rfl⟩ := hcore
  obtain ⟨k, rfl⟩ : ∃ j, k = j + 1 := by
    cases k with
    | zero => simp [chain_to] at hchain
    | succ j => exact ⟨j, rfl⟩
  have hsr : sroot < st.mem.length := by
    cases hd : st.deref sroot with
    | none =>
      unfold type_of at hsroot
      rw [hd] at hsroot
      simp at hsroot
    | some o => exact deref_lt st sroot o hd
  have hne : N ≠ tree := by
    intro e
    simp only [chain_to, e, if_true, Option.some.injEq] at hchain
    subst hchain
    simp only [List.reverse_nil, shadow_run, Option.some.injEq, Prod.mk.injEq] at hrun
    rw [← hrun.2] at hnew
    exact Nat.lt_irrefl _ (Nat.lt_of_lt_of_le hsr hnew)
  obtain ⟨o, r, nm, rest, ho, _, _, _, rfl⟩ := chain_to_cons k st N tree chain hne hchain
  obtain ⟨so, par, v, hso, hS, hstr⟩ := hG N (by simp) hnew
  rw [ho] at hso
  obtain rfl := Option.some.inj hso
  have hNlt : N < st.mem.length := deref_lt st N o ho
  have hSN : S ≠ N := Ne.symm (Nat.ne_of_lt (Nat.lt_of_lt_of_le hNlt hnew))
  have hostr := hwf.2.2.2 o ((mem_iff_deref st o).2 ⟨N, ho⟩)
  have hN' : ∃ oN, st'.deref N = some oN ∧ oN.type = o.type ∧
      (o.type = .OPT_STRING → oN.value = o.value) := by
    by_cases ha : N = attach st sroot (N :: rest).reverse
    · rw [← ha] at hat
      rcases hat o ho with h | ⟨cat, hv, h⟩
      · exact ⟨o, h, rfl, fun _ => rfl⟩
      · refine ⟨_, h, rfl, fun hty => ?_⟩
        obtain ⟨b, hb, _⟩ := string_ok_value st.strs o hostr hty
        rw [hv] at hb
        simp at hb
    · exact ⟨o, hfr N o ho ha, rfl, fun _ => rfl⟩
  obtain ⟨oN, hoN, hNty, hNval⟩ := hN'
  have hbuf : ∀ bN bS, oN.type = .OPT_STRING → oN.value = .string (some bN) →
      v = .string (some bS) → bN ≠ bS := by
    intro bN bS hty hvN hvS
    rw [hNty] at hty
    obtain ⟨b0, hb0, hlt⟩ := string_ok_value st.strs o hostr hty
    obtain ⟨b1, hb1, hle⟩ := hstr hty
    rw [hNval hty, hb0] at hvN
    rw [hb1] at hvS
    simp only [option_value.string.injEq, Option.some.injEq] at hvN hvS
    rw [← hvN, ← hvS]
    exact Nat.ne_of_lt (Nat.lt_of_lt_of_le hlt hle)
  have hsrec : (shadow_record o par v).string_ok st'.strs = true :=
    hwf'.2.2.2 _ ((mem_iff_deref st' _).2 ⟨S, hS⟩)
  have hNrec : oN.string_ok st'.strs = true :=
    hwf'.2.2.2 _ ((mem_iff_deref st' _).2 ⟨N, hoN⟩)
  refine ⟨hSN, fun w => ⟨read_write_value_ne st' N S w hSN,
    read_write_value_ne st' S N w (Ne.symm hSN)⟩, fun text => ⟨?_, ?_⟩, ?_, ?_⟩
  · apply read_write_text_ne
    intro op oq bp bq hp hq hvp hty hvq
    rw [hoN] at hp
    rw [hS] at hq
    obtain rfl := Option.some.inj hp
    obtain rfl := Option.some.inj hq
    exact hbuf bp bq (hNty.trans hty) hvp hvq
  · apply read_write_text_ne
    intro op oq bp bq hp hq hvp hty hvq
    rw [hoN] at hq
    rw [hS] at hp
    obtain rfl := Option.some.inj hp
    obtain rfl := Option.some.inj hq
    exact Ne.symm (hbuf bq bp hty hvq hvp)
  · intro text hty
    have hty2 : o.type = .OPT_STRING := by
      unfold type_of at hty
      rw [ho] at hty
      exact Option.some.inj hty
    obtain ⟨b0, hb0, hlt0⟩ := string_ok_value st'.strs oN hNrec (hNty.trans hty2)
    obtain ⟨b1, hb1, hlt1⟩ := string_ok_value st'.strs _ hsrec hty2
    exact ⟨⟨_, read_write_text_self st' N b0 oN text hoN (hNty.trans hty2) hb0 hlt0⟩,
      ⟨_, read_write_text_self st' S b1 _ text hS hty2 hb1 hlt1⟩⟩
  · intro w hty
    have hty2 : o.type ≠ .OPT_STRING := by
      intro h
      apply hty
      unfold type_of
      rw [ho, ← h]
      rfl
    exact ⟨read_write_value_self st' N oN w hoN (by rw [hNty]; exact hty2),
      read_write_value_self st' S _ w hS hty2⟩

theorem C9_shadow_isolation_witness :
    well_formed st_shadow ∧ st_shadow.no_autocreate = 0 ∧
    chain_to 3 st_shadow 2 0 = some [2, 1] ∧
    (∀ a ∈ [2, 1], ∀ nm ∈ name_of st_shadow a, '.' ∉ nm) ∧
    (∀ a ∈ [1], type_of st_shadow a = some .OPT_TREE) ∧
    type_of st_shadow 3 = some .OPT_TREE ∧
    conforms st_shadow 3 [1, 2] = true ∧ 2 < 3 ∧
    get_option_shadow 3 st_shadow 2 0 3 = .ok st_shadowed (some 5) ∧
    st_shadow.mem.length ≤ 5 ∧
    (5 ≠ 2 ∧
      (∀ v, read_value (write_value st_shadowed 2 v) 5 = read_value st_shadowed 5 ∧
        read_value (write_value st_shadowed 5 v) 2 = read_value st_shadowed 2) ∧
      (∀ text, read_value (write_text st_shadowed 2 text) 5 = read_value st_shadowed 5 ∧
        read_value (write_text st_shadowed 5 text) 2 = read_value st_shadowed 2) ∧
      (∀ text, type_of st_shadow 2 = some .OPT_STRING →
        (∃ v, read_value (write_text st_shadowed 2 text) 2 = some (v, some text)) ∧
          ∃ v, read_value (write_text st_shadowed 5 text) 5 = some (v, some text)) ∧
      (∀ v, type_of st_shadow 2 ≠ some .OPT_STRING →
        read_value (write_value st_shadowed 2 v) 2 = some (v, none) ∧
          read_value (write_value st_shadowed 5 v) 5 = some (v, none))) :=
  ⟨by decide, by decide, by decide, by decide, by decide, by decide, by decide, by decide,
   by decide, by decide,
   C9_shadow_isolation 3 3 st_shadow st_shadowed 2 0 3 5 [2, 1] (by decide) (by decide)
     (by decide) (by decide) (by decide) (by decide) (by decide) (by decide) (by decide)
     (by decide)⟩

/-! ## Lookups that fail on the way -/

theorem split_snoc (s : cstring) (hs : '.' ∉ s) :
    ∀ pre : cstring, split_last_dot (pre ++ '.' :: s) = some (pre, s) := by
  intro pre
  induction pre with
  | nil =>
    simp only [List.nil_append, split_last_dot, split_last_dot_no_dot s hs, if_true]
  | cons c cs ih =>
    show split_last_dot (c :: (cs ++ '.' :: s)) = some (c :: cs, s)
    rw [split_last_dot, ih]

theorem extend_snoc : ∀ (ss : List cstring) (pre s : cstring),
    extend pre (ss ++ [s]) = extend pre ss ++ '.' :: s := by
  intro ss
  induction ss with
  | nil => intro pre s; rfl
  | cons a ss ih =>
    intro pre s
    simp only [List.cons_append, extend]
    exact ih _ s

theorem extend_append : ∀ (a b : List cstring) (pre : cstring),
    extend pre (a ++ b) = extend (extend pre a) b := by
  intro a
  induction a with
  | nil => intro b pre; rfl
  | cons x a ih =>
    intro b pre
    simp only [List.cons_append, extend]
    exact ih b _

theorem get_opt_rec_stuck (f : Nat) (st st1 : State) (tree : Nat) (pre s : cstring)
    (r : Option Ptr) (hs : '.' ∉ s) (hpre : get_opt_rec f st tree pre = .ok st1 r)
    (hr : r = none ∨ ∃ x o, r = some x ∧ st1.deref x = some o ∧
      (o.type ≠ .OPT_TREE ∨ o.flags.OPT_HIDDEN = true)) :
    get_opt_rec (f + 1) st tree (pre ++ '.' :: s) = .ok st1 none := by
  simp only [get_opt_rec, split_snoc s hs pre, hpre, Result.bind]
  rcases hr with rfl | ⟨x, o, rfl, hx, hb⟩
  · rfl
  · simp only [hx]
    rw [if_pos]
    rcases hb with h | h
    · exact Or.inl h
    · exact Or.inr h

theorem get_opt_rec_none_extend : ∀ (rest : List cstring) (f : Nat) (st st1 : State)
    (tree : Nat) (pre : cstring), (∀ s ∈ rest, '.' ∉ s) →
    get_opt_rec f st tree pre = .ok st1 none →
    get_opt_rec (f + rest.length) st tree (extend pre rest) = .ok st1 none := by
  intro rest
  induction rest with
  | nil => intro f st st1 tree pre _ h; exact h
  | cons s ss ih =>
    intro f st st1 tree pre hd h
    have h1 := get_opt_rec_stuck f st st1 tree pre s none (hd s (List.mem_cons_self _ _)) h
      (Or.inl rfl)
    have h2 := ih (f + 1) st st1 tree (pre ++ '.' :: s)
      (fun x hx => hd x (List.mem_cons_of_mem _ hx)) h1
    have e : f + (s :: ss).length = f + 1 + ss.length := by
      simp only [List.length_cons]
      omega
    rw [e]
    exact h2

/-- Claim C18.  Let the lookup of the path `pre` return a node that is not a
Tree or carries `OPT_HIDDEN`.  Then the lookup of every path that continues
`pre` by one or more segments returns `NULL`, whatever `no_autocreate` is (in
Normal and in Strict mode), and `get_opt_rec_real` returns `NULL` as well when
the lookup of `pre` was made with `no_autocreate` raised. -/
theorem C18_blocked_prefix (f : Nat) (st st1 : State) (tree x : Nat) (o : option)
    (pre s : cstring) (rest : List cstring) (hdot : ∀ a ∈ s :: rest, '.' ∉ a)
    (hpre : get_opt_rec f st tree pre = .ok st1 (some x)) (hx : st1.deref x = some o)
    (hblk : o.type ≠ .OPT_TREE ∨ o.flags.OPT_HIDDEN = true) :
    get_opt_rec (f + 1 + rest.length) st tree (extend pre (s :: rest)) = .ok st1 none ∧
      (∀ st0 : State, st = { st0 with no_autocreate := 1 } →
        get_opt_rec_real (f + 1 + rest.length) st0 tree (extend pre (s :: rest)) =
          .ok { st1 with no_autocreate := 0 } none) := by
  have h1 := get_opt_rec_stuck f st st1 tree pre s (some x) (hdot s (List.mem_cons_self _ _))
    hpre (Or.inr ⟨x, o, rfl, hx, hblk⟩)
  have h2 := get_opt_rec_none_extend rest (f + 1) st st1 tree (pre ++ '.' :: s)
    (fun a ha => hdot a (List.mem_cons_of_mem _ ha)) h1
  refine ⟨h2, ?_⟩
  intro st0 hst
  unfold get_opt_rec_real
  rw [← hst]
  simp only [extend] at h2 ⊢
  rw [h2]
  rfl

theorem C18_blocked_prefix_witness :
    (∀ a ∈ ["x".toList, "y".toList], '.' ∉ a) ∧
    get_opt_rec 1 { st_terminal with no_autocreate := 1 } 0 "Terminal".toList =
      .ok { st_terminal with no_autocreate := 1 } (some 4) ∧
    ({ st_terminal with no_autocreate := 1 } : State).deref 4 =
      some (mk_option "Terminal" .OPT_INT no_flags (.number 0) (some 0)) ∧
    ((mk_option "Terminal" .OPT_INT no_flags (.number 0) (some 0)).type ≠ .OPT_TREE ∨
      (mk_option "Terminal" .OPT_INT no_flags (.number 0) (some 0)).flags.OPT_HIDDEN = true) ∧
    (get_opt_rec (1 + 1 + ["y".toList].length) { st_terminal with no_autocreate := 1 } 0
        (extend "Terminal".toList ["x".toList, "y".toList]) =
        .ok { st_terminal with no_autocreate := 1 } none ∧
      (∀ st0 : State, { st_terminal with no_autocreate := 1 } = { st0 with no_autocreate := 1 } →
        get_opt_rec_real (1 + 1 + ["y".toList].length) st0 0
            (extend "Terminal".toList ["x".toList, "y".toList]) =
          .ok { ({ st_terminal with no_autocreate := 1 } : State) with no_autocreate := 0 }
            none)) :=
  ⟨by decide, by decide, by decide, by decide,
   C18_blocked_prefix 1 { st_terminal with no_autocreate := 1 }
     { st_terminal with no_autocreate := 1 } 0 4
     (mk_option "Terminal" .OPT_INT no_flags (.number 0) (some 0))
     "Terminal".toList "x".toList ["y".toList] (by decide) (by decide) (by decide)
     (by decide)⟩

theorem dotted_snoc (xs : List cstring) (s : cstring) (h : xs ≠ []) :
    dotted (xs ++ [s]) = dotted xs ++ '.' :: s := by
  cases xs with
  | nil => exact absurd rfl h
  | cons a xs =>
    simp only [List.cons_append, dotted]
    exact extend_snoc xs a s

theorem dotted_append (xs ys : List cstring) (h : xs ≠ []) :
    dotted (xs ++ ys) = extend (dotted xs) ys := by
  cases xs with
  | nil => exact absurd rfl h
  | cons a xs =>
    simp only [List.cons_append, dotted]
    exact extend_append xs ys a

theorem segments_no_dot (s : cstring) (h : '.' ∉ s) : segments s = [s] :=
  segments_of_split_none s (split_last_dot_no_dot s h)

theorem segments_dotted : ∀ (xs : List cstring), xs ≠ [] → (∀ a ∈ xs, '.' ∉ a) →
    segments (dotted xs) = xs := by
  intro xs
  induction xs using List.reverseRecOn with
  | nil => intro h; exact absurd rfl h
  | append_singleton xs s ih =>
    intro _ hd
    by_cases hxs : xs = []
    · subst hxs
      exact segments_no_dot s (hd s (by simp))
    · rw [dotted_snoc xs s hxs,
        segments_of_split_some _ _ _ (split_snoc s (hd s (by simp)) (dotted xs)),
        ih hxs (fun a ha => hd a (by simp [ha]))]

theorem get_opt_rec_last_miss (lookup : State → Ptr → cstring → Result (Option Ptr))
    (copy : State → Ptr → copy_option_flags → Result Ptr) (st : State) (hc : closed st)
    (P : Nat) (cat : List Ptr) (seg : cstring) (hcat : children st P = some cat)
    (hmiss : child_named st P seg = none)
    (hauto : (∀ t, st.deref P = some t → t.flags.OPT_AUTOCREATE = false) ∨
      st.no_autocreate ≠ 0) :
    get_opt_rec_last lookup copy st P seg = .ok st none := by
  obtain ⟨t, ht, hv⟩ := children_some_inv st P cat hcat
  have hfind := find_of_child_named_closed st P t cat seg ht hv (children_valid st hc P cat hcat)
  unfold get_opt_rec_last
  rw [ht]
  simp only [hv, hfind, hmiss]
  rw [if_neg]
  rintro ⟨h1, h2⟩
  rcases hauto with h | h
  · rw [h t ht] at h1
    exact Bool.false_ne_true h1
  · exact h h2

theorem get_opt_rec_missing (st : State) (hc : closed st) (tree P : Nat) (cat : List Ptr)
    (psegs : List cstring) (seg : cstring) (hd : ∀ a ∈ psegs ++ [seg], '.' ∉ a)
    (hreach : descend st tree psegs = some P) (hcat : children st P = some cat)
    (hmiss : child_named st P seg = none)
    (hauto : (∀ t, st.deref P = some t → t.flags.OPT_AUTOCREATE = false) ∨
      st.no_autocreate ≠ 0)
    (f : Nat) (hf : psegs.length + 1 ≤ f) :
    get_opt_rec f st tree (dotted (psegs ++ [seg])) = .ok st none := by
  obtain ⟨f, rfl⟩ : ∃ j, f = j + 1 := ⟨f - 1, by omega⟩
  have hs : '.' ∉ seg := hd seg (by simp)
  by_cases hp : psegs = []
  · subst hp
    simp only [descend, Option.some.injEq] at hreach
    subst hreach
    simp only [List.nil_append, dotted, extend, get_opt_rec, split_last_dot_no_dot seg hs]
    exact get_opt_rec_last_miss _ _ st hc tree cat seg hcat hmiss hauto
  · have hseg : segments (dotted psegs) = psegs :=
      segments_dotted psegs hp (fun a ha => hd a (by simp [ha]))
    have hin : get_opt_rec f st tree (dotted psegs) = .ok st (some P) := by
      apply get_opt_rec_of_walk
      · rw [hseg]
        omega
      · rw [hseg, walk_eq_descend st hc]
        exact hreach
    obtain ⟨t, ht, _⟩ := children_some_inv st P cat hcat
    rw [dotted_snoc psegs seg hp]
    simp only [get_opt_rec, split_snoc seg hs, hin, Result.bind, ht]
    by_cases hb : t.type ≠ .OPT_TREE ∨ t.flags.OPT_HIDDEN = true
    · rw [if_pos hb]
    · rw [if_neg hb]
      exact get_opt_rec_last_miss _ _ st hc P cat seg hcat hmiss hauto

theorem C19_autocreated_ancestor :
    st_terminal.no_autocreate = 0 ∧
    descend st_terminal 0 ["terminal".toList] = some 1 ∧
    child_named st_terminal 1 "linux".toList = none ∧
    dotted ["terminal".toList, "linux".toList, "type".toList] = "terminal.linux.type".toList ∧
    get_opt_rec 5 st_terminal 0 "terminal.linux.type".toList = .ok st_linux (some 6) :=
  ⟨by decide, by decide, by decide, by decide, by decide⟩

/-- Claim C19, amended.  In a memory whose children collections hold no dangling
pointer, let the segments `psegs` lead from `tree` to the node `P`, which has a
children collection, and let `seg` name no child of `P`.  Then the Strict
lookup of the path `psegs`, `seg`, `rest` returns `NULL` and leaves the memory
as it is, and so does the lookup `get_opt_rec` when `P` does not carry
`OPT_AUTOCREATE` or `no_autocreate` is raised. -/
theorem C19_missing_ancestor (st : State) (hc : closed st) (tree P : Nat) (cat : List Ptr)
    (psegs rest : List cstring) (seg : cstring) (fuel : Nat)
    (hd : ∀ a ∈ psegs ++ seg :: rest, '.' ∉ a)
    (hreach : descend st tree psegs = some P) (hcat : children st P = some cat)
    (hmiss : child_named st P seg = none)
    (hf : (psegs ++ seg :: rest).length ≤ fuel) :
    get_opt_rec_real fuel st tree (dotted (psegs ++ seg :: rest)) =
        .ok { st with no_autocreate := 0 } none ∧
      ((∀ t, st.deref P = some t → t.flags.OPT_AUTOCREATE = false) ∨ st.no_autocreate ≠ 0 →
        get_opt_rec fuel st tree (dotted (psegs ++ seg :: rest)) = .ok st none) := by
  have hpath : dotted (psegs ++ seg :: rest) = extend (dotted (psegs ++ [seg])) rest := by
    rw [← dotted_append (psegs ++ [seg]) rest (by simp), List.append_assoc]
    rfl
  obtain ⟨f, rfl⟩ : ∃ j, fuel = j + rest.length :=
    ⟨fuel - rest.length, by simp only [List.length_append, List.length_cons] at hf; omega⟩
  have hf2 : psegs.length + 1 ≤ f := by
    simp only [List.length_append, List.length_cons] at hf
    omega
  have hd1 : ∀ a ∈ psegs ++ [seg], '.' ∉ a := by
    intro a ha
    apply hd
    rcases List.mem_append.1 ha with h | h
    · exact List.mem_append_left _ h
    · rw [List.mem_singleton.1 h]
      exact List.mem_append_right _ (List.mem_cons_self _ _)
  have hd2 : ∀ a ∈ rest, '.' ∉ a := fun a ha => hd a (by simp [ha])
  rw [hpath]
  constructor
  · unfold get_opt_rec_real
    have h1 := get_opt_rec_missing { st with no_autocreate := 1 } hc tree P cat psegs seg hd1
      (by
        have hc1 : closed { st with no_autocreate := 1 } := hc
        rw [← walk_eq_descend _ hc1, walk_mem_congr st { st with no_autocreate := 1 } rfl,
          walk_eq_descend st hc]
        exact hreach)
      hcat hmiss (Or.inr (by simp)) f hf2
    rw [get_opt_rec_none_extend rest f _ _ tree _ hd2 h1]
    rfl
  · intro hauto
    exact get_opt_rec_none_extend rest f _ _ tree _ hd2
      (get_opt_rec_missing st hc tree P cat psegs seg hd1 hreach hcat hmiss hauto f hf2)

theorem C19_missing_ancestor_witness :
    closed st_terminal ∧
    (∀ a ∈ ["terminal".toList, "_template_".toList] ++ "colors".toList :: ["fg".toList],
      '.' ∉ a) ∧
    descend st_terminal 0 ["terminal".toList, "_template_".toList] = some 2 ∧
    children st_terminal 2 = some [3] ∧
    child_named st_terminal 2 "colors".toList = none ∧
    (["terminal".toList, "_template_".toList] ++ "colors".toList :: ["fg".toList]).length ≤ 4 ∧
    get_opt_rec_real 4 st_terminal 0
        (dotted (["terminal".toList, "_template_".toList] ++ "colors".toList :: ["fg".toList])) =
      .ok { st_terminal with no_autocreate := 0 } none ∧
    get_opt_rec 4 st_terminal 0
        (dotted (["terminal".toList, "_template_".toList] ++ "colors".toList :: ["fg".toList])) =
      .ok st_terminal none :=
  ⟨by decide, by decide, by decide, by decide, by decide, by decide,
   (C19_missing_ancestor st_terminal (by decide) 0 2 [3]
     ["terminal".toList, "_template_".toList] ["fg".toList] "colors".toList 4
     (by decide) (by decide) (by decide) (by decide) (by decide)).1,
   (C19_missing_ancestor st_terminal (by decide) 0 2 [3]
     ["terminal".toList, "_template_".toList] ["fg".toList] "colors".toList 4
     (by decide) (by decide) (by decide) (by decide) (by decide)).2
     (Or.inl (fun t ht => by
       have e : t = mk_option "_template_" .OPT_TREE no_flags (.tree (some [3])) (some 1) :=
         Option.some.inj (ht.symm.trans (by decide))
       rw [e]
       rfl))⟩

/-! ## An autocreating tree without template -/

theorem get_opt_rec_last_template_loop (lookup : State → Ptr → cstring → Result (Option Ptr))
    (copy : State → Ptr → copy_option_flags → Result Ptr) (st : State) (hc : closed st)
    (P : Nat) (t : option) (cat : List Ptr) (seg : cstring)
    (ht : st.deref P = some t) (hv : t.value = .tree (some cat))
    (hauto : t.flags.OPT_AUTOCREATE = true) (hna : st.no_autocreate = 0)
    (hmiss : child_named st P seg = none)
    (hloop : lookup st P template_name = .out_of_fuel) :
    get_opt_rec_last lookup copy st P seg = .out_of_fuel := by
  have hcat : children st P = some cat := by
    simp only [children, ht, hv]
  have hfind := find_of_child_named_closed st P t cat seg ht hv (children_valid st hc P cat hcat)
  unfold get_opt_rec_last
  rw [ht]
  simp only [hv, hfind, hmiss]
  rw [if_pos ⟨hauto, hna⟩, hloop]
  rfl

theorem get_opt_rec_template_loop (st : State) (hc : closed st) (P : Nat) (t : option)
    (cat : List Ptr) (ht : st.deref P = some t) (hv : t.value = .tree (some cat))
    (hauto : t.flags.OPT_AUTOCREATE = true) (hna : st.no_autocreate = 0)
    (hnt : child_named st P template_name = none) :
    ∀ fuel, get_opt_rec fuel st P template_name = .out_of_fuel := by
  intro fuel
  induction fuel with
  | zero => rfl
  | succ f ih =>
    simp only [get_opt_rec, split_template_name]
    exact get_opt_rec_last_template_loop _ _ st hc P t cat template_name ht hv hauto hna hnt ih

theorem get_opt_rec_no_template (st : State) (hc : closed st) (P : Nat) (t : option)
    (cat : List Ptr) (seg : cstring) (ht : st.deref P = some t)
    (hv : t.value = .tree (some cat)) (hauto : t.flags.OPT_AUTOCREATE = true)
    (hna : st.no_autocreate = 0) (hnt : child_named st P template_name = none)
    (hs : '.' ∉ seg) (hmiss : child_named st P seg = none) :
    ∀ fuel, get_opt_rec fuel st P seg = .out_of_fuel := by
  intro fuel
  cases fuel with
  | zero => rfl
  | succ f =>
    simp only [get_opt_rec, split_last_dot_no_dot seg hs]
    exact get_opt_rec_last_template_loop _ _ st hc P t cat seg ht hv hauto hna hmiss
      (get_opt_rec_template_loop st hc P t cat ht hv hauto hna hnt f)

/-- Claim C20.  On the autocreating tree of `st_notemplate`, which has no child
`_template_`, the Normal-mode lookup of `linux`, which matches no child, does
not return with any amount of fuel: the lookup of `_template_` that is to find
the template is itself a lookup that misses under an autocreating tree, and
asks for the template again. -/
theorem C20_missing_template_recursion :
    st_notemplate.no_autocreate = 0 ∧
    child_named st_notemplate 0 template_name = none ∧
    child_named st_notemplate 0 "linux".toList = none ∧
    ∀ fuel, get_opt_rec fuel st_notemplate 0 "linux".toList = .out_of_fuel :=
  ⟨by decide, by decide, by decide,
   get_opt_rec_no_template st_notemplate (by decide) 0
     (mk_option "" .OPT_TREE { no_flags with OPT_AUTOCREATE := true } (.tree (some [1])) none)
     [1] "linux".toList (by decide) (by decide) (by decide) (by decide) (by decide) (by decide)
     (by decide)⟩

/-! ## Change hooks that rewrite the tree -/

theorem changed_by_nil (f : option → option) (st : State) : changed_by f [] st st :=
  ⟨rfl, rfl, rfl, rfl, fun q o ho => by simpa using ho⟩

theorem changed_by_store (f : option → option) (st : State) (p : Nat) (o : option)
    (ho : st.deref p = some o) : changed_by f [p] st (st.store p (f o)) := by
  refine ⟨store_length st p _, rfl, rfl, rfl, ?_⟩
  intro q oq hq
  by_cases e : q = p
  · subst e
    rw [deref_store_self st q _ o ho]
    rw [ho] at hq
    obtain rfl := Option.some.inj hq
    simp
  · rw [deref_store_ne st p q _ e, hq]
    simp [e]

theorem changed_by_trans (f : option → option) (hf : ∀ o, f (f o) = f o) (a b : List Ptr)
    (st st1 st2 : State) (h1 : changed_by f a st st1) (h2 : changed_by f b st1 st2) :
    changed_by f (a ++ b) st st2 := by
  obtain ⟨a1, a2, a3, a4, a5⟩ := h1
  obtain ⟨b1, b2, b3, b4, b5⟩ := h2
  refine ⟨b1.trans a1, b2.trans a2, b3.trans a3, b4.trans a4, ?_⟩
  intro q o ho
  rw [b5 q _ (a5 q o ho)]
  by_cases ha : q ∈ a <;> by_cases hb : q ∈ b <;> simp [ha, hb, hf]

theorem changed_by_congr (f : option → option) (a b : List Ptr) (st st' : State)
    (hab : ∀ q, q ∈ a ↔ q ∈ b) (h : changed_by f a st st') : changed_by f b st st' := by
  obtain ⟨a1, a2, a3, a4, a5⟩ := h
  refine ⟨a1, a2, a3, a4, ?_⟩
  intro q o ho
  rw [a5 q o ho]
  by_cases ha : q ∈ a
  · simp [ha, (hab q).1 ha]
  · have hb : q ∉ b := fun hb => ha ((hab q).2 hb)
    simp [ha, hb]

theorem deref_none_of_length (st st' : State) (hl : st'.mem.length = st.mem.length) (q : Nat)
    (h : st.deref q = none) : st'.deref q = none := by
  unfold State.deref at h ⊢
  rw [List.getElem?_eq_none_iff] at h ⊢
  omega

theorem changed_by_shape (f : option → option)
    (hf : ∀ o, (f o).type = o.type ∧ (f o).value = o.value) (ds : List Ptr) (st st' : State)
    (h : changed_by f ds st st') : shape_eq st st' := by
  intro q
  cases ho : st.deref q with
  | none => rw [deref_none_of_length st st' h.1 q ho]
  | some o =>
    rw [h.2.2.2.2 q o ho]
    by_cases hq : q ∈ ds
    · simp [hq, hf o]
    · simp [hq]

theorem shape_eq_deref (st st' : State) (h : shape_eq st st') (q : Nat) (o : option)
    (ho : st.deref q = some o) :
    ∃ o', st'.deref q = some o' ∧ o'.type = o.type ∧ o'.value = o.value := by
  have := h q
  rw [ho] at this
  cases ho' : st'.deref q with
  | none => simp [ho'] at this
  | some o' =>
    rw [ho'] at this
    simp only [Option.map_some', Option.some.injEq, Prod.mk.injEq] at this
    exact ⟨o', rfl, this.1, this.2⟩

theorem shape_eq_none (st st' : State) (h : shape_eq st st') (q : Nat)
    (ho : st.deref q = none) : st'.deref q = none := by
  have := h q
  rw [ho] at this
  cases ho' : st'.deref q with
  | none => rfl
  | some o' => simp [ho'] at this

theorem shape_eq_children (st st' : State) (h : shape_eq st st') (p : Nat) :
    children st' p = children st p := by
  unfold children
  cases ho : st.deref p with
  | none => rw [shape_eq_none st st' h p ho]
  | some o =>
    obtain ⟨o', ho', _, hv⟩ := shape_eq_deref st st' h p o ho
    rw [ho']
    simp only [hv]

theorem postorder_list_congr (r r' : Ptr → Option (List Ptr)) (h : ∀ c, r c = r' c) :
    ∀ l, postorder_list r l = postorder_list r' l := by
  intro l
  induction l with
  | nil => rfl
  | cons c cs ih => simp only [postorder_list, h c, ih]

theorem postorder_shape (st st' : State) (h : shape_eq st st') :
    ∀ (k : Nat) (p : Nat), postorder k st' p = postorder k st p := by
  intro k
  induction k with
  | zero => intro p; rfl
  | succ k ih =>
    intro p
    simp only [postorder]
    cases ho : st.deref p with
    | none => rw [shape_eq_none st st' h p ho]
    | some o =>
      obtain ⟨o', ho', ht, hv⟩ := shape_eq_deref st st' h p o ho
      have e : ∀ l, postorder_list (postorder k st') l = postorder_list (postorder k st) l :=
        postorder_list_congr _ _ ih
      rw [ho']
      simp only [ht, hv, e]

theorem descendants_shape (st st' : State) (h : shape_eq st st') (k : Nat) (p : Nat) :
    descendants k st' p = descendants k st p := by
  cases k with
  | zero => rfl
  | succ k =>
    have e : ∀ l, postorder_list (postorder k st') l = postorder_list (postorder k st) l :=
      postorder_list_congr _ _ (postorder_shape st st' h k)
    simp only [descendants, shape_eq_children st st' h p, e]

theorem postorder_list_cons_inv (r : Ptr → Option (List Ptr)) (c : Ptr) (cs ds : List Ptr)
    (h : postorder_list r (c :: cs) = some ds) :
    ∃ a b, r c = some a ∧ postorder_list r cs = some b ∧ ds = a ++ b := by
  simp only [postorder_list] at h
  cases ha : r c with
  | none => simp [ha] at h
  | some a =>
    cases hb : postorder_list r cs with
    | none => simp [ha, hb] at h
    | some b =>
      rw [ha, hb] at h
      exact ⟨a, b, rfl, rfl, (Option.some.inj h).symm⟩

theorem postorder_inv (j : Nat) (st : State) (p : Nat) (a : List Ptr)
    (h : postorder (j + 1) st p = some a) :
    ∃ o, st.deref p = some o ∧
      ((o.type = .OPT_TREE ∧ ∃ catp da, o.value = .tree (some catp) ∧
          postorder_list (postorder j st) catp = some da ∧ a = da ++ [p]) ∨
        (o.type ≠ .OPT_TREE ∧ a = [p])) := by
  simp only [postorder] at h
  cases ho : st.deref p with
  | none => simp [ho] at h
  | some o =>
    rw [ho] at h
    simp only at h
    refine ⟨o, rfl, ?_⟩
    by_cases ht : o.type = .OPT_TREE
    · rw [if_pos ht] at h
      left
      refine ⟨ht, ?_⟩
      cases hv : o.value with
      | tree t =>
        rw [hv] at h
        cases t with
        | none => simp at h
        | some catp =>
          simp only [Option.map_eq_some'] at h
          obtain ⟨da, h1, h2⟩ := h
          exact ⟨catp, da, rfl, h1, h2.symm⟩
      | string s => rw [hv] at h; simp at h
      | number n => rw [hv] at h; simp at h
      | big_number n => rw [hv] at h; simp at h
      | color c => rw [hv] at h; simp at h
      | command c => rw [hv] at h; simp at h
    · rw [if_neg ht] at h
      exact Or.inr ⟨ht, (Option.some.inj h).symm⟩

theorem descendants_of_tree (j : Nat) (st : State) (p : Nat) (o : option)
    (catp : List Ptr) (ho : st.deref p = some o) (hv : o.value = .tree (some catp)) :
    descendants (j + 1) st p = postorder_list (postorder j st) catp := by
  simp only [descendants, children, ho, hv]

theorem flag_walk_spec (f : option → option)
    (h1 : ∀ o, (f o).type = o.type ∧ (f o).value = o.value) (h3 : ∀ o, f (f o) = f o) :
    ∀ (k : Nat) (st : State) (tree : Nat) (ds : List Ptr),
      descendants k st tree = some ds →
      ∃ st', flag_walk f k st tree = .ok st' () ∧ changed_by f ds st st' := by
  intro k
  induction k with
  | zero => intro st tree ds h; simp [descendants] at h
  | succ k ih =>
    have hloop : ∀ (cat : List Ptr) (st : State) (ds : List Ptr),
        postorder_list (postorder k st) cat = some ds →
        ∃ st', flag_walk_loop f (fun st1 p => flag_walk f k st1 p) cat st = .ok st' () ∧
          changed_by f ds st st' := by
      intro cat
      induction cat with
      | nil =>
        intro st ds h
        simp only [postorder_list, Option.some.injEq] at h
        subst h
        exact ⟨st, rfl, changed_by_nil f st⟩
      | cons p ps ihl =>
        intro st ds h
        obtain ⟨a, b, ha, hb, rfl⟩ := postorder_list_cons_inv _ p ps ds h
        obtain ⟨j, rfl⟩ : ∃ j, k = j + 1 := by
          cases k with
          | zero => simp [postorder] at ha
          | succ j => exact ⟨j, rfl⟩
        obtain ⟨o, ho, hcase⟩ := postorder_inv j st p a ha
        have hc1 := changed_by_store f st p o ho
        have hs1 := changed_by_shape f h1 _ _ _ hc1
        simp only [flag_walk_loop, ho]
        rcases hcase with ⟨ht, catp, da, hv, hda, rfl⟩ | ⟨ht, rfl⟩
        · rw [if_pos ht]
          have hd : descendants (j + 1) (st.store p (f o)) p = some da := by
            rw [descendants_shape st _ hs1, descendants_of_tree j st p o catp ho hv]
            exact hda
          obtain ⟨st2, hw2, hc2⟩ := ih _ p da hd
          have hc12 := changed_by_trans f h3 _ _ _ _ _ hc1 hc2
          have hs2 := changed_by_shape f h1 _ _ _ hc12
          have hb2 : postorder_list (postorder (j + 1) st2) ps = some b := by
            rw [postorder_list_congr _ _ (postorder_shape st st2 hs2 (j + 1))]
            exact hb
          obtain ⟨st', hw3, hc3⟩ := ihl st2 b hb2
          refine ⟨st', ?_, ?_⟩
          · rw [hw2]
            exact hw3
          · refine changed_by_congr f _ _ _ _ ?_ (changed_by_trans f h3 _ _ _ _ _ hc12 hc3)
            intro q
            simp only [List.mem_append, List.mem_singleton]
            tauto
        · rw [if_neg ht]
          have hb2 : postorder_list (postorder (j + 1) (st.store p (f o))) ps = some b := by
            rw [postorder_list_congr _ _ (postorder_shape st _ hs1 (j + 1))]
            exact hb
          obtain ⟨st', hw3, hc3⟩ := ihl _ b hb2
          exact ⟨st', hw3, changed_by_trans f h3 _ _ _ _ _ hc1 hc3⟩
    intro st tree ds h
    simp only [descendants] at h
    cases hc : children st tree with
    | none => simp [hc] at h
    | some cat =>
      rw [hc] at h
      obtain ⟨t, ht, hv⟩ := children_some_inv st tree cat hc
      simp only [flag_walk, ht, hv]
      exact hloop cat st ds h

theorem prepare_mustsave_loop_eq (set_all : Int) (r r' : State → Ptr → Result Unit)
    (h : ∀ s p, r s p = r' s p) :
    ∀ (cat : List Ptr) (st : State),
      prepare_mustsave_loop r set_all cat st =
        flag_walk_loop (set_mustsave set_all) r' cat st := by
  intro cat
  induction cat with
  | nil => intro st; rfl
  | cons p ps ih =>
    intro st
    simp only [prepare_mustsave_loop, flag_walk_loop]
    cases ho : st.deref p with
    | none => rfl
    | some o =>
      simp only [set_mustsave, h, ih]

theorem prepare_mustsave_flags_eq (set_all : Int) :
    ∀ (fuel : Nat) (st : State) (tree : Nat),
      prepare_mustsave_flags fuel st tree set_all =
        flag_walk (set_mustsave set_all) fuel st tree := by
  intro fuel
  induction fuel with
  | zero => intro st tree; rfl
  | succ f ih =>
    intro st tree
    simp only [prepare_mustsave_flags, flag_walk]
    cases ho : st.deref tree with
    | none => rfl
    | some t =>
      simp only
      cases hv : t.value with
      | tree c =>
        cases c with
        | none => rfl
        | some cat => exact prepare_mustsave_loop_eq set_all _ _ ih cat st
      | string s => rfl
      | number n => rfl
      | big_number n => rfl
      | color c => rfl
      | command c => rfl

theorem untouch_loop_eq (r r' : State → Ptr → Result Unit) (h : ∀ s p, r s p = r' s p) :
    ∀ (cat : List Ptr) (st : State),
      untouch_loop r cat st = flag_walk_loop clear_touched r' cat st := by
  intro cat
  induction cat with
  | nil => intro st; rfl
  | cons p ps ih =>
    intro st
    simp only [untouch_loop, flag_walk_loop]
    cases ho : st.deref p with
    | none => rfl
    | some o =>
      simp only [clear_touched, h, ih]

theorem untouch_options_eq :
    ∀ (fuel : Nat) (st : State) (tree : Nat),
      untouch_options fuel st tree = flag_walk clear_touched fuel st tree := by
  intro fuel
  induction fuel with
  | zero => intro st tree; rfl
  | succ f ih =>
    intro st tree
    simp only [untouch_options, flag_walk]
    cases ho : st.deref tree with
    | none => rfl
    | some t =>
      simp only
      cases hv : t.value with
      | tree c =>
        cases c with
        | none => rfl
        | some cat => exact untouch_loop_eq _ _ ih cat st
      | string s => rfl
      | number n => rfl
      | big_number n => rfl
      | color c => rfl
      | command c => rfl

/-- Claim C12.  Let `ds` be the descendants of the list owned by `tree`, found
within depth `fuel`.  Then `prepare_mustsave_flags` returns, and in the memory
it leaves every descendant carries `OPT_MUST_SAVE` exactly when `set_all` is
not 0, or the descendant carried `OPT_TOUCHED` or `OPT_DELETED` before, or is
of kind Language; every other field of a descendant, every record that is no
descendant, the buffers and the globals are as before. -/
theorem C12_prepare_mustsave (fuel : Nat) (st : State) (tree : Nat) (set_all : Int)
    (ds : List Ptr) (h : descendants fuel st tree = some ds) :
    ∃ st', prepare_mustsave_flags fuel st tree set_all = .ok st' () ∧
      changed_by (set_mustsave set_all) ds st st' ∧
      (∀ d ∈ ds, ∀ o, st.deref d = some o →
        ∃ o', st'.deref d = some o' ∧
          (o'.flags.OPT_MUST_SAVE = true ↔
            (set_all ≠ 0 ∨ o.flags.OPT_TOUCHED = true ∨ o.flags.OPT_DELETED = true ∨
              o.type = .OPT_LANGUAGE)) ∧
          o' = { o with flags := { o.flags with OPT_MUST_SAVE := o'.flags.OPT_MUST_SAVE } }) ∧
      (∀ q, q ∉ ds → st'.deref q = st.deref q) := by
  obtain ⟨st', hw, hc⟩ := flag_walk_spec (set_mustsave set_all) (fun _ => ⟨rfl, rfl⟩)
    (fun _ => rfl) fuel st tree ds h
  refine ⟨st', by rw [prepare_mustsave_flags_eq]; exact hw, hc, ?_, ?_⟩
  · intro d hd o ho
    refine ⟨set_mustsave set_all o, by rw [hc.2.2.2.2 d o ho, if_pos hd], ?_, rfl⟩
    simp only [set_mustsave, Bool.or_eq_true, decide_eq_true_eq]
    tauto
  · intro q hq
    cases ho : st.deref q with
    | none => exact deref_none_of_length st st' hc.1 q ho
    | some o => rw [hc.2.2.2.2 q o ho, if_neg hq]

theorem C12_prepare_mustsave_witness :
    descendants 3 st_save 0 = some [2, 3, 1, 4] ∧
    ∃ st', prepare_mustsave_flags 3 st_save 0 0 = .ok st' () ∧
      changed_by (set_mustsave 0) [2, 3, 1, 4] st_save st' ∧
      (∀ d ∈ [2, 3, 1, 4], ∀ o, st_save.deref d = some o →
        ∃ o', st'.deref d = some o' ∧
          (o'.flags.OPT_MUST_SAVE = true ↔
            ((0 : Int) ≠ 0 ∨ o.flags.OPT_TOUCHED = true ∨ o.flags.OPT_DELETED = true ∨
              o.type = .OPT_LANGUAGE)) ∧
          o' = { o with flags := { o.flags with OPT_MUST_SAVE := o'.flags.OPT_MUST_SAVE } }) ∧
      (∀ q, q ∉ [2, 3, 1, 4] → st'.deref q = st_save.deref q) :=
  ⟨by decide, C12_prepare_mustsave 3 st_save 0 0 [2, 3, 1, 4] (by decide)⟩

/-- Claim C13.  Let `ds` be the descendants of the list owned by `tree`, found
within depth `fuel`.  Then `untouch_options` returns, and in the memory it
leaves no descendant carries `OPT_TOUCHED`; every other flag (`OPT_MUST_SAVE`
among them) and every other field of a descendant, every record that is no
descendant, the buffers and the globals are as before. -/
theorem C13_untouch_options (fuel : Nat) (st : State) (tree : Nat) (ds : List Ptr)
    (h : descendants fuel st tree = some ds) :
    ∃ st', untouch_options fuel st tree = .ok st' () ∧
      changed_by clear_touched ds st st' ∧
      (∀ d ∈ ds, ∀ o, st.deref d = some o →
        ∃ o', st'.deref d = some o' ∧ o'.flags.OPT_TOUCHED = false ∧
          o'.flags.OPT_MUST_SAVE = o.flags.OPT_MUST_SAVE ∧
          o' = { o with flags := { o.flags with OPT_TOUCHED := false } }) ∧
      (∀ q, q ∉ ds → st'.deref q = st.deref q) := by
  obtain ⟨st', hw, hc⟩ := flag_walk_spec clear_touched (fun _ => ⟨rfl, rfl⟩)
    (fun _ => rfl) fuel st tree ds h
  refine ⟨st', by rw [untouch_options_eq]; exact hw, hc, ?_, ?_⟩
  · intro d hd o ho
    exact ⟨clear_touched o, by rw [hc.2.2.2.2 d o ho, if_pos hd], rfl, rfl, rfl⟩
  · intro q hq
    cases ho : st.deref q with
    | none => exact deref_none_of_length st st' hc.1 q ho
    | some o => rw [hc.2.2.2.2 q o ho, if_neg hq]

theorem C13_untouch_options_witness :
    descendants 3 st_save 0 = some [2, 3, 1, 4] ∧
    ∃ st', untouch_options 3 st_save 0 = .ok st' () ∧
      changed_by clear_touched [2, 3, 1, 4] st_save st' ∧
      (∀ d ∈ [2, 3, 1, 4], ∀ o, st_save.deref d = some o →
        ∃ o', st'.deref d = some o' ∧ o'.flags.OPT_TOUCHED = false ∧
          o'.flags.OPT_MUST_SAVE = o.flags.OPT_MUST_SAVE ∧
          o' = { o with flags := { o.flags with OPT_TOUCHED := false } }) ∧
      (∀ q, q ∉ [2, 3, 1, 4] → st'.deref q = st_save.deref q) :=
  ⟨by decide, C13_untouch_options 3 st_save 0 [2, 3, 1, 4] (by decide)⟩

/-! ## `check_nonempty_tree` -/

theorem saveable_leaf_tree (st : State) (p : Nat) (o : option) (ho : st.deref p = some o)
    (ht : o.type = .OPT_TREE) : saveable_leaf st p = false := by
  simp [saveable_leaf, ho, ht]

theorem saveable_leaf_leaf (st : State) (p : Nat) (o : option) (ho : st.deref p = some o)
    (ht : o.type ≠ .OPT_TREE) : saveable_leaf st p = o.flags.OPT_MUST_SAVE := by
  simp [saveable_leaf, ho, ht]

theorem check_nonempty_tree_spec (st : State) :
    ∀ (k : Nat) (tree : Nat) (ds : List Ptr), descendants k st tree = some ds →
      check_nonempty_tree k st tree = .ok st (if ds.any (saveable_leaf st) then 1 else 0) := by
  intro k
  induction k with
  | zero => intro tree ds h; simp [descendants] at h
  | succ k ih =>
    have hloop : ∀ (cat : List Ptr) (ds : List Ptr),
        postorder_list (postorder k st) cat = some ds →
        check_nonempty_loop (fun st1 p => check_nonempty_tree k st1 p) cat st =
          .ok st (if ds.any (saveable_leaf st) then 1 else 0) := by
      intro cat
      induction cat with
      | nil =>
        intro ds h
        simp only [postorder_list, Option.some.injEq] at h
        subst h
        rfl
      | cons p ps ihl =>
        intro ds h
        obtain ⟨a, b, ha, hb, rfl⟩ := postorder_list_cons_inv _ p ps ds h
        obtain ⟨j, rfl⟩ : ∃ j, k = j + 1 := by
          cases k with
          | zero => simp [postorder] at ha
          | succ j => exact ⟨j, rfl⟩
        obtain ⟨o, ho, hcase⟩ := postorder_inv j st p a ha
        simp only [check_nonempty_loop, ho]
        rcases hcase with ⟨ht, catp, da, hv, hda, rfl⟩ | ⟨ht, rfl⟩
        · rw [if_pos ht]
          have hd : descendants (j + 1) st p = some da := by
            rw [descendants_of_tree j st p o catp ho hv]
            exact hda
          rw [ih p da hd]
          simp only [Result.bind, List.any_append, List.any_cons, List.any_nil,
            saveable_leaf_tree st p o ho ht, Bool.or_false]
          cases hany : da.any (saveable_leaf st) with
          | true => simp
          | false =>
            simp only [Bool.false_or]
            rw [if_neg (by simp)]
            exact ihl b hb
        · rw [if_neg ht]
          simp only [List.any_append, List.any_cons, List.any_nil,
            saveable_leaf_leaf st p o ho ht, Bool.or_false]
          cases hm : o.flags.OPT_MUST_SAVE with
          | true => simp
          | false =>
            simp only [Bool.false_or]
            rw [if_neg (by simp)]
            exact ihl b hb
    intro tree ds h
    simp only [descendants] at h
    cases hc : children st tree with
    | none => simp [hc] at h
    | some cat =>
      rw [hc] at h
      obtain ⟨t, ht, hv⟩ := children_some_inv st tree cat hc
      simp only [check_nonempty_tree, ht, hv]
      exact hloop cat ds h

/-- Claim C14.  Let `ds` be the descendants of the list owned by `options`,
found within depth `fuel`.  Then `check_nonempty_tree` returns 1 when some
descendant that is no Tree carries `OPT_MUST_SAVE`, and 0 otherwise, and leaves
the memory as it is; so it returns 0 for an empty list and for descendants that
are all Trees, and 1 exactly when there is such a leaf. -/
theorem C14_check_nonempty_tree (fuel : Nat) (st : State) (options : Nat) (ds : List Ptr)
    (h : descendants fuel st options = some ds) :
    check_nonempty_tree fuel st options =
        .ok st (if ds.any (saveable_leaf st) then 1 else 0) ∧
      (check_nonempty_tree fuel st options = .ok st 1 ↔
        ∃ d ∈ ds, ∃ o, st.deref d = some o ∧ o.type ≠ .OPT_TREE ∧
          o.flags.OPT_MUST_SAVE = true) ∧
      (ds = [] → check_nonempty_tree fuel st options = .ok st 0) ∧
      ((∀ d ∈ ds, type_of st d = some .OPT_TREE) →
        check_nonempty_tree fuel st options = .ok st 0) := by
  have hs := check_nonempty_tree_spec st fuel options ds h
  have hiff : ds.any (saveable_leaf st) = true ↔
      ∃ d ∈ ds, ∃ o, st.deref d = some o ∧ o.type ≠ .OPT_TREE ∧
        o.flags.OPT_MUST_SAVE = true := by
    rw [List.any_eq_true]
    constructor
    · rintro ⟨d, hd, hsv⟩
      refine ⟨d, hd, ?_⟩
      unfold saveable_leaf at hsv
      cases ho : st.deref d with
      | none => simp [ho] at hsv
      | some o =>
        rw [ho] at hsv
        simp only [Bool.and_eq_true, decide_eq_true_eq] at hsv
        exact ⟨o, rfl, hsv.1, hsv.2⟩
    · rintro ⟨d, hd, o, ho, ht, hm⟩
      exact ⟨d, hd, by simp [saveable_leaf, ho, ht, hm]⟩
  refine ⟨hs, ?_, ?_, ?_⟩
  · rw [hs, ← hiff]
    cases hany : ds.any (saveable_leaf st) with
    | true => simp
    | false => simp
  · intro hnil
    subst hnil
    exact hs
  · intro hall
    rw [hs]
    have hno : ds.any (saveable_leaf st) = false := by
      cases hany : ds.any (saveable_leaf st) with
      | false => rfl
      | true =>
        obtain ⟨d, hd, o, ho, ht, _⟩ := hiff.1 hany
        have := hall d hd
        unfold type_of at this
        rw [ho] at this
        exact absurd (Option.some.inj this) ht
    rw [hno]
    rfl

theorem C14_check_nonempty_tree_witness :
    descendants 3 st_save 0 = some [2, 3, 1, 4] ∧
    (check_nonempty_tree 3 st_save 0 =
        .ok st_save (if [2, 3, 1, 4].any (saveable_leaf st_save) then 1 else 0) ∧
      (check_nonempty_tree 3 st_save 0 = .ok st_save 1 ↔
        ∃ d ∈ [2, 3, 1, 4], ∃ o, st_save.deref d = some o ∧ o.type ≠ .OPT_TREE ∧
          o.flags.OPT_MUST_SAVE = true) ∧
      (([2, 3, 1, 4] : List Ptr) = [] → check_nonempty_tree 3 st_save 0 = .ok st_save 0) ∧
      ((∀ d ∈ [2, 3, 1, 4], type_of st_save d = some .OPT_TREE) →
        check_nonempty_tree 3 st_save 0 = .ok st_save 0)) ∧
    check_nonempty_tree 3 st_save 0 = .ok st_save 1 ∧
    check_nonempty_tree 2 st_save 1 = .ok st_save 0 :=
  ⟨by decide, C14_check_nonempty_tree 3 st_save 0 [2, 3, 1, 4] (by decide), by decide,
   by decide⟩

/-! ## `mark_option_as_deleted` -/

theorem set_deleted_idem (o : option) : set_deleted (set_deleted o) = set_deleted o := by
  unfold set_deleted
  cases o.box_item <;> rfl

theorem set_deleted_of_box (o : option) (bi : listbox_item) (h : o.box_item = some bi) :
    ({ o with
        box_item := some { bi with visible := 0 }
        flags := { o.flags with OPT_TOUCHED := true, OPT_DELETED := true } } : option) =
      set_deleted o := by
  unfold set_deleted
  rw [h]
  rfl

theorem changed_by_box (a : List Ptr) (st st1 : State) (h : changed_by set_deleted a st st1)
    (q : Nat) (hq : ∀ o, st.deref q = some o → o.box_item ≠ none) :
    ∀ o1, st1.deref q = some o1 → o1.box_item ≠ none := by
  intro o1 h1
  cases ho : st.deref q with
  | none =>
    rw [deref_none_of_length st st1 h.1 q ho] at h1
    cases h1
  | some o =>
    rw [h.2.2.2.2 q o ho] at h1
    obtain rfl := (Option.some.inj h1).symm
    have hb := hq o ho
    by_cases hqa : q ∈ a
    · rw [if_pos hqa]
      unfold set_deleted
      cases hbi : o.box_item with
      | none => exact absurd hbi hb
      | some bi => simp
    · rw [if_neg hqa]
      exact hb

theorem mark_option_as_deleted_spec :
    ∀ (k : Nat) (st : State) (p : Nat) (po : List Ptr), postorder k st p = some po →
      (∀ q ∈ po, ∀ o, st.deref q = some o → o.box_item ≠ none) →
      ∃ st', mark_option_as_deleted k st p = .ok st' () ∧ changed_by set_deleted po st st' := by
  intro k
  induction k with
  | zero => intro st p po h; simp [postorder] at h
  | succ k ih =>
    have hshape : ∀ (a : List Ptr) (s s1 : State), changed_by set_deleted a s s1 →
        shape_eq s s1 :=
      fun a s s1 h => changed_by_shape set_deleted (fun _ => ⟨rfl, rfl⟩) a s s1 h
    have hloop : ∀ (cat : List Ptr) (st : State) (ds : List Ptr),
        postorder_list (postorder k st) cat = some ds →
        (∀ q ∈ ds, ∀ o, st.deref q = some o → o.box_item ≠ none) →
        ∃ st', mark_deleted_loop (fun st1 p => mark_option_as_deleted k st1 p) cat st =
            .ok st' () ∧ changed_by set_deleted ds st st' := by
      intro cat
      induction cat with
      | nil =>
        intro st ds h _
        simp only [postorder_list, Option.some.injEq] at h
        subst h
        exact ⟨st, rfl, changed_by_nil _ st⟩
      | cons c cs ihl =>
        intro st ds h hbox
        obtain ⟨a, b, ha, hb, rfl⟩ := postorder_list_cons_inv _ c cs ds h
        obtain ⟨st1, hw1, hc1⟩ := ih st c a ha
          (fun q hq => hbox q (List.mem_append_left _ hq))
        have hb1 : postorder_list (postorder k st1) cs = some b := by
          rw [postorder_list_congr _ _ (postorder_shape st st1 (hshape _ _ _ hc1) k)]
          exact hb
        obtain ⟨st', hw2, hc2⟩ := ihl st1 b hb1
          (fun q hq => changed_by_box a st st1 hc1 q (hbox q (List.mem_append_right _ hq)))
        refine ⟨st', ?_, changed_by_trans _ set_deleted_idem _ _ _ _ _ hc1 hc2⟩
        simp only [mark_deleted_loop, hw1, Result.bind]
        exact hw2
    intro st p po h hbox
    obtain ⟨o, ho, hcase⟩ := postorder_inv k st p po h
    have hfin : ∀ (st1 : State) (da : List Ptr), changed_by set_deleted da st st1 →
        ∃ st', (match st1.deref p with
          | none => Result.fault
          | some o1 =>
            match o1.box_item with
            | none => Result.fault
            | some bi =>
              Result.ok (st1.store p
                { o1 with
                  box_item := some { bi with visible := 0 }
                  flags := { o1.flags with OPT_TOUCHED := true, OPT_DELETED := true } }) ()) =
            .ok st' () ∧ changed_by set_deleted (da ++ [p]) st st' := by
      intro st1 da hc1
      have h1 := hc1.2.2.2.2 p o ho
      have hb1 := changed_by_box da st st1 hc1 p
        (hbox p (by rcases hcase with ⟨_, _, _, _, _, rfl⟩ | ⟨_, rfl⟩ <;> simp)) _ h1
      rw [h1]
      simp only
      cases hbi : (if p ∈ da then set_deleted o else o).box_item with
      | none => exact absurd hbi hb1
      | some bi =>
        simp only
        rw [set_deleted_of_box _ bi hbi]
        exact ⟨_, rfl, changed_by_trans _ set_deleted_idem _ _ _ _ _ hc1
          (changed_by_store set_deleted st1 p _ h1)⟩
    simp only [mark_option_as_deleted, ho]
    rcases hcase with ⟨ht, catp, da, hv, hda, rfl⟩ | ⟨ht, rfl⟩
    · obtain ⟨st1, hw1, hc1⟩ := hloop catp st da hda
        (fun q hq => hbox q (List.mem_append_left _ hq))
      rw [if_pos ht]
      simp only [hv, hw1, Result.bind]
      exact hfin st1 da hc1
    · rw [if_neg ht]
      simp only [Result.bind]
      exact hfin st [] (changed_by_nil _ st)

theorem look_eq_deref (st st' : State) (h : look_eq st st') (q : Nat) (o : option)
    (ho : st.deref q = some o) :
    ∃ o', st'.deref q = some o' ∧ o'.name = o.name ∧ o'.type = o.type ∧
      o'.value = o.value ∧ o'.flags.OPT_HIDDEN = o.flags.OPT_HIDDEN := by
  have := h q
  rw [ho] at this
  cases ho' : st'.deref q with
  | none => simp [ho'] at this
  | some o' =>
    rw [ho'] at this
    simp only [Option.map_some', Option.some.injEq, Prod.mk.injEq] at this
    exact ⟨o', rfl, this.1, this.2.1, this.2.2.1, this.2.2.2⟩

theorem look_eq_none (st st' : State) (h : look_eq st st') (q : Nat)
    (ho : st.deref q = none) : st'.deref q = none := by
  have := h q
  rw [ho] at this
  cases ho' : st'.deref q with
  | none => rfl
  | some o' => simp [ho'] at this

theorem look_eq_has_name (st st' : State) (h : look_eq st st') (seg : cstring) (c : Nat) :
    has_name st' seg c = has_name st seg c := by
  unfold has_name
  cases ho : st.deref c with
  | none => rw [look_eq_none st st' h c ho]
  | some o =>
    obtain ⟨o', ho', hn, _⟩ := look_eq_deref st st' h c o ho
    rw [ho']
    simp only [hn]

theorem look_eq_children (st st' : State) (h : look_eq st st') (p : Nat) :
    children st' p = children st p := by
  unfold children
  cases ho : st.deref p with
  | none => rw [look_eq_none st st' h p ho]
  | some o =>
    obtain ⟨o', ho', _, _, hv, _⟩ := look_eq_deref st st' h p o ho
    rw [ho']
    simp only [hv]

theorem look_eq_passable (st st' : State) (h : look_eq st st') (p : Nat) :
    passable st' p = passable st p := by
  unfold passable
  cases ho : st.deref p with
  | none => rw [look_eq_none st st' h p ho]
  | some o =>
    obtain ⟨o', ho', _, ht, _, hh⟩ := look_eq_deref st st' h p o ho
    rw [ho']
    simp only [ht, hh]

theorem look_eq_child_named (st st' : State) (h : look_eq st st') (p : Nat) (seg : cstring) :
    child_named st' p seg = child_named st p seg := by
  unfold child_named
  rw [look_eq_children st st' h p]
  have e : has_name st' seg = has_name st seg := funext (look_eq_has_name st st' h seg)
  rw [e]

theorem look_eq_descend (st st' : State) (h : look_eq st st') :
    ∀ (segs : List cstring) (p : Nat), descend st' p segs = descend st p segs := by
  intro segs
  induction segs with
  | nil => intro p; rfl
  | cons seg rest ih =>
    intro p
    simp only [descend, look_eq_child_named st st' h p seg]
    cases hc : child_named st p seg with
    | none => rfl
    | some c => simp only [look_eq_passable st st' h c, ih c]

theorem changed_by_look (f : option → option)
    (hf : ∀ o, (f o).name = o.name ∧ (f o).type = o.type ∧ (f o).value = o.value ∧
      (f o).flags.OPT_HIDDEN = o.flags.OPT_HIDDEN) (ds : List Ptr) (st st' : State)
    (h : changed_by f ds st st') : look_eq st st' := by
  intro q
  cases ho : st.deref q with
  | none => rw [deref_none_of_length st st' h.1 q ho]
  | some o =>
    rw [h.2.2.2.2 q o ho]
    by_cases hq : q ∈ ds
    · simp [hq, hf o]
    · simp [hq]

/-- Claim C17.  Let `po` be the subtree of `N`, found within depth `fuel`, and
let every record of it have a listbox item.  Then `mark_option_as_deleted`
returns, and in the memory it leaves every record of the subtree, `N` included,
carries `OPT_DELETED` and `OPT_TOUCHED` next to the flags it had, with its name,
kind, value (so its children list) and parent link as before; every record
outside the subtree, the buffers and the globals are unchanged, and every path
resolves to the node it resolved to before. -/
theorem C17_mark_option_as_deleted (fuel : Nat) (st : State) (N : Nat) (po : List Ptr)
    (hpo : postorder fuel st N = some po)
    (hbox : ∀ q ∈ po, ∀ o, st.deref q = some o → o.box_item ≠ none) :
    ∃ st', mark_option_as_deleted fuel st N = .ok st' () ∧ N ∈ po ∧
      changed_by set_deleted po st st' ∧
      (∀ d ∈ po, ∀ o, st.deref d = some o →
        ∃ o', st'.deref d = some o' ∧
          o'.flags = { o.flags with OPT_TOUCHED := true, OPT_DELETED := true } ∧
          o'.name = o.name ∧ o'.type = o.type ∧ o'.value = o.value ∧ o'.root = o.root) ∧
      (∀ q, q ∉ po → st'.deref q = st.deref q) ∧
      (∀ p, children st' p = children st p) ∧
      (∀ root segs, descend st' root segs = descend st root segs) := by
  obtain ⟨st', hw, hc⟩ := mark_option_as_deleted_spec fuel st N po hpo hbox
  have hlook := changed_by_look set_deleted (fun _ => ⟨rfl, rfl, rfl, rfl⟩) po st st' hc
  have hN : N ∈ po := by
    obtain ⟨k, rfl⟩ : ∃ j, fuel = j + 1 := by
      cases fuel with
      | zero => simp [postorder] at hpo
      | succ j => exact ⟨j, rfl⟩
    obtain ⟨o, _, hcase⟩ := postorder_inv k st N po hpo
    rcases hcase with ⟨_, _, _, _, _, rfl⟩ | ⟨_, rfl⟩ <;> simp
  refine ⟨st', hw, hN, hc, ?_, ?_, look_eq_children st st' hlook,
    fun root segs => look_eq_descend st st' hlook segs root⟩
  · intro d hd o ho
    exact ⟨set_deleted o, by rw [hc.2.2.2.2 d o ho, if_pos hd], rfl, rfl, rfl, rfl, rfl⟩
  · intro q hq
    cases ho : st.deref q with
    | none => exact deref_none_of_length st st' hc.1 q ho
    | some o => rw [hc.2.2.2.2 q o ho, if_neg hq]

theorem C17_mark_option_as_deleted_witness :
    postorder 2 st_boxed 1 = some [2, 3, 1] ∧
    (∀ q ∈ [2, 3, 1], ∀ o, st_boxed.deref q = some o → o.box_item ≠ none) ∧
    descend st_boxed 0 ["ui".toList, "depth".toList] = some 3 ∧
    ∃ st', mark_option_as_deleted 2 st_boxed 1 = .ok st' () ∧ 1 ∈ [2, 3, 1] ∧
      changed_by set_deleted [2, 3, 1] st_boxed st' ∧
      (∀ d ∈ [2, 3, 1], ∀ o, st_boxed.deref d = some o →
        ∃ o', st'.deref d = some o' ∧
          o'.flags = { o.flags with OPT_TOUCHED := true, OPT_DELETED := true } ∧
          o'.name = o.name ∧ o'.type = o.type ∧ o'.value = o.value ∧ o'.root = o.root) ∧
      (∀ q, q ∉ [2, 3, 1] → st'.deref q = st_boxed.deref q) ∧
      (∀ p, children st' p = children st_boxed p) ∧
      (∀ root segs, descend st' root segs = descend st_boxed root segs) :=
  ⟨by decide, by decide, by decide,
   C17_mark_option_as_deleted 2 st_boxed 1 [2, 3, 1] (by decide) (by decide)⟩

/-! ## Hard deletion -/

theorem holds_iff (o : option) (p : Nat) : holds o p = true ↔ p ∈ o.kids := by
  unfold holds option.kids
  cases o.value with
  | tree t =>
    cases t with
    | none => simp
    | some l => simp
  | string s => simp
  | number n => simp
  | big_number n => simp
  | color c => simp
  | command c => simp

theorem tree_shaped_iff (st : State) :
    tree_shaped st ↔ ∀ q o, st.deref q = some o →
      (∀ c ∈ o.kids, root_of st c = some q) ∧ (o.type ≠ .OPT_TREE → o.kids = []) ∧
        o.kids.Nodup := by
  constructor
  · rintro ⟨h1, h2, h3⟩ q o ho
    have hm : o ∈ st.mem := (mem_iff_deref st o).2 ⟨q, ho⟩
    exact ⟨(parented_iff st).1 h1 q o ho, h2 o hm, h3 o hm⟩
  · intro h
    refine ⟨(parented_iff st).2 (fun q o ho => (h q o ho).1), ?_, ?_⟩
    · intro o hm
      obtain ⟨q, hq⟩ := (mem_iff_deref st o).1 hm
      exact (h q o hq).2.1
    · intro o hm
      obtain ⟨q, hq⟩ := (mem_iff_deref st o).1 hm
      exact (h q o hq).2.2

theorem unlinked_iff (st : State) (p : Nat) :
    unlinked st p ↔ ∀ q o, st.deref q = some o → p ∉ o.kids := by
  constructor
  · intro h q o ho
    exact h o ((mem_iff_deref st o).2 ⟨q, ho⟩)
  · intro h o hm
    obtain ⟨q, hq⟩ := (mem_iff_deref st o).1 hm
    exact h q o hq

theorem owner_of_some_inv (st : State) (p r : Nat) (h : owner_of st p = some r) :
    ∃ o, st.deref r = some o ∧ p ∈ o.kids := by
  unfold owner_of at h
  have := List.find?_some h
  cases ho : st.deref r with
  | none => simp [ho] at this
  | some o =>
    rw [ho] at this
    exact ⟨o, rfl, (holds_iff o p).1 this⟩

theorem owner_of_none (st : State) (p : Nat) (h : owner_of st p = none) : unlinked st p := by
  rw [unlinked_iff]
  intro q o ho hp
  unfold owner_of at h
  have := List.find?_eq_none.1 h q (List.mem_range.2 (deref_lt st q o ho))
  rw [ho] at this
  exact this ((holds_iff o p).2 hp)

theorem owner_of_some (st : State) (hp : parented st) (p r : Nat) (o : option)
    (ho : st.deref r = some o) (hk : p ∈ o.kids) : owner_of st p = some r := by
  cases h : owner_of st p with
  | none => exact absurd hk ((unlinked_iff st p).1 (owner_of_none st p h) r o ho)
  | some i =>
    obtain ⟨oi, hoi, hki⟩ := owner_of_some_inv st p i h
    have h1 := (parented_iff st).1 hp i oi hoi p hki
    have h2 := (parented_iff st).1 hp r o ho p hk
    rw [h1] at h2
    exact h2

theorem kids_inv (o : option) (p : Nat) (h : p ∈ o.kids) :
    ∃ l, o.value = .tree (some l) ∧ o.kids = l := by
  unfold option.kids at h ⊢
  cases hv : o.value with
  | tree t =>
    cases t with
    | none => rw [hv] at h; simp at h
    | some l => exact ⟨l, rfl, rfl⟩
  | string s => rw [hv] at h; simp at h
  | number n => rw [hv] at h; simp at h
  | big_number n => rw [hv] at h; simp at h
  | color c => rw [hv] at h; simp at h
  | command c => rw [hv] at h; simp at h

theorem del_from_list_cases (st : State) (p : Nat) :
    (owner_of st p = none ∧ del_from_list st p = st) ∨
      ∃ r o l, owner_of st p = some r ∧ st.deref r = some o ∧ o.value = .tree (some l) ∧
        p ∈ l ∧ del_from_list st p = st.store r { o with value := .tree (some (l.erase p)) } := by
  unfold del_from_list
  cases h : owner_of st p with
  | none => exact Or.inl ⟨rfl, rfl⟩
  | some r =>
    right
    obtain ⟨o, ho, hk⟩ := owner_of_some_inv st p r h
    obtain ⟨l, hv, hl⟩ := kids_inv o p hk
    refine ⟨r, o, l, rfl, ho, hv, hl ▸ hk, ?_⟩
    simp only [ho, hv, State.set_tree]

theorem root_of_store (st : State) (r : Nat) (o o' : option) (ho : st.deref r = some o)
    (hr : o'.root = o.root) (c : Nat) : root_of (st.store r o') c = root_of st c := by
  unfold root_of
  by_cases e : c = r
  · subst e
    rw [deref_store_self st c o' o ho, ho]
    simp [hr]
  · rw [deref_store_ne st r c o' e]

theorem del_from_list_shape (st : State) (hs : tree_shaped st) (p : Nat) :
    tree_shaped (del_from_list st p) ∧ unlinked (del_from_list st p) p := by
  rcases del_from_list_cases st p with ⟨hn, he⟩ | ⟨r, o, l, hown, ho, hv, hpl, he⟩
  · rw [he]
    exact ⟨hs, owner_of_none st p hn⟩
  · rw [he]
    have hsi := (tree_shaped_iff st).1 hs
    have hkl : o.kids = l := kids_of_value o l hv
    have hk' : ({ o with value := .tree (some (l.erase p)) } : option).kids = l.erase p := rfl
    have hroot : ∀ c, root_of (st.store r { o with value := .tree (some (l.erase p)) }) c =
        root_of st c := root_of_store st r o _ ho rfl
    constructor
    · rw [tree_shaped_iff]
      intro q o1 h1
      by_cases e : q = r
      · subst e
        rw [deref_store_self st q _ o ho] at h1
        obtain rfl := Option.some.inj h1
        obtain ⟨a1, a2, a3⟩ := hsi q o ho
        rw [hk']
        rw [hkl] at a1 a2 a3
        refine ⟨fun c hc => ?_, fun ht => ?_, a3.erase p⟩
        · rw [hroot]
          exact a1 c (List.mem_of_mem_erase hc)
        · rw [a2 ht]
          rfl
      · rw [deref_store_ne st r q _ e] at h1
        obtain ⟨a1, a2, a3⟩ := hsi q o1 h1
        exact ⟨fun c hc => by rw [hroot]; exact a1 c hc, a2, a3⟩
    · rw [unlinked_iff]
      intro q o1 h1 hp1
      by_cases e : q = r
      · subst e
        rw [deref_store_self st q _ o ho] at h1
        obtain rfl := Option.some.inj h1
        rw [hk'] at hp1
        have hnd := (hsi q o ho).2.2
        rw [hkl] at hnd
        exact (List.Nodup.mem_erase_iff hnd).1 hp1 |>.1 rfl
      · rw [deref_store_ne st r q _ e] at h1
        have := owner_of_some st hs.1 p q o1 h1 hp1
        rw [hown] at this
        exact e (Option.some.inj this).symm

theorem del_from_list_frame (st : State) (p q : Nat)
    (hq : ∀ r, owner_of st p = some r → q ≠ r) :
    (del_from_list st p).deref q = st.deref q := by
  rcases del_from_list_cases st p with ⟨_, he⟩ | ⟨r, o, l, hown, _, _, _, he⟩
  · rw [he]
  · rw [he, deref_store_ne st r q _ (hq r hown)]

theorem del_from_list_globals (st : State) (p : Nat) :
    (del_from_list st p).mem.length = st.mem.length ∧ (del_from_list st p).strs = st.strs ∧
      (del_from_list st p).no_autocreate = st.no_autocreate ∧
      (del_from_list st p).config_options = st.config_options := by
  rcases del_from_list_cases st p with ⟨_, he⟩ | ⟨r, o, l, _, _, _, _, he⟩
  · rw [he]
    exact ⟨rfl, rfl, rfl, rfl⟩
  · rw [he]
    exact ⟨store_length st r _, rfl, rfl, rfl⟩

theorem done_option_cases (st : State) (p : Nat) (o : option) (ho : st.deref p = some o) :
    ∃ st3 sb, done_option st p = some st3 ∧ sb.mem = st.mem ∧ sb.strs = st.strs ∧
      sb.no_autocreate = st.no_autocreate ∧ sb.config_options = st.config_options ∧
      (st3 = sb ∨ st3 = sb.store p zero_option) := by
  unfold done_option
  rw [ho]
  simp only
  have hb : ∃ sb : State, (if o.box_item.isSome = true then done_listbox_item st p else st) = sb ∧
      sb.mem = st.mem ∧ sb.strs = st.strs ∧ sb.no_autocreate = st.no_autocreate ∧
      sb.config_options = st.config_options := by
    split
    · exact ⟨_, rfl, rfl, rfl, rfl, rfl⟩
    · exact ⟨_, rfl, rfl, rfl, rfl, rfl⟩
  obtain ⟨sb, hsb, h1, h2, h3, h4⟩ := hb
  rw [hsb]
  by_cases ha : o.flags.OPT_ALLOC = true
  · rw [if_pos ha]
    exact ⟨sb, sb, rfl, h1, h2, h3, h4, Or.inl rfl⟩
  · rw [if_neg ha]
    by_cases hc : o.capt = none
    · rw [if_pos hc]
      exact ⟨_, sb, rfl, h1, h2, h3, h4, Or.inr rfl⟩
    · rw [if_neg hc]
      exact ⟨sb, sb, rfl, h1, h2, h3, h4, Or.inl rfl⟩

theorem postorder_list_mem (r : Ptr → Option (List Ptr)) :
    ∀ (cat ds : List Ptr), postorder_list r cat = some ds → ∀ c ∈ cat,
      ∃ a, r c = some a ∧ ∀ q ∈ a, q ∈ ds := by
  intro cat
  induction cat with
  | nil => intro ds _ c hc; simp at hc
  | cons x xs ih =>
    intro ds h c hc
    obtain ⟨a, b, ha, hb, rfl⟩ := postorder_list_cons_inv r x xs ds h
    rcases List.mem_cons.1 hc with rfl | hc
    · exact ⟨a, ha, fun q hq => List.mem_append_left _ hq⟩
    · obtain ⟨a2, h1, h2⟩ := ih b hb c hc
      exact ⟨a2, h1, fun q hq => List.mem_append_right _ (h2 q hq)⟩

theorem postorder_list_mem_inv (r : Ptr → Option (List Ptr)) :
    ∀ (cat ds : List Ptr), postorder_list r cat = some ds → ∀ q ∈ ds,
      ∃ x ∈ cat, ∃ a, r x = some a ∧ q ∈ a ∧ ∀ z ∈ a, z ∈ ds := by
  intro cat
  induction cat with
  | nil =>
    intro ds h q hq
    simp only [postorder_list, Option.some.injEq] at h
    subst h
    simp at hq
  | cons x xs ih =>
    intro ds h q hq
    obtain ⟨a, b, ha, hb, rfl⟩ := postorder_list_cons_inv r x xs ds h
    rcases List.mem_append.1 hq with hq | hq
    · exact ⟨x, List.mem_cons_self _ _, a, ha, hq, fun z hz => List.mem_append_left _ hz⟩
    · obtain ⟨y, hy, a2, h1, h2, h3⟩ := ih b hb q hq
      exact ⟨y, List.mem_cons_of_mem _ hy, a2, h1, h2,
        fun z hz => List.mem_append_right _ (h3 z hz)⟩

theorem postorder_self_mem (k : Nat) (st : State) (p : Nat) (po : List Ptr)
    (h : postorder k st p = some po) : p ∈ po := by
  cases k with
  | zero => simp [postorder] at h
  | succ j =>
    obtain ⟨o, _, hcase⟩ := postorder_inv j st p po h
    rcases hcase with ⟨_, _, _, _, _, rfl⟩ | ⟨_, rfl⟩ <;> simp

theorem postorder_list_length (k : Nat) (st : State) :
    ∀ (cat ds : List Ptr), postorder_list (postorder k st) cat = some ds →
      cat.length ≤ ds.length := by
  intro cat
  induction cat with
  | nil => intro ds _; simp
  | cons x xs ih =>
    intro ds h
    obtain ⟨a, b, ha, hb, rfl⟩ := postorder_list_cons_inv _ x xs ds h
    have h1 : 0 < a.length := List.length_pos_of_mem (postorder_self_mem k st x a ha)
    have h2 := ih b hb
    simp only [List.length_cons, List.length_append]
    omega

theorem postorder_frame (st st' : State) :
    ∀ (k : Nat) (x : Nat) (y : List Ptr), postorder k st x = some y →
      (∀ q ∈ y, st'.deref q = st.deref q) → postorder k st' x = some y := by
  intro k
  induction k with
  | zero => intro x y h; simp [postorder] at h
  | succ k ih =>
    have hlist : ∀ (cat ds : List Ptr), postorder_list (postorder k st) cat = some ds →
        (∀ q ∈ ds, st'.deref q = st.deref q) →
        postorder_list (postorder k st') cat = some ds := by
      intro cat
      induction cat with
      | nil => intro ds h _; exact h
      | cons c cs ihl =>
        intro ds h hq
        obtain ⟨a, b, ha, hb, rfl⟩ := postorder_list_cons_inv _ c cs _ h
        simp only [postorder_list,
          ih c a ha (fun q hqa => hq q (List.mem_append_left _ hqa)),
          ihl b hb (fun q hqb => hq q (List.mem_append_right _ hqb))]
    intro x y h hq
    obtain ⟨o, ho, hcase⟩ := postorder_inv k st x y h
    have hx : st'.deref x = some o := by
      rw [hq x (postorder_self_mem _ st x y h)]
      exact ho
    rcases hcase with ⟨ht, catp, da, hv, hda, rfl⟩ | ⟨ht, rfl⟩
    · simp only [postorder, hx, ht, if_true, hv,
        hlist catp da hda (fun q hqd => hq q (List.mem_append_left _ hqd))]
      rfl
    · simp only [postorder, hx, if_neg ht]

theorem postorder_parent (st : State) :
    ∀ (k : Nat) (p : Nat) (po : List Ptr), postorder k st p = some po →
      ∀ c ∈ po, c ≠ p → ∃ y oy, y ∈ po ∧ st.deref y = some oy ∧ c ∈ oy.kids := by
  intro k
  induction k with
  | zero => intro p po h; simp [postorder] at h
  | succ k ih =>
    intro p po h c hc hne
    obtain ⟨o, ho, hcase⟩ := postorder_inv k st p po h
    rcases hcase with ⟨ht, catp, da, hv, hda, rfl⟩ | ⟨ht, rfl⟩
    · have hcd : c ∈ da := by
        rcases List.mem_append.1 hc with h1 | h1
        · exact h1
        · exact absurd (List.mem_singleton.1 h1) hne
      obtain ⟨x, hx, a, ha, hca, hsub⟩ := postorder_list_mem_inv _ catp da hda c hcd
      by_cases e : c = x
      · subst e
        exact ⟨p, o, by simp, ho, by rw [kids_of_value o catp hv]; exact hx⟩
      · obtain ⟨y, oy, hy, hoy, hk⟩ := ih x a ha c hca e
        exact ⟨y, oy, List.mem_append_left _ (hsub y hy), hoy, hk⟩
    · exact absurd (List.mem_singleton.1 hc) hne

theorem postorder_list_frame (st st' : State) (k : Nat) :
    ∀ (cat ds : List Ptr), postorder_list (postorder k st) cat = some ds →
      (∀ q ∈ ds, st'.deref q = st.deref q) →
      postorder_list (postorder k st') cat = some ds := by
  intro cat
  induction cat with
  | nil => intro ds h _; exact h
  | cons c cs ihl =>
    intro ds h hq
    obtain ⟨a, b, ha, hb, rfl⟩ := postorder_list_cons_inv _ c cs _ h
    simp only [postorder_list,
      postorder_frame st st' k c a ha (fun q hqa => hq q (List.mem_append_left _ hqa)),
      ihl b hb (fun q hqb => hq q (List.mem_append_right _ hqb))]

theorem shape_after (st1 st' : State) (p k : Nat) (po : List Ptr) (hs : tree_shaped st1)
    (hu : unlinked st1 p) (hpo : postorder k st1 p = some po)
    (hfr : ∀ q, q ∉ po → st'.deref q = st1.deref q)
    (hch : ∀ q ∈ po, ∃ o', st'.deref q = some o' ∧ o'.kids = []) :
    tree_shaped st' := by
  have hsi := (tree_shaped_iff st1).1 hs
  have hout : ∀ q o1, q ∉ po → st1.deref q = some o1 → ∀ c ∈ o1.kids, c ∉ po := by
    intro q o1 hq h1 c hc hcp
    by_cases e : c = p
    · subst e
      exact (unlinked_iff st1 c).1 hu q o1 h1 hc
    · obtain ⟨y, oy, hy, hoy, hk⟩ := postorder_parent st1 k p po hpo c hcp e
      have r1 := (hsi q o1 h1).1 c hc
      have r2 := (hsi y oy hoy).1 c hk
      rw [r1] at r2
      exact hq ((Option.some.inj r2) ▸ hy)
  rw [tree_shaped_iff]
  intro q o' ho'
  by_cases hq : q ∈ po
  · obtain ⟨o2, h2, hk⟩ := hch q hq
    rw [ho'] at h2
    obtain rfl := Option.some.inj h2
    rw [hk]
    exact ⟨fun c hc => by simp at hc, fun _ => rfl, List.nodup_nil⟩
  · have h1 : st1.deref q = some o' := by rw [← hfr q hq]; exact ho'
    obtain ⟨a1, a2, a3⟩ := hsi q o' h1
    refine ⟨fun c hc => ?_, a2, a3⟩
    have hcp := hout q o' hq h1 c hc
    unfold root_of
    rw [hfr c hcp]
    exact a1 c hc

theorem done_option_finish (st2 : State) (p : Nat) (o2 : option)
    (h2 : st2.deref p = some o2) (hk : o2.kids = []) :
    ∃ st3, done_option st2 p = some st3 ∧ st3.mem.length = st2.mem.length ∧
      st3.strs = st2.strs ∧ st3.no_autocreate = st2.no_autocreate ∧
      st3.config_options = st2.config_options ∧
      (∀ q, q ≠ p → st3.deref q = st2.deref q) ∧
      ∃ o3, st3.deref p = some o3 ∧ o3.kids = [] := by
  obtain ⟨st3, sb, hd, h1, h2s, h3, h4, hc⟩ := done_option_cases st2 p o2 h2
  have hdb : ∀ q, sb.deref q = st2.deref q := fun q => by unfold State.deref; rw [h1]
  rcases hc with rfl | rfl
  · exact ⟨_, hd, by rw [h1], h2s, h3, h4, fun q _ => hdb q, o2, by rw [hdb]; exact h2, hk⟩
  · exact ⟨_, hd, by rw [store_length, h1], h2s, h3, h4,
      fun q hq => by rw [deref_store_ne sb p q _ hq]; exact hdb q, zero_option,
      deref_store_self sb p _ o2 (by rw [hdb]; exact h2), rfl⟩

theorem same_globals_refl (st : State) : same_globals st st := ⟨rfl, rfl, rfl, rfl⟩

theorem same_globals_trans (a b c : State) (h1 : same_globals a b) (h2 : same_globals b c) :
    same_globals a c :=
  ⟨h2.1.trans h1.1, h2.2.1.trans h1.2.1, h2.2.2.1.trans h1.2.2.1, h2.2.2.2.trans h1.2.2.2⟩

theorem set_value_same (o : option) (v : option_value) (h : o.value = v) :
    ({ o with value := v } : option) = o := by
  subst h
  rfl

theorem free_options_tree_spec (k f p : Nat)
    (hD : ∀ (st : State) (c : Nat) (a : List Ptr), tree_shaped st →
      postorder k st c = some a → a.Nodup → (∀ r, owner_of st c = some r → r ∉ a) →
      a.length < f →
      ∃ st', delete_option_do f st c 1 = .ok st' (a.map .released) ∧ deleted st st' c a) :
    ∀ (cs : List Ptr) (st : State) (ds : List Ptr) (n : Nat), tree_shaped st →
      children st p = some cs → postorder_list (postorder k st) cs = some ds →
      (ds ++ [p]).Nodup → ds.length < f → cs.length < n →
      ∃ st', free_options_tree (delete_option_do f) n st p 1 = .ok st' (ds.map .released) ∧
        tree_shaped st' ∧ same_globals st st' ∧
        (∀ q, q ∉ ds → q ≠ p → st'.deref q = st.deref q) ∧
        (∀ o, st.deref p = some o → st'.deref p = some { o with value := .tree (some []) }) ∧
        (∀ q ∈ ds, ∃ o', st'.deref q = some o' ∧ o'.kids = []) := by
  intro cs
  induction cs with
  | nil =>
    intro st ds n hs hc hpl _ _ hn
    obtain ⟨n, rfl⟩ : ∃ j, n = j + 1 := ⟨n - 1, by simp at hn; omega⟩
    obtain ⟨op, hop, hv⟩ := children_some_inv st p [] hc
    simp only [postorder_list, Option.some.injEq] at hpl
    subst hpl
    refine ⟨st, ?_, hs, same_globals_refl st, fun _ _ _ => rfl, ?_, fun q hq => by simp at hq⟩
    · simp only [free_options_tree, hop, hv]
      rfl
    · intro o ho
      rw [hop] at ho
      obtain rfl := Option.some.inj ho
      rw [set_value_same _ _ hv]
      exact hop
  | cons c cs ih =>
    intro st ds n hs hc hpl hnd hf hn
    obtain ⟨n, rfl⟩ : ∃ j, n = j + 1 := ⟨n - 1, by simp at hn; omega⟩
    obtain ⟨op, hop, hv⟩ := children_some_inv st p (c :: cs) hc
    obtain ⟨a, b, ha, hb, rfl⟩ := postorder_list_cons_inv _ c cs ds hpl
    have hkids : op.kids = c :: cs := kids_of_value op _ hv
    have hown : owner_of st c = some p :=
      owner_of_some st hs.1 c p op hop (by rw [hkids]; exact List.mem_cons_self _ _)
    -- the pieces of the subtree listing are apart
    have hnd1 : (a ++ (b ++ [p])).Nodup := by rw [← List.append_assoc]; exact hnd
    obtain ⟨hna, hnb, hdis⟩ := List.nodup_append.1 hnd1
    have hpa : p ∉ a := fun h => hdis h (by simp)
    have hab : ∀ q ∈ b, q ∉ a := fun q hq h => hdis h (List.mem_append_left _ hq)
    have hpb : ∀ q ∈ b, q ≠ p := by
      intro q hq e
      subst e
      exact (List.nodup_append.1 hnb).2.2 hq (by simp)
    obtain ⟨st1, hr1, hs1, hg1, hfr1, hch1⟩ := hD st c a hs ha hna
      (fun r hr => by rw [hown] at hr; exact (Option.some.inj hr) ▸ hpa)
      (by simp only [List.length_append] at hf; omega)
    -- the memory after `c` was taken off the list of `p`
    have hdel : del_from_list st c =
        st.store p { op with value := .tree (some cs) } := by
      rcases del_from_list_cases st c with ⟨hn0, _⟩ | ⟨r, o, l, hr, ho, hvl, _, he⟩
      · rw [hown] at hn0
        cases hn0
      · rw [hown] at hr
        obtain rfl := Option.some.inj hr
        rw [hop] at ho
        obtain rfl := Option.some.inj ho
        rw [hv] at hvl
        simp only [option_value.tree.injEq, Option.some.injEq] at hvl
        subst hvl
        rw [he, List.erase_cons_head]
    have hp1 : st1.deref p = some { op with value := .tree (some cs) } := by
      rw [hfr1 p hpa, hdel]
      exact deref_store_self st p _ op hop
    have hq1 : ∀ q, q ∉ a → q ≠ p → st1.deref q = st.deref q := by
      intro q hqa hqp
      rw [hfr1 q hqa, hdel]
      exact deref_store_ne st p q _ hqp
    have hc1 : children st1 p = some cs := by
      simp only [children, hp1]
    have hb1 : postorder_list (postorder k st1) cs = some b :=
      postorder_list_frame st st1 k cs b hb (fun q hq => hq1 q (hab q hq) (hpb q hq))
    obtain ⟨st', hr2, hs2, hg2, hfr2, hp2, hch2⟩ := ih st1 b n hs1 hc1 hb1 hnb
      (by simp only [List.length_append] at hf; omega) (by simp at hn; omega)
    refine ⟨st', ?_, hs2, same_globals_trans _ _ _ hg1 hg2, ?_, ?_, ?_⟩
    · simp only [free_options_tree, hop, hv, hr1, Result.bind, hr2, List.map_append]
    · intro q hq hqp
      have hqa : q ∉ a := fun h => hq (List.mem_append_left _ h)
      have hqb : q ∉ b := fun h => hq (List.mem_append_right _ h)
      rw [hfr2 q hqb hqp, hq1 q hqa hqp]
    · intro o ho
      rw [hop] at ho
      obtain rfl := Option.some.inj ho
      rw [hp2 _ hp1]
    · intro q hq
      rcases List.mem_append.1 hq with h | h
      · obtain ⟨o', ho', hk⟩ := hch1 q h
        refine ⟨o', ?_, hk⟩
        rw [hfr2 q (fun hb' => hab q hb' h) (fun e => hpa (e ▸ h))]
        exact ho'
      · exact hch2 q h

theorem delete_option_do_spec :
    ∀ (k : Nat) (fuel : Nat) (st : State) (p : Nat) (po : List Ptr), tree_shaped st →
      postorder k st p = some po → po.Nodup → (∀ r, owner_of st p = some r → r ∉ po) →
      po.length < fuel →
      ∃ st', delete_option_do fuel st p 1 = .ok st' (po.map .released) ∧
        deleted st st' p po := by
  intro k
  induction k with
  | zero => intro fuel st p po _ h; simp [postorder] at h
  | succ k ih =>
    intro fuel st p po hs hpo hnd hown hf
    obtain ⟨f, rfl⟩ : ∃ j, fuel = j + 1 := ⟨fuel - 1, by omega⟩
    obtain ⟨o, ho, hcase⟩ := postorder_inv k st p po hpo
    have hpp : p ∈ po := postorder_self_mem _ st p po hpo
    obtain ⟨hs1, hu1⟩ := del_from_list_shape st hs p
    have hg1 : same_globals st (del_from_list st p) := del_from_list_globals st p
    have hfr0 : ∀ q ∈ po, (del_from_list st p).deref q = st.deref q :=
      fun q hq => del_from_list_frame st p q (fun r hr e => hown r hr (e ▸ hq))
    have ho1 : (del_from_list st p).deref p = some o := by rw [hfr0 p hpp]; exact ho
    have hpo1 : postorder (k + 1) (del_from_list st p) p = some po :=
      postorder_frame st _ (k + 1) p po hpo hfr0
    -- the end of the function, from a memory where `p` has no children left
    have hfin : ∀ (st2 : State) (o2 : option) (ev : List delete_event),
        st2.deref p = some o2 → o2.kids = [] → same_globals (del_from_list st p) st2 →
        (∀ q, q ∉ po → st2.deref q = (del_from_list st p).deref q) →
        (∀ q ∈ po, q ≠ p → ∃ o', st2.deref q = some o' ∧ o'.kids = []) →
        ∃ st', (match done_option st2 p with
            | none => Result.fault
            | some st3 => Result.ok st3 (([] ++ ev) ++ [delete_event.released p])) =
            .ok st' (ev ++ [delete_event.released p]) ∧ deleted st st' p po := by
      intro st2 o2 ev h2 hk2 hg2 hfr2 hch2
      obtain ⟨st3, hd, hlen, hstr, hna, hcfg, hq3, o3, ho3, hk3⟩ :=
        done_option_finish st2 p o2 h2 hk2
      have hfr3 : ∀ q, q ∉ po → st3.deref q = (del_from_list st p).deref q := by
        intro q hq
        rw [hq3 q (fun e => hq (e ▸ hpp)), hfr2 q hq]
      have hch3 : ∀ q ∈ po, ∃ o', st3.deref q = some o' ∧ o'.kids = [] := by
        intro q hq
        by_cases e : q = p
        · subst e
          exact ⟨o3, ho3, hk3⟩
        · obtain ⟨o', h1, h2'⟩ := hch2 q hq e
          exact ⟨o', by rw [hq3 q e]; exact h1, h2'⟩
      refine ⟨st3, by rw [hd]; rfl, shape_after _ st3 p (k + 1) po hs1 hu1 hpo1 hfr3 hch3,
        same_globals_trans _ _ _ hg1
          (same_globals_trans _ _ _ hg2 ⟨hlen, hstr, hna, hcfg⟩), hfr3, hch3⟩
    have hone : ((1 : Int) = -1) = False := by decide
    simp only [delete_option_do, ho1, hone, if_false]
    rcases hcase with ⟨ht, catp, da, hv, hda, rfl⟩ | ⟨ht, rfl⟩
    · rw [if_pos ht]
      cases catp with
      | nil =>
        simp only [postorder_list, Option.some.injEq] at hda
        subst hda
        simp only [hv, Result.bind]
        exact hfin _ o [] ho1 (kids_of_value o [] hv) (same_globals_refl _)
          (fun _ _ => rfl) (fun q hq hqp => absurd (by simpa using hq) hqp)
      | cons c cs =>
        have hc1 : children (del_from_list st p) p = some (c :: cs) := by
          simp only [children, ho1, hv]
        have hda1 : postorder_list (postorder k (del_from_list st p)) (c :: cs) = some da :=
          postorder_list_frame st _ k (c :: cs) da hda
            (fun q hq => hfr0 q (List.mem_append_left _ hq))
        have hlen : (c :: cs).length ≤ da.length := postorder_list_length k st _ da hda
        obtain ⟨st2, hr2, _, hg2, hfr2, hp2, hch2⟩ :=
          free_options_tree_spec k f p (fun st' c' a h1 h2 h3 h4 h5 => ih f st' c' a h1 h2 h3 h4 h5)
            (c :: cs) (del_from_list st p) da f hs1 hc1 hda1 hnd
            (by simp only [List.length_append, List.length_singleton] at hf; omega)
            (by simp only [List.length_append, List.length_singleton] at hf; omega)
        have hone0 : ((1 : Int) = 0) = False := by decide
        simp only [hv, hone0, if_false, false_and, hr2, Result.bind, List.nil_append]
        have := hfin st2 _ (da.map .released) (hp2 o ho1) rfl hg2
          (fun q hq => hfr2 q (fun h => hq (List.mem_append_left _ h))
            (fun e => hq (e ▸ hpp)))
          (fun q hq hqp => hch2 q (by
            rcases List.mem_append.1 hq with h | h
            · exact h
            · exact absurd (List.mem_singleton.1 h) hqp))
        simpa using this
    · rw [if_neg ht]
      simp only [Result.bind]
      have hk : o.kids = [] :=
        hs1.2.1 o ((mem_iff_deref _ o).2 ⟨p, ho1⟩) ht
      exact hfin _ o [] ho1 hk (same_globals_refl _) (fun _ _ => rfl)
        (fun q hq hqp => absurd (List.mem_singleton.1 hq) hqp)

theorem postorder_mono (st : State) :
    ∀ (k : Nat) (p : Nat) (po : List Ptr), postorder k st p = some po →
      postorder (k + 1) st p = some po := by
  intro k
  induction k with
  | zero => intro p po h; simp [postorder] at h
  | succ k ih =>
    have hlist : ∀ (cat ds : List Ptr), postorder_list (postorder k st) cat = some ds →
        postorder_list (postorder (k + 1) st) cat = some ds := by
      intro cat
      induction cat with
      | nil => intro ds h; exact h
      | cons c cs ihl =>
        intro ds h
        obtain ⟨a, b, ha, hb, rfl⟩ := postorder_list_cons_inv _ c cs _ h
        simp only [postorder_list, ih c a ha, ihl b hb]
    intro p po h
    obtain ⟨o, ho, hcase⟩ := postorder_inv k st p po h
    rcases hcase with ⟨ht, catp, da, hv, hda, rfl⟩ | ⟨ht, rfl⟩
    · simp only [postorder, ho, ht, if_true, hv]
      have := hlist catp da hda
      simp only [postorder] at this
      rw [this]
      rfl
    · simp only [postorder, ho, if_neg ht]

theorem postorder_list_infix (r : Ptr → Option (List Ptr)) :
    ∀ (cat ds : List Ptr), postorder_list r cat = some ds → ∀ q ∈ ds,
      ∃ x a pre post, r x = some a ∧ q ∈ a ∧ ds = pre ++ a ++ post := by
  intro cat
  induction cat with
  | nil =>
    intro ds h q hq
    simp only [postorder_list, Option.some.injEq] at h
    subst h
    simp at hq
  | cons c cs ih =>
    intro ds h q hq
    obtain ⟨a, b, ha, hb, rfl⟩ := postorder_list_cons_inv r c cs ds h
    rcases List.mem_append.1 hq with hq | hq
    · exact ⟨c, a, [], b, ha, hq, rfl⟩
    · obtain ⟨x, a2, pre, post, h1, h2, h3⟩ := ih b hb q hq
      exact ⟨x, a2, a ++ pre, post, h1, h2, by rw [h3]; simp⟩

theorem postorder_infix (st : State) :
    ∀ (k : Nat) (p : Nat) (po : List Ptr), postorder k st p = some po → ∀ q ∈ po,
      ∃ poq pre post, postorder k st q = some poq ∧ po = pre ++ poq ++ post := by
  intro k
  induction k with
  | zero => intro p po h; simp [postorder] at h
  | succ k ih =>
    intro p po h q hq
    by_cases e : q = p
    · subst e
      exact ⟨po, [], [], h, by simp⟩
    · obtain ⟨o, ho, hcase⟩ := postorder_inv k st p po h
      rcases hcase with ⟨ht, catp, da, hv, hda, rfl⟩ | ⟨ht, rfl⟩
      · have hqd : q ∈ da := by
          rcases List.mem_append.1 hq with h1 | h1
          · exact h1
          · exact absurd (List.mem_singleton.1 h1) e
        obtain ⟨x, a, pre, post, hx, hqa, rfl⟩ := postorder_list_infix _ catp da hda q hqd
        obtain ⟨poq, pre2, post2, h1, rfl⟩ := ih x a hx q hqa
        exact ⟨poq, pre ++ pre2, post2 ++ post ++ [p], postorder_mono st k q poq h1, by simp⟩
      · exact absurd (List.mem_singleton.1 hq) e

/-- Claim C15.  In a memory of tree shape, let `po` be the subtree of `N` in
post-order, without repetition, and let the record that holds `N` in its list
lie outside it.  Then `delete_option` returns with more fuel than `po` has
nodes, and the calls of `done_option` it makes are those of `po`, in that
order and with no diagnostic between them: `N` and each of its descendants is
released once, every node after the whole of its own subtree, `N` last, and no
other record is released. -/
theorem C15_delete_releases_subtree (k fuel : Nat) (st : State) (N : Nat) (po : List Ptr)
    (hs : tree_shaped st) (hpo : postorder k st N = some po) (hnd : po.Nodup)
    (hown : ∀ r, owner_of st N = some r → r ∉ po) (hf : po.length < fuel) :
    ∃ st', delete_option fuel st N = .ok st' (po.map .released) ∧
      (po.map delete_event.released).Nodup ∧ po.getLast? = some N ∧
      ∀ q ∈ po, ∃ poq pre post, postorder k st q = some poq ∧ poq.getLast? = some q ∧
        po = pre ++ poq ++ post := by
  obtain ⟨st', hr, _⟩ := delete_option_do_spec k fuel st N po hs hpo hnd hown hf
  have hlast : ∀ (j : Nat) (q : Nat) (l : List Ptr), postorder j st q = some l →
      l.getLast? = some q := by
    intro j q l h
    cases j with
    | zero => simp [postorder] at h
    | succ j =>
      obtain ⟨o, _, hcase⟩ := postorder_inv j st q l h
      rcases hcase with ⟨_, _, _, _, _, rfl⟩ | ⟨_, rfl⟩ <;> simp
  refine ⟨st', hr, ?_, hlast k N po hpo, ?_⟩
  · exact hnd.map (fun a b h => by injection h)
  · intro q hq
    obtain ⟨poq, pre, post, h1, h2⟩ := postorder_infix st k N po hpo q hq
    exact ⟨poq, pre, post, h1, hlast k q poq h1, h2⟩

theorem C15_delete_releases_subtree_witness :
    tree_shaped st_del ∧ postorder 3 st_del 2 = some [3, 5, 4, 2] ∧
    ([3, 5, 4, 2] : List Ptr).Nodup ∧
    (∀ r, owner_of st_del 2 = some r → r ∉ [3, 5, 4, 2]) ∧
    ([3, 5, 4, 2] : List Ptr).length < 5 ∧
    ∃ st', delete_option 5 st_del 2 = .ok st' ([3, 5, 4, 2].map .released) ∧
      (([3, 5, 4, 2] : List Ptr).map delete_event.released).Nodup ∧
      ([3, 5, 4, 2] : List Ptr).getLast? = some 2 ∧
      ∀ q ∈ [3, 5, 4, 2], ∃ poq pre post, postorder 3 st_del q = some poq ∧
        poq.getLast? = some q ∧ [3, 5, 4, 2] = pre ++ poq ++ post :=
  ⟨by decide, by decide, by decide, by decide, by decide,
   C15_delete_releases_subtree 3 5 st_del 2 [3, 5, 4, 2] (by decide) (by decide) (by decide)
     (by decide) (by decide)⟩

/-! ## The tree after a deletion -/

theorem del_from_list_of_child (st : State) (hs : tree_shaped st) (N P : Nat) (oP : option)
    (cat : List Ptr) (hP : st.deref P = some oP) (hv : oP.value = .tree (some cat))
    (hN : N ∈ cat) :
    del_from_list st N = st.store P { oP with value := .tree (some (cat.erase N)) } := by
  have hown : owner_of st N = some P :=
    owner_of_some st hs.1 N P oP hP (by rw [kids_of_value oP cat hv]; exact hN)
  rcases del_from_list_cases st N with ⟨hn0, _⟩ | ⟨r, o, l, hr, ho, hvl, _, he⟩
  · rw [hown] at hn0
    cases hn0
  · rw [hown] at hr
    obtain rfl := Option.some.inj hr
    rw [hP] at ho
    obtain rfl := Option.some.inj ho
    rw [hv] at hvl
    simp only [option_value.tree.injEq, Option.some.injEq] at hvl
    subst hvl
    exact he

theorem find_congr (f g : Ptr → Bool) :
    ∀ (l : List Ptr), (∀ x ∈ l, f x = g x) → l.find? f = l.find? g := by
  intro l
  induction l with
  | nil => intro _; rfl
  | cons x xs ih =>
    intro h
    simp only [List.find?, h x (List.mem_cons_self _ _),
      ih (fun y hy => h y (List.mem_cons_of_mem _ hy))]

theorem find_erase (f : Ptr → Bool) (n c : Nat) (hc : c ≠ n) :
    ∀ (l : List Ptr), l.find? f = some c → (l.erase n).find? f = some c := by
  intro l
  induction l with
  | nil => intro h; simp at h
  | cons x xs ih =>
    intro h
    by_cases hx : x = n
    · subst hx
      rw [List.erase_cons_head]
      simp only [List.find?] at h
      cases hf : f x with
      | true =>
        rw [hf] at h
        exact absurd (Option.some.inj h).symm hc
      | false =>
        rw [hf] at h
        exact h
    · rw [List.erase_cons_tail (by simpa using hx)]
      simp only [List.find?] at h ⊢
      cases hf : f x with
      | true =>
        rw [hf] at h
        exact h
      | false =>
        rw [hf] at h
        exact ih h

theorem has_name_of_name (st st' : State) (seg : cstring) (x : Nat)
    (h : (st'.deref x).map (fun o => o.name) = (st.deref x).map (fun o => o.name)) :
    has_name st' seg x = has_name st seg x := by
  unfold has_name
  cases ho : st.deref x with
  | none =>
    rw [ho] at h
    cases ho' : st'.deref x with
    | none => rfl
    | some o' => simp [ho'] at h
  | some o =>
    rw [ho] at h
    cases ho' : st'.deref x with
    | none => simp [ho'] at h
    | some o' =>
      rw [ho'] at h
      simp only [Option.map_some', Option.some.injEq] at h
      simp only [h]

theorem has_name_true (st : State) (seg : cstring) (x : Nat) (h : has_name st seg x = true) :
    name_of st x = some seg := by
  unfold has_name at h
  unfold name_of
  cases ho : st.deref x with
  | none => simp [ho] at h
  | some o =>
    rw [ho] at h
    simpa using h

theorem after_delete (st st' : State) (k N P : Nat) (po cat : List Ptr) (oP : option)
    (hs : tree_shaped st) (hpo : postorder k st N = some po)
    (hP : st.deref P = some oP) (hv : oP.value = .tree (some cat)) (hN : N ∈ cat)
    (hPpo : P ∉ po) (hdel : deleted st st' N po) :
    (∀ q, q ∉ po → q ≠ P → st'.deref q = st.deref q) ∧
      st'.deref P = some { oP with value := .tree (some (cat.erase N)) } ∧
      (∀ x, x ∉ po →
        (st'.deref x).map (fun o => (o.name, o.type, o.flags.OPT_HIDDEN)) =
          (st.deref x).map (fun o => (o.name, o.type, o.flags.OPT_HIDDEN))) ∧
      (∀ a oa, a ∉ po → st.deref a = some oa → ∀ x ∈ oa.kids, x ≠ N → x ∉ po) := by
  obtain ⟨_, _, hfr, _⟩ := hdel
  have hd := del_from_list_of_child st hs N P oP cat hP hv hN
  have hA : ∀ q, q ∉ po → q ≠ P → st'.deref q = st.deref q := by
    intro q hq hqP
    rw [hfr q hq, hd]
    exact deref_store_ne st P q _ hqP
  have hB : st'.deref P = some { oP with value := .tree (some (cat.erase N)) } := by
    rw [hfr P hPpo, hd]
    exact deref_store_self st P _ oP hP
  refine ⟨hA, hB, ?_, ?_⟩
  · intro x hx
    by_cases e : x = P
    · subst e
      rw [hB, hP]
      rfl
    · rw [hA x hx e]
  · intro a oa ha hoa x hxk hxN hxpo
    obtain ⟨y, oy, hy, hoy, hk⟩ := postorder_parent st k N po hpo x hxpo hxN
    have hsi := (tree_shaped_iff st).1 hs
    have r1 := (hsi a oa hoa).1 x hxk
    have r2 := (hsi y oy hoy).1 x hk
    rw [r1] at r2
    exact ha ((Option.some.inj r2) ▸ hy)

theorem child_named_kept (st st' : State) (k N P : Nat) (po cat : List Ptr) (oP : option)
    (hs : tree_shaped st) (hpo : postorder k st N = some po)
    (hP : st.deref P = some oP) (hv : oP.value = .tree (some cat)) (hN : N ∈ cat)
    (hPpo : P ∉ po) (hdel : deleted st st' N po) (a c : Nat) (seg : cstring)
    (ha : a ∉ po) (hc : child_named st a seg = some c) (hcN : c ≠ N) :
    child_named st' a seg = some c := by
  obtain ⟨hA, hB, hC, hD⟩ := after_delete st st' k N P po cat oP hs hpo hP hv hN hPpo hdel
  unfold child_named at hc ⊢
  cases hch : children st a with
  | none => simp [hch] at hc
  | some l =>
    rw [hch] at hc
    simp only at hc
    obtain ⟨oa, hoa, hva⟩ := children_some_inv st a l hch
    have hkl : oa.kids = l := kids_of_value oa l hva
    have hnames : ∀ x ∈ l, x ≠ N → has_name st' seg x = has_name st seg x := by
      intro x hx hxN
      apply has_name_of_name
      have := hC x (hD a oa ha hoa x (by rw [hkl]; exact hx) hxN)
      cases h1 : st'.deref x <;> cases h2 : st.deref x <;> simp_all
    by_cases e : a = P
    · subst e
      rw [hP] at hoa
      obtain rfl := Option.some.inj hoa
      rw [hv] at hva
      simp only [option_value.tree.injEq, Option.some.injEq] at hva
      subst hva
      have hnd : cat.Nodup := by
        have := ((tree_shaped_iff st).1 hs a oP hP).2.2
        rwa [hkl] at this
      have hch' : children st' a = some (cat.erase N) := by
        simp only [children, hB]
      rw [hch']
      simp only
      rw [find_congr (has_name st' seg) (has_name st seg) (cat.erase N)
        (fun x hx => hnames x (List.mem_of_mem_erase hx)
          ((List.Nodup.mem_erase_iff hnd).1 hx).1)]
      exact find_erase _ N c hcN cat hc
    · have hch' : children st' a = some l := by
        unfold children
        rw [hA a ha e, hoa]
        simp only [hva]
      have hNl : ∀ x ∈ l, x ≠ N := by
        intro x hx hxN
        subst hxN
        have h1 := owner_of_some st hs.1 x a oa hoa (by rw [hkl]; exact hx)
        have h2 := owner_of_some st hs.1 x P oP hP (by rw [kids_of_value oP cat hv]; exact hN)
        rw [h1] at h2
        exact e (Option.some.inj h2)
      rw [hch']
      simp only
      rw [find_congr (has_name st' seg) (has_name st seg) l
        (fun x hx => hnames x hx (hNl x hx))]
      exact hc

theorem child_named_gone (st st' : State) (k N P : Nat) (po cat : List Ptr) (oP : option)
    (hs : tree_shaped st) (hpo : postorder k st N = some po)
    (hP : st.deref P = some oP) (hv : oP.value = .tree (some cat)) (hN : N ∈ cat)
    (hPpo : P ∉ po) (hdel : deleted st st' N po) (seg : cstring)
    (huniq : ∀ c ∈ cat, name_of st c = some seg → c = N) :
    child_named st' P seg = none := by
  obtain ⟨hA, hB, hC, hD⟩ := after_delete st st' k N P po cat oP hs hpo hP hv hN hPpo hdel
  have hkl : oP.kids = cat := kids_of_value oP cat hv
  have hnd : cat.Nodup := by
    have := ((tree_shaped_iff st).1 hs P oP hP).2.2
    rwa [hkl] at this
  have hch' : children st' P = some (cat.erase N) := by
    simp only [children, hB]
  unfold child_named
  rw [hch']
  simp only
  rw [List.find?_eq_none]
  intro x hx hname
  have hxN : x ≠ N := ((List.Nodup.mem_erase_iff hnd).1 hx).1
  have hxc : x ∈ cat := List.mem_of_mem_erase hx
  have hxpo : x ∉ po := hD P oP hPpo hP x (by rw [hkl]; exact hxc) hxN
  have hn : has_name st seg x = true := by
    rw [← has_name_of_name st st' seg x]
    · exact hname
    · have := hC x hxpo
      cases h1 : st'.deref x <;> cases h2 : st.deref x <;> simp_all
  exact hxN (huniq x hxc (has_name_true st seg x hn))

theorem trail_result (st : State) :
    ∀ (segs : List cstring) (p R : Nat), descend st p segs = some R → R ∈ trail st p segs := by
  intro segs
  induction segs with
  | nil =>
    intro p R h
    simp only [descend, Option.some.injEq] at h
    subst h
    simp [trail]
  | cons seg rest ih =>
    intro p R h
    simp only [descend] at h
    cases hc : child_named st p seg with
    | none => simp [hc] at h
    | some c =>
      rw [hc] at h
      simp only at h
      simp only [trail, hc]
      by_cases hr : rest = []
      · subst hr
        simp only [if_true, Option.some.injEq] at h
        subst h
        simp [trail]
      · rw [if_neg hr] at h
        by_cases hp : passable st c = true
        · rw [if_pos hp] at h
          exact List.mem_cons_of_mem _ (ih c R h)
        · rw [if_neg hp] at h
          cases h

theorem descend_after (st st' : State) (k N P : Nat) (po cat : List Ptr) (oP : option)
    (hs : tree_shaped st) (hpo : postorder k st N = some po)
    (hP : st.deref P = some oP) (hv : oP.value = .tree (some cat)) (hN : N ∈ cat)
    (hPpo : P ∉ po) (hdel : deleted st st' N po) :
    ∀ (segs : List cstring) (p R : Nat), (∀ a ∈ trail st p segs, a ∉ po) →
      descend st p segs = some R → descend st' p segs = some R := by
  obtain ⟨_, _, hC, _⟩ := after_delete st st' k N P po cat oP hs hpo hP hv hN hPpo hdel
  have hNpo : N ∈ po := postorder_self_mem k st N po hpo
  have hpass : ∀ c, c ∉ po → passable st' c = passable st c := by
    intro c hc
    unfold passable
    have := hC c hc
    cases h1 : st'.deref c <;> cases h2 : st.deref c <;> simp_all
  intro segs
  induction segs with
  | nil => intro p R _ h; exact h
  | cons seg rest ih =>
    intro p R htr h
    simp only [descend] at h ⊢
    cases hc : child_named st p seg with
    | none => simp [hc] at h
    | some c =>
      rw [hc] at h
      simp only at h
      have hsub : ∀ a ∈ trail st c rest, a ∉ po := by
        intro a ha
        apply htr
        simp only [trail, hc]
        exact List.mem_cons_of_mem _ ha
      have hcpo : c ∉ po := by
        apply hsub
        cases rest <;> simp [trail]
      have hcN : c ≠ N := fun e => hcpo (e ▸ hNpo)
      rw [child_named_kept st st' k N P po cat oP hs hpo hP hv hN hPpo hdel p c seg
        (htr p (by simp [trail])) hc hcN]
      simp only
      by_cases hr : rest = []
      · rw [if_pos hr] at h ⊢
        exact h
      · rw [if_neg hr] at h ⊢
        rw [hpass c hcpo]
        by_cases hp : passable st c = true
        · rw [if_pos hp] at h ⊢
          exact ih c R hsub h
        · rw [if_neg hp] at h
          cases h

/-- Claim C16.  In a memory of tree shape, let `N` be the child of `P` named
`seg`, the only one of that name, let `po`, without repetition, be the subtree
of `N`, and let the segments `psegs` lead from `root` to `P` over nodes that
are not in that subtree.  Then `delete_option` returns; afterwards the
children of `P` are the former ones without `N`, in their order; every record
outside the subtree of `N` other than `P` is as it was, and `P` differs by its
list only; and the Strict lookup of the path `psegs`, `seg` returns `NULL`. -/
theorem C16_delete_unlinks (k fuel fuel2 : Nat) (st : State) (N P root : Nat)
    (po cat : List Ptr) (psegs : List cstring) (seg : cstring)
    (hs : tree_shaped st) (hpo : postorder k st N = some po) (hnd : po.Nodup)
    (hf : po.length < fuel) (hcat : children st P = some cat)
    (hchild : child_named st P seg = some N)
    (huniq : ∀ c ∈ cat, name_of st c = some seg → c = N)
    (hreach : descend st root psegs = some P)
    (htrail : ∀ a ∈ trail st root psegs, a ∉ po)
    (hdot : ∀ a ∈ psegs ++ [seg], '.' ∉ a) (hf2 : psegs.length + 1 ≤ fuel2) :
    ∃ st' ev, delete_option fuel st N = .ok st' ev ∧
      children st' P = some (cat.erase N) ∧
      cat.erase N = cat.filter (fun c => decide (c ≠ N)) ∧
      (∀ q, q ∉ po → q ≠ P → st'.deref q = st.deref q) ∧
      (∀ oP, st.deref P = some oP →
        st'.deref P = some { oP with value := .tree (some (cat.erase N)) }) ∧
      get_opt_rec_real fuel2 st' root (dotted (psegs ++ [seg])) =
        .ok { st' with no_autocreate := 0 } none := by
  obtain ⟨oP, hP, hv⟩ := children_some_inv st P cat hcat
  have hkl : oP.kids = cat := kids_of_value oP cat hv
  have hN : N ∈ cat := by
    unfold child_named at hchild
    rw [hcat] at hchild
    exact List.mem_of_find?_eq_some hchild
  have hPpo : P ∉ po := htrail P (trail_result st psegs root P hreach)
  have hown : owner_of st N = some P :=
    owner_of_some st hs.1 N P oP hP (by rw [hkl]; exact hN)
  obtain ⟨st', hr, hdel⟩ := delete_option_do_spec k fuel st N po hs hpo hnd
    (fun r hr => by rw [hown] at hr; exact (Option.some.inj hr) ▸ hPpo) hf
  obtain ⟨hA, hB, _, _⟩ := after_delete st st' k N P po cat oP hs hpo hP hv hN hPpo hdel
  have hnd2 : cat.Nodup := by
    have := ((tree_shaped_iff st).1 hs P oP hP).2.2
    rwa [hkl] at this
  have hch' : children st' P = some (cat.erase N) := by
    simp only [children, hB]
  have hgone := child_named_gone st st' k N P po cat oP hs hpo hP hv hN hPpo hdel seg huniq
  have hreach' := descend_after st st' k N P po cat oP hs hpo hP hv hN hPpo hdel psegs root P
    htrail hreach
  have hlk : look_eq st' { st' with no_autocreate := 1 } := fun _ => rfl
  have hc1 : closed { st' with no_autocreate := 1 } := parented_closed st' hdel.1.1
  refine ⟨st', _, hr, hch', ?_, hA, ?_, ?_⟩
  · rw [List.Nodup.erase_eq_filter hnd2]
    apply List.filter_congr
    intro x _
    by_cases e : x = N <;> simp [e]
  · intro o ho
    rw [hP] at ho
    obtain rfl := Option.some.inj ho
    exact hB
  · unfold get_opt_rec_real
    rw [get_opt_rec_missing { st' with no_autocreate := 1 } hc1 root P (cat.erase N) psegs seg
      hdot (by rw [look_eq_descend st' _ hlk]; exact hreach')
      (by rw [look_eq_children st' _ hlk]; exact hch')
      (by rw [look_eq_child_named st' _ hlk]; exact hgone)
      (Or.inr (by simp)) fuel2 hf2]
    rfl

theorem C16_delete_unlinks_witness :
    tree_shaped st_del ∧ postorder 3 st_del 4 = some [5, 4] ∧ ([5, 4] : List Ptr).Nodup ∧
    ([5, 4] : List Ptr).length < 3 ∧ children st_del 2 = some [3, 4] ∧
    child_named st_del 2 "u".toList = some 4 ∧
    (∀ c ∈ [3, 4], name_of st_del c = some "u".toList → c = 4) ∧
    descend st_del 0 ["t".toList] = some 2 ∧
    (∀ a ∈ trail st_del 0 ["t".toList], a ∉ [5, 4]) ∧
    (∀ a ∈ ["t".toList] ++ ["u".toList], '.' ∉ a) ∧ ["t".toList].length + 1 ≤ 2 ∧
    get_opt_rec_real 2 st_del 0 (dotted (["t".toList] ++ ["u".toList])) =
      .ok st_del (some 4) ∧
    ∃ st' ev, delete_option 3 st_del 4 = .ok st' ev ∧
      children st' 2 = some ([3, 4].erase 4) ∧
      [3, 4].erase 4 = [3, 4].filter (fun c => decide (c ≠ 4)) ∧
      (∀ q, q ∉ [5, 4] → q ≠ 2 → st'.deref q = st_del.deref q) ∧
      (∀ oP, st_del.deref 2 = some oP →
        st'.deref 2 = some { oP with value := .tree (some ([3, 4].erase 4)) }) ∧
      get_opt_rec_real 2 st' 0 (dotted (["t".toList] ++ ["u".toList])) =
        .ok { st' with no_autocreate := 0 } none :=
  ⟨by decide, by decide, by decide, by decide, by decide, by decide, by decide, by decide,
   by decide, by decide, by decide, by decide,
   C16_delete_unlinks 3 3 2 st_del 4 2 0 [5, 4] [3, 4] ["t".toList] "u".toList
     (by decide) (by decide) (by decide) (by decide) (by decide) (by decide) (by decide)
     (by decide) (by decide) (by decide) (by decide)⟩

/-! ## `mark_option_as_deleted` on a record without listbox item -/

theorem mark_option_as_deleted_no_item (st : State) (p : Nat) (o : option)
    (ho : st.deref p = some o) (ht : o.type ≠ .OPT_TREE) (hb : o.box_item = none) :
    ∀ fuel, mark_option_as_deleted (fuel + 1) st p = .fault := by
  intro fuel
  simp only [mark_option_as_deleted, ho, if_neg ht, Result.bind, hb]

/-- Claim C27.  In `st_alias` the alias `lang` (5) has no listbox item:
`mark_option_as_deleted` faults on it with any fuel, at
`option->box_item->visible = 0`, and it faults on the tree `ui` (1) that holds
the alias, after the flags of the two children before the alias were set. -/
theorem C27_mark_deleted_without_item :
    type_of st_alias 5 = some .OPT_ALIAS ∧
    (st_alias.deref 5).map (fun o => o.box_item) = some none ∧
    (∀ fuel, mark_option_as_deleted (fuel + 1) st_alias 5 = .fault) ∧
    mark_option_as_deleted 2 st_alias 1 = .fault ∧
    mark_option_as_deleted 3 st_alias 0 = .fault :=
  ⟨by decide, by decide,
   mark_option_as_deleted_no_item st_alias 5
     (mk_option "lang" .OPT_ALIAS no_flags (.string none) (some 1)) (by decide) (by decide)
     (by decide),
   by decide, by decide⟩

/-! ## The listbox cursor of the scan of `add_opt_sort`

The scan of lines 388-433 moves a cursor over the list of listbox items of the
parent.  It takes for granted that the parent has a listbox item and that one
of the siblings it passes has one: under a parent without item the cursor
starts at `&NULL->child`, which line 396 reads through as soon as a sibling has
an item, and the assertion of line 433 fails whenever the cursor has not moved.
The two fast paths and every write to the list of items are guarded by `abi`,
which `add_opt_rec` clears for a parent without item. -/

/-- The loop of the scan does not run off the list: when neither test of the
fast paths holds for the last member, the scan either faults or stops at a
member and inserts, so the assertion of line 432 does not fail. -/
theorem scan_never_runs_off (st : State) (o : option) (optr : Nat) (abi : Bool)
    (bcat : Option (List Ptr)) (last : Nat) (lo : option) (hlo : st.deref last = some lo)
    (h1 : sorts_after o lo ≠ some true)
    (h2 : ¬ (o.type ≠ .OPT_TREE ∧ lo.type = .OPT_TREE)) :
    ∀ (cat : List Ptr) (bpos : Nat), cat.getLast? = some last →
      add_opt_sort_scan st o optr abi bcat bpos cat ≠ some none := by
  intro cat
  induction cat with
  | nil => intro _ h; simp at h
  | cons pos rest ih =>
    intro bpos hl
    have hmap : ∀ (r : Option (Option scan_result)) (f : scan_result → scan_result),
        r ≠ some none → r.map (Option.map f) ≠ some none := by
      intro r f hr
      cases r with
      | none => simp
      | some x =>
        cases x with
        | none => exact absurd rfl hr
        | some y => simp
    have hrest : rest ≠ [] → ∀ b, add_opt_sort_scan st o optr abi bcat b rest ≠ some none := by
      intro hne b
      apply ih b
      cases rest with
      | nil => exact absurd rfl hne
      | cons c cs => rw [List.getLast?_cons_cons] at hl; exact hl
    have hlast : rest = [] → pos = last := by
      intro he
      subst he
      simpa using hl
    unfold add_opt_sort_scan
    cases hpo : st.deref pos with
    | none => simp
    | some po =>
      simp only
      cases hb : bpos_next bcat bpos po with
      | none => simp
      | some bpos1 =>
        simp only
        cases hs : sorts_after o po with
        | none => simp
        | some b =>
          cases b with
          | true =>
            simp only
            by_cases he : rest = []
            · have := hlast he
              subst this
              rw [hlo] at hpo
              cases hpo
              exact absurd hs h1
            · exact hmap _ _ (hrest he bpos1)
          | false =>
            simp only
            by_cases hc : o.type ≠ .OPT_TREE ∧ po.type = .OPT_TREE
            · rw [if_pos hc]
              by_cases he : rest = []
              · have := hlast he
                subst this
                rw [hlo] at hpo
                cases hpo
                exact absurd hc h2
              · exact hmap _ _ (hrest he bpos1)
            · rw [if_neg hc]
              cases at_template o po with
              | none => simp
              | some t =>
                cases t <;> simp only <;>
                  cases box_put abi bcat o _ <;> simp

/-- C2, at a failing input.  The memory `st_linux` is what the Normal-mode
lookup of `terminal.linux.type` leaves of `st_terminal`.  In it the parent
`terminal` (1) carries `OPT_AUTOCREATE` and `OPT_SORT` and has no listbox item,
its children are the template (2) and `linux` (5), the copy that the first
lookup made, which has a listbox item as every copy made by
`copy_option(template_, 0)` has.  The dot-free name `aaa` names no child of the
parent, so the claim has `get_opt_rec` create and return a node.  The node, put
in by `add_opt_sort`, belongs before `linux`; the scan reaches `linux`, and the
cursor step of line 396 reads through a parent item that is `NULL`: the lookup
faults for every amount of fuel that lets it come that far. -/
theorem C2_autocreate_scan_faults :
    get_opt_rec 5 st_terminal 0 "terminal.linux.type".toList = .ok st_linux (some 6) ∧
    insertion_view st_linux 1 = some (true, true, true, false) ∧
    children st_linux 1 = some [2, 5] ∧
    child_named st_linux 1 template_name = some 2 ∧
    child_named st_linux 1 "aaa".toList = none ∧ '.' ∉ "aaa".toList ∧
    st_linux.no_autocreate = 0 ∧
    insertion_view st_linux 5 = some (false, false, true, true) ∧
    ∀ fuel, get_opt_rec (fuel + 3) st_linux 1 "aaa".toList = .fault :=
  ⟨by decide, by decide, by decide, by decide, by decide, by decide, by decide, by decide,
   fun _ => rfl⟩

/-- C5, at failing inputs.  The leaves `banana` and `apple` and the Tree
`config`, the example of the claim, are inserted in this order into an empty
parent with `OPT_SORT`.  When no record has a listbox item (`st_fruit`), the
insertion of `apple` goes through the scan and fails the assertion of line 433,
since the cursor never left the head.  When the three options have a listbox
item and the parent has none (`st_fruit_items`), the scan reads through the
`NULL` item of the parent at line 396.  When the parent has a listbox item too
(`st_fruit_listbox`), the children end up as the claim says: `config`, `apple`,
`banana`. -/
theorem C5_scan_insertion_faults :
    insertion_view st_fruit 0 = some (true, false, true, false) ∧
    children st_fruit 0 = some [] ∧
    (∀ fuel, insert_all (get_opt_rec fuel) [1, 2, 3] st_fruit 0 = .fault) ∧
    (∀ fuel, insert_all (get_opt_rec fuel) [1, 2, 3] st_fruit_items 0 = .fault) ∧
    (∀ fuel, children_after (insert_all (get_opt_rec fuel) [1, 2, 3] st_fruit_listbox 0) 0 =
      some [3, 2, 1]) :=
  ⟨by decide, by decide, fun _ => rfl, fun _ => rfl, fun _ => rfl⟩

/-- C24, at failing inputs.  The children `net`, `apple`, `pear` of the sorted
parent of `st_sorted` are in key order and none of the records is named
`_template_`.  For `zebra` (5) the append fast path applies and gives the list
of the reference insertion.  For `mango` (4) the reference insertion gives
`net`, `apple`, `mango`, `pear`; `add_opt_sort` takes the scan and gives no
list: without listbox items it fails the assertion of line 433, and with
listbox items on the children and none on the parent (`st_sorted_items`) it
reads through the `NULL` item of the parent at line 396. -/
theorem C24_scan_path_faults :
    insertion_view st_sorted 0 = some (true, false, true, false) ∧
    children st_sorted 0 = some [1, 2, 3] ∧ key_sorted st_sorted [1, 2, 3] ∧
    (∀ c ∈ [1, 2, 3, 4, 5], name_of st_sorted c ≠ some template_name) ∧
    (st_sorted.deref 5).map (fun o => reference_insert st_sorted o 5 [1, 2, 3]) =
      some [1, 2, 3, 5] ∧
    children_after (add_opt_sort st_sorted 0 5 false) 0 = some [1, 2, 3, 5] ∧
    (st_sorted.deref 4).map (fun o => reference_insert st_sorted o 4 [1, 2, 3]) =
      some [1, 2, 4, 3] ∧
    add_opt_sort st_sorted 0 4 false = .fault ∧
    add_opt_sort st_sorted_items 0 4 false = .fault := by
  decide

/-- C30, at a failing input.  The parent of `st_scan_items` has the children
`zebra`, `apple`, `pear` and no listbox item; `zebra` has one.  For `mango` (4)
neither append fast path applies: the last child `pear` is a leaf whose name
compares greater.  The scan does not reach an insertion point: at the first
sibling, `zebra`, the cursor step of line 396 reads through the `NULL` item of
the parent, so the loop stops at no sibling and the option is not inserted.
(Where the cursor does not fault the loop does stop at a sibling, see
`scan_never_runs_off`.) -/
theorem C30_scan_faults_at_cursor :
    insertion_view st_scan_items 0 = some (true, false, true, false) ∧
    children st_scan_items 0 = some [1, 2, 3] ∧
    insertion_view st_scan_items 1 = some (false, false, false, true) ∧
    (st_scan_items.deref 4).bind
      (fun o => (st_scan_items.deref 3).bind fun lo => sorts_after o lo) = some false ∧
    type_of st_scan_items 3 = some .OPT_INT ∧
    scan_of st_scan_items 0 4 false = some none ∧
    add_opt_sort st_scan_items 0 4 false = .fault := by
  decide

/-! ## The diagnostics of a deletion -/

theorem releases_append (a b : List delete_event) :
    releases (a ++ b) = releases a ++ releases b := by
  induction a with
  | nil => rfl
  | cons e es ih =>
    cases e <;> simp [releases, ih]

theorem releases_map (l : List Ptr) : releases (l.map .released) = l := by
  induction l with
  | nil => rfl
  | cons x xs ih => simp [releases, ih]

theorem strip_bind (r r' : Result (List delete_event))
    (f g : State → List delete_event → Result (List delete_event)) (h : strip r = strip r')
    (hfg : ∀ st e e', releases e = releases e' → strip (f st e) = strip (g st e')) :
    strip (r.bind f) = strip (r'.bind g) := by
  cases r <;> cases r' <;> simp only [strip, Result.bind] at h ⊢ <;> try cases h
  rename_i st e st' e'
  simp only [Result.ok.injEq] at h
  obtain ⟨rfl, he⟩ := h
  exact hfg _ _ _ he

theorem free_options_tree_strip (del : State → Ptr → Int → Result (List delete_event))
    (hD : ∀ st c r, strip (del st c r) = strip (del st c 1)) :
    ∀ (n : Nat) (st : State) (tree : Nat) (r : Int),
      strip (free_options_tree del n st tree r) = strip (free_options_tree del n st tree 1) := by
  intro n
  induction n with
  | zero => intro st tree r; rfl
  | succ n ih =>
    intro st tree r
    simp only [free_options_tree]
    cases st.deref tree with
    | none => rfl
    | some t =>
      simp only
      cases t.value with
      | tree l =>
        cases l with
        | none => rfl
        | some cat =>
          cases cat with
          | nil => rfl
          | cons c cs =>
            simp only
            apply strip_bind _ _ _ _ (hD st c r)
            intro st1 e e' he
            apply strip_bind _ _ _ _ (ih st1 tree r)
            intro st2 e2 e2' he2
            simp only [strip, releases_append, he, he2]
      | _ => rfl

/-- The memory a deletion ends in and the records it releases do not depend on
the `recursive` argument, which only selects the diagnostics. -/
theorem delete_option_do_strip :
    ∀ (fuel : Nat) (st : State) (p : Nat) (r : Int),
      strip (delete_option_do fuel st p r) = strip (delete_option_do fuel st p 1) := by
  intro fuel
  induction fuel with
  | zero => intro st p r; rfl
  | succ fuel ih =>
    intro st p r
    simp only [delete_option_do]
    cases (del_from_list st p).deref p with
    | none => rfl
    | some o =>
      simp only
      apply strip_bind
      · by_cases ht : o.type = .OPT_TREE
        · simp only [if_pos ht]
          cases o.value with
          | tree l =>
            cases l with
            | none => rfl
            | some cat =>
              cases cat with
              | nil => rfl
              | cons c cs =>
                simp only
                apply strip_bind
                · rw [free_options_tree_strip _ ih]
                  exact (free_options_tree_strip _ ih fuel _ p _).symm
                · intro st2 e e' he
                  simp only [strip, releases_append, he]
                  split <;> simp [releases]
          | _ => rfl
        · simp only [if_neg ht]
      · intro st2 e e' he
        cases done_option st2 p with
        | none => rfl
        | some st3 =>
          simp only [strip, releases_append, he]
          split <;> simp [releases]

theorem delete_option_do_quiet (fuel : Nat) (st : State) (p : Nat) (o : option)
    (ho : (del_from_list st p).deref p = some o)
    (h : o.type ≠ .OPT_TREE ∨ o.kids = [] ∨ o.flags.OPT_AUTOCREATE = true) :
    delete_option_do (fuel + 1) st p 0 = delete_option_do (fuel + 1) st p 1 := by
  simp only [delete_option_do, ho]
  by_cases ht : o.type = .OPT_TREE
  · simp only [if_pos ht]
    cases hv : o.value with
    | tree l =>
      cases l with
      | none => rfl
      | some cat =>
        cases cat with
        | nil => rfl
        | cons c cs =>
          have ha : o.flags.OPT_AUTOCREATE = true := by
            rcases h with h | h | h
            · exact absurd ht h
            · simp [option.kids, hv] at h
            · exact h
          simp [ha]
    | _ => rfl
  · simp only [if_neg ht]
    rfl

theorem delete_option_do_loud (fuel : Nat) (st st' : State) (p : Nat) (o : option)
    (ev : List delete_event) (ho : (del_from_list st p).deref p = some o)
    (ht : o.type = .OPT_TREE) (hk : o.kids ≠ []) (ha : o.flags.OPT_AUTOCREATE = false)
    (h : delete_option_do (fuel + 1) st p 0 = .ok st' ev) :
    ev.head? = some (.orphaned_subtree p) := by
  simp only [delete_option_do, ho, if_pos ht] at h
  cases hv : o.value with
  | tree l =>
    cases l with
    | none => simp [option.kids, hv] at hk
    | some cat =>
      cases cat with
      | nil => simp [option.kids, hv] at hk
      | cons c cs =>
        rw [hv] at h
        simp only [ha] at h
        cases hf : free_options_tree (delete_option_do fuel) fuel (del_from_list st p) p (-1) with
        | ok st2 ev2 =>
          simp [hf, Result.bind] at h
          cases hd : done_option st2 p with
          | none => simp [hd] at h
          | some st3 =>
            simp [hd] at h
            rw [← h.2]
            rfl
        | fault => simp [hf, Result.bind] at h
        | out_of_fuel => simp [hf, Result.bind] at h
  | _ => simp [option.kids, hv] at hk

/-- Claim C21, at a counterexample.  In `st_del` the node `t` (2) is a Tree
that holds `x` and `u` and does not carry Autocreate; `delete_option` on it
releases `x`, `y`, `u` and `t` and makes no diagnostic.  The same node deleted
by `delete_option_do` with `recursive` 0, as in the teardown of `done_options`,
gets the diagnostic. -/
theorem C21_recursive_delete_is_silent :
    type_of st_del 2 = some .OPT_TREE ∧ children st_del 2 = some [3, 4] ∧
    (st_del.deref 2).map (fun o => o.flags.OPT_AUTOCREATE) = some false ∧
    events_after (delete_option 5 st_del 2) =
      some [.released 3, .released 5, .released 4, .released 2] ∧
    ((events_after (delete_option 5 st_del 2)).map diagnostics = some []) ∧
    events_after (delete_option_do 5 st_del 2 0) =
      some [.orphaned_subtree 2, .orphaned 3, .released 3, .orphaned 4, .orphaned 5,
        .released 5, .released 4, .released 2] := by
  refine ⟨by decide, by decide, by decide, by decide, by decide, by decide⟩

/-- Claim C21, amended.  In a memory of tree shape, let `po` be the subtree of
`N` in post-order, without repetition, the holder of `N` outside it.
`delete_option`, which passes `recursive` 1, returns with the releases of `po`
and no diagnostic, whatever `N` is.  `delete_option_do` with `recursive` 0
releases the same records and ends in the same kind of memory; its first event
is the diagnostic of the orphaned subtree when `N` is a Tree that has children
and does not carry Autocreate, and it makes no diagnostic when `N` is a leaf, an
empty Tree or an Autocreate Tree. -/
theorem C21_diagnostic_of_teardown (k fuel : Nat) (st : State) (N : Nat) (po : List Ptr)
    (o : option) (hs : tree_shaped st) (hpo : postorder k st N = some po) (hnd : po.Nodup)
    (hown : ∀ r, owner_of st N = some r → r ∉ po) (hf : po.length < fuel)
    (ho : st.deref N = some o) :
    (∃ st', delete_option fuel st N = .ok st' (po.map .released) ∧
      diagnostics (po.map .released) = [] ∧ deleted st st' N po) ∧
    (∃ st' ev, delete_option_do fuel st N 0 = .ok st' ev ∧ releases ev = po ∧
      deleted st st' N po ∧
      (o.type = .OPT_TREE → o.kids ≠ [] → o.flags.OPT_AUTOCREATE = false →
        ev.head? = some (.orphaned_subtree N)) ∧
      (o.type ≠ .OPT_TREE ∨ o.kids = [] ∨ o.flags.OPT_AUTOCREATE = true →
        ev = po.map .released)) := by
  obtain ⟨st', hr, hd⟩ := delete_option_do_spec k fuel st N po hs hpo hnd hown hf
  have hdiag : diagnostics (po.map .released) = [] := by
    unfold diagnostics
    induction po with
    | nil => rfl
    | cons x xs ih => simp [List.filter]
  refine ⟨⟨st', hr, hdiag, hd⟩, ?_⟩
  have ho1 : (del_from_list st N).deref N = some o := by
    rw [del_from_list_frame st N N
      (fun r hr e => hown r hr (e ▸ postorder_self_mem _ st N po hpo))]
    exact ho
  obtain ⟨f, rfl⟩ : ∃ j, fuel = j + 1 := ⟨fuel - 1, by omega⟩
  have hst := delete_option_do_strip (f + 1) st N 0
  rw [hr] at hst
  cases h0 : delete_option_do (f + 1) st N 0 with
  | ok st0 ev =>
    rw [h0] at hst
    simp only [strip, releases_map, Result.ok.injEq] at hst
    obtain ⟨rfl, hrel⟩ := hst
    refine ⟨st0, ev, rfl, hrel, hd, ?_, ?_⟩
    · intro ht hk ha
      exact delete_option_do_loud f st st0 N o ev ho1 ht hk ha h0
    · intro hq
      rw [delete_option_do_quiet f st N o ho1 hq, hr] at h0
      simp only [Result.ok.injEq] at h0
      exact h0.2.symm
  | fault => rw [h0] at hst; simp [strip] at hst
  | out_of_fuel => rw [h0] at hst; simp [strip] at hst

theorem C21_diagnostic_of_teardown_witness :
    tree_shaped st_del ∧ postorder 3 st_del 2 = some [3, 5, 4, 2] ∧
    ([3, 5, 4, 2] : List Ptr).Nodup ∧
    (∀ r, owner_of st_del 2 = some r → r ∉ [3, 5, 4, 2]) ∧
    ([3, 5, 4, 2] : List Ptr).length < 5 ∧
    ((∃ st', delete_option 5 st_del 2 = .ok st' ([3, 5, 4, 2].map .released) ∧
      diagnostics ([3, 5, 4, 2].map .released) = [] ∧ deleted st_del st' 2 [3, 5, 4, 2]) ∧
    (∃ st' ev, delete_option_do 5 st_del 2 0 = .ok st' ev ∧ releases ev = [3, 5, 4, 2] ∧
      deleted st_del st' 2 [3, 5, 4, 2] ∧
      ((mk_option "t" .OPT_TREE { no_flags with OPT_ALLOC := true }
          (.tree (some [3, 4])) (some 0)).type = .OPT_TREE →
        (mk_option "t" .OPT_TREE { no_flags with OPT_ALLOC := true }
          (.tree (some [3, 4])) (some 0)).kids ≠ [] →
        (mk_option "t" .OPT_TREE { no_flags with OPT_ALLOC := true }
          (.tree (some [3, 4])) (some 0)).flags.OPT_AUTOCREATE = false →
        ev.head? = some (.orphaned_subtree 2)) ∧
      ((mk_option "t" .OPT_TREE { no_flags with OPT_ALLOC := true }
          (.tree (some [3, 4])) (some 0)).type ≠ .OPT_TREE ∨
        (mk_option "t" .OPT_TREE { no_flags with OPT_ALLOC := true }
          (.tree (some [3, 4])) (some 0)).kids = [] ∨
        (mk_option "t" .OPT_TREE { no_flags with OPT_ALLOC := true }
          (.tree (some [3, 4])) (some 0)).flags.OPT_AUTOCREATE = true →
        ev = [3, 5, 4, 2].map .released))) :=
  ⟨by decide, by decide, by decide, by decide, by decide,
   C21_diagnostic_of_teardown 3 5 st_del 2 [3, 5, 4, 2]
     (mk_option "t" .OPT_TREE { no_flags with OPT_ALLOC := true } (.tree (some [3, 4])) (some 0))
     (by decide) (by decide) (by decide) (by decide) (by decide) (by decide)⟩

/-! ## `smart_config_string` on a tree whose content is hidden -/

/-- Claim C25, at the failing input.  In `st_hidden`, which is `st_hidden0`
after `prepare_mustsave_flags`, the tree `ui` (1) holds nothing but the hidden
leaf `secret` (2), flagged for saving.  `check_nonempty_tree` counts the hidden
leaf, so `smart_config_string` passes `ui` to the callback, with the actions 0,
1, 3 and 3, and no other node: no record that is not a Tree is passed. -/
theorem C25_tree_with_hidden_content :
    prepare_mustsave_flags 3 st_hidden0 0 0 = .ok st_hidden () ∧
    type_of st_hidden 1 = some .OPT_TREE ∧ children st_hidden 1 = some [2] ∧
    (st_hidden.deref 2).map (fun o => (o.flags.OPT_HIDDEN, o.flags.OPT_MUST_SAVE)) =
      some (true, true) ∧
    check_nonempty_tree 2 st_hidden 1 = .ok st_hidden 1 ∧
    smart_config_string wr_leaves 3 st_hidden 2 0 none 0 =
      .ok st_hidden [⟨1, none, 0, 2, 0⟩, ⟨1, none, 0, 1, 1⟩, ⟨1, none, 0, 1, 3⟩,
        ⟨1, none, 0, 1, 3⟩] ∧
    ∀ wr : option_type → Bool, ∃ calls,
      smart_config_string wr 3 st_hidden 2 0 none 0 = .ok st_hidden calls ∧
      calls ≠ [] ∧ ∀ c ∈ calls, c.opt = 1 := by
  refine ⟨by decide, by decide, by decide, by decide, by decide, by decide, ?_⟩
  intro wr
  have h1 : st_hidden.deref 0 = some (mk_option "" .OPT_TREE no_flags (.tree (some [1])) none) :=
    by decide
  have h2 : st_hidden.deref 1 =
      some (mk_option "ui" .OPT_TREE no_flags (.tree (some [2])) (some 0)) := by decide
  have h3 : st_hidden.deref 2 = some (mk_option "secret" .OPT_INT
      { no_flags with OPT_HIDDEN := true, OPT_TOUCHED := true, OPT_MUST_SAVE := true }
      (.number 7) (some 1)) := by decide
  have h4 : check_nonempty_tree 2 st_hidden 1 = .ok st_hidden 1 := by decide
  have h5 : strcmp "ui".toList template_name ≠ 0 := by decide
  cases hw : wr .OPT_TREE with
  | true =>
    refine ⟨[⟨1, none, 0, 2, 0⟩, ⟨1, none, 0, 1, 1⟩, ⟨1, none, 0, 1, 2⟩], ?_, ?_, ?_⟩
    · simp only [smart_config_string, h1, mk_option, smart_config_loop, h2, no_flags]
      simp [h4, Result.bind, h5, hw, smart_config_loop]
      decide
    · simp
    · simp
  | false =>
    refine ⟨[⟨1, none, 0, 2, 0⟩, ⟨1, none, 0, 1, 1⟩, ⟨1, none, 0, 1, 3⟩, ⟨1, none, 0, 1, 3⟩],
      ?_, ?_, ?_⟩
    · simp only [smart_config_string, h1, mk_option, smart_config_loop, h2, no_flags]
      simp [h4, Result.bind, h5, hw, smart_config_loop, smart_config_string, h2, h3, mk_option]
      decide
    · simp
    · simp

/-! ## `toggle_option` -/

/-- Claim C28, at two counterexamples.  In `st_toggle` the option `low` (1) has
`min` one below `INT_MIN`, `max` 5 and the value 5: the toggle stores `min`
into the `int`, which makes it `INT_MAX`, outside the bounds.  The option
`high` (2) has the bounds `INT_MAX - 1` and `INT_MAX` and the value
`INT_MAX - 1`: of the two toggles that are to restore the value, the second one
adds one to `INT_MAX` and leaves `INT_MIN`. -/
theorem C28_toggle_leaves_range :
    st_toggle.deref 1 = some (mk_int "low" (-2147483649) 5 5) ∧
    ((-2147483649 : Int) ≤ 5 ∧ (5 : Int) ≤ 5 ∧ (5 : Int) ≠ 0 ∧ (5 : Int) < INT_MAX) ∧
    number_after (toggle_option demo_hooks 2 st_toggle none 1) 1 = some 2147483647 ∧
    ¬ ((2147483647 : Int) ≤ 5) ∧
    st_toggle.deref 2 = some (mk_int "high" 2147483646 2147483647 2147483646) ∧
    ((2147483646 : Int) ≤ 2147483646 ∧ (2147483646 : Int) ≤ 2147483647 ∧
      (2147483647 : Int) ≠ 0 ∧ (2147483646 : Int) < INT_MAX) ∧
    ((2147483647 : Int) - 2147483646 + 1).toNat = 2 ∧
    number_after (toggle_times demo_hooks 2 none 2 2 st_toggle) 2 = some (-2147483648) := by
  refine ⟨by decide, by decide, by decide, by decide, by decide, by decide, by decide,
    by decide⟩

theorem values_eq_refl (st : State) : values_eq st st := fun _ => rfl

theorem values_eq_trans (a b c : State) (h1 : values_eq a b) (h2 : values_eq b c) :
    values_eq a c := fun q => (h2 q).trans (h1 q)

theorem values_eq_links (st st' : State) (h : values_eq st st') : links_eq st st' := by
  intro q
  have := h q
  cases h1 : st.deref q <;> cases h2 : st'.deref q <;> rw [h1, h2] at this <;>
    simp only [Option.map_some', Option.map_none', Option.some.injEq, option.core,
      Prod.mk.injEq] at this ⊢
  · cases this
  · cases this
  · exact ⟨this.2.2.2.2.1, this.2.2.2.2.2⟩

theorem values_eq_deref (st st' : State) (h : values_eq st st') (q : Nat) (o : option)
    (ho : st.deref q = some o) : ∃ o', st'.deref q = some o' ∧ o'.core = o.core := by
  have := h q
  rw [ho] at this
  cases ho' : st'.deref q with
  | none => simp [ho'] at this
  | some o' =>
    rw [ho'] at this
    simp only [Option.map_some', Option.some.injEq] at this
    exact ⟨o', rfl, this⟩

theorem expected_calls_values (hooks : Nat → change_hook_t) (hk : hooks_keep_values hooks)
    (ses : session) (changed : Option Ptr) (st0 : State) :
    ∀ (chain : List Ptr) (st : State),
      values_eq st (expected_calls hooks ses changed st0 chain st).1 := by
  intro chain
  induction chain with
  | nil => intro st; exact values_eq_refl st
  | cons a rest ih =>
    intro st
    simp only [expected_calls]
    cases hook_of st0 a with
    | none => exact ih st
    | some h =>
      simp only
      split
      · exact hk h ses a changed st
      · exact values_eq_trans _ _ _ (hk h ses a changed st) (ih _)

theorem wrap_int_id (n : Int) (h1 : INT_MIN ≤ n) (h2 : n ≤ INT_MAX) : wrap_int n = n := by
  unfold wrap_int
  unfold INT_MIN at h1
  unfold INT_MAX at h2
  omega

theorem next_value_range (lo hi v : Int) (h1 : lo ≤ v) (h2 : v ≤ hi) :
    lo ≤ next_value lo hi v ∧ next_value lo hi v ≤ hi := by
  unfold next_value
  split <;> omega

/-- One toggle, seen through the hooks: from a memory that agrees with `st` up
to the number `v` at `optr`, the toggle leads to one that agrees with `st` up
to the next number. -/
theorem toggle_option_step (hooks : Nat → change_hook_t) (hk : hooks_keep_values hooks)
    (ses : session) (st : State) (optr k fuel : Nat) (chain : List Ptr) (o : option)
    (ho : st.deref optr = some o) (hty : o.type = .OPT_BOOL ∨ o.type = .OPT_INT)
    (h0 : o.max ≠ 0) (hlo : INT_MIN ≤ o.min)
    (hc : chain_of k st optr = some chain) (hf : chain.length ≤ fuel)
    (sti : State) (v : Int) (hmin : o.min ≤ v) (hvlt : v < INT_MAX)
    (hi : values_eq (st.store optr { o with value := .number v }) sti) :
    ∃ st' calls, toggle_option hooks fuel sti ses optr = .ok st' calls ∧
      values_eq (st.store optr { o with value := .number (next_value o.min o.max v) }) st' := by
  obtain ⟨oi, hoi, hcore⟩ := values_eq_deref _ _ hi optr _ (deref_store_self st optr _ o ho)
  simp only [option.core, Prod.mk.injEq] at hcore
  obtain ⟨c1, c2, c3, c4, c5, c6⟩ := hcore
  have hw1 : wrap_int (v + 1) = v + 1 :=
    wrap_int_id _ (by unfold INT_MIN at hlo ⊢; omega) (by unfold INT_MAX at hvlt ⊢; omega)
  have hw2 : wrap_int (if v + 1 ≤ o.max then v + 1 else o.min) = next_value o.min o.max v := by
    unfold next_value
    split
    · exact hw1
    · exact wrap_int_id _ hlo (by unfold INT_MAX at hvlt ⊢; omega)
  have hty' : oi.type = .OPT_BOOL ∨ oi.type = .OPT_INT := by rw [c2]; exact hty
  have h0' : ¬ oi.max = 0 := by rw [c4]; exact h0
  have hnum : wrap_int (if wrap_int (v + 1) ≤ oi.max then wrap_int (v + 1) else oi.min) =
      next_value o.min o.max v := by rw [hw1, c3, c4]; exact hw2
  have hstep : toggle_option hooks fuel sti ses optr =
      option_changed hooks fuel
        (sti.store optr { oi with value := .number (next_value o.min o.max v) }) ses optr := by
    simp only [toggle_option, hoi, c1, hty', not_true_eq_false, if_false, h0', hnum]
  rw [hstep]
  unfold option_changed
  rw [deref_store_self sti optr _ oi hoi]
  simp only
  -- the memory the hooks start from
  have hl : links_eq st
      ((sti.store optr { oi with value := .number (next_value o.min o.max v) }).store optr
        { oi with value := .number (next_value o.min o.max v),
                  flags := { oi.flags with OPT_TOUCHED := true } }) := by
    intro q
    by_cases e : q = optr
    · subst e
      rw [deref_store_self _ _ _ _ (deref_store_self sti q _ oi hoi), ho]
      simp [c5, c6]
    · rw [deref_store_ne _ _ _ _ e, deref_store_ne _ _ _ _ e]
      have := values_eq_links _ _ hi q
      rw [deref_store_ne _ _ _ _ e] at this
      exact this
  have hv2 : values_eq (st.store optr { o with value := .number (next_value o.min o.max v) })
      ((sti.store optr { oi with value := .number (next_value o.min o.max v) }).store optr
        { oi with value := .number (next_value o.min o.max v),
                  flags := { oi.flags with OPT_TOUCHED := true } }) := by
    intro q
    by_cases e : q = optr
    · subst e
      rw [deref_store_self _ _ _ _ (deref_store_self sti q _ oi hoi),
        deref_store_self st q _ o ho]
      simp [option.core, c2, c3, c4, c5, c6]
    · rw [deref_store_ne _ _ _ _ e, deref_store_ne _ _ _ _ e, deref_store_ne _ _ _ _ e]
      have := hi q
      rw [deref_store_ne _ _ _ _ e] at this
      exact this
  rw [call_change_hooks_chain hooks
    (fun h ses cur changed s => values_eq_links _ _ (hk h ses cur changed s))
    ses (some optr) st k optr chain _ fuel hl hc hf]
  exact ⟨_, _, rfl, values_eq_trans _ _ _ hv2 (expected_calls_values hooks hk _ _ _ _ _)⟩

theorem next_value_climb (lo hi : Int) :
    ∀ (j : Nat) (v : Int), v + j ≤ hi → (next_value lo hi)^[j] v = v + j := by
  intro j
  induction j with
  | zero => intro v _; simp
  | succ j ih =>
    intro v h
    have h1 : next_value lo hi v = v + 1 := by
      unfold next_value
      rw [if_pos (by push_cast at h; omega)]
    rw [Function.iterate_succ_apply, h1, ih (v + 1) (by push_cast at h ⊢; omega)]
    push_cast
    omega

/-- The step of the claim has the period `hi - lo + 1` on the numbers from `lo`
to `hi`. -/
theorem next_value_cycle (lo hi v : Int) (h1 : lo ≤ v) (h2 : v ≤ hi) :
    (next_value lo hi)^[(hi - lo + 1).toNat] v = v := by
  have e : (hi - lo + 1).toNat = (v - lo).toNat + (1 + (hi - v).toNat) := by omega
  rw [e, Function.iterate_add_apply, Function.iterate_add_apply,
    next_value_climb lo hi (hi - v).toNat v (by rw [Int.toNat_of_nonneg (by omega)]; omega)]
  have h3 : next_value lo hi (v + ((hi - v).toNat : Int)) = lo := by
    unfold next_value
    rw [Int.toNat_of_nonneg (by omega), if_neg (by omega)]
  rw [Function.iterate_one, h3,
    next_value_climb lo hi (v - lo).toNat lo (by rw [Int.toNat_of_nonneg (by omega)]; omega),
    Int.toNat_of_nonneg (by omega)]
  omega

theorem toggle_times_spec (hooks : Nat → change_hook_t) (hk : hooks_keep_values hooks)
    (ses : session) (st : State) (optr k fuel : Nat) (chain : List Ptr) (o : option)
    (ho : st.deref optr = some o) (hty : o.type = .OPT_BOOL ∨ o.type = .OPT_INT)
    (h0 : o.max ≠ 0) (hlo : INT_MIN ≤ o.min) (hhi : o.max < INT_MAX)
    (hc : chain_of k st optr = some chain) (hf : chain.length ≤ fuel) :
    ∀ (n : Nat) (sti : State) (v : Int), o.min ≤ v → v ≤ o.max →
      values_eq (st.store optr { o with value := .number v }) sti →
      ∃ st', toggle_times hooks fuel ses optr n sti = .ok st' () ∧
        values_eq (st.store optr
          { o with value := .number ((next_value o.min o.max)^[n] v) }) st' := by
  intro n
  induction n with
  | zero => intro sti v _ _ hi; exact ⟨sti, rfl, hi⟩
  | succ n ih =>
    intro sti v hmin hmax hi
    obtain ⟨st1, calls, hr, hv1⟩ := toggle_option_step hooks hk ses st optr k fuel chain o ho
      hty h0 hlo hc hf sti v hmin (by omega) hi
    obtain ⟨r1, r2⟩ := next_value_range o.min o.max v hmin hmax
    obtain ⟨st', hr2, hv2⟩ := ih st1 _ r1 r2 hv1
    exact ⟨st', by simp only [toggle_times, hr, Result.bind, hr2],
      by rw [Function.iterate_succ_apply]; exact hv2⟩

theorem number_at_of_values (st st' : State) (p : Nat) (o : option) (v : Int)
    (ho : st.deref p = some o)
    (h : values_eq (st.store p { o with value := .number v }) st') :
    number_at st' p = some v := by
  obtain ⟨o', ho', hcore⟩ := values_eq_deref _ _ h p _ (deref_store_self st p _ o ho)
  simp only [option.core, Prod.mk.injEq] at hcore
  simp only [number_at, ho', hcore.1]

/-- Claim C28, amended.  Let the option be of kind Bool or Int with
`min <= value <= max`, `max` non-zero, the value below `INT_MAX` and `min` not
below `INT_MIN`, its ancestor chain finite, and let no hook change a value, a
bound or a link.  Then `toggle_option` returns and leaves `value + 1` when that
does not exceed `max`, and `min` otherwise, a number from `min` to `max` again.
When `max` is below `INT_MAX` as well, `max - min + 1` toggles in a row return
and restore the value. -/
theorem C28_toggle_cycle (hooks : Nat → change_hook_t) (hk : hooks_keep_values hooks)
    (ses : session) (st : State) (optr k fuel : Nat) (chain : List Ptr) (o : option) (v : Int)
    (ho : st.deref optr = some o) (hv : o.value = .number v)
    (hty : o.type = .OPT_BOOL ∨ o.type = .OPT_INT) (hmin : o.min ≤ v) (hmax : v ≤ o.max)
    (h0 : o.max ≠ 0) (hvlt : v < INT_MAX) (hlo : INT_MIN ≤ o.min)
    (hc : chain_of k st optr = some chain) (hf : chain.length ≤ fuel) :
    (∃ st' calls, toggle_option hooks fuel st ses optr = .ok st' calls ∧
      number_at st' optr = some (if v + 1 ≤ o.max then v + 1 else o.min) ∧
      o.min ≤ (if v + 1 ≤ o.max then v + 1 else o.min) ∧
      (if v + 1 ≤ o.max then v + 1 else o.min) ≤ o.max) ∧
    (o.max < INT_MAX →
      ∃ st', toggle_times hooks fuel ses optr (o.max - o.min + 1).toNat st = .ok st' () ∧
        number_at st' optr = some v) := by
  have hst : values_eq (st.store optr { o with value := .number v }) st := by
    rw [← hv]
    intro q
    by_cases e : q = optr
    · subst e
      rw [deref_store_self st q _ o ho, ho]
    · rw [deref_store_ne _ _ _ _ e]
  constructor
  · obtain ⟨st', calls, hr, hv1⟩ := toggle_option_step hooks hk ses st optr k fuel chain o ho
      hty h0 hlo hc hf st v hmin hvlt hst
    exact ⟨st', calls, hr, number_at_of_values st st' optr o _ ho hv1,
      next_value_range o.min o.max v hmin hmax⟩
  · intro hhi
    obtain ⟨st', hr, hv1⟩ := toggle_times_spec hooks hk ses st optr k fuel chain o ho hty h0
      hlo hhi hc hf (o.max - o.min + 1).toNat st v hmin hmax hst
    rw [next_value_cycle o.min o.max v hmin hmax] at hv1
    exact ⟨st', hr, number_at_of_values st st' optr o _ ho hv1⟩

theorem C28_toggle_cycle_witness :
    hooks_keep_values demo_hooks ∧
    st_toggle.deref 3 = some (mk_int "zoom" 1 3 2) ∧ chain_of 2 st_toggle 3 = some [3, 0] ∧
    number_after (toggle_option demo_hooks 2 st_toggle none 3) 3 = some 3 ∧
    number_after (toggle_times demo_hooks 2 none 3 2 st_toggle) 3 = some 1 ∧
    ((∃ st' calls, toggle_option demo_hooks 2 st_toggle none 3 = .ok st' calls ∧
      number_at st' 3 = some (if (2 : Int) + 1 ≤ (mk_int "zoom" 1 3 2).max then 2 + 1
        else (mk_int "zoom" 1 3 2).min) ∧
      (mk_int "zoom" 1 3 2).min ≤ (if (2 : Int) + 1 ≤ (mk_int "zoom" 1 3 2).max then 2 + 1
        else (mk_int "zoom" 1 3 2).min) ∧
      (if (2 : Int) + 1 ≤ (mk_int "zoom" 1 3 2).max then 2 + 1
        else (mk_int "zoom" 1 3 2).min) ≤ (mk_int "zoom" 1 3 2).max) ∧
    ((mk_int "zoom" 1 3 2).max < INT_MAX →
      ∃ st', toggle_times demo_hooks 2 none 3
          ((mk_int "zoom" 1 3 2).max - (mk_int "zoom" 1 3 2).min + 1).toNat st_toggle =
          .ok st' () ∧
        number_at st' 3 = some 2)) :=
  ⟨fun _ _ _ _ _ _ => rfl, by decide, by decide, by decide, by decide,
   C28_toggle_cycle demo_hooks (fun _ _ _ _ _ _ => rfl) none st_toggle 3 2 2 [3, 0]
     (mk_int "zoom" 1 3 2) 2 (by decide) (by decide) (by decide) (by decide) (by decide)
     (by decide) (by decide) (by decide) (by decide) (by decide)⟩

/-! ## `add_opt_rec` on a parent that is not sorted -/

theorem add_opt_rec_visible_spec (fuel : Nat) (st : State) (optr : Nat) (o : option)
    (hf : 2 ≤ fuel) (ho : st.deref optr = some o)
    (hvis : o.box_item ≠ none → o.name = some template_name →
      ∃ cfg b ob v, st.config_options = some cfg ∧
        walk st cfg (segments "config.show_template".toList) = some b ∧
        st.deref b = some ob ∧ ob.value = .number v) :
    ∃ st2 bx, add_opt_rec_visible (get_opt_rec fuel) st optr = .ok st2 () ∧
      st2.deref optr = some { o with box_item := bx } ∧
      (∀ q, q ≠ optr → st2.deref q = st.deref q) ∧ same_globals st st2 := by
  by_cases hn : o.name = some template_name
  · cases hb : o.box_item with
    | none =>
      refine ⟨st, none, ?_, by rw [ho, ← hb], fun _ _ => rfl, rfl, rfl, rfl, rfl⟩
      simp only [add_opt_rec_visible, ho, hb]
    | some bi =>
      obtain ⟨cfg, b, ob, v, hcfg, hw, hob, hov⟩ := hvis (by rw [hb]; simp) hn
      have hlook : get_opt_rec fuel st cfg "config.show_template".toList = .ok st (some b) :=
        get_opt_rec_of_walk st cfg b fuel _ (by
          have : (segments "config.show_template".toList).length = 2 := by decide
          omega) hw
      refine ⟨st.store optr { o with box_item := some { bi with visible := v } }, _, ?_,
        deref_store_self st optr _ o ho, fun q hq => deref_store_ne st optr q _ hq,
        store_length _ _ _, rfl, rfl, rfl⟩
      have h0 : strcmp template_name template_name = 0 := (strcmp_eq_zero_iff _ _).2 rfl
      simp only [add_opt_rec_visible, ho, hb, hn, h0, if_true, get_opt_bool, hcfg, hlook, hob,
        hov, Result.bind]
  · exact ⟨st, o.box_item, add_opt_rec_visible_skip _ st optr o ho hn, ho, fun _ _ => rfl,
      rfl, rfl, rfl, rfl⟩

theorem scan_child_names_kept (st st' : State) (tree T : Nat) (name : cstring)
    (hN : names_kept st st') (ht : st'.deref tree = st.deref tree)
    (h : scan_child st tree name = some T) : scan_child st' tree name = some T := by
  unfold scan_child children at h ⊢
  rw [ht]
  cases hd : st.deref tree with
  | none => simp [hd] at h
  | some t =>
    rw [hd] at h
    simp only at h ⊢
    cases hv : t.value with
    | tree l =>
      rw [hv] at h
      cases l with
      | none => simp at h
      | some cat =>
        simp only at h ⊢
        cases hf : find_option st cat name with
        | none => simp [hf] at h
        | some r =>
          rw [hf] at h
          rw [find_option_kept st st' hN cat name r hf]
          exact h
    | _ => simp [hv] at h

theorem add_opt_rec_desc_spec (fuel : Nat) (st : State) (tree optr : Nat) (t o : option)
    (hf : 1 ≤ fuel) (ht : st.deref tree = some t) (ho : st.deref optr = some o)
    (hdesc : t.flags.OPT_AUTOCREATE = true → o.desc = none →
      ∃ T tm, scan_child st tree template_name = some T ∧ st.deref T = some tm) :
    ∃ st3 d, add_opt_rec_desc (get_opt_rec fuel) st tree optr = .ok st3 () ∧
      st3.deref optr = some { o with desc := d } ∧
      (∀ q, q ≠ optr → st3.deref q = st.deref q) ∧ same_globals st st3 := by
  by_cases hc : t.flags.OPT_AUTOCREATE = true ∧ o.desc = none
  · obtain ⟨T, tm, hs, hT⟩ := hdesc hc.1 hc.2
    refine ⟨st.store optr { o with desc := tm.desc }, tm.desc, ?_,
      deref_store_self st optr _ o ho, fun q hq => deref_store_ne st optr q _ hq,
      store_length _ _ _, rfl, rfl, rfl⟩
    simp only [add_opt_rec_desc, ht, ho, hc, and_self, if_true,
      get_opt_rec_template_found fuel st tree T hf hs, Result.bind, hT]
  · refine ⟨st, o.desc, ?_, ho, fun _ _ => rfl, rfl, rfl, rfl, rfl⟩
    simp only [add_opt_rec_desc, ht, ho, hc, if_false]

theorem link_option_deref_tree (st : State) (tree optr : Nat) (cat : List Ptr)
    (items : Option (List Ptr)) (t : option) (hne : tree ≠ optr)
    (ht : st.deref tree = some t) :
    (link_option st tree optr cat items).deref tree =
      some { t with value := .tree (some cat) } := by
  have h2 := deref_set_tree_self st tree cat t ht
  unfold link_option
  dsimp only
  cases items with
  | none => exact h2
  | some l =>
    simp only
    cases ho : ((st.set_tree tree cat).set_child tree l).deref optr with
    | none => exact h2
    | some o =>
      simp only
      cases hb : o.box_item with
      | none => exact h2
      | some b =>
        simp only
        rw [deref_store_ne _ _ _ _ hne]
        exact h2

theorem add_opt_rec_insert_unsorted (st : State) (tree optr : Nat) (t o : option)
    (cat : List Ptr) (hne : tree ≠ optr) (ht : st.deref tree = some t)
    (hv : t.value = .tree (some cat)) (hsort : t.flags.OPT_SORT = false)
    (ho : st.deref optr = some o) :
    ∃ st' bx, add_opt_rec_insert st tree optr = .ok st' () ∧
      st'.deref tree = some { t with value := .tree (some (cat ++ [optr])) } ∧
      st'.deref optr = some { o with root := some tree, box_item := bx } ∧
      (∀ q, q ≠ tree → q ≠ optr → st'.deref q = st.deref q) ∧ same_globals st st' := by
  have hret : ∃ st', add_opt_rec_insert st tree optr = .ok st' () ∧
      ∃ st1 items, st1.deref tree = some t ∧
        st' = link_option st1 tree optr (cat ++ [optr]) items := by
    unfold add_opt_rec_insert
    rw [ht, ho]
    simp only [hsort, Bool.false_eq_true, if_false]
    rw [deref_store_ne _ _ _ _ hne, ht]
    simp only [hv, add_to_list_end]
    exact ⟨_, rfl, _, _, by rw [deref_store_ne _ _ _ _ hne]; exact ht, rfl⟩
  obtain ⟨st', hr, st1, items, ht1, he⟩ := hret
  obtain ⟨o1, ho1, t1, cat1, cat', b, a1, a2, _, a4, a5, a6, a7⟩ :=
    add_opt_rec_insert_inv st st' tree optr hne hr
  rw [ho] at ho1
  cases ho1
  refine ⟨st', b, hr, ?_, a5, a6, a7⟩
  rw [he]
  exact link_option_deref_tree st1 tree optr _ items t hne ht1

/-- The insertion under a parent that is not sorted, where it runs.  Let `tree`
be a record with a children list `cat` and without `OPT_SORT`, and `optr`
another record.  Let the two steps before the insertion
be able to run: when the option is a template with a listbox item, the option
`config.show_template` resolves to a number, and when the tree is autocreating
and the option has no description, the tree has a template.  Then `add_opt_rec`
with the empty path returns; the children list of `tree` is `cat` followed by
`optr`; the parent link of `optr` is `tree`; its name, flags, kind, bounds,
caption, hook and value are the old ones; no other record changed. -/
theorem add_opt_rec_unsorted_append (fuel : Nat) (st : State) (tree optr : Nat) (t o : option)
    (cat : List Ptr) (hf : 2 ≤ fuel) (hne : tree ≠ optr) (ht : st.deref tree = some t)
    (hv : t.value = .tree (some cat)) (hsort : t.flags.OPT_SORT = false)
    (ho : st.deref optr = some o)
    (hvis : o.box_item ≠ none → o.name = some template_name →
      ∃ cfg b ob v, st.config_options = some cfg ∧
        walk st cfg (segments "config.show_template".toList) = some b ∧
        st.deref b = some ob ∧ ob.value = .number v)
    (hdesc : t.flags.OPT_AUTOCREATE = true → o.desc = none →
      ∃ T tm, scan_child st tree template_name = some T ∧ st.deref T = some tm) :
    ∃ st' o', add_opt_rec (get_opt_rec fuel) st tree [] optr = .ok st' () ∧
      children st' tree = some (cat ++ [optr]) ∧
      st'.deref tree = some { t with value := .tree (some (cat ++ [optr])) } ∧
      st'.deref optr = some o' ∧ o'.root = some tree ∧ same_meta o o' ∧ o'.value = o.value ∧
      (∀ q, q ≠ tree → q ≠ optr → st'.deref q = st.deref q) ∧ same_globals st st' := by
  obtain ⟨st2, bx, hr2, ho2, hq2, hg2⟩ := add_opt_rec_visible_spec fuel st optr o hf ho hvis
  have ht2 : st2.deref tree = some t := by rw [hq2 tree hne]; exact ht
  have hN : names_kept st st2 := by
    intro q oq hq
    by_cases e : q = optr
    · subst e
      rw [ho] at hq
      cases hq
      exact ⟨_, ho2, rfl⟩
    · exact ⟨oq, by rw [hq2 q e]; exact hq, rfl⟩
  obtain ⟨st3, d, hr3, ho3, hq3, hg3⟩ := add_opt_rec_desc_spec fuel st2 tree optr t _
    (by omega) ht2 ho2 (by
      intro ha hd
      obtain ⟨T, tm, hs, hT⟩ := hdesc ha hd
      obtain ⟨tm2, hT2, _⟩ := hN T tm hT
      exact ⟨T, tm2, scan_child_names_kept st st2 tree T _ hN (by rw [ht2, ht]) hs, hT2⟩)
  have ht3 : st3.deref tree = some t := by rw [hq3 tree hne]; exact ht2
  obtain ⟨st', bx', hr4, ht4, ho4, hq4, hg4⟩ :=
    add_opt_rec_insert_unsorted st3 tree optr t _ cat hne ht3 hv hsort ho3
  refine ⟨st', _, ?_, ?_, ht4, ho4, rfl, ⟨rfl, rfl, rfl, rfl, rfl, rfl, rfl⟩, rfl, ?_,
    same_globals_trans _ _ _ hg2 (same_globals_trans _ _ _ hg3 hg4)⟩
  · simp only [add_opt_rec, if_true, Result.bind, ht, hv, hr2, hr3, hr4]
  · simp only [children, ht4]
  · intro q h1 h2
    rw [hq4 q h1 h2, hq3 q h2, hq2 q h2]

theorem add_opt_rec_unsorted_append_example :
    st_append.deref 0 = some (mk_option "" .OPT_TREE { no_flags with OPT_AUTOCREATE := true }
      (.tree (some [1, 2])) none) ∧
    st_append.deref 3 = some (mk_option "alpha" .OPT_INT no_flags (.number 2) none) ∧
    children_after (add_opt_rec (get_opt_rec 2) st_append 0 [] 3) 0 = some [1, 2, 3] ∧
    ∃ st' o', add_opt_rec (get_opt_rec 2) st_append 0 [] 3 = .ok st' () ∧
      children st' 0 = some ([1, 2] ++ [3]) ∧
      st'.deref 0 = some { mk_option "" .OPT_TREE { no_flags with OPT_AUTOCREATE := true }
        (.tree (some [1, 2])) none with value := .tree (some ([1, 2] ++ [3])) } ∧
      st'.deref 3 = some o' ∧ o'.root = some 0 ∧
      same_meta (mk_option "alpha" .OPT_INT no_flags (.number 2) none) o' ∧
      o'.value = (mk_option "alpha" .OPT_INT no_flags (.number 2) none).value ∧
      (∀ q, q ≠ 0 → q ≠ 3 → st'.deref q = st_append.deref q) ∧ same_globals st_append st' :=
  ⟨by decide, by decide, by decide,
   add_opt_rec_unsorted_append 2 st_append 0 3
     (mk_option "" .OPT_TREE { no_flags with OPT_AUTOCREATE := true } (.tree (some [1, 2])) none)
     (mk_option "alpha" .OPT_INT no_flags (.number 2) none) [1, 2] (by decide) (by decide)
     (by decide) (by decide) (by decide) (by decide) (fun h => absurd rfl h)
     (fun _ _ => ⟨1, { mk_option "_template_" .OPT_INT no_flags (.number 0) (some 0) with
               desc := some "a number".toList }, by decide, by decide⟩)⟩

theorem shadowed_run : ∀ (srcs : List Ptr) (st : State) (s S : Nat),
    st.no_autocreate = 0 → shadowed st s srcs S → shadow_run st s srcs = some (st, S) := by
  intro srcs
  induction srcs with
  | nil =>
    intro st s S _ h
    simp only [shadowed] at h
    subst h
    rfl
  | cons src rest ih =>
    intro st s S hna h
    obtain ⟨nm, cat, c, hn, hc, hf, hrest⟩ := h
    simp only [shadow_run, shadow_step, hn, hc, hf, state_na_zero st hna]
    exact ih st c S hna hrest

theorem kept_names (st st' : State) (h : kept st st') : names_kept st st' := by
  intro q o ho
  obtain ⟨v, hv⟩ := h q o ho
  exact ⟨_, hv, rfl⟩

theorem chain_to_kept (st st' : State) (hk : kept st st') (tree : Nat) :
    ∀ (k : Nat) (N : Nat) (chain : List Ptr), chain_to k st N tree = some chain →
      chain_to k st' N tree = some chain := by
  intro k
  induction k with
  | zero => intro N chain h; simp [chain_to] at h
  | succ k ih =>
    intro N chain h
    by_cases e : N = tree
    · simp only [chain_to, e, if_true] at h ⊢
      exact h
    · obtain ⟨o, r, nm, rest, ho, hr, hn, hrest, rfl⟩ := chain_to_cons k st N tree chain e h
      obtain ⟨v, hv⟩ := hk N o ho
      simp only [chain_to, e, if_false, hv, hr, hn, ih r rest hrest, Option.map_some']

/-- After a run of the shadowing every level has its shadow. -/
theorem shadow_run_shadowed : ∀ (srcs : List Ptr) (st : State) (s : Nat),
    well_formed st → st.no_autocreate = 0 → (srcs ≠ [] → type_of st s = some .OPT_TREE) →
    (∀ a ∈ srcs, ∃ nm, name_of st a = some nm) →
    (∀ a ∈ srcs.dropLast, type_of st a = some .OPT_TREE) →
    conforms st s srcs = true →
    ∀ (st' : State) (S : Nat), shadow_run st s srcs = some (st', S) →
      shadowed st' s srcs S := by
  intro srcs
  induction srcs with
  | nil =>
    intro st s _ _ _ _ _ _ st' S h
    simp only [shadow_run, Option.some.injEq, Prod.mk.injEq] at h
    exact h.2.symm
  | cons src rest ih =>
    intro st s hwf hna hty hnames htypes hconf st' S hrun
    obtain ⟨nm, hn⟩ := hnames src (by simp)
    have hsty := hty (by simp)
    obtain ⟨p, cat, hp, hv, hc⟩ := children_of_tree st hwf s hsty
    have hfind := find_of_child_named_closed st s p cat nm hp hv
      (children_valid st (parented_closed st hwf.1) s cat hc)
    rcases shadow_step_cases st hwf hna s src nm hsty hn with
      ⟨c, hcn, hstep⟩ | ⟨st1, hcn, hsc, hstep⟩
    · simp only [shadow_run, hstep] at hrun
      obtain ⟨hct, hcc⟩ := conforms_found st s src c nm rest hn hcn hconf
      have hnames' : ∀ a ∈ rest, ∃ nm, name_of st a = some nm :=
        fun a ha => hnames a (by simp [ha])
      have htypes' : ∀ a ∈ rest.dropLast, type_of st a = some .OPT_TREE :=
        fun a ha => htypes a (dropLast_subset_cons src rest a ha)
      have hsub := ih st c hwf hna hct hnames' htypes' hcc st' S hrun
      obtain ⟨st2, S2, hrun2, _, _, hk, _, _, _, _, hfr, hat, _, _, _⟩ :=
        shadow_run_spec rest st c hwf hna hct hnames' htypes' hcc
      rw [hrun] at hrun2
      simp only [Option.some.injEq, Prod.mk.injEq] at hrun2
      obtain ⟨rfl, rfl⟩ := hrun2
      rw [hcn] at hfind
      have hf' : find_option st' cat nm = some (some c) :=
        find_option_kept st st' (kept_names st st' hk) cat nm _ hfind
      by_cases hsa : s = attach st c rest
      · rcases hat p (by rw [← hsa]; exact hp) with h1 | ⟨cat2, hv2, h1⟩
        · rw [← hsa] at h1
          exact ⟨nm, cat, c, kept_name_of st st' hk src nm hn,
            by simp only [children, h1, hv], hf', hsub⟩
        · rw [← hsa] at h1
          rw [hv] at hv2
          simp only [option_value.tree.injEq, Option.some.injEq] at hv2
          subst hv2
          refine ⟨nm, cat ++ [st.mem.length], c, kept_name_of st st' hk src nm hn,
            by simp only [children, h1], ?_, hsub⟩
          rw [find_option_append, hf']
      · exact ⟨nm, cat, c, kept_name_of st st' hk src nm hn,
          by simp only [children, hfr s p hp hsa, hv], hf', hsub⟩
    · simp only [shadow_run, hstep] at hrun
      obtain ⟨hnr, hnn, hnt, hnc, hnl, hnna⟩ := shadow_created_new st st1 s src nm hn hsc
      have hk1 : kept st st1 := shadow_step_kept _ _ _ _ _ hstep
      have hwf1 := shadow_created_wf st st1 s src hwf hsty hsc
      have hsrct : rest ≠ [] → type_of st src = some .OPT_TREE :=
        fun h => htypes src (head_mem_dropLast src rest h)
      have hna1 : st1.no_autocreate = 0 := by rw [hnna]; exact hna
      have hty1 : rest ≠ [] → type_of st1 st.mem.length = some .OPT_TREE :=
        fun h => by rw [hnt]; exact hsrct h
      have hnames1 : ∀ a ∈ rest, ∃ nm, name_of st1 a = some nm := by
        intro a ha
        obtain ⟨n2, hn2⟩ := hnames a (by simp [ha])
        exact ⟨n2, kept_name_of st st1 hk1 a n2 hn2⟩
      have htypes1 : ∀ a ∈ rest.dropLast, type_of st1 a = some .OPT_TREE :=
        fun a ha => kept_type_of st st1 hk1 a _
          (htypes a (dropLast_subset_cons src rest a ha))
      have hconf1 := conforms_fresh st1 st.mem.length rest (fun h => hnc (hsrct h))
      have hsub := ih st1 st.mem.length hwf1 hna1 hty1 hnames1 htypes1 hconf1 st' S hrun
      obtain ⟨st2, S2, hrun2, _, _, hk, _, _, _, _, hfr, _, _, _, _⟩ :=
        shadow_run_spec rest st1 st.mem.length hwf1 hna1 hty1 hnames1 htypes1 hconf1
      rw [hrun] at hrun2
      simp only [Option.some.injEq, Prod.mk.injEq] at hrun2
      obtain ⟨rfl, rfl⟩ := hrun2
      rw [attach_fresh st1 st.mem.length rest (fun h => hnc (hsrct h))] at hfr
      obtain ⟨p2, cat2, so, v, hp2, hv2, hso, hsv, _, hp1, hnewrec, hq, _, _⟩ :=
        shadow_created_deref _ _ _ _ hsc
      rw [hp] at hp2
      obtain rfl := Option.some.inj hp2
      rw [hv] at hv2
      simp only [option_value.tree.injEq, Option.some.injEq] at hv2
      subst hv2
      have hslt : s < st.mem.length := deref_lt st s p hp
      have hs' := hfr s _ hp1 (Nat.ne_of_lt hslt)
      rw [hcn] at hfind
      have hkk := kept_trans _ _ _ hk1 hk
      have hf' : find_option st' cat nm = some none :=
        find_option_kept st st' (kept_names st st' hkk) cat nm _ hfind
      have hnew' : name_of st' st.mem.length = some nm :=
        kept_name_of st1 st' hk st.mem.length nm hnn
      refine ⟨nm, cat ++ [st.mem.length], st.mem.length, kept_name_of st st' hkk src nm hn,
        by simp only [children, hs'], ?_, hsub⟩
      rw [find_option_append, hf']
      simp only [find_option]
      unfold name_of at hnew'
      cases hd : st'.deref st.mem.length with
      | none => simp [hd] at hnew'
      | some rec1 =>
        rw [hd] at hnew'
        have hnew2 : rec1.name = some nm := hnew'
        simp only [hnew2, (strcmp_eq_zero_iff nm nm).2 rfl, if_true]

theorem up_add (st : State) (a : Nat) (p : Nat) :
    ∀ (b : Nat), up st (a + b) p = (up st a p).bind (up st b) := by
  intro b
  induction b with
  | zero =>
    simp only [Nat.add_zero]
    cases up st a p <;> rfl
  | succ b ih =>
    rw [← Nat.add_assoc]
    simp only [up, ih]
    cases up st a p <;> rfl

theorem up_none_mono (st : State) (p j : Nat) (h : up st j p = none) :
    ∀ (m : Nat), j ≤ m → up st m p = none := by
  intro m hm
  obtain ⟨d, rfl⟩ := Nat.exists_eq_add_of_le hm
  rw [up_add, h]
  rfl

theorem up_cycle (st : State) (p m : Nat) (h : up st m p = some p) :
    ∀ (t : Nat), up st (m * t) p = some p := by
  intro t
  induction t with
  | zero => rfl
  | succ t ih => rw [Nat.mul_succ, up_add, ih]; exact h

theorem no_cycle (st : State) (top s i m : Nat) (hroot : root_of st top = none)
    (hi : up st i s = some top) (hm : up st m s = some s) : m = 0 := by
  by_contra hne
  have h1 : up st (i + 1) s = none := by
    show (up st i s).bind (root_of st) = none
    rw [hi]
    exact hroot
  have h2 := up_none_mono st s (i + 1) h1 (m * (i + 1))
    (Nat.le_mul_of_pos_left _ (Nat.pos_of_ne_zero hne))
  rw [up_cycle st s m hm] at h2
  cases h2

theorem shadowed_step_root (st : State) (hp : parented st) (s c : Nat) (cat : List Ptr)
    (nm : cstring) (hc : children st s = some cat)
    (hf : find_option st cat nm = some (some c)) : root_of st c = some s := by
  obtain ⟨p, hps, hv⟩ := children_some_inv st s cat hc
  exact (parented_iff st).1 hp s p hps c
    (by rw [kids_of_value p cat hv]; exact find_option_mem st cat nm c hf)

theorem shadowed_up (st : State) (hp : parented st) (S : Nat) :
    ∀ (srcs : List Ptr) (s : Nat), shadowed st s srcs S → up st srcs.length S = some s := by
  intro srcs
  induction srcs with
  | nil =>
    intro s h
    simp only [shadowed] at h
    subst h
    rfl
  | cons src rest ih =>
    intro s h
    obtain ⟨nm, cat, c, _, hc, hf, hrest⟩ := h
    show (up st rest.length S).bind (root_of st) = some s
    rw [ih c hrest]
    exact shadowed_step_root st hp s c cat nm hc hf

/-- A value written to the last shadow of a path leaves the path of shadows in
place. -/
theorem shadowed_written (st st2 : State) (hp : parented st) (top S : Nat)
    (hroot : root_of st top = none) (hk : kept st st2)
    (hq : ∀ q, q ≠ S → st2.deref q = st.deref q) :
    ∀ (srcs : List Ptr) (s i : Nat), up st i s = some top → shadowed st s srcs S →
      shadowed st2 s srcs S := by
  intro srcs
  induction srcs with
  | nil => intro s i _ h; exact h
  | cons src rest ih =>
    intro s i hi h
    have hup := shadowed_up st hp S (src :: rest) s h
    obtain ⟨nm, cat, c, hn, hc, hf, hrest⟩ := h
    have hsS : s ≠ S := by
      intro e
      subst e
      have := no_cycle st top s i (rest.length + 1) hroot hi hup
      omega
    have hcr := shadowed_step_root st hp s c cat nm hc hf
    have hic : up st (i + 1) c = some top := by
      rw [Nat.add_comm, up_add]
      show (root_of st c).bind (up st i) = some top
      rw [hcr]
      exact hi
    refine ⟨nm, cat, c, kept_name_of st st2 hk src nm hn, ?_,
      find_option_kept st st2 (kept_names st st2 hk) cat nm _ hf, ih c (i + 1) hic hrest⟩
    unfold children at hc ⊢
    rw [hq s hsS]
    exact hc

/-- Claim C26.  Under the conditions of C7, and with a shadow root that has no
parent link, `get_option_shadow` returns a shadow `S` in a memory `st'`, and
the same call on `st'` returns `S` again and leaves `st'` as it is: no record
is created, no flag and no value changes.  The same holds in every memory that
differs from `st'` in the value of `S` and in the string buffers only, so a
value written to `S` between two calls is still there after the second. -/
theorem C26_shadow_idempotent (k fuel : Nat) (st : State) (N tree sroot : Nat)
    (chain : List Ptr) (hwf : well_formed st) (hna : st.no_autocreate = 0)
    (hchain : chain_to k st N tree = some chain)
    (hdot : ∀ a ∈ chain, ∀ nm ∈ name_of st a, '.' ∉ nm)
    (hanc : ∀ a ∈ chain.tail, type_of st a = some .OPT_TREE)
    (hsroot : type_of st sroot = some .OPT_TREE) (hroot : root_of st sroot = none)
    (hconf : conforms st sroot chain.reverse = true)
    (hfuel : chain.length < fuel) :
    ∃ st' S, get_option_shadow fuel st N tree sroot = .ok st' (some S) ∧
      get_option_shadow fuel st' N tree sroot = .ok st' (some S) ∧
      ∀ st2, kept st' st2 → (∀ q, q ≠ S → st2.deref q = st'.deref q) →
        st2.no_autocreate = 0 →
        get_option_shadow fuel st2 N tree sroot = .ok st2 (some S) := by
  have hdl : ∀ a ∈ chain.reverse.dropLast, type_of st a = some .OPT_TREE := by
    intro a ha
    apply hanc
    rw [← List.reverse_reverse chain.tail, ← List.dropLast_reverse]
    exact List.mem_reverse.2 ha
  have hnames : ∀ a ∈ chain.reverse, ∃ nm, name_of st a = some nm :=
    fun a ha => chain_to_names st tree k N chain hchain a (List.mem_reverse.1 ha)
  obtain ⟨st', S, hrun, hwf', hna', hk, _⟩ := shadow_run_spec chain.reverse st sroot
    hwf hna (fun _ => hsroot) hnames hdl hconf
  have hcore := get_option_shadow_eq_run tree sroot k N chain st fuel hchain
    (fun a ha nm hnm => hdot a ha nm hnm) hfuel
  rw [hrun] at hcore
  have hsh := shadow_run_shadowed chain.reverse st sroot hwf hna (fun _ => hsroot) hnames hdl
    hconf st' S hrun
  have hroot' : root_of st' sroot = none := by
    unfold type_of at hsroot
    cases ho : st.deref sroot with
    | none => simp [ho] at hsroot
    | some o =>
      rw [kept_root_of st st' hk sroot o ho]
      unfold root_of at hroot
      rw [ho] at hroot
      exact hroot
  -- the call on a memory that keeps the records up to their values
  have hagain : ∀ st2, kept st' st2 → st2.no_autocreate = 0 →
      shadowed st2 sroot chain.reverse S →
      get_option_shadow fuel st2 N tree sroot = .ok st2 (some S) := by
    intro st2 hk2 hna2 hs2
    have hkk := kept_trans _ _ _ hk hk2
    have h := get_option_shadow_eq_run tree sroot k N chain st2 fuel
      (chain_to_kept st st2 hkk tree k N chain hchain)
      (by
        intro a ha nm hnm
        obtain ⟨n0, hn0⟩ := chain_to_names st tree k N chain hchain a ha
        have := kept_name_of st st2 hkk a n0 hn0
        rw [this] at hnm
        rw [← Option.some.inj hnm]
        exact hdot a ha n0 (by rw [hn0]; rfl))
      hfuel
    rw [shadowed_run chain.reverse st2 sroot S hna2 hs2] at h
    exact h
  refine ⟨st', S, hcore, hagain st' (kept_refl st') hna' hsh, ?_⟩
  intro st2 hk2 hq2 hna2
  exact hagain st2 hk2 hna2
    (shadowed_written st' st2 hwf'.1 sroot S hroot' hk2 hq2 chain.reverse sroot 0 rfl hsh)

theorem C26_shadow_idempotent_witness :
    well_formed st_shadow ∧ st_shadow.no_autocreate = 0 ∧
    chain_to 3 st_shadow 2 0 = some [2, 1] ∧
    (∀ a ∈ [2, 1], ∀ nm ∈ name_of st_shadow a, '.' ∉ nm) ∧
    (∀ a ∈ [1], type_of st_shadow a = some .OPT_TREE) ∧
    type_of st_shadow 3 = some .OPT_TREE ∧ root_of st_shadow 3 = none ∧
    conforms st_shadow 3 [1, 2] = true ∧ 2 < 3 ∧
    get_option_shadow 3 st_shadow 2 0 3 = .ok st_shadowed (some 5) ∧
    get_option_shadow 3 st_shadowed 2 0 3 = .ok st_shadowed (some 5) ∧
    get_option_shadow 3 (write_text st_shadowed 5 "de".toList) 2 0 3 =
      .ok (write_text st_shadowed 5 "de".toList) (some 5) ∧
    read_value (write_text st_shadowed 5 "de".toList) 5 =
      some (.string (some 1), some "de".toList) ∧
    ∃ st' S, get_option_shadow 3 st_shadow 2 0 3 = .ok st' (some S) ∧
      get_option_shadow 3 st' 2 0 3 = .ok st' (some S) ∧
      ∀ st2, kept st' st2 → (∀ q, q ≠ S → st2.deref q = st'.deref q) →
        st2.no_autocreate = 0 →
        get_option_shadow 3 st2 2 0 3 = .ok st2 (some S) :=
  ⟨by decide, by decide, by decide, by decide, by decide, by decide, by decide, by decide,
   by decide, by decide, by decide, by decide, by decide,
   C26_shadow_idempotent 3 3 st_shadow 2 0 3 [2, 1] (by decide) (by decide) (by decide)
     (by decide) (by decide) (by decide) (by decide) (by decide) (by decide)⟩

/-! ## Sibling names -/

/-- Claim C23, at a counterexample.  In `st_twins` no two children share a
name.  `add_opt_rec` with the empty path puts the record 2, named `a`, under
the parent 0, which has a child `a` already: afterwards the children 1 and 2 of
the parent carry the same name. -/
theorem C23_insertion_duplicates_name :
    unique_names st_twins ∧ closed st_twins ∧
    name_of st_twins 1 = some "a".toList ∧ name_of st_twins 2 = some "a".toList ∧
    children_after (add_opt_rec (get_opt_rec 2) st_twins 0 [] 2) 0 = some [1, 2] ∧
    (state_after (add_opt_rec (get_opt_rec 2) st_twins 0 [] 2)).map
      (fun s => decide (unique_names s)) = some false := by
  refine ⟨by decide, by decide, by decide, by decide, by decide, by decide⟩

theorem unique_names_iff (st : State) :
    unique_names st ↔ ∀ p o, st.deref p = some o → (knames st o).Nodup := by
  unfold unique_names
  constructor
  · intro h p o ho
    exact h o ((mem_iff_deref st o).2 ⟨p, ho⟩)
  · intro h o ho
    obtain ⟨p, hp⟩ := (mem_iff_deref st o).1 ho
    exact h p o hp

theorem closed_iff (st : State) :
    closed st ↔ ∀ p o, st.deref p = some o → ∀ c ∈ o.kids, c < st.mem.length := by
  unfold closed
  constructor
  · intro h p o ho
    exact h o ((mem_iff_deref st o).2 ⟨p, ho⟩)
  · intro h o ho
    obtain ⟨p, hp⟩ := (mem_iff_deref st o).1 ho
    exact h p o hp

theorem knames_congr (st st' : State) (o o' : option) (hk : o'.kids = o.kids)
    (hn : ∀ c ∈ o.kids, name_of st' c = name_of st c) : knames st' o' = knames st o := by
  unfold knames
  rw [hk]
  exact List.map_congr_left hn

theorem find_option_none_names (st : State) (name : cstring) :
    ∀ (l : List Ptr), find_option st l name = some none →
      ∀ c ∈ l, name_of st c ≠ some name := by
  intro l
  induction l with
  | nil => intro _ c hc; simp at hc
  | cons p ps ih =>
    intro h c hc
    simp only [find_option] at h
    cases hp : st.deref p with
    | none => simp [hp] at h
    | some o =>
      rw [hp] at h
      simp only at h
      cases hn : o.name with
      | none =>
        rw [hn] at h
        rcases List.mem_cons.1 hc with rfl | hc
        · simp [name_of, hp, hn]
        · exact ih h c hc
      | some n =>
        rw [hn] at h
        simp only at h
        split at h
        · cases h
        · rename_i hne
          rcases List.mem_cons.1 hc with rfl | hc
          · intro e
            have e2 : o.name = some name := by
              unfold name_of at e
              rw [hp] at e
              exact e
            rw [hn] at e2
            exact hne ((strcmp_eq_zero_iff _ _).2 (Option.some.inj e2))
          · exact ih h c hc

/-- A list with one more member, whose name no old member carries, has names
without repetition when the old list has. -/
theorem nodup_inserted (f : Ptr → Option cstring) (x : Nat) (cat cat' : List Ptr)
    (hi : inserted x cat cat') (hn : (cat.map f).Nodup) (hx : ∀ c ∈ cat, f c ≠ f x) :
    (cat'.map f).Nodup := by
  obtain ⟨l1, l2, rfl, rfl⟩ := hi
  have hp : (l1 ++ x :: l2).Perm (x :: (l1 ++ l2)) := List.perm_middle
  rw [(hp.map f).nodup_iff, List.map_cons, List.nodup_cons]
  refine ⟨?_, hn⟩
  intro hmem
  obtain ⟨c, hc, hfc⟩ := List.mem_map.1 hmem
  exact hx c hc hfc

/-! ### Deletion -/

theorem kids_outside (st1 : State) (p k : Nat) (po : List Ptr) (hs : tree_shaped st1)
    (hu : unlinked st1 p) (hpo : postorder k st1 p = some po) :
    ∀ q o1, q ∉ po → st1.deref q = some o1 → ∀ c ∈ o1.kids, c ∉ po := by
  have hsi := (tree_shaped_iff st1).1 hs
  intro q o1 hq h1 c hc hcp
  by_cases e : c = p
  · subst e
    exact (unlinked_iff st1 c).1 hu q o1 h1 hc
  · obtain ⟨y, oy, hy, hoy, hk⟩ := postorder_parent st1 k p po hpo c hcp e
    have r1 := (hsi q o1 h1).1 c hc
    have r2 := (hsi y oy hoy).1 c hk
    rw [r1] at r2
    exact hq ((Option.some.inj r2) ▸ hy)

theorem del_from_list_names (st : State) (p c : Nat) :
    name_of (del_from_list st p) c = name_of st c := by
  rcases del_from_list_cases st p with ⟨_, he⟩ | ⟨r, o, l, _, ho, _, _, he⟩
  · rw [he]
  · rw [he]
    unfold name_of
    by_cases e : c = r
    · subst e
      rw [deref_store_self st c _ o ho, ho]
      rfl
    · rw [deref_store_ne st r c _ e]

theorem del_from_list_unique (st : State) (hu : unique_names st) (p : Nat) :
    unique_names (del_from_list st p) := by
  rw [unique_names_iff] at hu ⊢
  intro q o1 h1
  rcases del_from_list_cases st p with ⟨_, he⟩ | ⟨r, o, l, _, ho, hv, _, he⟩
  · rw [he] at h1 ⊢
    exact hu q o1 h1
  · have hn : ∀ c, name_of (del_from_list st p) c = name_of st c := del_from_list_names st p
    by_cases e : q = r
    · subst e
      rw [he, deref_store_self st q _ o ho] at h1
      obtain rfl := Option.some.inj h1
      have h0 := hu q o ho
      unfold knames at h0 ⊢
      rw [kids_of_value o l hv] at h0
      show ((l.erase p).map (name_of (del_from_list st p))).Nodup
      rw [List.map_congr_left (fun c _ => hn c)]
      exact h0.sublist ((List.erase_sublist p l).map _)
    · rw [he, deref_store_ne st r q _ e] at h1
      have h0 := hu q o1 h1
      rw [knames_congr st (del_from_list st p) o1 o1 rfl (fun c _ => hn c)]
      exact h0

theorem delete_option_unique (k fuel : Nat) (st st' : State) (N : Nat) (po : List Ptr)
    (ev : List delete_event) (hs : tree_shaped st) (hu : unique_names st)
    (hpo : postorder k st N = some po) (hnd : po.Nodup)
    (hown : ∀ r, owner_of st N = some r → r ∉ po) (hf : po.length < fuel)
    (h : delete_option fuel st N = .ok st' ev) : unique_names st' := by
  obtain ⟨st2, hr, _, _, hfr, hch⟩ := delete_option_do_spec k fuel st N po hs hpo hnd hown hf
  unfold delete_option at h
  rw [hr] at h
  simp only [Result.ok.injEq] at h
  obtain ⟨rfl, _⟩ := h
  obtain ⟨hs1, hu1⟩ := del_from_list_shape st hs N
  have hfr0 : ∀ q ∈ po, (del_from_list st N).deref q = st.deref q :=
    fun q hq => del_from_list_frame st N q (fun r hr e => hown r hr (e ▸ hq))
  have hpo1 := postorder_frame st (del_from_list st N) k N po hpo hfr0
  have hU1 := (unique_names_iff _).1 (del_from_list_unique st hu N)
  rw [unique_names_iff]
  intro q o' ho'
  by_cases hq : q ∈ po
  · obtain ⟨o2, h2, hk⟩ := hch q hq
    rw [ho'] at h2
    obtain rfl := Option.some.inj h2
    unfold knames
    rw [hk]
    exact List.nodup_nil
  · have h1 : (del_from_list st N).deref q = some o' := by rw [← hfr q hq]; exact ho'
    rw [knames_congr (del_from_list st N) st2 o' o' rfl (fun c hc => by
      unfold name_of
      rw [hfr c (kids_outside _ N k po hs1 hu1 hpo1 q o' hq h1 c hc)])]
    exact hU1 q o' h1

/-! ### Shadows -/

theorem kept_name_eq (st st' : State) (hk : kept st st') (c : Nat) (o : option)
    (ho : st.deref c = some o) : name_of st' c = name_of st c := by
  obtain ⟨v, hv⟩ := hk c o ho
  unfold name_of
  rw [hv, ho]
  rfl

theorem shadow_created_unique (st st1 : State) (s src : Nat) (nm : cstring)
    (hwf : well_formed st) (hu : unique_names st) (hn : name_of st src = some nm)
    (hcn : child_named st s nm = none) (h : shadow_created st s src = some st1) :
    unique_names st1 := by
  obtain ⟨p, cat, so, v, hp, hv, hso, hsv, hlen, hp1, hnew, hq, _, _⟩ :=
    shadow_created_deref _ _ _ _ h
  have hcl := (closed_iff st).1 (parented_closed st hwf.1)
  have hU := (unique_names_iff st).1 hu
  have hslt : s < st.mem.length := deref_lt st s p hp
  have hname : ∀ c, c < st.mem.length → name_of st1 c = name_of st c := by
    intro c hc
    unfold name_of
    by_cases e : c = s
    · subst e
      rw [hp1, hp]
      rfl
    · rw [hq c e hc]
  have hnewkids : (shadow_record so s v).kids = [] :=
    shallow_value_kids st so v st1.strs
      (hwf.2.2.1 so ((mem_iff_deref st so).2 ⟨src, hso⟩)) hsv
  have hnewname : name_of st1 st.mem.length = some nm := by
    unfold name_of at hn ⊢
    rw [hnew]
    rw [hso] at hn
    exact hn
  rw [unique_names_iff]
  intro q o' ho'
  by_cases e1 : q = st.mem.length
  · subst e1
    rw [hnew] at ho'
    obtain rfl := Option.some.inj ho'
    unfold knames
    rw [hnewkids]
    exact List.nodup_nil
  · have hqlt : q < st.mem.length := by
      have := deref_lt st1 q o' ho'
      rw [hlen] at this
      exact Nat.lt_of_le_of_ne (Nat.lt_succ_iff.1 this) e1
    by_cases e2 : q = s
    · subst e2
      rw [hp1] at ho'
      obtain rfl := Option.some.inj ho'
      have hkc : p.kids = cat := kids_of_value p cat hv
      have hcat := hU q p hp
      unfold knames at hcat ⊢
      rw [hkc] at hcat
      show ((cat ++ [st.mem.length]).map (name_of st1)).Nodup
      have hvalid : ∀ c ∈ cat, c < st.mem.length := fun c hc => hcl q p hp c (by rw [hkc]; exact hc)
      have hfind := find_of_child_named_closed st q p cat nm hp hv hvalid
      rw [hcn] at hfind
      apply nodup_inserted (name_of st1) st.mem.length cat _ ⟨cat, [], by simp, by simp⟩
      · rw [List.map_congr_left (fun c hc => hname c (hvalid c hc))]
        exact hcat
      · intro c hc
        rw [hnewname, hname c (hvalid c hc)]
        exact find_option_none_names st nm cat hfind c hc
    · have hoq : st.deref q = some o' := by rw [← hq q e2 hqlt]; exact ho'
      rw [knames_congr st st1 o' o' rfl (fun c hc => hname c (hcl q o' hoq c hc))]
      exact hU q o' hoq

theorem shadow_run_unique : ∀ (srcs : List Ptr) (st : State) (s : Nat),
    well_formed st → st.no_autocreate = 0 → (srcs ≠ [] → type_of st s = some .OPT_TREE) →
    (∀ a ∈ srcs, ∃ nm, name_of st a = some nm) →
    (∀ a ∈ srcs.dropLast, type_of st a = some .OPT_TREE) →
    conforms st s srcs = true → unique_names st →
    ∀ (st' : State) (S : Nat), shadow_run st s srcs = some (st', S) → unique_names st' := by
  intro srcs
  induction srcs with
  | nil =>
    intro st s _ _ _ _ _ _ hu st' S h
    simp only [shadow_run, Option.some.injEq, Prod.mk.injEq] at h
    rw [← h.1]
    exact hu
  | cons src rest ih =>
    intro st s hwf hna hty hnames htypes hconf hu st' S hrun
    obtain ⟨nm, hn⟩ := hnames src (by simp)
    have hsty := hty (by simp)
    rcases shadow_step_cases st hwf hna s src nm hsty hn with
      ⟨c, hcn, hstep⟩ | ⟨st1, hcn, hsc, hstep⟩
    · simp only [shadow_run, hstep] at hrun
      obtain ⟨hct, hcc⟩ := conforms_found st s src c nm rest hn hcn hconf
      exact ih st c hwf hna hct (fun a ha => hnames a (by simp [ha]))
        (fun a ha => htypes a (dropLast_subset_cons src rest a ha)) hcc hu st' S hrun
    · simp only [shadow_run, hstep] at hrun
      obtain ⟨hnr, hnn, hnt, hnc, hnl, hnna⟩ := shadow_created_new st st1 s src nm hn hsc
      have hk1 : kept st st1 := shadow_step_kept _ _ _ _ _ hstep
      have hwf1 := shadow_created_wf st st1 s src hwf hsty hsc
      have hsrct : rest ≠ [] → type_of st src = some .OPT_TREE :=
        fun h => htypes src (head_mem_dropLast src rest h)
      exact ih st1 st.mem.length hwf1 (by rw [hnna]; exact hna)
        (fun h => by rw [hnt]; exact hsrct h)
        (fun a ha => by
          obtain ⟨n2, hn2⟩ := hnames a (by simp [ha])
          exact ⟨n2, kept_name_of st st1 hk1 a n2 hn2⟩)
        (fun a ha => kept_type_of st st1 hk1 a _
          (htypes a (dropLast_subset_cons src rest a ha)))
        (conforms_fresh st1 st.mem.length rest (fun h => hnc (hsrct h)))
        (shadow_created_unique st st1 s src nm hwf hu hn hcn hsc) st' S hrun

theorem get_option_shadow_unique (k fuel : Nat) (st st' : State) (N tree sroot : Nat)
    (chain : List Ptr) (r : Option Ptr) (hwf : well_formed st) (hna : st.no_autocreate = 0)
    (hchain : chain_to k st N tree = some chain)
    (hdot : ∀ a ∈ chain, ∀ nm ∈ name_of st a, '.' ∉ nm)
    (hanc : ∀ a ∈ chain.tail, type_of st a = some .OPT_TREE)
    (hsroot : type_of st sroot = some .OPT_TREE)
    (hconf : conforms st sroot chain.reverse = true) (hfuel : chain.length < fuel)
    (hu : unique_names st) (h : get_option_shadow fuel st N tree sroot = .ok st' r) :
    unique_names st' := by
  have hdl : ∀ a ∈ chain.reverse.dropLast, type_of st a = some .OPT_TREE := by
    intro a ha
    apply hanc
    rw [← List.reverse_reverse chain.tail, ← List.dropLast_reverse]
    exact List.mem_reverse.2 ha
  have hnames : ∀ a ∈ chain.reverse, ∃ nm, name_of st a = some nm :=
    fun a ha => chain_to_names st tree k N chain hchain a (List.mem_reverse.1 ha)
  have hcore := get_option_shadow_eq_run tree sroot k N chain st fuel hchain
    (fun a ha nm hnm => hdot a ha nm hnm) hfuel
  rw [h] at hcore
  cases hrun : shadow_run st sroot chain.reverse with
  | none => rw [hrun] at hcore; cases hcore
  | some res =>
    obtain ⟨st2, S⟩ := res
    rw [hrun] at hcore
    simp only [Result.ok.injEq] at hcore
    obtain ⟨rfl, _⟩ := hcore
    exact shadow_run_unique chain.reverse st sroot hwf hna (fun _ => hsroot) hnames hdl hconf
      hu st' S hrun

/-! ### Copies -/

theorem sourced_kept (B : Nat) (st0 st st' : State) (x : Nat) (hs : sourced B st0 st x)
    (hrec : ∀ o', st'.deref x = some o' → ∃ o, st.deref x = some o ∧ o'.kids = o.kids)
    (hnames : ∀ c, c < st.mem.length → name_of st' c = name_of st c)
    (hlen : st.mem.length ≤ st'.mem.length) : sourced B st0 st' x := by
  intro o' ho'
  obtain ⟨o, ho, hk⟩ := hrec o' ho'
  obtain ⟨hb, y, oy, hy, hoy, hp⟩ := hs o ho
  refine ⟨fun c hc => ⟨(hb c (hk ▸ hc)).1, Nat.lt_of_lt_of_le (hb c (hk ▸ hc)).2 hlen⟩,
    y, oy, hy, hoy, ?_⟩
  rw [knames_congr st st' o o' hk (fun c hc => hnames c (hb c hc).2)]
  exact hp

theorem tree_dup_loop_grow (fuel : Nat) (flags : copy_option_flags) (B : Nat) (st0 : State)
    (ih : ∀ (st : State) (T : Nat) (st' : State) (n : Nat),
      copy_option fuel st T flags = .ok st' n → B ≤ st.mem.length → T < B →
      (∀ y, y < B → st.deref y = st0.deref y) →
      ∀ x, st.mem.length ≤ x → sourced B st0 st' x)
    (opt : Nat) (hB : B ≤ opt) :
    ∀ (cs : List Ptr) (st st' : State) (done : List Ptr),
      tree_dup_loop (copy_option fuel) cs st opt flags = .ok st' () →
      (∀ c ∈ cs, c < B) → (∀ y, y < B → st.deref y = st0.deref y) →
      (∀ x, opt < x → sourced B st0 st x) →
      (∃ o, st.deref opt = some o ∧ (∀ c ∈ o.kids, opt < c ∧ c < st.mem.length) ∧
        knames st o = done.map (name_of st0)) →
      (∀ x, opt < x → sourced B st0 st' x) ∧
      (∃ o, st'.deref opt = some o ∧ (∀ c ∈ o.kids, opt < c ∧ c < st'.mem.length) ∧
        knames st' o = (done ++ cs).map (name_of st0)) ∧
      (∀ y, y < B → st'.deref y = st0.deref y) := by
  intro cs
  induction cs with
  | nil =>
    intro st st' done h _ hbase hsrc hopt
    simp only [tree_dup_loop, Result.ok.injEq, and_true] at h
    subst h
    rw [List.append_nil]
    exact ⟨hsrc, hopt, hbase⟩
  | cons c cs ihl =>
    intro st st' done h hcs hbase hsrc hopt
    obtain ⟨o, ho, hkb, hkn⟩ := hopt
    have holt : opt < st.mem.length := deref_lt st opt o ho
    have hBl : B ≤ st.mem.length := Nat.le_trans hB (Nat.le_of_lt holt)
    have hcB : c < B := hcs c (by simp)
    simp only [tree_dup_loop] at h
    cases hc : copy_option fuel st c flags with
    | fault => simp [hc] at h
    | out_of_fuel => simp [hc] at h
    | ok st1 n =>
      rw [hc] at h
      simp only at h
      obtain ⟨hn, hf1, hlen1, tc, v, htc, hnew⟩ := copy_option_inv _ _ _ _ _ _ hc
      subst hn
      have hsrc1 := ih st c st1 _ hc hBl hcB hbase
      have ho1 : st1.deref opt = some o := by rw [hf1.2.1 opt holt]; exact ho
      rw [ho1, hnew] at h
      simp only at h
      cases hv : o.value with
      | tree tl =>
        rw [hv] at h
        cases tl with
        | none => simp at h
        | some cat =>
          simp only at h
          have hkc : o.kids = cat := kids_of_value o cat hv
          have hne : opt ≠ st.mem.length := Nat.ne_of_lt holt
          generalize hst2 : (st1.store st.mem.length
            { ({ copy_record tc flags with value := v } : option) with root := some opt }).set_tree
              opt (cat ++ [st.mem.length]) = st2 at h
          have hd1 : (st1.store st.mem.length
              { ({ copy_record tc flags with value := v } : option) with
                root := some opt }).deref opt = some o := by
            rw [deref_store_ne _ _ _ _ hne]; exact ho1
          have hopt2 : st2.deref opt =
              some { o with value := .tree (some (cat ++ [st.mem.length])) } := by
            rw [← hst2]
            exact deref_set_tree_self _ _ _ _ hd1
          have hnew2 : st2.deref st.mem.length = some
              { ({ copy_record tc flags with value := v } : option) with root := some opt } := by
            rw [← hst2, deref_set_tree_ne _ _ _ _ (Ne.symm hne)]
            exact deref_store_self _ _ _ _ hnew
          have hoth : ∀ q, q ≠ opt → q ≠ st.mem.length → st2.deref q = st1.deref q := by
            intro q h1 h2
            rw [← hst2, deref_set_tree_ne _ _ _ _ h1, deref_store_ne _ _ _ _ h2]
          have hlen2 : st2.mem.length = st1.mem.length := by
            rw [← hst2, set_tree_length, store_length]
          have hmeta : meta_eq st1 st2 := by
            rw [← hst2]
            exact meta_eq_trans _ _ _
              (meta_eq_store st1 st.mem.length { copy_record tc flags with value := v }
                { ({ copy_record tc flags with value := v } : option) with root := some opt }
                hnew rfl rfl)
              (meta_eq_set_tree _ _ _)
          have hnm12 : ∀ q, name_of st2 q = name_of st1 q := meta_eq_name_of st1 st2 hmeta
          have hnm01 : ∀ q, q < st.mem.length → name_of st1 q = name_of st q := by
            intro q hq
            unfold name_of
            rw [hf1.2.1 q hq]
          have hcname : name_of st2 st.mem.length = name_of st0 c := by
            rw [hnm12]
            unfold name_of
            rw [hnew, ← hbase c hcB, htc]
            rfl
          have hres := ihl st2 st' (done ++ [c]) h (fun x hx => hcs x (by simp [hx]))
            (by
              intro y hy
              have hy1 : y ≠ opt := Nat.ne_of_lt (Nat.lt_of_lt_of_le hy hB)
              have hy2 : y ≠ st.mem.length := Nat.ne_of_lt (Nat.lt_of_lt_of_le hy hBl)
              rw [hoth y hy1 hy2, hf1.2.1 y (Nat.lt_of_lt_of_le hy hBl)]
              exact hbase y hy)
            (by
              intro x hx
              have hxo : x ≠ opt := Nat.ne_of_gt hx
              by_cases hxl : x < st.mem.length
              · apply sourced_kept B st0 st st2 x (hsrc x hx) _
                  (fun q hq => by rw [hnm12, hnm01 q hq])
                  (by rw [hlen2]; exact hf1.1)
                intro o' ho'
                rw [hoth x hxo (Nat.ne_of_lt hxl), hf1.2.1 x hxl] at ho'
                exact ⟨o', ho', rfl⟩
              · apply sourced_kept B st0 st1 st2 x (hsrc1 x (Nat.le_of_not_lt hxl)) _
                  (fun q _ => hnm12 q) (Nat.le_of_eq hlen2.symm)
                intro o' ho'
                by_cases hxn : x = st.mem.length
                · subst hxn
                  rw [hnew2] at ho'
                  obtain rfl := Option.some.inj ho'
                  exact ⟨_, hnew, rfl⟩
                · rw [hoth x hxo hxn] at ho'
                  exact ⟨o', ho', rfl⟩)
            ⟨_, hopt2, by
              intro q hq
              have hq2 : q ∈ cat ++ [st.mem.length] := hq
              rcases List.mem_append.1 hq2 with h1 | h1
              · have := hkb q (by rw [hkc]; exact h1)
                exact ⟨this.1, by rw [hlen2]; exact Nat.lt_of_lt_of_le this.2 hf1.1⟩
              · rw [List.mem_singleton.1 h1]
                exact ⟨holt, by rw [hlen2]; exact hlen1⟩,
             by
              show (cat ++ [st.mem.length]).map (name_of st2) = (done ++ [c]).map (name_of st0)
              rw [List.map_append, List.map_append, List.map_singleton, List.map_singleton,
                hcname, ← hkn]
              congr 1
              unfold knames
              rw [hkc]
              apply List.map_congr_left
              intro q hq
              rw [hnm12, hnm01 q (hkb q (by rw [hkc]; exact hq)).2]⟩
          rw [List.append_assoc] at hres
          exact hres
      | string s => simp [hv] at h
      | number s => simp [hv] at h
      | big_number s => simp [hv] at h
      | color s => simp [hv] at h
      | command s => simp [hv] at h

theorem copy_option_grow (flags : copy_option_flags) (B : Nat) (st0 : State)
    (hclosed : ∀ y oy, y < B → st0.deref y = some oy → ∀ c ∈ oy.kids, c < B) :
    ∀ (fuel : Nat) (st : State) (T : Nat) (st' : State) (n : Nat),
      copy_option fuel st T flags = .ok st' n → B ≤ st.mem.length → T < B →
      (∀ y, y < B → st.deref y = st0.deref y) →
      ∀ x, st.mem.length ≤ x → sourced B st0 st' x := by
  intro fuel
  induction fuel with
  | zero => intro st T st' n h; simp [copy_option] at h
  | succ fuel ih =>
    intro st T st' n h hB hT hbase
    have hinv := copy_option_inv _ _ _ _ _ _ h
    obtain ⟨hn, hfr, hlen, tm0, v0, htm0, hnew0⟩ := hinv
    unfold copy_option at h
    cases ht : st.deref T with
    | none => simp [ht] at h
    | some t =>
      rw [ht] at h
      simp only at h
      have ht0 : st0.deref T = some t := by rw [← hbase T hT]; exact ht
      have hnew := deref_copy_alloc_new st t flags
      have hold : ∀ q, q < st.mem.length →
          (copy_alloc st t flags).deref q = st.deref q :=
        fun q hq => deref_copy_alloc_old st t flags q hq
      -- a memory with one record more than `st`, whose new record has the given children
      have single : ∀ (o' : option), st'.mem.length = st.mem.length + 1 →
          st'.deref st.mem.length = some o' →
          (∀ c ∈ o'.kids, c ∈ t.kids) →
          knames st' o' <+: knames st0 t →
          ∀ (x : Nat), st.mem.length ≤ x → sourced B st0 st' x := by
        intro o' hl ho' hk hp x hx o2 ho2
        have hxl := deref_lt st' x o2 ho2
        rw [hl] at hxl
        have hxe : x = st.mem.length := Nat.le_antisymm (Nat.lt_succ_iff.1 hxl) hx
        subst hxe
        rw [ho'] at ho2
        obtain rfl := Option.some.inj ho2
        refine ⟨fun c hc => ?_, T, t, hT, ht0, hp⟩
        have hcB := hclosed T t hT ht0 c (hk c hc)
        exact ⟨Or.inl hcB, Nat.lt_of_lt_of_le hcB (Nat.le_trans hB (by rw [hl]; exact Nat.le_succ _))⟩
      by_cases hty : t.type = .OPT_TREE
      · rw [hty] at h
        simp only [bind_eq_ok] at h
        obtain ⟨st2, _, h1, h2⟩ := h
        simp only [Result.ok.injEq] at h2
        obtain ⟨rfl, rfl⟩ := h2
        unfold tree_dup at h1
        rw [hold T (Nat.lt_of_lt_of_le hT hB), ht] at h1
        simp only at h1
        by_cases hs : flags.CO_SHALLOW = true
        · simp only [hs, if_true, Result.ok.injEq, and_true] at h1
          subst h1
          apply single _ (by rw [set_tree_length, copy_alloc_length])
            (deref_set_tree_self _ _ [] _ hnew)
          · intro c hc
            simp [option.kids] at hc
          · exact List.nil_prefix
        · simp only [hs, if_false] at h1
          cases hv : t.value with
          | tree tl =>
            rw [hv] at h1
            cases tl with
            | none => simp at h1
            | some cat =>
              simp only at h1
              have hkc : t.kids = cat := kids_of_value t cat hv
              obtain ⟨hsrc, ⟨o, ho, hkb, hkn⟩, _⟩ := tree_dup_loop_grow fuel flags B st0
                (fun s T2 s' n2 hc h1 h2 h3 => ih s T2 s' n2 hc h1 h2 h3)
                st.mem.length hB cat _ st2 [] h1
                (fun c hc => hclosed T t hT ht0 c (by rw [hkc]; exact hc))
                (by
                  intro y hy
                  rw [deref_set_tree_ne _ _ _ _ (Nat.ne_of_lt (Nat.lt_of_lt_of_le hy hB)),
                    hold y (Nat.lt_of_lt_of_le hy hB)]
                  exact hbase y hy)
                (by
                  intro x hx o' ho'
                  have := deref_lt _ x o' ho'
                  rw [set_tree_length, copy_alloc_length] at this
                  exact absurd (Nat.lt_succ_iff.1 this) (Nat.not_le.2 hx))
                ⟨_, deref_set_tree_self _ _ [] _ hnew, fun c hc => by simp [option.kids] at hc,
                  rfl⟩
              intro x hx
              by_cases hxe : x = st.mem.length
              · subst hxe
                intro o' ho'
                rw [ho] at ho'
                obtain rfl := Option.some.inj ho'
                refine ⟨fun c hc => ⟨Or.inr (hkb c hc).1, (hkb c hc).2⟩, T, t, hT, ht0, ?_⟩
                rw [hkn]
                unfold knames
                rw [hkc]
                exact List.prefix_refl _
              · exact hsrc x (Nat.lt_of_le_of_ne hx (Ne.symm hxe))
          | string s => simp [hv] at h1
          | number s => simp [hv] at h1
          | big_number s => simp [hv] at h1
          | color s => simp [hv] at h1
          | command s => simp [hv] at h1
      · by_cases hty2 : t.type = .OPT_STRING
        · rw [hty2] at h
          simp only [bind_eq_ok] at h
          obtain ⟨st2, _, h1, h2⟩ := h
          simp only [Result.ok.injEq] at h2
          obtain ⟨rfl, rfl⟩ := h2
          unfold str_dup at h1
          rw [hnew, hold T (Nat.lt_of_lt_of_le hT hB), ht] at h1
          simp only at h1
          cases hv : t.value with
          | string sp =>
            rw [hv] at h1
            cases sp with
            | none => simp at h1
            | some s =>
              simp only at h1
              have hstrs : (copy_alloc st t flags).strs = st.strs := rfl
              rw [hstrs] at h1
              cases hb2 : st.strs[s]? with
              | none => simp [hb2] at h1
              | some buf =>
                rw [hb2] at h1
                simp only [Result.ok.injEq, and_true] at h1
                subst h1
                apply single _ (by simp [State.store, copy_alloc])
                  (deref_store_self _ st.mem.length _ (copy_record t flags) hnew)
                · intro c hc
                  simp [option.kids] at hc
                · exact List.nil_prefix
          | tree s => simp [hv] at h1
          | number s => simp [hv] at h1
          | big_number s => simp [hv] at h1
          | color s => simp [hv] at h1
          | command s => simp [hv] at h1
        · have hplain : st' = (copy_alloc st t flags).store
              st.mem.length { copy_record t flags with value := t.value } := by
            cases hty3 : t.type <;> rw [hty3] at h <;>
              first
              | exact absurd hty3 hty
              | exact absurd hty3 hty2
              | (simp only [Result.ok.injEq] at h; exact h.1.symm)
          subst hplain
          apply single _ (by simp [State.store, copy_alloc]) (deref_store_self _ _ _ _ hnew)
          · intro c hc
            exact hc
          · have : knames
                ((copy_alloc st t flags).store
                  st.mem.length { copy_record t flags with value := t.value })
                { copy_record t flags with value := t.value } = knames st0 t := by
              apply knames_congr st0 _ t _ rfl
              intro c hc
              have hcB := hclosed T t hT ht0 c hc
              unfold name_of
              rw [deref_store_ne _ _ _ _ (Nat.ne_of_lt (Nat.lt_of_lt_of_le hcB hB)),
                hold c (Nat.lt_of_lt_of_le hcB hB), hbase c hcB]
            rw [this]

/-- The records an autocreation adds: the memory `st2` after `copy_option`
shows them, up to the name, the description, the parent link and the listbox
item of the copy itself. -/
theorem get_opt_rec_last_new (f1 f2 : Nat) (st st' : State) (tree : Nat) (name : cstring)
    (r : Option Ptr)
    (h : get_opt_rec_last (get_opt_rec f1) (copy_option f2) st tree name = .ok st' r) :
    st' = st ∨
      ∃ T st2 tm v o', copy_option f2 st T
          { CO_SHALLOW := false, CO_NO_LISTBOX_ITEM := false } = .ok st2 st.mem.length ∧
        T < st.mem.length ∧ tree < st.mem.length ∧
        st2.deref st.mem.length = some { copy_record tm
          { CO_SHALLOW := false, CO_NO_LISTBOX_ITEM := false } with value := v } ∧
        st'.deref st.mem.length = some o' ∧
        o'.kids = ({ copy_record tm
          { CO_SHALLOW := false, CO_NO_LISTBOX_ITEM := false } with value := v } : option).kids ∧
        (∀ q, st.mem.length < q → st'.deref q = st2.deref q) ∧
        st'.mem.length = st2.mem.length := by
  unfold get_opt_rec_last at h
  cases ht : st.deref tree with
  | none => simp [ht] at h
  | some t =>
    rw [ht] at h
    simp only at h
    cases hv : t.value with
    | string s => simp [hv] at h
    | number s => simp [hv] at h
    | big_number s => simp [hv] at h
    | color s => simp [hv] at h
    | command s => simp [hv] at h
    | tree tl =>
      rw [hv] at h
      cases tl with
      | none => simp at h
      | some cat =>
        simp only at h
        cases hf : find_option st cat name with
        | none => simp [hf] at h
        | some found =>
          rw [hf] at h
          cases found with
          | some opt =>
            simp only [Result.ok.injEq] at h
            exact Or.inl h.1.symm
          | none =>
            simp only at h
            split at h
            swap
            · simp only [Result.ok.injEq] at h
              exact Or.inl h.1.symm
            rename_i hcond
            rw [bind_eq_ok] at h
            obtain ⟨st1, r1, h1, h2⟩ := h
            obtain ⟨rfl, hr1⟩ := get_opt_rec_template _ _ _ _ _ h1
            cases r1 with
            | none =>
              simp only [Result.ok.injEq] at h2
              exact Or.inl h2.1.symm
            | some T =>
              simp only at h2
              rw [bind_eq_ok] at h2
              obtain ⟨st2, optr, hcp, h3⟩ := h2
              obtain ⟨hoptr, hfr, hlen, tm, v, hT, hnew⟩ := copy_option_inv _ _ _ _ _ _ hcp
              subst hoptr
              rw [hnew] at h3
              simp only at h3
              rw [bind_eq_ok] at h3
              obtain ⟨st3, _, hadd, h4⟩ := h3
              simp only [Result.ok.injEq] at h4
              obtain ⟨rfl, _⟩ := h4
              right
              have htlt : tree < st1.mem.length := deref_lt _ _ _ ht
              have hne : tree ≠ st1.mem.length := Nat.ne_of_lt htlt
              have hname : name ≠ template_name := by
                intro e
                unfold scan_child children at hr1
                rw [ht] at hr1
                simp only [hv] at hr1
                rw [← e, hf] at hr1
                simp [Option.join] at hr1
              generalize hst2' : st2.store st1.mem.length
                { ({ copy_record tm
                      { CO_SHALLOW := false, CO_NO_LISTBOX_ITEM := false } with value := v } :
                      option) with name := some name } = st2' at hadd
              have hold : ∀ q, q < st1.mem.length → st2'.deref q = st1.deref q := by
                intro q hq
                rw [← hst2', deref_store_ne _ _ _ _ (Nat.ne_of_lt hq)]
                exact hfr.2.1 q hq
              have hnew2 : st2'.deref st1.mem.length = some
                  { ({ copy_record tm
                      { CO_SHALLOW := false, CO_NO_LISTBOX_ITEM := false } with value := v } :
                      option) with name := some name } := by
                rw [← hst2']
                exact deref_store_self _ _ _ _ hnew
              unfold add_opt_rec at hadd
              simp only [if_true, Result.bind, hold tree htlt, ht, hv] at hadd
              rw [add_opt_rec_visible_skip _ st2' st1.mem.length _ hnew2
                (by simp only [ne_eq, Option.some.injEq]; exact hname)] at hadd
              simp only at hadd
              cases hdesc : add_opt_rec_desc (get_opt_rec f1) st2' tree st1.mem.length with
              | fault => simp [hdesc] at hadd
              | out_of_fuel => simp [hdesc] at hadd
              | ok st3a u =>
                rw [hdesc] at hadd
                simp only at hadd
                obtain ⟨o2, ho2, hcase⟩ := add_opt_rec_desc_inv _ _ _ _ _ hdesc
                rw [hnew2] at ho2
                cases ho2
                have h3a : (∃ o3, st3a.deref st1.mem.length = some o3 ∧
                    o3.kids = ({ copy_record tm
                      { CO_SHALLOW := false, CO_NO_LISTBOX_ITEM := false } with value := v } :
                      option).kids) ∧
                    (∀ q, q ≠ st1.mem.length → st3a.deref q = st2'.deref q) ∧
                    st3a.mem.length = st2'.mem.length := by
                  rcases hcase with rfl | ⟨T2, tm2, _, _, _, rfl⟩
                  · exact ⟨⟨_, hnew2, rfl⟩, fun _ _ => rfl, rfl⟩
                  · exact ⟨⟨_, deref_store_self _ _ _ _ hnew2, rfl⟩,
                      fun q hq => deref_store_ne _ _ _ _ hq, store_length _ _ _⟩
                obtain ⟨⟨o3, h3o, h3k⟩, h3q, h3l⟩ := h3a
                obtain ⟨o4, ho4, t4, cat4, cat', b, a1, a2, a3, a4, a5, a6, a7⟩ :=
                  add_opt_rec_insert_inv _ _ _ _ hne hadd
                rw [h3o] at ho4
                cases ho4
                refine ⟨T, st2, tm, v, _, hcp, deref_lt _ _ _ hT, htlt, hnew, a5, h3k, ?_, ?_⟩
                · intro q hq
                  have hq1 : q ≠ st1.mem.length := Nat.ne_of_gt hq
                  have hq2 : q ≠ tree := Nat.ne_of_gt (Nat.lt_trans htlt hq)
                  rw [a6 q hq2 hq1, h3q q hq1, ← hst2', deref_store_ne _ _ _ _ hq1]
                · rw [a7.1, h3l, ← hst2', store_length]

theorem sourced_nodup (B : Nat) (st0 st : State) (x : Nat) (o : option)
    (hu : unique_names st0) (hs : sourced B st0 st x) (ho : st.deref x = some o) :
    (knames st o).Nodup := by
  obtain ⟨_, y, oy, _, hoy, hp⟩ := hs o ho
  exact ((unique_names_iff st0).1 hu y oy hoy).sublist hp.sublist

theorem get_opt_rec_last_unique (f1 f2 : Nat) (st st' : State) (tree : Nat) (name : cstring)
    (r : Option Ptr)
    (h : get_opt_rec_last (get_opt_rec f1) (copy_option f2) st tree name = .ok st' r)
    (hc : closed st) (hu : unique_names st) : closed st' ∧ unique_names st' := by
  rcases get_opt_rec_last_new f1 f2 st st' tree name r h with rfl |
    ⟨T, st2, tm, v, o', hcp, hT, htl, hnew, ho', hk', hq', hl'⟩
  · exact ⟨hc, hu⟩
  rcases get_opt_rec_last_inv f1 f2 st st' tree name r h with ⟨rfl, _⟩ |
    ⟨optr, _, _, t, cat, cat', T2, tm2, o2, ht, hv, _, hf, _, _, hoptr, hins, ht', ho2, hname,
      _, _, _, _, _, _, _, _, hold, _⟩
  · exact ⟨hc, hu⟩
  subst hoptr
  rw [ho'] at ho2
  obtain rfl := Option.some.inj ho2
  have hcl := (closed_iff st).1 hc
  have hU := (unique_names_iff st).1 hu
  obtain ⟨_, hfr, hlen2, _⟩ := copy_option_inv _ _ _ _ _ _ hcp
  have hsrc := copy_option_grow { CO_SHALLOW := false, CO_NO_LISTBOX_ITEM := false }
    st.mem.length st (fun y oy _ hoy c hc2 => hcl y oy hoy c hc2) f2 st T st2 _ hcp
    (Nat.le_refl _) hT (fun _ _ => rfl)
  have hkc : t.kids = cat := kids_of_value t cat hv
  -- names
  have hnold : ∀ c, c < st.mem.length → name_of st' c = name_of st c := by
    intro c hc2
    unfold name_of
    by_cases e : c = tree
    · subst e
      rw [ht', ht]
      rfl
    · rw [hold c hc2 e]
  have hn2 : ∀ c, c ≠ st.mem.length → name_of st' c = name_of st2 c := by
    intro c hc2
    rcases Nat.lt_or_gt_of_ne hc2 with h1 | h1
    · rw [hnold c h1]
      unfold name_of
      rw [hfr.2.1 c h1]
    · unfold name_of
      rw [hq' c h1]
  have hnew' : name_of st' st.mem.length = some name := by
    unfold name_of
    rw [ho']
    exact hname
  -- the records of the memory after the autocreation
  have key : ∀ (q : Nat) (o : option), st'.deref q = some o →
      (∀ c ∈ o.kids, c < st'.mem.length) ∧ (knames st' o).Nodup := by
    intro q o ho
    by_cases e1 : q = tree
    · subst e1
      rw [ht'] at ho
      obtain rfl := Option.some.inj ho
      have hvalid : ∀ c ∈ cat, c < st.mem.length :=
        fun c hc2 => hcl q t ht c (by rw [hkc]; exact hc2)
      constructor
      · intro c hc2
        have hc3 : c ∈ cat' := hc2
        obtain ⟨l1, l2, e2, e3⟩ := hins
        rw [e3] at hc3
        rw [hl']
        rcases List.mem_append.1 hc3 with h1 | h1
        · exact Nat.lt_trans (hvalid c (by rw [e2]; simp [h1])) hlen2
        · rcases List.mem_cons.1 h1 with h1 | h1
          · rw [h1]; exact hlen2
          · exact Nat.lt_trans (hvalid c (by rw [e2]; simp [h1])) hlen2
      · show (cat'.map (name_of st')).Nodup
        apply nodup_inserted (name_of st') st.mem.length cat cat' hins
        · rw [List.map_congr_left (fun c hc2 => hnold c (hvalid c hc2))]
          have := hU q t ht
          unfold knames at this
          rw [hkc] at this
          exact this
        · intro c hc2
          rw [hnew', hnold c (hvalid c hc2)]
          exact find_option_none_names st name cat hf c hc2
    · by_cases e2 : q < st.mem.length
      · rw [hold q e2 e1] at ho
        refine ⟨fun c hc2 => Nat.lt_trans (hcl q o ho c hc2) (by rw [hl']; exact hlen2), ?_⟩
        rw [knames_congr st st' o o rfl (fun c hc2 => hnold c (hcl q o ho c hc2))]
        exact hU q o ho
      · have hge : st.mem.length ≤ q := Nat.le_of_not_lt e2
        -- a record of the copy
        have hcopy : ∃ o2, st2.deref q = some o2 ∧ o.kids = o2.kids := by
          by_cases e3 : q = st.mem.length
          · subst e3
            rw [ho'] at ho
            obtain rfl := Option.some.inj ho
            exact ⟨_, hnew, hk'⟩
          · rw [hq' q (Nat.lt_of_le_of_ne hge (Ne.symm e3))] at ho
            exact ⟨o, ho, rfl⟩
        obtain ⟨o2, ho2, hk2⟩ := hcopy
        obtain ⟨hb, _⟩ := hsrc q hge o2 ho2
        have hnel : ∀ c ∈ o2.kids, c ≠ st.mem.length := by
          intro c hc2 e3
          rcases (hb c hc2).1 with h1 | h1
          · rw [e3] at h1
            exact Nat.lt_irrefl _ h1
          · rw [e3] at h1
            exact Nat.lt_irrefl _ (Nat.lt_of_le_of_lt hge h1)
        refine ⟨fun c hc2 => by rw [hl']; exact (hb c (hk2 ▸ hc2)).2, ?_⟩
        rw [knames_congr st2 st' o2 o hk2 (fun c hc2 => hn2 c (hnel c hc2))]
        exact sourced_nodup st.mem.length st st2 q o2 hu (hsrc q hge) ho2
  exact ⟨(closed_iff st').2 (fun q o ho => (key q o ho).1),
    (unique_names_iff st').2 (fun q o ho => (key q o ho).2)⟩

/-- A lookup, with whatever it autocreates, keeps the children lists free of
dangling pointers and of repeated names. -/
theorem get_opt_rec_unique : ∀ (fuel : Nat) (st : State) (tree : Nat) (name_ : cstring)
    (st' : State) (r : Option Ptr), get_opt_rec fuel st tree name_ = .ok st' r →
    closed st → unique_names st → closed st' ∧ unique_names st' := by
  intro fuel
  induction fuel with
  | zero => intro st tree name_ st' r h; simp [get_opt_rec] at h
  | succ fuel ih =>
    intro st tree name_ st' r h hc hu
    unfold get_opt_rec at h
    cases hsp : split_last_dot name_ with
    | none =>
      rw [hsp] at h
      exact get_opt_rec_last_unique _ _ _ _ _ _ _ h hc hu
    | some fl =>
      obtain ⟨front, last⟩ := fl
      rw [hsp] at h
      simp only at h
      rw [bind_eq_ok] at h
      obtain ⟨st1, r1, h1, h2⟩ := h
      obtain ⟨hc1, hu1⟩ := ih st tree front st1 r1 h1 hc hu
      cases r1 with
      | none =>
        simp only [Result.ok.injEq] at h2
        rw [← h2.1]
        exact ⟨hc1, hu1⟩
      | some tree1 =>
        simp only at h2
        cases ht : st1.deref tree1 with
        | none => simp [ht] at h2
        | some t =>
          rw [ht] at h2
          simp only at h2
          split at h2
          · simp only [Result.ok.injEq] at h2
            rw [← h2.1]
            exact ⟨hc1, hu1⟩
          · exact get_opt_rec_last_unique _ _ _ _ _ _ _ h2 hc1 hu1

/-! ### Explicit insertion -/

theorem add_opt_rec_visible_inv (fuel : Nat) (st st2 : State) (optr : Nat) (o : option)
    (hf : 2 ≤ fuel) (ho : st.deref optr = some o)
    (hvis : o.box_item ≠ none → o.name = some template_name →
      ∃ cfg b, st.config_options = some cfg ∧
        walk st cfg (segments "config.show_template".toList) = some b)
    (h : add_opt_rec_visible (get_opt_rec fuel) st optr = .ok st2 ()) :
    ∃ bx, st2 = st ∨ st2 = st.store optr { o with box_item := bx } := by
  by_cases hn : o.name = some template_name
  · cases hb : o.box_item with
    | none =>
      simp only [add_opt_rec_visible, ho, hb, Result.ok.injEq, and_true] at h
      exact ⟨none, Or.inl h.symm⟩
    | some bi =>
      obtain ⟨cfg, b, hcfg, hw⟩ := hvis (by rw [hb]; simp) hn
      have hlook : get_opt_rec fuel st cfg "config.show_template".toList = .ok st (some b) :=
        get_opt_rec_of_walk st cfg b fuel _ (by
          have : (segments "config.show_template".toList).length = 2 := by decide
          omega) hw
      have h0 : strcmp template_name template_name = 0 := (strcmp_eq_zero_iff _ _).2 rfl
      simp only [add_opt_rec_visible, ho, hb, hn, h0, if_true, get_opt_bool, hcfg, hlook] at h
      cases hob : st.deref b with
      | none => simp [hob, Result.bind] at h
      | some ob =>
        rw [hob] at h
        simp only at h
        cases hov : ob.value with
        | number v =>
          rw [hov] at h
          simp only [Result.bind, ho, hb, Result.ok.injEq, and_true] at h
          exact ⟨_, Or.inr h.symm⟩
        | tree s => simp [hov, Result.bind] at h
        | string s => simp [hov, Result.bind] at h
        | big_number s => simp [hov, Result.bind] at h
        | color s => simp [hov, Result.bind] at h
        | command s => simp [hov, Result.bind] at h
  · rw [add_opt_rec_visible_skip _ st optr o ho hn] at h
    simp only [Result.ok.injEq, and_true] at h
    exact ⟨none, Or.inl h.symm⟩

theorem add_opt_rec_unique (fuel : Nat) (st st' : State) (tree optr : Nat) (path : cstring)
    (hf : 2 ≤ fuel) (hc : closed st) (hu : unique_names st)
    (hfresh : ∀ st1 tree1 t1 o, parent_lookup fuel st tree path = .ok st1 (some tree1) →
      st1.deref tree1 = some t1 → st1.deref optr = some o →
      tree1 ≠ optr ∧ name_of st1 optr ∉ knames st1 t1 ∧
      (o.box_item ≠ none → o.name = some template_name →
        ∃ cfg b, st1.config_options = some cfg ∧
          walk st1 cfg (segments "config.show_template".toList) = some b))
    (h : add_opt_rec (get_opt_rec fuel) st tree path optr = .ok st' ()) :
    unique_names st' := by
  unfold add_opt_rec at h
  rw [bind_eq_ok] at h
  obtain ⟨st1, r1, hlook, h2⟩ := h
  have hpl : parent_lookup fuel st tree path = .ok st1 r1 := hlook
  have hcu : closed st1 ∧ unique_names st1 := by
    by_cases hp : path = []
    · simp only [hp, if_true, Result.ok.injEq] at hlook
      rw [← hlook.1]
      exact ⟨hc, hu⟩
    · simp only [hp, if_false] at hlook
      exact get_opt_rec_unique fuel st tree path st1 r1 hlook hc hu
  obtain ⟨hc1, hu1⟩ := hcu
  cases r1 with
  | none => simp at h2
  | some tree1 =>
    simp only at h2
    cases ht : st1.deref tree1 with
    | none => simp [ht] at h2
    | some t1 =>
      rw [ht] at h2
      simp only at h2
      cases hv : t1.value with
      | tree tl =>
        rw [hv] at h2
        cases tl with
        | none =>
          simp only [Result.ok.injEq, and_true] at h2
          rw [← h2]
          exact hu1
        | some cat =>
          simp only at h2
          rw [bind_eq_ok] at h2
          obtain ⟨st2, _, hvis, h3⟩ := h2
          rw [bind_eq_ok] at h3
          obtain ⟨st3, _, hdesc, hins⟩ := h3
          cases ho : st1.deref optr with
          | none => simp [add_opt_rec_visible, ho] at hvis
          | some o =>
            obtain ⟨hne, hfr, hshow⟩ := hfresh st1 tree1 t1 o hpl ht ho
            obtain ⟨bx, hst2⟩ := add_opt_rec_visible_inv fuel st1 st2 optr o hf ho hshow hvis
            -- the option before the insertion: name and children are the old ones
            have h2o : ∃ o2, st2.deref optr = some o2 ∧ o2.name = o.name ∧ o2.kids = o.kids ∧
                ∀ q, q ≠ optr → st2.deref q = st1.deref q := by
              rcases hst2 with rfl | rfl
              · exact ⟨o, ho, rfl, rfl, fun _ _ => rfl⟩
              · exact ⟨_, deref_store_self _ _ _ _ ho, rfl, rfl,
                  fun q hq => deref_store_ne _ _ _ _ hq⟩
            obtain ⟨o2, ho2, hn2, hk2, hq2⟩ := h2o
            obtain ⟨o2', ho2', hcase⟩ := add_opt_rec_desc_inv _ _ _ _ _ hdesc
            rw [ho2] at ho2'
            obtain rfl := Option.some.inj ho2'
            have h3o : ∃ o3, st3.deref optr = some o3 ∧ o3.name = o.name ∧ o3.kids = o.kids ∧
                ∀ q, q ≠ optr → st3.deref q = st1.deref q := by
              rcases hcase with rfl | ⟨T, tm, _, _, _, rfl⟩
              · exact ⟨o2, ho2, hn2, hk2, hq2⟩
              · exact ⟨_, deref_store_self _ _ _ _ ho2, hn2, hk2,
                  fun q hq => by rw [deref_store_ne _ _ _ _ hq]; exact hq2 q hq⟩
            obtain ⟨o3, ho3, hn3, hk3, hq3⟩ := h3o
            obtain ⟨o4, ho4, t4, cat4, cat', b, a1, a2, a3, a4, a5, a6, _⟩ :=
              add_opt_rec_insert_inv _ _ _ _ hne hins
            rw [ho3] at ho4
            obtain rfl := Option.some.inj ho4
            rw [hq3 tree1 hne, ht] at a1
            obtain rfl := Option.some.inj a1
            rw [hv] at a2
            simp only [option_value.tree.injEq, Option.some.injEq] at a2
            subst a2
            have hkc : t1.kids = cat := kids_of_value t1 cat hv
            have hU1 := (unique_names_iff st1).1 hu1
            have hnames : ∀ c, name_of st' c = name_of st1 c := by
              intro c
              unfold name_of
              by_cases e1 : c = tree1
              · subst e1
                rw [a4, ht]
                rfl
              · by_cases e2 : c = optr
                · subst e2
                  rw [a5, ho]
                  exact hn3
                · rw [a6 c e1 e2, hq3 c e2]
            rw [unique_names_iff]
            intro q o' ho'
            by_cases e1 : q = tree1
            · subst e1
              rw [a4] at ho'
              obtain rfl := Option.some.inj ho'
              show (cat'.map (name_of st')).Nodup
              rw [List.map_congr_left (fun c _ => hnames c)]
              apply nodup_inserted (name_of st1) optr cat cat' a3
              · have := hU1 q t1 ht
                unfold knames at this
                rw [hkc] at this
                exact this
              · intro c hc2 e
                apply hfr
                unfold knames
                rw [hkc, ← e]
                exact List.mem_map_of_mem _ hc2
            · by_cases e2 : q = optr
              · subst e2
                rw [a5] at ho'
                obtain rfl := Option.some.inj ho'
                have e := knames_congr st1 st' o
                  ({ ({ o3 with root := some tree1 } : option) with box_item := b }) hk3
                  (fun c _ => hnames c)
                rw [e]
                exact hU1 q o ho
              · rw [a6 q e1 e2, hq3 q e2] at ho'
                rw [knames_congr st1 st' o' o' rfl (fun c _ => hnames c)]
                exact hU1 q o' ho'
      | string s => simp [hv] at h2
      | number s => simp [hv] at h2
      | big_number s => simp [hv] at h2
      | color s => simp [hv] at h2
      | command s => simp [hv] at h2

/-- Claim C23, amended.  In a memory whose children lists hold no dangling
pointer and no two children of a record share a name, the same is true after
each of these, whenever it returns: `add_opt_rec`, provided that the parent it
resolves is not the new node, that no child of that parent carries the name of
the new node, and that `config.show_template` resolves if the new node is a
template with a listbox item; `get_opt_rec`, with whatever it autocreates;
`get_option_shadow`, under the conditions of C7; and `delete_option`, under
the conditions of C15.  `add_opt_rec` itself does not compare the name of the
new node with the names of its siblings. -/
theorem C23_names_stay_unique (st : State) (hc : closed st) (hu : unique_names st) :
    (∀ (fuel : Nat) (tree optr : Nat) (path : cstring) (st' : State), 2 ≤ fuel →
      (∀ st1 tree1 t1 o, parent_lookup fuel st tree path = .ok st1 (some tree1) →
        st1.deref tree1 = some t1 → st1.deref optr = some o →
        tree1 ≠ optr ∧ name_of st1 optr ∉ knames st1 t1 ∧
        (o.box_item ≠ none → o.name = some template_name →
          ∃ cfg b, st1.config_options = some cfg ∧
            walk st1 cfg (segments "config.show_template".toList) = some b)) →
      add_opt_rec (get_opt_rec fuel) st tree path optr = .ok st' () → unique_names st') ∧
    (∀ (fuel : Nat) (tree : Nat) (name : cstring) (st' : State) (r : Option Ptr),
      get_opt_rec fuel st tree name = .ok st' r → unique_names st') ∧
    (∀ (k fuel : Nat) (N tree sroot : Nat) (chain : List Ptr) (st' : State) (r : Option Ptr),
      well_formed st → st.no_autocreate = 0 → chain_to k st N tree = some chain →
      (∀ a ∈ chain, ∀ nm ∈ name_of st a, '.' ∉ nm) →
      (∀ a ∈ chain.tail, type_of st a = some .OPT_TREE) →
      type_of st sroot = some .OPT_TREE → conforms st sroot chain.reverse = true →
      chain.length < fuel →
      get_option_shadow fuel st N tree sroot = .ok st' r → unique_names st') ∧
    (∀ (k fuel : Nat) (N : Nat) (po : List Ptr) (st' : State) (ev : List delete_event),
      tree_shaped st → postorder k st N = some po → po.Nodup →
      (∀ r, owner_of st N = some r → r ∉ po) → po.length < fuel →
      delete_option fuel st N = .ok st' ev → unique_names st') :=
  ⟨fun fuel tree optr path st' hf hfresh h =>
      add_opt_rec_unique fuel st st' tree optr path hf hc hu hfresh h,
   fun fuel tree name st' r h => (get_opt_rec_unique fuel st tree name st' r h hc hu).2,
   fun k fuel N tree sroot chain st' r hwf hna hchain hdot hanc hsroot hconf hfuel h =>
      get_option_shadow_unique k fuel st st' N tree sroot chain r hwf hna hchain hdot hanc
        hsroot hconf hfuel hu h,
   fun k fuel N po st' ev hs hpo hnd hown hf h =>
      delete_option_unique k fuel st st' N po ev hs hu hpo hnd hown hf h⟩

theorem C23_names_stay_unique_witness :
    closed st_terminal ∧ unique_names st_terminal ∧
    state_after (get_opt_rec 5 st_terminal 0 "terminal.linux.type".toList) = some st_linux ∧
    unique_names st_linux ∧
    (state_after (add_opt_rec (get_opt_rec 2) st_append 0 [] 3)).map
      (fun s => decide (unique_names s)) = some true ∧
    (state_after (get_option_shadow 3 st_shadow 2 0 3)).map
      (fun s => decide (unique_names s)) = some true ∧
    (state_after (delete_option 5 st_del 2)).map
      (fun s => decide (unique_names s)) = some true ∧
    ((∀ (fuel : Nat) (tree optr : Nat) (path : cstring) (st' : State), 2 ≤ fuel →
      (∀ st1 tree1 t1 o, parent_lookup fuel st_terminal tree path = .ok st1 (some tree1) →
        st1.deref tree1 = some t1 → st1.deref optr = some o →
        tree1 ≠ optr ∧ name_of st1 optr ∉ knames st1 t1 ∧
        (o.box_item ≠ none → o.name = some template_name →
          ∃ cfg b, st1.config_options = some cfg ∧
            walk st1 cfg (segments "config.show_template".toList) = some b)) →
      add_opt_rec (get_opt_rec fuel) st_terminal tree path optr = .ok st' () →
      unique_names st') ∧
    (∀ (fuel : Nat) (tree : Nat) (name : cstring) (st' : State) (r : Option Ptr),
      get_opt_rec fuel st_terminal tree name = .ok st' r → unique_names st') ∧
    (∀ (k fuel : Nat) (N tree sroot : Nat) (chain : List Ptr) (st' : State) (r : Option Ptr),
      well_formed st_terminal → st_terminal.no_autocreate = 0 →
      chain_to k st_terminal N tree = some chain →
      (∀ a ∈ chain, ∀ nm ∈ name_of st_terminal a, '.' ∉ nm) →
      (∀ a ∈ chain.tail, type_of st_terminal a = some .OPT_TREE) →
      type_of st_terminal sroot = some .OPT_TREE →
      conforms st_terminal sroot chain.reverse = true →
      chain.length < fuel →
      get_option_shadow fuel st_terminal N tree sroot = .ok st' r → unique_names st') ∧
    (∀ (k fuel : Nat) (N : Nat) (po : List Ptr) (st' : State) (ev : List delete_event),
      tree_shaped st_terminal → postorder k st_terminal N = some po → po.Nodup →
      (∀ r, owner_of st_terminal N = some r → r ∉ po) → po.length < fuel →
      delete_option fuel st_terminal N = .ok st' ev → unique_names st')) :=
  ⟨by decide, by decide, by decide, by decide, by decide, by decide, by decide,
   C23_names_stay_unique st_terminal (by decide) (by decide)⟩


end Elinks
